import Mathlib

/-!
# Dryad HDFS channel buffers: reader, record-boundary scanner, writer, URI parsing

Shallow embedding of `channelbufferhdfs.cpp`
(`RChannelBufferHdfsReader`, `RChannelBufferHdfsReaderLineRecord`,
`RChannelBufferHdfsWriter`, `ExtractHdfsReadUri`, `ExtractHdfsWriteUri`).

Conventions.
* File offsets are `Int64` in the source; they are `Int` here, with the
  source's negative sentinels (`-1`: not found, `-2`: read error) kept as is.
  No offset arithmetic of the reader comes near `2^63` for real files, so
  wrap-around is not modelled in a session: the model of a session is the
  code for ranges with `offsetStart + length + 1 < 2^63`. What the code does
  with a range whose end does not fit `Int64` is evaluated apart, with the
  wrapped sum `toInt64 (offsetStart + length)`.
* A `LogAssert` that fails aborts the process; it is the fault
  `Fault.assertion line`, `line` being the source line of the assertion.
* The `do ... while` loop of `ScanForSync` is driven by a fuel argument so
  that the definition is structurally recursive; running out of fuel is the
  fault `Fault.outOfFuel`, and the theorems show that it does not happen on
  file-backed bridges when the fuel exceeds the file length.
* A session is a transition system: the session thread moves from one control
  point to the next, the callers' functions move in between, and the trace
  records what happens in order. The critical section `m_cs` makes each access
  to shared state atomic, which is what a step is. A wait and the call that
  follows it are separate steps: in `SendBuffer(buffer, true)` the other
  threads can move between the wait of line 349 and `ProcessBuffer` of line
  363.
* C strings are lists of characters (without the terminating NUL). The integer
  conversions `DrStringToInt64` and `DrStringToInt32` are not part of the
  source at hand and are parameters of `ExtractHdfsReadUri`.
* The counter `m_queueLength` is a `UInt32`; it is a `Nat` reduced modulo
  `2^32` where the source increments it.
* The counters `m_totalLength` and `m_processedLength` are `UInt64`; they are
  `Int` values reduced modulo `2^64` (`toUInt64`) where the source assigns
  them, and `FillInStatus` reports them as a pair.
-/

namespace Dryad

/-! ## Data model -/

/-- One byte of a file (`unsigned char`). -/
abbrev Byte := Nat

/-- Line feed, `'\n'`. -/
def LF : Byte := 10

/-- Carriage return, `'\r'`. -/
def CR : Byte := 13

/-- Error codes attached to abort markers. -/
inductive DrError
  | DryadError_ChannelReadError
  | DryadError_ChannelOpenError
  | DryadError_InvalidChannelURI
  | DryadError_ChannelWriteError
  deriving DecidableEq, Repr

/-- The description carried by an abort marker: one constructor per format
string of the source, with the numbers that are substituted into it. -/
inductive Description
  /-- Format "Can't read HDFS file '%s' at offset %I64d:%d: %s". -/
  | cantRead (offset size : Int)
  /-- Format "HDFS file '%s' got EOF at offset %I64d:%d". -/
  | gotEof (offset size : Int)
  /-- Format "HDFS file '%s' got too few bytes %d at offset %I64d:%d". -/
  | tooFewBytes (bytesRead offset size : Int)
  /-- Format "Got HDFS EOF early for '%s' at offset %I64d, expecting data up to %I64d: %s". -/
  | eofEarly (startOffset endOffset : Int)
  /-- Format "Can't initialize HDFS bridge". -/
  | cantInitialize
  /-- Format "Can't parse HDFS URI '%s'". -/
  | cantParse
  /-- Format "Can't open HDFS Bridge '%s'". -/
  | cantOpenBridge
  /-- Format "Can't open HDFS file '%s': %s". -/
  | cantOpenFile
  deriving DecidableEq, Repr

/-- What the reader hands to its handler: a data buffer tagged with its stream
offset (`MakeDataBuffer`), an end-of-stream marker (`MakeEndOfStreamBuffer`) or
an abort marker with error code and description (`MakeErrorBuffer`). -/
inductive RChannelBuffer
  | data (streamOffset : Int) (bytes : List Byte)
  | endOfStream
  | abort (errorCode : DrError) (description : Description)
  deriving DecidableEq, Repr

/-- Result of `Hdfs::Reader::ReadBlock`: the source reads it as a `long`,
`< -1` for an I/O error, `-1` for a clean end of file, otherwise the number of
bytes placed in the buffer. -/
inductive ReadOutcome
  | ioError
  | eof
  | bytes (bs : List Byte)
  deriving DecidableEq, Repr

/-- The bridge's block reader, `ReadBlock(offset, buffer, length)`. It is an
external collaborator of the channel code and a parameter of the embedding. -/
abbrev Bridge := Int → Int → ReadOutcome

/-- Modelled from the spec: the bridge's `ReadBlock` contract (spec section 6)
for a bridge backed by the byte sequence `file` that may return short reads:
end of file at or past the file length, otherwise at least the bytes available
up to the requested length, cut to `chunk offset` bytes. -/
def chunkedBridge (file : List Byte) (chunk : Int → Nat) : Bridge :=
  fun offset len =>
    if offset < 0 then ReadOutcome.ioError
    else if (file.length : Int) ≤ offset then ReadOutcome.eof
    else ReadOutcome.bytes ((file.drop offset.toNat).take (min len.toNat (chunk offset)))

/-- Modelled from the spec: the bridge's `ReadBlock` contract for a bridge
backed by `file` that always returns every requested byte that exists. -/
def fileBridge (file : List Byte) : Bridge :=
  chunkedBridge file (fun _ => file.length)

/-- Why a run of the embedded code stopped without a result. -/
inductive Fault
  | assertion (line : Nat)
  | outOfFuel
  deriving DecidableEq, Repr

/-! ## `RChannelBufferHdfsReaderLineRecord::ScanForSync` -/

/-- The constant `s_lineRecordScanSize`. -/
def s_lineRecordScanSize : Int := 4 * 1024

/-- What `ScanForSync` returns: `foundOffset` and `*pErrorBuffer`. -/
structure ScanOut where
  foundOffset : Int
  errorBuffer : Option RChannelBuffer
  deriving DecidableEq, Repr

/-- The `for` loop of `ScanForSync` over the bytes of one chunk, from index `i`
on. Returns `foundOffset` (still `-1` when the loop ran to the end of the
chunk) and `foundReturn`. -/
def scanChunk (startOffset endOffset bytesRead : Int) :
    List Byte → Int → Bool → Except Fault (Int × Bool)
  | [], _, foundReturn => .ok (-1, foundReturn)
  | b :: rest, i, foundReturn =>
    if b = LF then
      let foundOffset := startOffset + i + 1
      if 0 < endOffset ∧ endOffset ≤ foundOffset then
        if foundOffset ≠ endOffset then .error (.assertion 824)
        else if startOffset + bytesRead ≠ endOffset then .error (.assertion 825)
        else .ok (-1, foundReturn)
      else .ok (foundOffset, foundReturn)
    else if foundReturn then .ok (startOffset + i, foundReturn)
    else if b = CR then scanChunk startOffset endOffset bytesRead rest (i + 1) true
    else scanChunk startOffset endOffset bytesRead rest (i + 1) foundReturn

/-- The code after the `do ... while` loop of `ScanForSync`. -/
def scanExit (startOffset endOffset : Int) (out : ScanOut) : Except Fault ScanOut :=
  if 0 < endOffset ∧ ¬ startOffset ≤ endOffset then .error (.assertion 850) else .ok out

/-- The `do ... while` loop of `ScanForSync`; one unit of fuel per chunk. -/
def scanLoop (bridge : Bridge) (endOffset : Int) :
    Nat → Int → Bool → Except Fault ScanOut
  | 0, _, _ => .error .outOfFuel
  | fuel + 1, startOffset, foundReturn =>
    let bytesToRead : Int :=
      if 0 < endOffset ∧ endOffset - startOffset < s_lineRecordScanSize
      then endOffset - startOffset else s_lineRecordScanSize
    match bridge startOffset bytesToRead with
    | .ioError =>
      scanExit startOffset endOffset
        ⟨-2, some (.abort .DryadError_ChannelReadError
                    (.cantRead startOffset s_lineRecordScanSize))⟩
    | .eof =>
      if 0 < endOffset then
        scanExit startOffset endOffset
          ⟨-2, some (.abort .DryadError_ChannelReadError
                      (.eofEarly startOffset endOffset))⟩
      else scanExit startOffset endOffset ⟨startOffset, none⟩
    | .bytes bs =>
      let bytesRead : Int := bs.length
      if ¬ 0 < bytesRead then .error (.assertion 810)
      else
        match scanChunk startOffset endOffset bytesRead bs 0 foundReturn with
        | .error f => .error f
        | .ok (foundOffset, foundReturn') =>
          let startOffset' := startOffset + bytesRead
          if foundOffset = -1 ∧ (endOffset < 0 ∨ startOffset' < endOffset) then
            scanLoop bridge endOffset fuel startOffset' foundReturn'
          else scanExit startOffset' endOffset ⟨foundOffset, none⟩

/-- The function `ScanForSync(reader, fileName, startOffset, endOffset, pErrorBuffer)`. -/
def ScanForSync (bridge : Bridge) (fuel : Nat) (startOffset endOffset : Int) :
    Except Fault ScanOut :=
  if endOffset = 0 then .error (.assertion 737)
  else scanLoop bridge endOffset fuel startOffset false

/-! ## `RChannelBufferHdfsReader` -/

/-- The constant `s_readBufferSize`. -/
def s_readBufferSize : Int := 2 * 1024 * 1024

/-- The constant `s_maxBuffersOut`: initial and maximum count of `m_blockSemaphore`. -/
def s_maxBuffersOut : Nat := 4

/-- Conversion of a signed value to `UInt64` (the type of `m_totalLength` and
`m_processedLength`). -/
def toUInt64 (x : Int) : Int := x % 2 ^ 64

/-- The function `AdjustStartOffset`. The result is the returned offset together with the
buffer the function passes to `SendBuffer(buffer, true)`, if it does. -/
def AdjustStartOffset (bridge : Bridge) (fuel : Nat) (startOffset endOffset : Int) :
    Except Fault (Int × Option RChannelBuffer) :=
  if 0 < startOffset then
    match ScanForSync bridge fuel startOffset (endOffset + 1) with
    | .error f => .error f
    | .ok out =>
      if out.foundOffset < -1 then
        match out.errorBuffer with
        | none => .error (.assertion 386)
        | some errorBuffer => .ok (out.foundOffset, some errorBuffer)
      else if out.foundOffset = -1 then
        if out.errorBuffer ≠ none then .error (.assertion 392)
        else .ok (out.foundOffset, some .endOfStream)
      else if out.errorBuffer ≠ none then .error (.assertion 400)
      else if ¬ out.foundOffset ≤ endOffset then .error (.assertion 401)
      else .ok (out.foundOffset, none)
  else if startOffset ≠ 0 then .error (.assertion 410)
  else .ok (startOffset, none)

/-- The function `AdjustEndOffset`. The result is the returned offset together with the
buffer the function passes to `SendBuffer(buffer, true)`, if it does. -/
def AdjustEndOffset (bridge : Bridge) (fuel : Nat) (endOffset : Int) :
    Except Fault (Int × Option RChannelBuffer) :=
  match ScanForSync bridge fuel endOffset (-1) with
  | .error f => .error f
  | .ok out =>
    if out.foundOffset < -1 then
      match out.errorBuffer with
      | none => .error (.assertion 429)
      | some errorBuffer => .ok (out.foundOffset, some errorBuffer)
    else if ¬ endOffset ≤ out.foundOffset then .error (.assertion 434)
    else .ok (out.foundOffset, none)

/-- What a reader session gets from outside the channel code: the outcomes of
bridge initialisation, of `ExtractHdfsReadUri` on the reader's URI (the parsed
`offsetStart` and `length`), of `OpenInstance` and `OpenReader`, the block
reader, and the fuel given to each `ScanForSync` call. -/
structure ReaderEnv where
  initialized : Bool
  parsed : Option (Int × Int)
  openedInstance : Bool
  openedReader : Bool
  bridge : Bridge
  scanFuel : Nat

/-- What the session thread does that is visible outside it. -/
inductive Event
  /-- A call of `ScanForSync`, which reads blocks through the bridge. -/
  | scan (startOffset endOffset : Int)
  /-- The `ReadBlock` call of `ReadDataBuffer`. -/
  | readBlock (offset size : Int)
  /-- The call `m_handler->ProcessBuffer(buffer)`. -/
  | processBuffer (buffer : RChannelBuffer)
  /-- The call `buffer->DecRef()` in `SendBuffer` when the abort event won the wait. -/
  | discard (buffer : RChannelBuffer)
  deriving DecidableEq, Repr

/-- Where the session thread stands in `ReadThread`. -/
inductive Pc
  /-- The thread has been created and has not run yet. -/
  | start
  /-- After `m_totalLength = length` (line 569), before `OpenInstance`. -/
  | opening
  /-- At the `while` test of line 647 and the wait of line 653. -/
  | loop
  /-- A permit has been taken; before the abort poll of line 666. -/
  | acquired
  /-- In `ReadDataBuffer`, the `ReadBlock` call in flight. -/
  | reading
  /-- In `SendBuffer(buffer, true)`, at the wait of line 349; every such call
  of `ReadThread` is followed by the thread's return. -/
  | sending (buffer : RChannelBuffer)
  /-- In `SendBuffer(buffer, true)`, the wait of line 349 having taken a permit,
  before the call of `ProcessBuffer` (line 363). -/
  | delivering (buffer : RChannelBuffer)
  /-- The function `ReadThread` has returned. -/
  | exited
  /-- The process has stopped on a failed `LogAssert` (or the model ran out of
  scan fuel). -/
  | crashed (f : Fault)
  deriving DecidableEq, Repr

/-- State of a reader after `Start`. -/
structure ReaderState where
  pc : Pc
  offsetStart : Int
  offsetEnd : Int
  offset : Int
  scannedFinal : Bool
  m_totalLength : Int
  m_processedLength : Int
  /-- Count of `m_blockSemaphore`. -/
  permits : Nat
  /-- State of the manual-reset event `m_abortHandle`. -/
  abort : Bool
  /-- Number of `ReturnBuffer` calls so far. -/
  returned : Nat
  /-- Number of permits `Drain` has taken so far. -/
  drained : Nat
  trace : List Event
  deriving DecidableEq, Repr

/-- The state `Start` leaves: counters reset, abort event not signalled, the
semaphore at the count it was created with, the thread not yet run. -/
def ReaderState.initial : ReaderState :=
  { pc := .start, offsetStart := 0, offsetEnd := 0, offset := 0, scannedFinal := false,
    m_totalLength := 0, m_processedLength := 0, permits := s_maxBuffersOut, abort := false,
    returned := 0, drained := 0, trace := [] }

/-- The buffers handed to the handler so far, in order. -/
def delivered : List Event → List RChannelBuffer
  | [] => []
  | .processBuffer b :: rest => b :: delivered rest
  | _ :: rest => delivered rest

/-- Number of buffers handed to the handler and not yet returned. -/
def ReaderState.outstanding (s : ReaderState) : Nat :=
  (delivered s.trace).length - s.returned

/-- The part of `ReadThread` up to `m_totalLength = length` (lines 534 to 570), with the
nominal end `offsetStart + length` that line 609 computes from the parsed
values. The sum is the exact one, which is what the `Int64` addition gives
when `offsetStart + length < 2^63`. -/
def stepStart (env : ReaderEnv) (s : ReaderState) : ReaderState :=
  if ¬ env.initialized then
    { s with pc := .sending (.abort .DryadError_ChannelOpenError .cantInitialize) }
  else
    match env.parsed with
    | none => { s with pc := .sending (.abort .DryadError_InvalidChannelURI .cantParse) }
    | some (offsetStart, length) =>
      { s with pc := .opening, offsetStart := offsetStart, offsetEnd := offsetStart + length,
               m_totalLength := toUInt64 length }

/-- The part of `ReadThread` between the alignment of the start offset and the
loop (lines 622 to 645), entered with the aligned `offset`. -/
def stepAlignEnd (env : ReaderEnv) (s : ReaderState) (offset : Int) : ReaderState :=
  let finish (s : ReaderState) : ReaderState :=
    if ¬ offset ≤ s.offsetEnd then { s with pc := .crashed (.assertion 641) }
    else { s with pc := .loop, offsetStart := offset,
                  m_totalLength := toUInt64 (s.offsetEnd - offset) }
  if offset = s.offsetEnd then
    let s : ReaderState := { s with trace := s.trace ++ [Event.scan s.offsetEnd (-1)] }
    match AdjustEndOffset env.bridge env.scanFuel s.offsetEnd with
    | .error f => { s with pc := .crashed f }
    | .ok (newEnd, some errorBuffer) => { s with pc := .sending errorBuffer, offsetEnd := newEnd }
    | .ok (newEnd, none) =>
      if newEnd < 0 then { s with pc := .exited, offsetEnd := newEnd }
      else finish { s with offsetEnd := newEnd, scannedFinal := true }
  else finish s

/-- The part of `ReadThread` from the call of `AdjustStartOffset` to the loop
(lines 609 to 645). -/
def stepAlignStart (env : ReaderEnv) (s : ReaderState) : ReaderState :=
  match AdjustStartOffset env.bridge env.scanFuel s.offsetStart s.offsetEnd with
  | .error f => { s with pc := .crashed f }
  | .ok (offset, some buffer) =>
    { s with pc := .sending buffer, offset := offset, scannedFinal := false }
  | .ok (offset, none) =>
    if offset < 0 then { s with pc := .exited, offset := offset, scannedFinal := false }
    else stepAlignEnd env { s with offset := offset, scannedFinal := false } offset

/-- The part of `ReadThread` from `OpenInstance` to the loop (lines 572 to 645); the scan
of `AdjustStartOffset`, made when the nominal start is positive, is recorded
in the trace. -/
def stepOpening (env : ReaderEnv) (s : ReaderState) : ReaderState :=
  if ¬ env.openedInstance then
    { s with pc := .sending (.abort .DryadError_ChannelOpenError .cantOpenBridge) }
  else if ¬ env.openedReader then
    { s with pc := .sending (.abort .DryadError_ChannelOpenError .cantOpenFile) }
  else
    stepAlignStart env
      (if 0 < s.offsetStart
        then { s with trace := s.trace ++ [Event.scan s.offsetStart (s.offsetEnd + 1)] }
        else s)

/-- The `while` test of line 647 and the wait of line 653; `none` when the
thread is blocked (no abort, no permit). -/
def stepLoop (s : ReaderState) : Option ReaderState :=
  if 0 ≤ s.offset ∧ s.offset < s.offsetEnd then
    if s.abort then some { s with pc := .exited, offset := -1 }
    else if 0 < s.permits then some { s with pc := .acquired, permits := s.permits - 1 }
    else none
  else if 0 ≤ s.offset then some { s with pc := .sending .endOfStream }
  else some { s with pc := .exited }

/-- The abort poll of lines 666 to 680. -/
def stepAcquired (s : ReaderState) : ReaderState :=
  if s.abort then
    if s.permits < s_maxBuffersOut then
      { s with pc := .exited, permits := s.permits + 1, offset := -1 }
    else { s with pc := .crashed (.assertion 671) }
  else { s with pc := .reading }

/-- The function `ReadDataBuffer`: the returned offset and the events of the call (the
block read and the buffer handed to the handler by `SendBuffer(buffer, false)`). -/
def ReadDataBuffer (bridge : Bridge) (offset endOffset : Int) :
    Except Fault (Int × List Event) :=
  let sizeToRead : Int :=
    if endOffset - offset < s_readBufferSize then endOffset - offset else s_readBufferSize
  if ¬ 0 < sizeToRead then .error (.assertion 456)
  else
    let read := Event.readBlock offset sizeToRead
    match bridge offset sizeToRead with
    | .ioError =>
      .ok (-1, [read, .processBuffer (.abort .DryadError_ChannelReadError
                                       (.cantRead offset sizeToRead))])
    | .eof =>
      .ok (-1, [read, .processBuffer (.abort .DryadError_ChannelReadError
                                       (.gotEof offset sizeToRead))])
    | .bytes bs =>
      if (bs.length : Int) ≠ sizeToRead then
        .ok (-1, [read, .processBuffer (.abort .DryadError_ChannelReadError
                                         (.tooFewBytes bs.length offset sizeToRead))])
      else .ok (offset + bs.length, [read, .processBuffer (.data offset bs)])

/-- The loop body from `ReadDataBuffer` on (lines 682 to 705). -/
def stepReading (env : ReaderEnv) (s : ReaderState) : ReaderState :=
  match ReadDataBuffer env.bridge s.offset s.offsetEnd with
  | .error f => { s with pc := .crashed f }
  | .ok (offset, events) =>
    let processed : Int :=
      if 0 ≤ offset then toUInt64 (offset - s.offsetStart) else s.m_processedLength
    let s : ReaderState :=
      { s with offset := offset, trace := s.trace ++ events, m_processedLength := processed }
    if offset = s.offsetEnd ∧ ¬ s.scannedFinal then
      let s : ReaderState := { s with trace := s.trace ++ [Event.scan s.offsetEnd (-1)] }
      match AdjustEndOffset env.bridge env.scanFuel s.offsetEnd with
      | .error f => { s with pc := .crashed f }
      | .ok (newEnd, some errorBuffer) =>
        { s with pc := .sending errorBuffer, offsetEnd := newEnd }
      | .ok (newEnd, none) =>
        if newEnd < 0 then { s with pc := .exited, offsetEnd := newEnd }
        else { s with pc := .loop, offsetEnd := newEnd, scannedFinal := true }
    else { s with pc := .loop }

/-- The wait of `SendBuffer(buffer, true)` (lines 349 to 361); `none` when the thread
is blocked. The abort event is first in the handle array, so it wins when both
are signalled: the buffer is discarded and `ReadThread` returns. Otherwise a
permit is taken, and the buffer is yet to be handed over. -/
def stepSending (s : ReaderState) (buffer : RChannelBuffer) : Option ReaderState :=
  if s.abort then some { s with pc := .exited, trace := s.trace ++ [.discard buffer] }
  else if 0 < s.permits then some { s with pc := .delivering buffer, permits := s.permits - 1 }
  else none

/-- The call `m_handler->ProcessBuffer(buffer)` that ends `SendBuffer(buffer, true)` (line
363), followed by the return of `ReadThread`. The abort event is not looked at
again. -/
def stepDelivering (s : ReaderState) (buffer : RChannelBuffer) : ReaderState :=
  { s with pc := .exited, trace := s.trace ++ [.processBuffer buffer] }

/-- One step of the session thread; `none` when it is blocked or has stopped. -/
def threadStep (env : ReaderEnv) (s : ReaderState) : Option ReaderState :=
  match s.pc with
  | .start => some (stepStart env s)
  | .opening => some (stepOpening env s)
  | .loop => stepLoop s
  | .acquired => some (stepAcquired s)
  | .reading => some (stepReading env s)
  | .sending buffer => stepSending s buffer
  | .delivering buffer => some (stepDelivering s buffer)
  | .exited => none
  | .crashed _ => none

/-- The function `ReturnBuffer`, called by the handler for a buffer it was handed; `none`
when no delivered buffer is outstanding or the process has stopped. -/
def ReturnBuffer (s : ReaderState) : Option ReaderState :=
  match s.pc with
  | .crashed _ => none
  | _ =>
    if s.returned < (delivered s.trace).length then
      if s.permits < s_maxBuffersOut then
        some { s with permits := s.permits + 1, returned := s.returned + 1 }
      else some { s with pc := .crashed (.assertion 257) }
    else none

/-- The first half of `Interrupt`: the abort event is set. -/
def Interrupt (s : ReaderState) : Option ReaderState :=
  match s.pc with
  | .crashed _ => none
  | _ => some { s with abort := true }

/-- One iteration of the loop of `Drain`, which runs after `Interrupt` has
seen the thread exit: a permit is taken from the semaphore. -/
def drainWait (s : ReaderState) : Option ReaderState :=
  if s.pc = .exited ∧ s.abort ∧ s.drained < s_maxBuffersOut ∧ 0 < s.permits then
    some { s with permits := s.permits - 1, drained := s.drained + 1 }
  else none

/-- Who moves next. -/
inductive Action
  | thread
  | returnBuffer
  | interrupt
  | drainWait
  deriving DecidableEq, Repr

/-- One move; a move that is not enabled leaves the state as it is. -/
def step (env : ReaderEnv) (s : ReaderState) (a : Action) : ReaderState :=
  match a with
  | .thread => (threadStep env s).getD s
  | .returnBuffer => (ReturnBuffer s).getD s
  | .interrupt => (Interrupt s).getD s
  | .drainWait => (drainWait s).getD s

/-- The state a schedule of moves leads to. -/
def run (env : ReaderEnv) (s : ReaderState) (schedule : List Action) : ReaderState :=
  schedule.foldl (step env) s

/-- Modelled from the spec: the environment of a reader of `file` whose URI
parses to `offsetStart` and `length`, with every open succeeding and the bridge
returning every requested byte that exists. -/
def fileEnv (file : List Byte) (offsetStart length : Int) (scanFuel : Nat) : ReaderEnv :=
  { initialized := true, parsed := some (offsetStart, length), openedInstance := true,
    openedReader := true, bridge := fileBridge file, scanFuel := scanFuel }

/-- The bytes of the data buffers among `buffers`, concatenated. -/
def dataBytes : List RChannelBuffer → List Byte
  | [] => []
  | .data _ bytes :: rest => bytes ++ dataBytes rest
  | _ :: rest => dataBytes rest

/-- The three records of the spec's example, at `[0,10)`, `[10,25)`, `[25,40)`. -/
def exampleFile : List Byte :=
  List.replicate 9 97 ++ [LF] ++ List.replicate 14 98 ++ [LF] ++ List.replicate 14 99 ++ [LF]

/-! ## Reference scan, record starts and invariants -/

/-- A single pass over `bs`, whose first byte sits at offset `pos`, with the
carriage-return flag `foundReturn`: the offset at which the pass stops, if it
stops, and the flag at the end. -/
def scanBytes : List Byte → Nat → Bool → Option Nat × Bool
  | [], _, foundReturn => (none, foundReturn)
  | b :: rest, pos, foundReturn =>
    if b = LF then (some (pos + 1), foundReturn)
    else if foundReturn then (some pos, foundReturn)
    else scanBytes rest (pos + 1) (decide (b = CR))

/-- The first offset a scan of `file` from `startOffset` stops at. -/
def nextRecordStart (file : List Byte) (startOffset : Nat) : Option Nat :=
  (scanBytes (file.drop startOffset) startOffset false).1

/-- Offset `p` is the first byte after a line delimiter: byte `p - 1` is a line
feed, or it is a carriage return and byte `p` exists and is not a line feed. -/
def isRecordStart (file : List Byte) (p : Nat) : Prop :=
  0 < p ∧ (file[p - 1]? = some LF ∨
    (file[p - 1]? = some CR ∧ ∃ b, file[p]? = some b ∧ b ≠ LF))

/-- What a scan of a file of length `fileLength` returns, from what the single
pass from its start offset `p` found. -/
def scanSpec (fileLength : Nat) (endOffset : Int) (p : Nat) (found : Option Nat) : ScanOut :=
  match found with
  | some o => if 0 < endOffset ∧ endOffset ≤ (o : Int) then ⟨-1, none⟩ else ⟨o, none⟩
  | none =>
    if 0 < endOffset then
      if endOffset ≤ (fileLength : Int) then ⟨-1, none⟩
      else ⟨-2, some (.abort .DryadError_ChannelReadError
                        (.eofEarly (max p fileLength : Nat) endOffset))⟩
    else ⟨(max p fileLength : Nat), none⟩

/-- The invariant of a single pass that started at `s` and has reached `pos`. -/
def PassInv (file : List Byte) (s pos : Nat) (fr : Bool) : Prop :=
  s ≤ pos ∧ (∀ p, s < p → p < pos → ¬ isRecordStart file p) ∧
  (s < pos → file[pos - 1]? ≠ some LF) ∧
  (fr = true ↔ (s < pos ∧ file[pos - 1]? = some CR))

/-- A bridge that never returns more bytes than it was asked for. -/
def WellFormed (bridge : Bridge) : Prop :=
  ∀ offset len bs, bridge offset len = .bytes bs → bs.length ≤ len.toNat

/-- Permits the session thread holds: taken at the wait of line 653 or at the
wait of `SendBuffer` (line 349) and not yet passed to the handler with a buffer
or given back. -/
def ReaderState.held (s : ReaderState) : Nat :=
  match s.pc with
  | .acquired => 1
  | .reading => 1
  | .delivering _ => 1
  | _ => 0

/-- Permit accounting: every permit of the semaphore is free, out with a
delivered buffer, held by the session thread, or taken by `Drain`. -/
def PermitInv (s : ReaderState) : Prop :=
  s.returned ≤ (delivered s.trace).length ∧
  s.permits + s.outstanding + s.drained ≤ s_maxBuffersOut ∧
  ((∃ f, s.pc = .crashed f) ∨
    s.permits + s.outstanding + s.held + s.drained = s_maxBuffersOut)

/-- The states of a session whose start alignment finds no record start in the
range: nominal start `os`, nominal length `len`. -/
def NoRecordInv (os len : Int) (s : ReaderState) : Prop :=
  (s.pc = .start ∧ s.trace = [] ∧ s.permits = s_maxBuffersOut) ∨
  (s.pc = .opening ∧ s.trace = [] ∧ s.permits = s_maxBuffersOut ∧
    s.offsetStart = os ∧ s.offsetEnd = os + len) ∨
  (s.pc = .sending .endOfStream ∧ s.trace = [.scan os (os + len + 1)] ∧
    s.permits = s_maxBuffersOut) ∨
  (s.pc = .exited ∧
    (s.trace = [.scan os (os + len + 1), .processBuffer .endOfStream] ∨
     (s.trace = [.scan os (os + len + 1), .discard .endOfStream] ∧ s.abort = true))) ∨
  (s.pc = .delivering .endOfStream ∧ s.trace = [.scan os (os + len + 1)] ∧
    s.permits + 1 = s_maxBuffersOut)

/-- The buffers `blocks` are data buffers read through `bridge`, each of 1 to
`s_readBufferSize` bytes, at contiguous stream offsets from `a` up to `b`. -/
def Chain (bridge : Bridge) : List RChannelBuffer → Int → Int → Prop
  | [], a, b => a = b
  | .data streamOffset bytes :: rest, a, b =>
    streamOffset = a ∧ 1 ≤ bytes.length ∧ (bytes.length : Int) ≤ s_readBufferSize ∧
      bridge streamOffset bytes.length = .bytes bytes ∧
      Chain bridge rest (a + bytes.length) b
  | _ :: _, _, _ => False

/-- The offsets of the state are the aligned ones: `offsetStart` is what
`AdjustStartOffset` returned for the nominal range of the URI, and `offsetEnd`
is what `AdjustEndOffset` returned for the nominal end once `scannedFinal` is
set, the nominal end before. -/
def Aligned (env : ReaderEnv) (s : ReaderState) : Prop :=
  ∃ os len, env.parsed = some (os, len) ∧
    AdjustStartOffset env.bridge env.scanFuel os (os + len) = .ok (s.offsetStart, none) ∧
    0 ≤ s.offsetStart ∧
    (if s.scannedFinal then
      AdjustEndOffset env.bridge env.scanFuel (os + len) = .ok (s.offsetEnd, none)
     else s.offsetEnd = os + len)

/-- The start alignment of the session found no record start in the range. -/
def NoRecordInRange (env : ReaderEnv) : Prop :=
  ∃ os len, env.parsed = some (os, len) ∧
    AdjustStartOffset env.bridge env.scanFuel os (os + len) = .ok (-1, some .endOfStream)

/-- What holds of a session that has ended: it delivered the data of the
aligned range followed by `EndOfStream`; or `EndOfStream` alone, for a range
without record start; or it delivered an abort marker; or the abort signal is
set. -/
def Ended (env : ReaderEnv) (s : ReaderState) : Prop :=
  (∃ blocks, delivered s.trace = blocks ++ [.endOfStream] ∧ Aligned env s ∧
      s.scannedFinal = true ∧ Chain env.bridge blocks s.offsetStart s.offsetEnd) ∨
  (delivered s.trace = [.endOfStream] ∧ NoRecordInRange env) ∨
  (∃ c d, RChannelBuffer.abort c d ∈ delivered s.trace) ∨
  s.abort = true

/-- The invariant of a reader session, by control point. -/
def SessInv (env : ReaderEnv) (s : ReaderState) : Prop :=
  (s.pc = .start ∧ s.trace = []) ∨
  (s.pc = .opening ∧ delivered s.trace = [] ∧
    env.parsed = some (s.offsetStart, s.offsetEnd - s.offsetStart)) ∨
  ((s.pc = .loop ∨ s.pc = .acquired ∨ s.pc = .reading) ∧ Aligned env s ∧ 0 ≤ s.offset ∧
    s.offset ≤ s.offsetEnd ∧ Chain env.bridge (delivered s.trace) s.offsetStart s.offset ∧
    (s.offset = s.offsetEnd → s.pc = .loop ∧ s.scannedFinal = true)) ∨
  (s.pc = .loop ∧ s.offset = -1 ∧ ∃ c d, RChannelBuffer.abort c d ∈ delivered s.trace) ∨
  ((s.pc = .sending .endOfStream ∨ s.pc = .delivering .endOfStream) ∧ Aligned env s ∧
    s.scannedFinal = true ∧ Chain env.bridge (delivered s.trace) s.offsetStart s.offsetEnd) ∨
  ((s.pc = .sending .endOfStream ∨ s.pc = .delivering .endOfStream) ∧
    delivered s.trace = [] ∧ NoRecordInRange env) ∨
  (∃ c d, s.pc = .sending (.abort c d) ∨ s.pc = .delivering (.abort c d)) ∨
  (s.pc = .exited ∧ Ended env s) ∨
  (∃ f, s.pc = .crashed f)

/-- The states of a session after a data read has failed, `trace` being the
trace at that point: the thread is back at the loop test with `offset = -1`, or
has exited. -/
def AfterFailedRead (trace : List Event) (s : ReaderState) : Prop :=
  s.trace = trace ∧ ((s.pc = .loop ∧ s.offset = -1) ∨ s.pc = .exited)

/-- The function `Drain` takes permits only after the session thread has exited. -/
def DrainInv (s : ReaderState) : Prop :=
  s.drained = 0 ∨ s.pc = .exited ∨ ∃ f, s.pc = .crashed f

/-- The end of the aligned range as seen from state `s`: `offsetEnd` once it
has been aligned, before that what `AdjustEndOffset` will return for it. -/
def alignedEndOf (env : ReaderEnv) (s : ReaderState) : Int :=
  if s.scannedFinal then s.offsetEnd
  else match AdjustEndOffset env.bridge env.scanFuel s.offsetEnd with
    | .ok (e, none) => e
    | _ => s.offsetEnd

/-- A bound on the number of thread steps left in the read loop. -/
def stepsLeft (env : ReaderEnv) (s : ReaderState) : Nat :=
  3 * (alignedEndOf env s - s.offset).toNat +
    (match s.pc with
     | .loop => 2
     | .acquired => 1
     | _ => 0)

/-- The schedule in which, `n` times over, the handler returns a buffer (if
one is outstanding) and the session thread takes a step. -/
def drive : Nat → List Action
  | 0 => []
  | n + 1 => Action.returnBuffer :: Action.thread :: drive n

/-- The session has stopped: the thread has returned, or the process has
stopped on a failed assertion. -/
def Stopped (s : ReaderState) : Prop :=
  s.pc = .exited ∨ ∃ f, s.pc = .crashed f

/-- The invariants of a session that has not been interrupted. -/
def Good (env : ReaderEnv) (s : ReaderState) : Prop :=
  PermitInv s ∧ DrainInv s ∧ SessInv env s ∧ s.abort = false

/-- The reader of the example file with range `[5,30)`. -/
def exampleEnv : ReaderEnv := fileEnv exampleFile 5 25 50

/-- The state in which the session of `exampleEnv` ends when left alone. -/
def exampleFinal : ReaderState := run exampleEnv ReaderState.initial (drive 12)

/-- A reader of the example file whose range `[0,50)` runs past the end of the
40-byte file. -/
def shortFileEnv : ReaderEnv := fileEnv exampleFile 0 50 50

/-- The reader of `shortFileEnv` with its first data read in flight. -/
def shortFileReading : ReaderState :=
  run shortFileEnv ReaderState.initial [.thread, .thread, .thread, .thread]

/-- The first record start after offset `x` in `file`, the file length when
there is none: where every reader puts the boundary that belongs to `x`. -/
def alignedEnd (file : List Byte) (x : Nat) : Nat :=
  (nextRecordStart file x).getD file.length

/-- Where the reader with nominal start `x` starts: offset 0 for the first
split, the boundary that belongs to `x` otherwise. -/
def alignedStart (file : List Byte) (x : Nat) : Nat :=
  if x = 0 then 0 else alignedEnd file x

/-- The aligned range of the reader with nominal range `[os, e)` is empty. -/
def EmptyRange (file : List Byte) (os e : Nat) : Prop :=
  alignedEnd file e ≤ alignedStart file os

/-- The invariant of a session on a file with a nominal range inside the file:
no assertion fails, no data read fails, and an abort marker is sent only by the
start alignment of a range without record start that ends with the file. -/
def FileInv (file : List Byte) (os len : Nat) (s : ReaderState) : Prop :=
  (¬ ∃ f, s.pc = .crashed f) ∧
  (s.pc = .loop → 0 ≤ s.offset) ∧
  (∀ c d, s.pc = .sending (.abort c d) ∨ s.pc = .delivering (.abort c d) →
    delivered s.trace = [] ∧ EmptyRange file os (os + len)) ∧
  ((∃ c d, RChannelBuffer.abort c d ∈ delivered s.trace) →
    dataBytes (delivered s.trace) = [] ∧ EmptyRange file os (os + len))

/-- The data bytes the reader of `file` with nominal range `[os, os + len)`
has delivered after `schedule`. -/
def readerData (file : List Byte) (fuel os len : Nat) (schedule : List Action) : List Byte :=
  dataBytes (delivered (run (fileEnv file os len fuel) ReaderState.initial schedule).trace)

/-- The schedule takes the reader of `[os, os + len)` to the end of its
session without the abort signal being set. -/
def Complete (file : List Byte) (fuel os len : Nat) (schedule : List Action) : Prop :=
  (run (fileEnv file os len fuel) ReaderState.initial schedule).pc = .exited ∧
  (run (fileEnv file os len fuel) ReaderState.initial schedule).abort = false

/-- The C function `strchr`: the index of the first occurrence of `c` in `s`. -/
def strchr : List Char → Char → Option Nat
  | [], _ => none
  | x :: rest, c => if x = c then some 0 else (strchr rest c).map (· + 1)

/-- The C function `strstr`: the index of the first occurrence of `pat` in `s`. -/
def strstr : List Char → List Char → Option Nat
  | [], pat => if pat = [] then some 0 else none
  | x :: rest, pat =>
    if pat.isPrefixOf (x :: rest) then some 0 else (strstr rest pat).map (· + 1)

/-- The constant `RChannelBufferHdfsReader::s_hdfsPartitionPrefix`, "hdfspt://". -/
def s_hdfsPartitionPrefix : List Char := ['h', 'd', 'f', 's', 'p', 't', ':', '/', '/']

/-- The constant `RChannelBufferHdfsReader::s_wasbPartitionPrefix`, "wasbpt://". -/
def s_wasbPartitionPrefix : List Char := ['w', 'a', 's', 'b', 'p', 't', ':', '/', '/']

/-- The constant `RChannelBufferHdfsWriter::s_hdfsFilePrefix`, "hdfs://". -/
def s_hdfsFilePrefix : List Char := ['h', 'd', 'f', 's', ':', '/', '/']

/-- The constant `RChannelBufferHdfsWriter::s_wasbFilePrefix`, "wasb://". -/
def s_wasbFilePrefix : List Char := ['w', 'a', 's', 'b', ':', '/', '/']

/-- The local constant `offsetString` of `ExtractHdfsReadUri`, "?offset=". -/
def offsetString : List Char := ['?', 'o', 'f', 'f', 's', 'e', 't', '=']

/-- The local constant `lengthString` of `ExtractHdfsReadUri`, "&length=". -/
def lengthString : List Char := ['&', 'l', 'e', 'n', 'g', 't', 'h', '=']

/-- What `ExtractHdfsReadUri` stores through its output parameters when it
returns `true`. -/
structure ReadUri where
  schemeAndAuthority : List Char
  filePath : List Char
  offsetStart : Int
  length : Int
  deriving DecidableEq, Repr

/-- The part of `ExtractHdfsReadUri` after the scheme has been recognised:
`cScheme` is the scheme of the file system and `cAuthority` the text after the
partition prefix. `DrStringToInt64` and `DrStringToInt32`, which are not part
of the source at hand, are the parameters `toInt64` and `toInt32`; they return
`none` for a result other than `DrError_OK`. -/
def extractAfterScheme (toInt64 toInt32 : List Char → Option Int)
    (cScheme cAuthority : List Char) : Option ReadUri :=
  match strchr cAuthority '/' with
  | none => none
  | some slash =>
    let cPath := cAuthority.drop (slash + 1)
    match strstr cPath offsetString with
    | none => none
    | some offset =>
      let cOffset := cPath.drop (offset + offsetString.length)
      match strstr cOffset lengthString with
      | none => none
      | some length =>
        let cLength := cOffset.drop (length + lengthString.length)
        let schemeAndAuthority := cScheme ++ cAuthority.take slash
        let filePath := schemeAndAuthority ++ ['/'] ++ cPath.take offset
        match toInt64 (cOffset.take length) with
        | none => none
        | some offsetStart =>
          match toInt32 cLength with
          | none => none
          | some len => some ⟨schemeAndAuthority, filePath, offsetStart, len⟩

/-- The function `ExtractHdfsReadUri(uri, schemeAndAuthority, filePath, pOffsetStart, pLength)`;
`none` when it returns `false`. `DrStr64::StartsWith` tests for a prefix. -/
def ExtractHdfsReadUri (toInt64 toInt32 : List Char → Option Int) (uri : List Char) :
    Option ReadUri :=
  if s_hdfsPartitionPrefix.isPrefixOf uri then
    extractAfterScheme toInt64 toInt32 s_hdfsFilePrefix (uri.drop s_hdfsPartitionPrefix.length)
  else if s_wasbPartitionPrefix.isPrefixOf uri then
    extractAfterScheme toInt64 toInt32 s_wasbFilePrefix (uri.drop s_wasbPartitionPrefix.length)
  else none

/-- The function `ExtractHdfsWriteUri(uri, schemeAndAuthority, filePath)`; `none` when it
returns `false`. -/
def ExtractHdfsWriteUri (uri : List Char) : Option (List Char × List Char) :=
  let split (cScheme cAuthority : List Char) : Option (List Char × List Char) :=
    match strchr cAuthority '/' with
    | none => none
    | some slash =>
      let schemeAndAuthority := cScheme ++ cAuthority.take slash
      some (schemeAndAuthority, schemeAndAuthority ++ ['/'] ++ cAuthority.drop (slash + 1))
  if s_hdfsFilePrefix.isPrefixOf uri then
    split s_hdfsFilePrefix (uri.drop s_hdfsFilePrefix.length)
  else if s_wasbFilePrefix.isPrefixOf uri then
    split s_wasbFilePrefix (uri.drop s_wasbFilePrefix.length)
  else none

/-- Modelled from the spec: the integer conversions `DrStringToInt64` and
`DrStringToInt32`, which are not part of the source at hand, for "valid
integer values" written in decimal: an optional minus sign and one or more
digits, the value lying in the range of a signed integer of `bits` bits. -/
def decimalInt (bits : Nat) (text : List Char) : Option Int :=
  let digits (ds : List Char) : Option Nat :=
    if ds = [] ∨ ¬ ds.all Char.isDigit then none
    else some (ds.foldl (fun acc d => 10 * acc + (d.toNat - 48)) 0)
  let value : Option Int :=
    match text with
    | '-' :: ds => (digits ds).map (fun v => - (v : Int))
    | ds => (digits ds).map (fun v => (v : Int))
  match value with
  | none => none
  | some v => if - 2 ^ (bits - 1) ≤ v ∧ v < 2 ^ (bits - 1) then some v else none

/-! ## `RChannelBufferHdfsWriter` -/

/-- The constant `s_maxBuffersToBlockWriter`. -/
def s_maxBuffersToBlockWriter : Nat := 4

/-- Conversion to `UInt32` (the type of `m_queueLength`). -/
def toUInt32 (x : Nat) : Nat := x % 2 ^ 32

/-- The enumeration `RChannelItemType`, with the values the source names. -/
inductive RChannelItemType
  | RChannelItem_Data
  | RChannelItem_EndOfStream
  | RChannelItem_Abort
  deriving DecidableEq, Repr

/-- The description carried by a writer's error item: one constructor per
format string of the source. -/
inductive WriteDescription
  /-- Format "Can't initialize HDFS bridge". -/
  | cantInitialize
  /-- Format "Can't parse HDFS URI '%s'". -/
  | cantParse
  /-- Format "Can't open HDFS Bridge '%s'". -/
  | cantOpenBridge
  /-- Format "Can't open HDFS file '%s': %s". -/
  | cantOpenFile
  /-- Format "Can't set HDFS file permissions '%s': %s". -/
  | cantSetPermissions
  /-- Format "Got HDFS error on write: %s". -/
  | errorOnWrite
  /-- Format "Got HDFS error on close: %s". -/
  | errorOnClose
  deriving DecidableEq, Repr

/-- An `RChannelItem` as the writer makes them: a marker of some type, with
the error code and description its metadata carries, if any. -/
structure RChannelItem where
  type : RChannelItemType
  error : Option (DrError × WriteDescription)
  deriving DecidableEq, Repr

/-- The function `MakeErrorItem(errorCode, description)`. -/
def MakeErrorItem (errorCode : DrError) (description : WriteDescription) : RChannelItem :=
  { type := .RChannelItem_Abort, error := some (errorCode, description) }

/-- The call `RChannelMarkerItem::Create(type, false)`: a marker of the given type
without error metadata. -/
def RChannelMarkerItem.Create (type : RChannelItemType) : RChannelItem :=
  { type := type, error := none }

/-- A `WriteEntry`; `m_buffer` is `none` for the null reference and `m_handler`
identifies the handler to notify. -/
structure WriteEntry where
  m_buffer : Option (List Byte)
  m_flush : Bool
  m_type : RChannelItemType
  m_handler : Nat
  deriving DecidableEq, Repr

/-- What happens in a writer session, in order. -/
inductive WriterEvent
  /-- The function `AddToQueue` has put the entry at the tail of `m_queue`. -/
  | enqueue (entry : WriteEntry)
  /-- The bridge call `WriteBlock(data, length, flush)` and what it returned. -/
  | writeBlock (data : List Byte) (flush : Bool) (ret : Bool)
  /-- The bridge call `Close()` and what it returned. -/
  | close (ret : Bool)
  /-- An assignment of an item to `m_completionItem`. -/
  | cached (item : RChannelItem)
  /-- The call `entry->m_handler->ProcessWriteCompleted(status)`. -/
  | processWriteCompleted (entry : WriteEntry) (status : RChannelItemType)
  /-- The function `Drain` has handed the completion item back. -/
  | drained (item : RChannelItem)
  deriving DecidableEq, Repr

/-- What a writer session gets from outside the channel code: the URI, the
outcomes of bridge initialisation, `OpenInstance`, `OpenCreate` and
`SetOwnerAndPermission`, and the outcomes of the bridge's `WriteBlock` and
`Close`, which may depend on everything that happened before. -/
structure WriterEnv where
  initialized : Bool
  uri : List Char
  openedInstance : Bool
  openedWriter : Bool
  setPermissions : Bool
  writeBlock : List WriterEvent → List Byte → Bool → Bool
  close : List WriterEvent → Bool

/-- Where the session thread stands in `WriteThread`. -/
inductive WriterPc
  /-- The thread has been created and has not run yet. -/
  | start
  /-- At the wait of line 1103. -/
  | waiting
  /-- At the top of the inner loop (line 1120) with `entry` in hand. -/
  | entry (entry : WriteEntry)
  /-- At line 1211 with `status == RChannelItem_Data`, the entry deleted. -/
  | next
  /-- The function `WriteThread` has returned. -/
  | exited
  /-- The process has stopped on a failed `LogAssert`. -/
  | crashed (f : Fault)
  deriving DecidableEq, Repr

/-- State of a writer after `Start`. -/
structure WriterState where
  pc : WriterPc
  m_queue : List WriteEntry
  m_queueLength : Nat
  /-- State of the manual-reset event `m_queueHandle`. -/
  signalled : Bool
  m_completionItem : Option RChannelItem
  m_processedLength : Int
  /-- The local `opened` of `WriteThread`; `writer` is not null exactly when it is set. -/
  opened : Bool
  /-- The handles `m_queueHandle` and `m_writeThread` are valid (`Close` has not run). -/
  handles : Bool
  trace : List WriterEvent
  deriving DecidableEq, Repr

/-- The state `Start` leaves: the queue empty, the event not signalled, no
completion item, the thread not yet run. -/
def WriterState.initial : WriterState :=
  { pc := .start, m_queue := [], m_queueLength := 0, signalled := false,
    m_completionItem := none, m_processedLength := 0, opened := false, handles := true,
    trace := [] }

/-- An assignment to `m_completionItem`. -/
def WriterState.cache (s : WriterState) (item : RChannelItem) : WriterState :=
  { s with m_completionItem := some item, trace := s.trace ++ [.cached item] }

/-- The function `Open`: what it returns, and the state with the completion item it
caches when it fails. -/
def Writer.Open (env : WriterEnv) (s : WriterState) : Bool × WriterState :=
  if ¬ env.initialized then
    (false, s.cache (MakeErrorItem .DryadError_ChannelOpenError .cantInitialize))
  else
    match ExtractHdfsWriteUri env.uri with
    | none => (false, s.cache (MakeErrorItem .DryadError_InvalidChannelURI .cantParse))
    | some _ =>
      if ¬ env.openedInstance then
        (false, s.cache (MakeErrorItem .DryadError_ChannelOpenError .cantOpenBridge))
      else if ¬ env.openedWriter then
        (false, s.cache (MakeErrorItem .DryadError_ChannelOpenError .cantOpenFile))
      else if ¬ env.setPermissions then
        (false, s.cache (MakeErrorItem .DryadError_ChannelOpenError .cantSetPermissions))
      else (true, s)

/-- The start of `WriteThread`: the call of `Open` (line 1099). -/
def Writer.stepStart (env : WriterEnv) (s : WriterState) : WriterState :=
  let r := Writer.Open env s
  { r.2 with pc := .waiting, opened := r.1 }

/-- The wait of line 1103 and the removal of the head of the queue (lines
1106 to 1116); `none` when the thread is blocked. A wait on a handle that
`Close` has closed is taken to fail. -/
def Writer.stepWait (s : WriterState) : Option WriterState :=
  if ¬ s.handles then some { s with pc := .crashed (.assertion 1104) }
  else if ¬ s.signalled then none
  else
    match s.m_queue with
    | [] => some { s with pc := .crashed (.assertion 1113) }
    | entry :: rest =>
      if ¬ 0 < s.m_queueLength then some { s with pc := .crashed (.assertion 1114) }
      else some { s with pc := .entry entry, m_queue := rest,
                         m_queueLength := s.m_queueLength - 1 }

/-- Lines 1196 to 1209: the status is computed and the handler of the entry
is notified. With a status other than `RChannelItem_Data` no further entry is
taken, the inner loop ends, and so does the outer one, the completion item
being set: the thread returns. -/
def Writer.notify (s : WriterState) (entry : WriteEntry) : WriterState :=
  match s.m_completionItem with
  | none =>
    { s with pc := .next,
             trace := s.trace ++ [.processWriteCompleted entry .RChannelItem_Data] }
  | some item =>
    if item.type = .RChannelItem_Data then { s with pc := .crashed (.assertion 1204) }
    else { s with pc := .exited,
                  trace := s.trace ++ [.processWriteCompleted entry item.type] }

/-- The body of the inner loop for `entry` up to the notification of its
handler (lines 1120 to 1209). The buffer of a data entry is the list of its
available bytes, which lies within the buffer's capacity (the assertion of
line 1141) and is passed whole to `WriteBlock`. -/
def Writer.stepEntry (env : WriterEnv) (s : WriterState) (entry : WriteEntry) : WriterState :=
  match s.m_completionItem with
  | some item =>
    if item.type = .RChannelItem_EndOfStream then { s with pc := .crashed (.assertion 1124) }
    else Writer.notify s entry
  | none =>
    if entry.m_type = .RChannelItem_Data then
      match entry.m_buffer with
      | none => { s with pc := .crashed (.assertion 1132) }
      | some data =>
        if ¬ s.opened then { s with pc := .crashed (.assertion 1134) }
        else
          let ret := env.writeBlock s.trace data entry.m_flush
          let s : WriterState :=
            { s with trace := s.trace ++ [WriterEvent.writeBlock data entry.m_flush ret] }
          if ret then
            Writer.notify
              { s with m_processedLength := toUInt64 (s.m_processedLength + data.length) } entry
          else
            Writer.notify
              (s.cache (MakeErrorItem .DryadError_ChannelWriteError .errorOnWrite)) entry
    else if entry.m_buffer ≠ none then { s with pc := .crashed (.assertion 1168) }
    else if ¬ s.opened then { s with pc := .crashed (.assertion 1172) }
    else
      let ret := env.close s.trace
      let s : WriterState := { s with trace := s.trace ++ [WriterEvent.close ret] }
      if ¬ ret then
        Writer.notify (s.cache (MakeErrorItem .DryadError_ChannelWriteError .errorOnClose)) entry
      else Writer.notify (s.cache (RChannelMarkerItem.Create entry.m_type)) entry

/-- Lines 1211 to 1233 with `status == RChannelItem_Data`: the next entry is taken from
the queue, or the event is reset and the thread goes back to the wait, the
completion item being null. -/
def Writer.stepNext (s : WriterState) : WriterState :=
  match s.m_queue with
  | [] =>
    if s.m_queueLength ≠ 0 then { s with pc := .crashed (.assertion 1222) }
    else if ¬ s.handles then { s with pc := .crashed (.assertion 1224) }
    else { s with pc := .waiting, signalled := false }
  | entry :: rest =>
    if ¬ 0 < s.m_queueLength then { s with pc := .crashed (.assertion 1228) }
    else { s with pc := .entry entry, m_queue := rest, m_queueLength := s.m_queueLength - 1 }

/-- One step of the session thread; `none` when it is blocked or has stopped. -/
def Writer.threadStep (env : WriterEnv) (s : WriterState) : Option WriterState :=
  match s.pc with
  | .start => some (Writer.stepStart env s)
  | .waiting => Writer.stepWait s
  | .entry entry => some (Writer.stepEntry env s entry)
  | .next => some (Writer.stepNext s)
  | .exited => none
  | .crashed _ => none

/-- The function `AddToQueue`: what it returns and the state it leaves. `SetEvent` fails
on a handle that `Close` has closed. -/
def Writer.AddToQueue (s : WriterState) (entry : WriteEntry) : Except Fault (Bool × WriterState) :=
  let wasEmpty : Bool := s.m_queue.isEmpty
  let s : WriterState :=
    { s with m_queue := s.m_queue ++ [entry], m_queueLength := toUInt32 (s.m_queueLength + 1),
             trace := s.trace ++ [.enqueue entry] }
  if wasEmpty then
    if s.m_queueLength ≠ 1 then .error (.assertion 1258)
    else if ¬ s.handles then .error (.assertion 1260)
    else .ok (decide (s_maxBuffersToBlockWriter < s.m_queueLength), { s with signalled := true })
  else .ok (decide (s_maxBuffersToBlockWriter < s.m_queueLength), s)

/-- The function `WriteBuffer(buffer, flushAfter, handler)`. -/
def Writer.WriteBuffer (s : WriterState) (buffer : List Byte) (flushAfter : Bool)
    (handler : Nat) : Except Fault (Bool × WriterState) :=
  Writer.AddToQueue s
    { m_buffer := some buffer, m_flush := flushAfter, m_type := .RChannelItem_Data,
      m_handler := handler }

/-- The function `WriteTermination(reasonCode, handler)`. -/
def Writer.WriteTermination (s : WriterState) (reasonCode : RChannelItemType)
    (handler : Nat) : Except Fault WriterState :=
  match Writer.AddToQueue s
      { m_buffer := none, m_flush := false, m_type := reasonCode, m_handler := handler } with
  | .error f => .error f
  | .ok r => .ok r.2

/-- The function `Drain(pReturnItem)` from the point where its wait for the session thread
has returned: the item it stores through `pReturnItem` and the state it
leaves. The wait fails when the thread handle is not valid. -/
def Writer.Drain (s : WriterState) : Except Fault (RChannelItem × WriterState) :=
  if ¬ s.handles then .error (.assertion 1314)
  else if s.m_queue ≠ [] then .error (.assertion 1316)
  else if s.m_queueLength ≠ 0 then .error (.assertion 1317)
  else
    match s.m_completionItem with
    | none => .error (.assertion 1320)
    | some item =>
      .ok (item, { s with m_completionItem := none, trace := s.trace ++ [.drained item] })

/-- The function `Close`. -/
def Writer.Close (s : WriterState) : Except Fault WriterState :=
  if ¬ s.handles then .error (.assertion 1327)
  else if s.m_completionItem ≠ none then .error (.assertion 1338)
  else .ok { s with handles := false }

/-- Who moves next in a writer session. -/
inductive WriterAction
  | thread
  | writeBuffer (buffer : List Byte) (flushAfter : Bool) (handler : Nat)
  | writeTermination (reasonCode : RChannelItemType) (handler : Nat)
  | drain
  | close
  deriving DecidableEq, Repr

/-- The state a call leaves: the process stops when an assertion fails. -/
def Writer.settle (s : WriterState) (r : Except Fault WriterState) : WriterState :=
  match r with
  | .error f => { s with pc := .crashed f }
  | .ok s1 => s1

/-- One move; a move that is not enabled leaves the state as it is. Nothing
moves once the process has stopped, and `Drain` moves on only when the session
thread has returned or its handle is not valid. -/
def Writer.step (env : WriterEnv) (s : WriterState) (a : WriterAction) : WriterState :=
  match s.pc with
  | .crashed _ => s
  | _ =>
    match a with
    | .thread => (Writer.threadStep env s).getD s
    | .writeBuffer buffer flushAfter handler =>
      Writer.settle s ((Writer.WriteBuffer s buffer flushAfter handler).map Prod.snd)
    | .writeTermination reasonCode handler =>
      Writer.settle s (Writer.WriteTermination s reasonCode handler)
    | .drain =>
      if s.pc = .exited ∨ ¬ s.handles then Writer.settle s ((Writer.Drain s).map Prod.snd)
      else s
    | .close => Writer.settle s (Writer.Close s)

/-- The state a schedule of moves leads to. -/
def Writer.run (env : WriterEnv) (s : WriterState) (schedule : List WriterAction) :
    WriterState :=
  schedule.foldl (Writer.step env) s

/-- The entries put on the queue so far, in order. -/
def enqueued : List WriterEvent → List WriteEntry
  | [] => []
  | .enqueue entry :: rest => entry :: enqueued rest
  | _ :: rest => enqueued rest

/-- The entries whose handler has been notified so far, in order. -/
def notified : List WriterEvent → List WriteEntry
  | [] => []
  | .processWriteCompleted entry _ :: rest => entry :: notified rest
  | _ :: rest => notified rest

/-- The data and flush flag of the `WriteBlock` calls made so far, in order. -/
def bridgeWrites : List WriterEvent → List (List Byte × Bool)
  | [] => []
  | .writeBlock data flush _ :: rest => (data, flush) :: bridgeWrites rest
  | _ :: rest => bridgeWrites rest

/-- The calls made on the bridge's writer so far, in order. -/
def bridgeCalls : List WriterEvent → List WriterEvent
  | [] => []
  | .writeBlock data flush ret :: rest => .writeBlock data flush ret :: bridgeCalls rest
  | .close ret :: rest => .close ret :: bridgeCalls rest
  | _ :: rest => bridgeCalls rest

/-- The items assigned to `m_completionItem` so far, in order. -/
def cachedItems : List WriterEvent → List RChannelItem
  | [] => []
  | .cached item :: rest => item :: cachedItems rest
  | _ :: rest => cachedItems rest

/-- The data buffers among `entries` with their flush flags, in order. -/
def dataOf (entries : List WriteEntry) : List (List Byte × Bool) :=
  entries.filterMap fun entry =>
    if entry.m_type = .RChannelItem_Data then entry.m_buffer.map (fun data => (data, entry.m_flush))
    else none

/-- The entry the session thread has taken from the queue and not yet
processed. -/
def WriterState.inHand (s : WriterState) : List WriteEntry :=
  match s.pc with
  | .entry entry => [entry]
  | _ => []

/-- What holds of a writer whose process has not stopped: the queue length
counter is right; every entry enqueued has been notified, is in hand or is
queued; the bridge writes are those of the notified data entries, all of them
when the bridge was opened; the completion item is the one item ever cached,
until `Drain` takes it; and a completion item met by the thread at work comes
from a failed `Open`. -/
def WriterAccounting (s : WriterState) : Prop :=
  s.m_queueLength = toUInt32 s.m_queue.length ∧
  enqueued s.trace = notified s.trace ++ s.inHand ++ s.m_queue ∧
  bridgeWrites s.trace <+: dataOf (notified s.trace) ∧
  ((s.pc = .start ∨ s.opened = true) → bridgeWrites s.trace = dataOf (notified s.trace)) ∧
  ((cachedItems s.trace = [] ∧ s.m_completionItem = none ∧ s.pc ≠ .exited) ∨
    ∃ item, cachedItems s.trace = [item] ∧
      (s.m_completionItem = some item ∨
        (s.m_completionItem = none ∧ s.pc = .exited ∧ WriterEvent.drained item ∈ s.trace))) ∧
  (s.pc = .start → cachedItems s.trace = []) ∧
  (s.pc = .next → s.m_completionItem = none) ∧
  (∀ item, s.m_completionItem = some item → s.pc ≠ .exited → s.opened = false)

/-- The invariant of a writer session. -/
def WriterInv (s : WriterState) : Prop :=
  bridgeWrites s.trace <+: dataOf (enqueued s.trace) ∧
  (cachedItems s.trace).length ≤ 1 ∧
  ((∃ f, s.pc = .crashed f) ∨ WriterAccounting s)

/-- What else holds of a writer whose process has not stopped: a queued entry
that is not a data entry has no buffer; the thread at work without completion
item has its bridge writer open; once `Drain` has handed the item back the
thread has returned and no item is stored; and while the thread is at its wait
or before it, the event is signalled exactly when the queue is not empty. -/
def WriterLifecycle (s : WriterState) : Prop :=
  (∃ f, s.pc = .crashed f) ∨
  ((∀ entry ∈ s.inHand ++ s.m_queue,
      entry.m_type ≠ .RChannelItem_Data → entry.m_buffer = none) ∧
   ((s.pc = .waiting ∨ (∃ entry, s.pc = .entry entry) ∨ s.pc = .next) →
      s.m_completionItem = none → s.opened = true) ∧
   ((∃ item, WriterEvent.drained item ∈ s.trace) →
      s.pc = .exited ∧ s.m_completionItem = none) ∧
   ((s.pc = .start ∨ s.pc = .waiting) → (s.signalled = true ↔ s.m_queue ≠ [])))

/-- The session has its terminal item: the completion item is stored, or the
session thread has returned, or the process has stopped. -/
def WriterDone (s : WriterState) : Prop :=
  s.m_completionItem ≠ none ∨ s.pc = .exited ∨ ∃ f, s.pc = .crashed f

/-- The session thread has returned or the process has stopped. -/
def WriterStopped (s : WriterState) : Prop :=
  s.pc = .exited ∨ ∃ f, s.pc = .crashed f

/-- The bridge of the environment opens: every step of `Open` succeeds. -/
def WriterEnv.opens (env : WriterEnv) : Prop :=
  env.initialized = true ∧ (ExtractHdfsWriteUri env.uri).isSome = true ∧
    env.openedInstance = true ∧ env.openedWriter = true ∧ env.setPermissions = true

/-- A bound on the number of steps the session thread takes until it is back
at its wait with the queue empty, when every write succeeds. -/
def writerStepsLeft (s : WriterState) : Nat :=
  match s.pc with
  | .start => 1 + (if s.m_queue = [] then 0 else 2 * s.m_queue.length + 1)
  | .waiting => if s.m_queue = [] then 0 else 2 * s.m_queue.length + 1
  | .entry _ => 2 * s.m_queue.length + 2
  | .next => 2 * s.m_queue.length + 1
  | _ => 0

/-- The data buffers a schedule hands to `WriteBuffer`, with their flush
flags, in order. -/
def buffersOf : List WriterAction → List (List Byte × Bool)
  | [] => []
  | .writeBuffer buffer flushAfter _ :: rest => (buffer, flushAfter) :: buffersOf rest
  | _ :: rest => buffersOf rest

/-- The schedule has data producers and the session thread only. -/
def ProducersOnly (schedule : List WriterAction) : Prop :=
  ∀ a ∈ schedule, a = .thread ∨ ∃ buffer flushAfter handler, a = .writeBuffer buffer flushAfter handler

/-- A writer at work with nothing failed: the invariants hold, the handles
are valid, no completion item is cached, and every entry in hand or queued is
a data entry with a buffer. -/
def WriterLive (s : WriterState) : Prop :=
  WriterInv s ∧ WriterLifecycle s ∧ s.handles = true ∧ s.m_completionItem = none ∧
  (s.pc = .start ∨ s.pc = .waiting ∨ (∃ entry, s.pc = .entry entry) ∨ s.pc = .next) ∧
  (∀ entry ∈ s.inHand ++ s.m_queue,
    entry.m_type = .RChannelItem_Data ∧ entry.m_buffer ≠ none)

/-- The environment of a writer whose bridge opens, with the given outcomes of
`WriteBlock` and `Close`. -/
def openEnv (writeBlock : List WriterEvent → List Byte → Bool → Bool)
    (close : List WriterEvent → Bool) : WriterEnv :=
  { initialized := true, uri := s_hdfsFilePrefix ++ ['h', '/', 'f'], openedInstance := true,
    openedWriter := true, setPermissions := true, writeBlock := writeBlock, close := close }

/-- A writer whose termination entry, enqueued with reason code
`RChannelItem_Abort`, has been processed, the bridge's `Close` having succeeded. -/
def abortTermination : WriterState :=
  Writer.run (openEnv (fun _ _ _ => true) (fun _ => true)) WriterState.initial
    [.writeTermination .RChannelItem_Abort 9, .thread, .thread, .thread]

/-- A writer with two data buffers enqueued for handlers 7 and 8 and then a
termination entry for handler 9, the bridge failing every `WriteBlock`, after
the session thread has run as far as it goes. -/
def failedWrite : WriterState :=
  Writer.run (openEnv (fun _ _ _ => false) (fun _ => true)) WriterState.initial
    [.writeBuffer [1] true 7, .writeBuffer [2] false 8,
     .writeTermination .RChannelItem_EndOfStream 9,
     .thread, .thread, .thread, .thread, .thread, .thread]

/-- The calls of `ProcessWriteCompleted` made so far: handler and status, in order. -/
def completions : List WriterEvent → List (Nat × RChannelItemType)
  | [] => []
  | .processWriteCompleted entry status :: rest => (entry.m_handler, status) :: completions rest
  | _ :: rest => completions rest

/-- The buffer is a marker: it stands for the end of the stream or an abort,
not for data. -/
def RChannelBuffer.isMarker : RChannelBuffer → Bool
  | .data _ _ => false
  | _ => true

/-- A marker, once delivered, is the last thing the session does: as long as
only data buffers have been delivered the session is anywhere; after a marker
the thread is back at the loop test with `offset = -1`, has returned, or the
process has stopped. -/
def MarkerInv (s : ReaderState) : Prop :=
  (∀ b ∈ delivered s.trace, b.isMarker = false) ∨
  (s.pc = .loop ∧ s.offset = -1) ∨ s.pc = .exited ∨ ∃ f, s.pc = .crashed f

/-- A bound on the number of steps the session thread takes until it returns,
once the abort event is set. -/
def abortRank (s : ReaderState) : Nat :=
  match s.pc with
  | .start => 4
  | .opening => 3
  | .loop => 2
  | .acquired => 1
  | .reading => 3
  | .sending _ => 1
  | .delivering _ => 1
  | .exited => 0
  | .crashed _ => 0

/-- The invariant of a session from a state `s0` in which the abort event is
set: the event stays set; a thread that was in a data read or held the permit
for a marker in `s0` is still there and the handler has been handed nothing
since; or the thread is elsewhere and the handler has been handed nothing
since, or one buffer: the buffer of the read that was in flight in `s0`, which
is not an end-of-stream marker, or the marker whose permit was held in `s0`. -/
def AbortInv (s0 s : ReaderState) : Prop :=
  s.abort = true ∧
  ((s.pc = s0.pc ∧ (s0.pc = .reading ∨ ∃ b, s0.pc = .delivering b) ∧
      delivered s.trace = delivered s0.trace) ∨
   ((s.pc ≠ .reading ∧ ∀ b, s.pc ≠ .delivering b) ∧
    ∃ extra, delivered s.trace = delivered s0.trace ++ extra ∧ extra.length ≤ 1 ∧
      ∀ x ∈ extra, (s0.pc = .reading ∧ x ≠ .endOfStream) ∨ s0.pc = .delivering x))

/-- A reader of the example file, range `[5,30)`, interrupted while its first
data read is in flight. -/
def interruptedReading : ReaderState :=
  run exampleEnv ReaderState.initial [.thread, .thread, .thread, .thread, .interrupt]

/-- What a single pass over the bytes of `file` from `startOffset` returns for
the bound `endOffset`: the pass stops after the first line feed, or at the
first byte that follows a carriage return and is not a line feed; a stop at or
past a positive bound is `-1`; without a stop the result is the end of the
file for an unbounded scan, `-1` when the bound lies within the file and the
error `-2` when the file ends before the bound. -/
def singlePassScan (file : List Byte) (startOffset : Nat) (endOffset : Int) : ScanOut :=
  match (scanBytes (file.drop startOffset) startOffset false).1 with
  | some o => if 0 < endOffset ∧ endOffset ≤ (o : Int) then ⟨-1, none⟩ else ⟨o, none⟩
  | none =>
    if 0 < endOffset then
      if endOffset ≤ (file.length : Int) then ⟨-1, none⟩
      else ⟨-2, some (.abort .DryadError_ChannelReadError
                        (.eofEarly (max startOffset file.length : Nat) endOffset))⟩
    else ⟨(max startOffset file.length : Nat), none⟩

/-- A file with a `"\r\n"` pair at offsets 2 and 3 and a carriage return at
offset 5 that is followed by another byte. -/
def crlfFile : List Byte := [97, 98, CR, LF, 99, CR, 100]

/-- The function `RChannelBufferHdfsReader::FillInStatus`: the total length and the
processed length it reports. -/
def FillInStatus (s : ReaderState) : Int × Int :=
  (s.m_totalLength, s.m_processedLength)

/-- The function `RChannelBufferHdfsWriter::FillInStatus`: the total length, always 0, and
the processed length it reports. -/
def Writer.FillInStatus (s : WriterState) : Int × Int :=
  (0, s.m_processedLength)

/-- How the counters of a reader relate to its offsets: nothing is processed
before the loop, and in the loop the processed length is the distance of
`offset` from the aligned start. -/
def CounterInv (s : ReaderState) : Prop :=
  (s.pc = .start → s.m_totalLength = 0) ∧
  ((s.pc = .start ∨ s.pc = .opening) → s.m_processedLength = 0) ∧
  ((s.pc = .loop ∨ s.pc = .acquired ∨ s.pc = .reading) → (s.pc = .loop → 0 ≤ s.offset) →
    0 ≤ s.offsetStart ∧ s.offsetStart ≤ s.offset ∧
      s.m_processedLength = toUInt64 (s.offset - s.offsetStart))

/-- The bridge keeps to what `ReadBlock` promises: asked for at least one byte,
it returns a sentinel (end of file or error) or at least one byte and no more
than were requested. -/
def ReadBlockContract (bridge : Bridge) : Prop :=
  ∀ offset len bs, 1 ≤ len → bridge offset len = .bytes bs →
    1 ≤ bs.length ∧ (bs.length : Int) ≤ len

/-- Conversion of an integer to `Int64` (two's complement): what an `Int64`
addition, such as `offsetStart + length` of line 609, leaves in its result when
the exact sum does not fit. -/
def toInt64 (x : Int) : Int := (x + 2 ^ 63) % 2 ^ 64 - 2 ^ 63

/-! ## The scanner on file-backed bridges -/

theorem scanBytes_append (xs ys : List Byte) (p : Nat) (fr : Bool) :
    scanBytes (xs ++ ys) p fr =
      if (scanBytes xs p fr).1.isSome then scanBytes xs p fr
      else scanBytes ys (p + xs.length) (scanBytes xs p fr).2 := by
  induction xs generalizing p fr with
  | nil => simp [scanBytes]
  | cons b rest ih =>
    by_cases hb : b = LF
    · simp [scanBytes, hb]
    · cases fr
      · simp [scanBytes, hb, ih, Nat.add_assoc, Nat.add_comm 1]
      · simp [scanBytes, hb]

theorem scanBytes_bounds (xs : List Byte) (p : Nat) (fr : Bool) (o : Nat)
    (h : (scanBytes xs p fr).1 = some o) : p ≤ o ∧ o ≤ p + xs.length := by
  induction xs generalizing p fr with
  | nil => simp [scanBytes] at h
  | cons b rest ih =>
    simp only [scanBytes] at h
    by_cases hb : b = LF
    · simp [hb] at h; simp; omega
    · by_cases hfr : fr = true
      · simp [hb, hfr] at h; simp; omega
      · simp only [hb, hfr, if_false] at h
        have := ih _ _ h
        simp; omega

theorem scanChunk_eq (s e n : Int) (bs : List Byte) (i : Int) (fr : Bool) (p : Nat)
    (hp : s + i = p) (hn : i + bs.length = n) (he : 0 < e → s + n ≤ e) :
    scanChunk s e n bs i fr =
      .ok (match (scanBytes bs p fr).1 with
           | some o => if 0 < e ∧ e ≤ (o : Int) then -1 else (o : Int)
           | none => -1,
           (scanBytes bs p fr).2) := by
  induction bs generalizing i fr p with
  | nil => simp [scanChunk, scanBytes]
  | cons b rest ih =>
    simp only [scanChunk, scanBytes]
    simp only [List.length_cons, Nat.cast_add, Nat.cast_one] at hn
    by_cases hb : b = LF
    · simp only [hb, if_true]
      by_cases hc : 0 < e ∧ e ≤ s + i + 1
      · have h1 : s + i + 1 = e := by have := he hc.1; omega
        have h2 : s + n = e := by have := he hc.1; omega
        have h3 : e ≤ (p : Int) + 1 := by omega
        simp [hc, h1, h2, h3]
      · have h3 : ¬ (0 < e ∧ e ≤ ((p + 1 : Nat) : Int)) := by
          intro h; apply hc; refine ⟨h.1, ?_⟩; have := h.2; push_cast at this; omega
        simp only [hc, h3, if_false]
        congr 2; push_cast; omega
    · by_cases hfr : fr = true
      · have h3 : ¬ (0 < e ∧ e ≤ (p : Int)) := by
          intro h; have := he h.1; omega
        simp only [hb, hfr, if_true, if_false, h3]
        congr 2
      · have hfr' : fr = false := by simpa using hfr
        subst hfr'
        by_cases hcr : b = CR
        · simp only [hb, hcr, if_true, if_false, decide_True]
          have := ih (i + 1) true (p + 1) (by push_cast; omega) (by omega)
          simpa [hcr] using this
        · simp only [hb, hcr, if_false, decide_False]
          have := ih (i + 1) false (p + 1) (by push_cast; omega) (by omega)
          simpa [hcr] using this

theorem drop_take_length (l : List Byte) (k : Nat) :
    l.drop (l.take k).length = l.drop k := by
  by_cases h : k ≤ l.length
  · simp [List.length_take, Nat.min_eq_left h]
  · have h' : l.length ≤ k := by omega
    simp [List.length_take, Nat.min_eq_right h', List.drop_eq_nil_of_le h']

theorem scanBytes_take_drop (l : List Byte) (k p : Nat) (fr : Bool) :
    scanBytes l p fr =
      if (scanBytes (l.take k) p fr).1.isSome then scanBytes (l.take k) p fr
      else scanBytes (l.drop (l.take k).length) (p + (l.take k).length)
        (scanBytes (l.take k) p fr).2 := by
  have h := scanBytes_append (l.take k) (l.drop k) p fr
  rw [List.take_append_drop] at h
  rw [drop_take_length]
  exact h

theorem chunkedBridge_eof (file : List Byte) (chunk : Int → Nat) (p : Nat) (len : Int)
    (h : file.length ≤ p) : chunkedBridge file chunk p len = .eof := by
  have h1 : ¬ ((p : Int) < 0) := by omega
  have h2 : (file.length : Int) ≤ p := by omega
  simp [chunkedBridge, h1, h2]

theorem chunkedBridge_bytes (file : List Byte) (chunk : Int → Nat) (p : Nat) (len : Int)
    (h : p < file.length) :
    chunkedBridge file chunk p len =
      .bytes ((file.drop p).take (min len.toNat (chunk p))) := by
  have h1 : ¬ ((p : Int) < 0) := by omega
  have h2 : ¬ ((file.length : Int) ≤ p) := by omega
  simp [chunkedBridge, h1, h2]

theorem scanLoop_chunked (file : List Byte) (chunk : Int → Nat)
    (hchunk : ∀ o : Nat, o < file.length → 1 ≤ chunk o) (e : Int) (he0 : e ≠ 0) :
    ∀ (fuel p : Nat) (fr : Bool), file.length - p < fuel → (0 < e → (p : Int) < e) →
      scanLoop (chunkedBridge file chunk) e fuel p fr =
        .ok (scanSpec file.length e p (scanBytes (file.drop p) p fr).1) := by
  intro fuel
  induction fuel with
  | zero => intro p fr h; omega
  | succ fuel ih =>
    intro p fr hfuel hbound
    by_cases hp : file.length ≤ p
    · -- end of file
      have hdrop : file.drop p = [] := List.drop_eq_nil_of_le hp
      have hmax : max p file.length = p := Nat.max_eq_left hp
      simp only [scanLoop, chunkedBridge_eof file chunk p _ hp, hdrop, scanBytes, scanSpec, hmax]
      by_cases he : 0 < e
      · have h1 : ¬ (e ≤ (file.length : Int)) := by have := hbound he; omega
        have h2 : (p : Int) ≤ e := by have := hbound he; omega
        simp [he, h1, h2, scanExit]
      · simp [he, scanExit]
    · -- a chunk of at least one byte
      have hp' : p < file.length := by omega
      simp only [scanLoop, chunkedBridge_bytes file chunk p _ hp']
      generalize hlen : (if 0 < e ∧ e - (p : Int) < s_lineRecordScanSize then e - (p : Int)
        else s_lineRecordScanSize) = len
      have hlen1 : 1 ≤ len := by
        rw [← hlen]; split
        · rename_i h; have := hbound h.1; omega
        · simp [s_lineRecordScanSize]
      have hlen2 : 0 < e → len ≤ e - p := by
        intro he; rw [← hlen]; split
        · exact le_refl _
        · rename_i h; have : ¬ (e - (p : Int) < s_lineRecordScanSize) := fun h' => h ⟨he, h'⟩
          omega
      generalize hk : min len.toNat (chunk p) = k
      have hk1 : 1 ≤ k := by
        have := hchunk p hp'
        have : 1 ≤ len.toNat := by omega
        rw [← hk]; omega
      have hk2 : 0 < e → (k : Int) ≤ e - p := by
        intro he; have := hlen2 he
        have : (k : Int) ≤ len := by rw [← hk]; omega
        omega
      set l := file.drop p with hl
      have hll : l.length = file.length - p := by simp [hl]
      set bs := l.take k with hbs
      have hbl : bs.length = min k (file.length - p) := by simp [hbs, List.length_take, hll]
      have hbl1 : 1 ≤ bs.length := by rw [hbl]; omega
      have hpos : (0 : Int) < (bs.length : Int) := by omega
      have hchunkEq := scanChunk_eq (p : Int) e (bs.length : Int) bs 0 fr p (by simp) (by simp)
        (by intro he; have := hk2 he; have : bs.length ≤ k := by rw [hbl]; omega
            omega)
      have hsplit := scanBytes_take_drop l k p fr
      rw [← hbs] at hsplit
      have hrest : l.drop bs.length = file.drop (p + bs.length) := by
        simp [hl, List.drop_drop, Nat.add_comm]
      rw [hrest] at hsplit
      simp only [hpos, not_true_eq_false, if_false, hchunkEq]
      cases hres : (scanBytes bs p fr).1 with
      | some o =>
        have hb := scanBytes_bounds bs p fr o hres
        have hfound : (scanBytes l p fr).1 = some o := by
          rw [hsplit]; simp [hres]
        rw [hfound]
        by_cases hc : 0 < e ∧ e ≤ (o : Int)
        · have h1 : ¬ ((p : Int) + bs.length < e) := by omega
          have h2 : ¬ (e < 0) := by omega
          have h3 : (p : Int) + bs.length ≤ e := by
            have := hk2 hc.1; have : bs.length ≤ k := by rw [hbl]; omega
            omega
          simp [hc, h1, h2, h3, scanExit, scanSpec]
        · have h1 : (o : Int) ≠ -1 := by omega
          have h3 : 0 < e → (p : Int) + bs.length ≤ e := by
            intro he; have := hk2 he; have : bs.length ≤ k := by rw [hbl]; omega
            omega
          simp only [hc, if_false, h1, false_and, scanExit, scanSpec]
          by_cases he : 0 < e
          · simp [he, h3 he]
          · simp [he]
      | none =>
        have hnone : ¬ ((scanBytes bs p fr).1.isSome = true) := by simp [hres]
        have hcont : scanBytes l p fr =
            scanBytes (file.drop (p + bs.length)) (p + bs.length) (scanBytes bs p fr).2 := by
          rw [hsplit]; simp [hres]
        rw [hcont]
        by_cases hgo : e < 0 ∨ (p : Int) + bs.length < e
        · have hih := ih (p + bs.length) (scanBytes bs p fr).2 (by omega)
            (by intro he; rcases hgo with h | h
                · omega
                · push_cast; exact h)
          have hmax : max (p + bs.length) file.length = max p file.length := by
            have : p + bs.length ≤ file.length := by rw [hbl]; omega
            omega
          simp only [true_and, hgo, if_true]
          push_cast at hih
          rw [hih]
          simp only [scanSpec, hmax]
        · have he : 0 < e := by omega
          have heq : (p : Int) + bs.length = e := by
            have := hk2 he; have : bs.length ≤ k := by rw [hbl]; omega
            omega
          have hle : e ≤ (file.length : Int) := by
            have : p + bs.length ≤ file.length := by rw [hbl]; omega
            omega
          simp only [true_and, hgo, if_false, scanExit]
          have h3 : ¬ (0 < e ∧ ¬ ((p : Int) + bs.length ≤ e)) := by omega
          simp only [h3, if_false]
          cases hres2 : (scanBytes (file.drop (p + bs.length)) (p + bs.length)
              (scanBytes bs p fr).2).1 with
          | some o =>
            have hb := scanBytes_bounds _ _ _ o hres2
            have : 0 < e ∧ e ≤ (o : Int) := ⟨he, by omega⟩
            simp [scanSpec, this]
          | none => simp [scanSpec, he, hle]

theorem ScanForSync_chunked (file : List Byte) (chunk : Int → Nat)
    (hchunk : ∀ o : Nat, o < file.length → 1 ≤ chunk o) (fuel startOffset : Nat)
    (endOffset : Int) (hfuel : file.length - startOffset < fuel) (hne : endOffset ≠ 0)
    (hbound : 0 < endOffset → (startOffset : Int) < endOffset) :
    ScanForSync (chunkedBridge file chunk) fuel startOffset endOffset =
      .ok (scanSpec file.length endOffset startOffset (nextRecordStart file startOffset)) := by
  simp only [ScanForSync, hne, if_false, nextRecordStart]
  exact scanLoop_chunked file chunk hchunk endOffset hne fuel startOffset false hfuel hbound

theorem scanBytes_spec (file : List Byte) (s : Nat) :
    ∀ (n pos : Nat) (fr : Bool), file.length - pos = n → PassInv file s pos fr →
      (∀ o, (scanBytes (file.drop pos) pos fr).1 = some o →
        s < o ∧ isRecordStart file o ∧ ∀ p, s < p → isRecordStart file p → o ≤ p) ∧
      ((scanBytes (file.drop pos) pos fr).1 = none → ∀ p, s < p → ¬ isRecordStart file p) := by
  intro n
  induction n with
  | zero =>
    intro pos fr hn ⟨h1, h2, h3, _⟩
    have hle : file.length ≤ pos := by omega
    rw [List.drop_eq_nil_of_le hle]
    refine ⟨by simp [scanBytes], ?_⟩
    intro _ p hp hR
    rcases Nat.lt_trichotomy p pos with hlt | heq | hgt
    · exact h2 p hp hlt hR
    · subst heq
      rcases hR with ⟨_, hlf | ⟨_, b, hb, _⟩⟩
      · exact h3 hp hlf
      · have : file[p]? = none := List.getElem?_eq_none hle
        rw [this] at hb; exact absurd hb (by simp)
    · have hnone : file[p - 1]? = none := List.getElem?_eq_none (by omega)
      rcases hR with ⟨_, hlf | ⟨hcr, _⟩⟩
      · rw [hnone] at hlf; exact absurd hlf (by simp)
      · rw [hnone] at hcr; exact absurd hcr (by simp)
  | succ n ih =>
    intro pos fr hn ⟨h1, h2, h3, h4⟩
    have hlt : pos < file.length := by omega
    have hget : file[pos]? = some file[pos] := List.getElem?_eq_getElem hlt
    rw [List.drop_eq_getElem_cons hlt]
    simp only [scanBytes]
    by_cases hb : file[pos] = LF
    · simp only [hb, if_true]
      refine ⟨?_, by simp⟩
      intro o ho
      have ho' : o = pos + 1 := by simpa using ho.symm
      subst ho'
      refine ⟨by omega, ⟨by omega, Or.inl (by simpa [hget] using hb)⟩, ?_⟩
      intro p hp hR
      by_contra hcon
      rcases Nat.lt_or_ge p pos with hlt' | hge
      · exact h2 p hp hlt' hR
      · have hpp : p = pos := by omega
        subst hpp
        rcases hR with ⟨_, hlf | ⟨_, b, hb', hne⟩⟩
        · exact h3 hp hlf
        · rw [hget] at hb'; simp only [Option.some.injEq] at hb'
          exact hne (hb' ▸ hb)
    · cases fr with
      | true =>
        simp only [hb, if_false, if_true]
        have hinv := h4.mp rfl
        refine ⟨?_, by simp⟩
        intro o ho
        have ho' : o = pos := by simpa using ho.symm
        subst ho'
        refine ⟨hinv.1, ⟨by omega, Or.inr ⟨hinv.2, file[o], hget, hb⟩⟩, ?_⟩
        intro p hp hR
        by_contra hcon
        exact h2 p hp (by omega) hR
      | false =>
        simp only [hb, if_false, Bool.false_eq_true]
        have hncr : s < pos → file[pos - 1]? ≠ some CR := by
          intro hs hcr
          have := h4.mpr ⟨hs, hcr⟩
          exact absurd this (by simp)
        apply ih (pos + 1) (decide (file[pos] = CR)) (by omega)
        refine ⟨by omega, ?_, ?_, ?_⟩
        · intro p hp hlt' hR
          rcases Nat.lt_or_ge p pos with hlt2 | hge
          · exact h2 p hp hlt2 hR
          · have hpp : p = pos := by omega
            subst hpp
            rcases hR with ⟨_, hlf | ⟨hcr, _⟩⟩
            · exact h3 hp hlf
            · exact hncr hp hcr
        · intro _
          simp only [Nat.add_sub_cancel, hget]
          intro h; exact hb (by simpa using h)
        · simp only [Nat.add_sub_cancel, hget, decide_eq_true_eq]
          constructor
          · intro h; exact ⟨by omega, by rw [h]⟩
          · intro h; simpa using h.2

theorem passInv_start (file : List Byte) (s : Nat) : PassInv file s s false :=
  ⟨le_refl _, fun _ h1 h2 => by omega, fun h => by omega, by simp⟩

theorem nextRecordStart_some (file : List Byte) (s o : Nat)
    (h : nextRecordStart file s = some o) :
    s < o ∧ isRecordStart file o ∧ ∀ p, s < p → isRecordStart file p → o ≤ p :=
  (scanBytes_spec file s _ s false rfl (passInv_start file s)).1 o h

theorem nextRecordStart_none (file : List Byte) (s : Nat)
    (h : nextRecordStart file s = none) : ∀ p, s < p → ¬ isRecordStart file p :=
  (scanBytes_spec file s _ s false rfl (passInv_start file s)).2 h

theorem nextRecordStart_le_length (file : List Byte) (s o : Nat)
    (h : nextRecordStart file s = some o) : o ≤ file.length := by
  have := scanBytes_bounds _ _ _ o h
  simp only [List.length_drop] at this
  have h2 := (nextRecordStart_some file s o h).2.1
  rcases h2 with ⟨h0, hlf | ⟨hcr, _⟩⟩
  · by_contra hc
    have : file[o - 1]? = none := List.getElem?_eq_none (by omega)
    rw [this] at hlf; exact absurd hlf (by simp)
  · by_contra hc
    have : file[o - 1]? = none := List.getElem?_eq_none (by omega)
    rw [this] at hcr; exact absurd hcr (by simp)

theorem scanLoop_mono (bridge : Bridge) (e : Int) :
    ∀ (fuel k : Nat) (p : Int) (fr : Bool) (out : ScanOut),
      scanLoop bridge e fuel p fr = .ok out → scanLoop bridge e (fuel + k) p fr = .ok out := by
  intro fuel
  induction fuel with
  | zero => intro k p fr out h; simp [scanLoop] at h
  | succ fuel ih =>
    intro k p fr out h
    have hk : fuel + 1 + k = (fuel + k) + 1 := by omega
    rw [hk]
    simp only [scanLoop] at h ⊢
    split
    · rename_i hb; rw [hb] at h; exact h
    · rename_i hb; rw [hb] at h; exact h
    · rename_i bs hb
      rw [hb] at h
      simp only at h ⊢
      split
      · rename_i hc; rw [if_pos hc] at h; exact h
      · rename_i hc
        rw [if_neg hc] at h
        split
        · rename_i f hs; rw [hs] at h; exact h
        · rename_i fo fr2 hs
          rw [hs] at h
          simp only at h ⊢
          split
          · rename_i hg; rw [if_pos hg] at h; exact ih k _ _ _ h
          · rename_i hg; rw [if_neg hg] at h; exact h

theorem scanLoop_negative (file : List Byte) (chunk : Int → Nat) (e : Int) (fuel : Nat)
    (p : Int) (fr : Bool) (out : ScanOut) (hp : p < 0)
    (h : scanLoop (chunkedBridge file chunk) e fuel p fr = .ok out) : out.foundOffset = -2 := by
  cases fuel with
  | zero => simp [scanLoop] at h
  | succ fuel =>
    simp only [scanLoop, chunkedBridge, hp, if_true, scanExit] at h
    split at h
    · simp at h
    · simp only [Except.ok.injEq] at h; rw [← h]

theorem scanLoop_degenerate (file : List Byte) (chunk : Int → Nat) (e : Int) (fuel p : Nat)
    (fr : Bool) (out : ScanOut) (he : 0 < e) (hle : e ≤ (p : Int))
    (h : scanLoop (chunkedBridge file chunk) e fuel p fr = .ok out) : out.foundOffset = -2 := by
  cases fuel with
  | zero => simp [scanLoop] at h
  | succ fuel =>
    by_cases hp : file.length ≤ p
    · simp only [scanLoop, chunkedBridge_eof file chunk p _ hp, he, if_true, scanExit] at h
      split at h
      · simp at h
      · simp only [Except.ok.injEq] at h; rw [← h]
    · have hp' : p < file.length := by omega
      have hlen : (if 0 < e ∧ e - (p : Int) < s_lineRecordScanSize then e - (p : Int)
          else s_lineRecordScanSize) = e - p := by
        rw [if_pos]; refine ⟨he, ?_⟩; simp only [s_lineRecordScanSize]; omega
      have hz : (e - (p : Int)).toNat = 0 := by omega
      simp [scanLoop, chunkedBridge_bytes file chunk p _ hp', hlen, hz] at h

/-- A bridge that never returns more bytes than it was asked for. -/
theorem chunkedBridge_wellFormed (file : List Byte) (chunk : Int → Nat) :
    WellFormed (chunkedBridge file chunk) := by
  intro offset len bs h
  simp only [chunkedBridge] at h
  split at h
  · simp at h
  · split at h
    · simp at h
    · simp only [ReadOutcome.bytes.injEq] at h
      rw [← h]
      simp only [List.length_take, List.length_drop]
      omega

theorem scanChunk_found (s e n : Int) (bs : List Byte) (i : Int) (fr fr2 : Bool) (fo : Int)
    (h : scanChunk s e n bs i fr = .ok (fo, fr2)) (hfo : fo ≠ -1) :
    s + i ≤ fo ∧ (fr = false → s + i < fo) ∧ fo ≤ s + i + bs.length ∧
      (0 < e → fo < e ∨ fo < s + i + bs.length) := by
  induction bs generalizing i fr with
  | nil => simp [scanChunk] at h; exact absurd h.1.symm hfo
  | cons b rest ih =>
    simp only [scanChunk] at h
    simp only [List.length_cons, Nat.cast_add, Nat.cast_one]
    by_cases hb : b = LF
    · simp only [hb, if_true] at h
      by_cases hc : 0 < e ∧ e ≤ s + i + 1
      · rw [if_pos hc] at h
        split at h
        · simp at h
        · split at h
          · simp at h
          · simp only [Except.ok.injEq, Prod.mk.injEq] at h
            exact absurd h.1.symm hfo
      · rw [if_neg hc] at h
        simp only [Except.ok.injEq, Prod.mk.injEq] at h
        refine ⟨by omega, fun _ => by omega, by omega, fun he => Or.inl ?_⟩
        have : ¬ (e ≤ s + i + 1) := fun h' => hc ⟨he, h'⟩
        omega
    · cases fr with
      | true =>
        simp only [hb, if_false, if_true, Except.ok.injEq, Prod.mk.injEq] at h
        refine ⟨by omega, fun hh => by simp at hh, by omega, fun _ => Or.inr (by omega)⟩
      | false =>
        simp only [hb, if_false, Bool.false_eq_true] at h
        by_cases hcr : b = CR
        · simp only [hcr, if_true] at h
          have := ih (i + 1) true h
          refine ⟨by omega, fun _ => by omega, by omega, fun he => ?_⟩
          rcases this.2.2.2 he with h1 | h1
          · exact Or.inl h1
          · exact Or.inr (by omega)
        · simp only [hcr, if_false] at h
          have := ih (i + 1) false h
          refine ⟨by omega, fun _ => by omega, by omega, fun he => ?_⟩
          rcases this.2.2.2 he with h1 | h1
          · exact Or.inl h1
          · exact Or.inr (by omega)

theorem scanLoop_found_bounds (bridge : Bridge) (hwf : WellFormed bridge) (e : Int) (s0 : Int) :
    ∀ (fuel : Nat) (p : Int) (fr : Bool) (out : ScanOut),
      s0 ≤ p → (fr = true → s0 < p) →
      scanLoop bridge e fuel p fr = .ok out → 0 < e → -1 < out.foundOffset →
      s0 < out.foundOffset ∧ out.foundOffset ≤ e := by
  intro fuel
  induction fuel with
  | zero => intro p fr out _ _ h; simp [scanLoop] at h
  | succ fuel ih =>
    intro p fr out hp hfr h he hfound
    simp only [scanLoop] at h
    split at h
    · simp only [scanExit] at h
      split at h
      · simp at h
      · simp only [Except.ok.injEq] at h; rw [← h] at hfound; simp at hfound
    · simp only [he, if_true, scanExit] at h
      split at h
      · simp at h
      · simp only [Except.ok.injEq] at h; rw [← h] at hfound; simp at hfound
    · rename_i bs hb
      have hlen := hwf _ _ _ hb
      split at h
      · simp at h
      · rename_i hpos
        simp only [not_not] at hpos
        split at h
        · simp at h
        · rename_i fo fr2 hs
          have hreq : (bs.length : Int) ≤ e - p := by
            have h1 : 1 ≤ bs.length := by omega
            split at hlen
            · omega
            · rename_i hc
              have : ¬ (e - p < s_lineRecordScanSize) := fun h' => hc ⟨he, h'⟩
              simp only [s_lineRecordScanSize] at *
              omega
          split at h
          · rename_i hgo
            refine ih _ _ _ (by omega) (fun _ => by omega) h he hfound
          · simp only [scanExit] at h
            split at h
            · simp at h
            · simp only [Except.ok.injEq] at h
              rw [← h] at hfound ⊢
              simp only at hfound ⊢
              have hne : fo ≠ -1 := by omega
              have := scanChunk_found _ _ _ _ _ _ _ _ hs hne
              simp only [add_zero] at this
              refine ⟨?_, by omega⟩
              cases fr with
              | true => have := hfr rfl; omega
              | false => have := this.2.1 rfl; omega

theorem ScanForSync_found_bounds (bridge : Bridge) (hwf : WellFormed bridge) (fuel : Nat)
    (startOffset endOffset : Int) (out : ScanOut) (he : 0 < endOffset)
    (h : ScanForSync bridge fuel startOffset endOffset = .ok out)
    (hfound : -1 < out.foundOffset) :
    startOffset < out.foundOffset ∧ out.foundOffset ≤ endOffset := by
  simp only [ScanForSync] at h
  split at h
  · simp at h
  · exact scanLoop_found_bounds bridge hwf endOffset startOffset fuel startOffset false out
      (le_refl _) (fun hh => by simp at hh) h he hfound

theorem nextRecordStart_eq_none (file : List Byte) (s : Nat)
    (hno : ∀ q : Nat, s < q → ¬ isRecordStart file q) : nextRecordStart file s = none := by
  cases h : nextRecordStart file s with
  | none => rfl
  | some o =>
    have := nextRecordStart_some file s o h
    exact absurd this.2.1 (hno o this.1)

/-! ## Claims about `ScanForSync` -/

/-- C3, counterexample. On the three-byte file `abc`, which holds no line
delimiter, the unbounded scan from offset 0 returns the found offset 3, and
offset 3 is not the first byte after a line delimiter. -/
theorem C3_counterexample :
    ScanForSync (fileBridge [97, 98, 99]) 2 0 (-1) = .ok ⟨3, none⟩ ∧
      ¬ isRecordStart [97, 98, 99] 3 := by
  refine ⟨by rfl, ?_⟩
  simp [isRecordStart, LF, CR]

/-- C3, amended. Whenever `ScanForSync` on a file returns a found offset `o`,
either `o` is the least offset `p > startOffset` such that byte `p - 1` is a
line feed, or byte `p - 1` is a carriage return and byte `p` exists and is not
a line feed; or the scan is unbounded, no such offset exists, and `o` is the
offset at which the scan met the end of the file. -/
theorem ScanForSync_found_is_first_record_start (file : List Byte) (chunk : Int → Nat)
    (hchunk : ∀ o : Nat, o < file.length → 1 ≤ chunk o) (fuel : Nat)
    (startOffset endOffset : Int) (out : ScanOut)
    (h : ScanForSync (chunkedBridge file chunk) fuel startOffset endOffset = .ok out)
    (hfound : 0 ≤ out.foundOffset) :
    (∃ p : Nat, out.foundOffset = p ∧ startOffset < p ∧ isRecordStart file p ∧
        ∀ q : Nat, startOffset < q → isRecordStart file q → p ≤ q) ∨
    (endOffset < 0 ∧ (∀ q : Nat, startOffset < q → ¬ isRecordStart file q) ∧
        out.foundOffset = max startOffset file.length) := by
  simp only [ScanForSync] at h
  split at h
  · simp at h
  · rename_i hne
    by_cases hneg : startOffset < 0
    · have := scanLoop_negative file chunk endOffset fuel startOffset false out hneg h
      omega
    · obtain ⟨p, rfl⟩ : ∃ p : Nat, startOffset = p := ⟨startOffset.toNat, by omega⟩
      by_cases hdeg : 0 < endOffset ∧ endOffset ≤ (p : Int)
      · have := scanLoop_degenerate file chunk endOffset fuel p false out hdeg.1 hdeg.2 h
        omega
      · have hbig := scanLoop_mono _ _ fuel (file.length + 1) _ _ _ h
        rw [scanLoop_chunked file chunk hchunk endOffset hne _ p false (by omega)
          (by intro he; by_contra hc; exact hdeg ⟨he, by omega⟩)] at hbig
        simp only [Except.ok.injEq] at hbig
        change scanSpec file.length endOffset p (nextRecordStart file p) = out at hbig
        cases hnext : nextRecordStart file p with
        | some o =>
          have hspec := nextRecordStart_some file p o hnext
          rw [hnext] at hbig
          simp only [scanSpec] at hbig
          split at hbig
          · rw [← hbig] at hfound; simp at hfound
          · left
            refine ⟨o, by rw [← hbig], by exact_mod_cast hspec.1, hspec.2.1, ?_⟩
            intro q hq hR
            exact hspec.2.2 q (by exact_mod_cast hq) hR
        | none =>
          have hspec := nextRecordStart_none file p hnext
          rw [hnext] at hbig
          simp only [scanSpec] at hbig
          split at hbig
          · split at hbig
            · rw [← hbig] at hfound; simp at hfound
            · rw [← hbig] at hfound; simp at hfound
          · rename_i he
            right
            refine ⟨by omega, ?_, ?_⟩
            · intro q hq; exact hspec q (by exact_mod_cast hq)
            · rw [← hbig]; simp

/-- C3, witness: the scan of the example file from offset 5, bound 31, with
reads of at most seven bytes, finds offset 10. -/
theorem ScanForSync_found_is_first_record_start_witness :
    (∃ p : Nat, (10 : Int) = p ∧ (5 : Int) < p ∧ isRecordStart exampleFile p ∧
        ∀ q : Nat, (5 : Int) < q → isRecordStart exampleFile q → p ≤ q) ∨
    ((31 : Int) < 0 ∧ (∀ q : Nat, (5 : Int) < q → ¬ isRecordStart exampleFile q) ∧
        (10 : Int) = max (5 : Int) exampleFile.length) :=
  ScanForSync_found_is_first_record_start exampleFile (fun _ => 7) (fun _ _ => (by decide : 1 ≤ 7))
    50 5 31 ⟨10, none⟩ (by rfl) (by decide)

/-- C4. An unbounded scan of a file that meets no line delimiter after its
start offset returns, as its found offset, the offset at which it met the end
of the file (the file length, for a start offset inside the file), with no
error buffer; `AdjustEndOffset` returns that offset and sends nothing. -/
theorem ScanForSync_unbounded_reaches_eof (file : List Byte) (chunk : Int → Nat)
    (hchunk : ∀ o : Nat, o < file.length → 1 ≤ chunk o) (fuel startOffset : Nat)
    (hfuel : file.length - startOffset < fuel)
    (hno : ∀ q : Nat, startOffset < q → ¬ isRecordStart file q) :
    ScanForSync (chunkedBridge file chunk) fuel startOffset (-1) =
        .ok ⟨(max startOffset file.length : Nat), none⟩ ∧
      AdjustEndOffset (chunkedBridge file chunk) fuel startOffset =
        .ok ((max startOffset file.length : Nat), none) := by
  have h := ScanForSync_chunked file chunk hchunk fuel startOffset (-1) hfuel (by decide)
    (by intro h; simp at h)
  rw [nextRecordStart_eq_none file startOffset hno] at h
  have h' : ScanForSync (chunkedBridge file chunk) fuel startOffset (-1) =
      .ok ⟨(max startOffset file.length : Nat), none⟩ := by
    rw [h]; simp [scanSpec]
  refine ⟨h', ?_⟩
  simp only [AdjustEndOffset, h']
  have h1 : ¬ (((max startOffset file.length : Nat) : Int) < -1) := by omega
  have h2 : ¬ ¬ (startOffset : Int) ≤ ((max startOffset file.length : Nat) : Int) := by
    have : startOffset ≤ max startOffset file.length := le_max_left _ _
    omega
  rw [if_neg h1, if_neg h2]

/-- C4, witness: the unbounded scan of `abc` from offset 1 returns offset 3. -/
theorem ScanForSync_unbounded_reaches_eof_witness :
    ScanForSync (chunkedBridge [97, 98, 99] (fun _ => 1)) 5 (1 : Nat) (-1) =
        .ok ⟨(max 1 [97, 98, 99].length : Nat), none⟩ ∧
      AdjustEndOffset (chunkedBridge [97, 98, 99] (fun _ => 1)) 5 (1 : Nat) =
        .ok ((max 1 [97, 98, 99].length : Nat), none) :=
  ScanForSync_unbounded_reaches_eof [97, 98, 99] (fun _ => 1) (fun _ _ => (by decide : 1 ≤ 1)) 5 1
    (by decide) (by
      intro q hq hR
      rcases hR with ⟨_, h | ⟨h, _⟩⟩
      · rcases q with _ | _ | _ | _ | q <;> simp [LF] at h hq
      · rcases q with _ | _ | _ | _ | q <;> simp [CR] at h hq)

/-- C5, counterexample. On the two-byte file `ab` the scan from offset 1 with
bound 3 meets no line delimiter and returns a read failure (`-2` with an abort
buffer), not `-1`. -/
theorem C5_counterexample :
    ScanForSync (fileBridge [97, 98]) 3 1 3 =
        .ok ⟨-2, some (.abort .DryadError_ChannelReadError (.eofEarly 2 3))⟩ ∧
      ∀ q : Nat, 1 < q → ¬ isRecordStart [97, 98] q := by
  refine ⟨by rfl, ?_⟩
  intro q hq hR
  rcases hR with ⟨_, h | ⟨h, _⟩⟩
  · rcases q with _ | _ | _ | q <;> simp [LF] at h hq
  · rcases q with _ | _ | _ | q <;> simp [CR] at h hq

/-- C5, amended. For every file, every `startOffset` and every bound
`endOffset > startOffset`, if no record start lies strictly between them, the
bounded scan returns `-1` (not found, no error buffer) when the file has at
least `endOffset` bytes, and a read failure (`-2` with an abort buffer carrying
`ChannelReadError`) when the file ends before `endOffset`. -/
theorem ScanForSync_bounded_without_record_start (file : List Byte) (chunk : Int → Nat)
    (hchunk : ∀ o : Nat, o < file.length → 1 ≤ chunk o) (fuel startOffset : Nat)
    (endOffset : Int) (hfuel : file.length - startOffset < fuel)
    (hbound : (startOffset : Int) < endOffset)
    (hno : ∀ q : Nat, startOffset < q → (q : Int) < endOffset → ¬ isRecordStart file q) :
    ScanForSync (chunkedBridge file chunk) fuel startOffset endOffset =
      .ok (if endOffset ≤ (file.length : Int) then ⟨-1, none⟩
           else ⟨-2, some (.abort .DryadError_ChannelReadError
                   (.eofEarly (max startOffset file.length : Nat) endOffset))⟩) := by
  have he : 0 < endOffset := by omega
  rw [ScanForSync_chunked file chunk hchunk fuel startOffset endOffset hfuel (by omega)
    (fun _ => hbound)]
  cases hnext : nextRecordStart file startOffset with
  | some o =>
    have hspec := nextRecordStart_some file startOffset o hnext
    have hle := nextRecordStart_le_length file startOffset o hnext
    have hge : endOffset ≤ (o : Int) := by
      by_contra hc
      exact hno o hspec.1 (by omega) hspec.2.1
    have h1 : endOffset ≤ (file.length : Int) := by omega
    simp [scanSpec, he, hge, h1]
  | none => simp [scanSpec, he]

/-- C5, witness: on `abcd` the scan from offset 1 with bound 3 returns `-1`. -/
theorem ScanForSync_bounded_without_record_start_witness :
    ScanForSync (chunkedBridge [97, 98, 99, 100] (fun _ => 1)) 5 (1 : Nat) 3 =
      .ok (if (3 : Int) ≤ ([97, 98, 99, 100].length : Int) then ⟨-1, none⟩
           else ⟨-2, some (.abort .DryadError_ChannelReadError
                   (.eofEarly (max 1 [97, 98, 99, 100].length : Nat) 3))⟩) :=
  ScanForSync_bounded_without_record_start [97, 98, 99, 100] (fun _ => 1)
    (fun _ _ => (by decide : 1 ≤ 1)) 5 1 3 (by decide) (by decide) (by
      intro q hq _ hR
      rcases hR with ⟨_, h | ⟨h, _⟩⟩
      · rcases q with _ | _ | _ | _ | _ | q <;> simp [LF] at h hq
      · rcases q with _ | _ | _ | _ | _ | q <;> simp [CR] at h hq)

/-- C6. For every bounded scan (`endOffset > 0`) of every file, whatever the
sizes of the reads, a found offset it returns is strictly greater than
`startOffset` and does not exceed `endOffset`. -/
theorem ScanForSync_bounded_found_in_range (file : List Byte) (chunk : Int → Nat)
    (fuel : Nat) (startOffset endOffset : Int) (out : ScanOut) (he : 0 < endOffset)
    (h : ScanForSync (chunkedBridge file chunk) fuel startOffset endOffset = .ok out)
    (hfound : -1 < out.foundOffset) :
    startOffset < out.foundOffset ∧ out.foundOffset ≤ endOffset :=
  ScanForSync_found_bounds _ (chunkedBridge_wellFormed file chunk) fuel startOffset endOffset
    out he h hfound

/-- C6, witness: the scan of the example file from 5 with bound 31 finds 10. -/
theorem ScanForSync_bounded_found_in_range_witness :
    (5 : Int) < (⟨10, none⟩ : ScanOut).foundOffset ∧
      (⟨10, none⟩ : ScanOut).foundOffset ≤ 31 :=
  ScanForSync_bounded_found_in_range exampleFile (fun _ => 7) 50 5 31 ⟨10, none⟩ (by decide)
    (by rfl) (by decide)

/-! ## The reader: permits -/

theorem delivered_append (t u : List Event) : delivered (t ++ u) = delivered t ++ delivered u := by
  induction t with
  | nil => rfl
  | cons e t ih => cases e <;> simp [delivered, ih]

theorem ReadDataBuffer_ok (bridge : Bridge) (offset endOffset newOffset : Int)
    (events : List Event) (h : ReadDataBuffer bridge offset endOffset = .ok (newOffset, events)) :
    ∃ size buffer, events = [.readBlock offset size, .processBuffer buffer] ∧
      size = min (endOffset - offset) s_readBufferSize ∧ 0 < size ∧
      ((newOffset = -1 ∧ (∃ d, buffer = .abort .DryadError_ChannelReadError d) ∧
          ∀ bs, bridge offset size = .bytes bs → (bs.length : Int) ≠ size) ∨
       (∃ bs, buffer = .data offset bs ∧ bridge offset size = .bytes bs ∧
          (bs.length : Int) = size ∧ newOffset = offset + size)) := by
  simp only [ReadDataBuffer] at h
  generalize hsz : (if endOffset - offset < s_readBufferSize then endOffset - offset
    else s_readBufferSize) = size at h
  have hmin : size = min (endOffset - offset) s_readBufferSize := by
    rw [← hsz]; split <;> omega
  split at h
  · simp at h
  · rename_i hpos
    simp only [not_not] at hpos
    split at h
    · rename_i hb
      simp only [Except.ok.injEq, Prod.mk.injEq] at h
      exact ⟨size, _, h.2.symm, hmin, hpos, Or.inl ⟨h.1.symm, ⟨_, rfl⟩, by simp [hb]⟩⟩
    · rename_i hb
      simp only [Except.ok.injEq, Prod.mk.injEq] at h
      exact ⟨size, _, h.2.symm, hmin, hpos, Or.inl ⟨h.1.symm, ⟨_, rfl⟩, by simp [hb]⟩⟩
    · rename_i bs hb
      split at h
      · rename_i hne
        simp only [Except.ok.injEq, Prod.mk.injEq] at h
        refine ⟨size, _, h.2.symm, hmin, hpos, Or.inl ⟨h.1.symm, ⟨_, rfl⟩, ?_⟩⟩
        intro bs' hbs'
        rw [hb] at hbs'
        simp only [ReadOutcome.bytes.injEq] at hbs'
        rw [← hbs']; exact hne
      · rename_i heq
        simp only [ne_eq, not_not] at heq
        simp only [Except.ok.injEq, Prod.mk.injEq] at h
        exact ⟨size, _, h.2.symm, hmin, hpos, Or.inr ⟨bs, rfl, hb, heq, by rw [← h.1, heq]⟩⟩

theorem stepStart_frame (env : ReaderEnv) (s : ReaderState) :
    (stepStart env s).permits = s.permits ∧ (stepStart env s).returned = s.returned ∧
    (stepStart env s).drained = s.drained ∧ (stepStart env s).abort = s.abort ∧
    (stepStart env s).trace = s.trace ∧ (stepStart env s).held = 0 := by
  simp only [stepStart]
  split
  · simp [ReaderState.held]
  · split <;> simp [ReaderState.held]

theorem stepAlignEnd_frame (env : ReaderEnv) (s : ReaderState) (offset : Int) :
    (stepAlignEnd env s offset).permits = s.permits ∧
    (stepAlignEnd env s offset).returned = s.returned ∧
    (stepAlignEnd env s offset).drained = s.drained ∧
    (stepAlignEnd env s offset).abort = s.abort ∧
    delivered (stepAlignEnd env s offset).trace = delivered s.trace ∧
    (stepAlignEnd env s offset).held = 0 := by
  simp only [stepAlignEnd]
  split
  · split
    · simp [ReaderState.held, delivered_append, delivered]
    · simp [ReaderState.held, delivered_append, delivered]
    · split
      · simp [ReaderState.held, delivered_append, delivered]
      · split <;> simp [ReaderState.held, delivered_append, delivered]
  · split <;> simp [ReaderState.held]

theorem stepOpening_frame (env : ReaderEnv) (s : ReaderState) :
    (stepOpening env s).permits = s.permits ∧ (stepOpening env s).returned = s.returned ∧
    (stepOpening env s).drained = s.drained ∧ (stepOpening env s).abort = s.abort ∧
    delivered (stepOpening env s).trace = delivered s.trace ∧
    (stepOpening env s).held = 0 := by
  simp only [stepOpening, stepAlignStart]
  split
  · simp [ReaderState.held]
  · split
    · simp [ReaderState.held]
    · have hd : delivered (if 0 < s.offsetStart then
          { s with trace := s.trace ++ [Event.scan s.offsetStart (s.offsetEnd + 1)] }
          else s).trace = delivered s.trace := by
        split <;> simp [delivered_append, delivered]
      have hf : ∀ (t : ReaderState), t = (if 0 < s.offsetStart then
          { s with trace := s.trace ++ [Event.scan s.offsetStart (s.offsetEnd + 1)] }
          else s) → t.permits = s.permits ∧ t.returned = s.returned ∧
            t.drained = s.drained ∧ t.abort = s.abort ∧ t.offsetStart = s.offsetStart ∧
            t.offsetEnd = s.offsetEnd := by
        intro t ht; rw [ht]; split <;> simp
      generalize (if 0 < s.offsetStart then
          { s with trace := s.trace ++ [Event.scan s.offsetStart (s.offsetEnd + 1)] }
          else s) = t at hd hf
      have hf := hf t rfl
      split
      · simp [ReaderState.held, hd, hf]
      · simp [ReaderState.held, hd, hf]
      · rename_i off _
        split
        · simp [ReaderState.held, hd, hf]
        · have h2 := stepAlignEnd_frame env { t with offset := off, scannedFinal := false } off
          exact ⟨h2.1.trans hf.1, h2.2.1.trans hf.2.1, h2.2.2.1.trans hf.2.2.1,
            h2.2.2.2.1.trans hf.2.2.2.1, h2.2.2.2.2.1.trans hd, h2.2.2.2.2.2⟩

theorem stepReading_frame (env : ReaderEnv) (s : ReaderState) :
    (stepReading env s).permits = s.permits ∧ (stepReading env s).returned = s.returned ∧
    (stepReading env s).drained = s.drained ∧ (stepReading env s).abort = s.abort ∧
    (delivered s.trace).length ≤ (delivered (stepReading env s).trace).length ∧
    (delivered (stepReading env s).trace).length ≤ (delivered s.trace).length + 1 ∧
    ((∃ f, (stepReading env s).pc = .crashed f) ∨
      ((delivered (stepReading env s).trace).length = (delivered s.trace).length + 1 ∧
        (stepReading env s).held = 0)) := by
  simp only [stepReading]
  split
  · simp
  · rename_i newOffset events hr
    obtain ⟨size, buffer, hev, -⟩ := ReadDataBuffer_ok _ _ _ _ _ hr
    subst hev
    split
    · split
      · simp [delivered_append, delivered]
      · simp [delivered_append, delivered, ReaderState.held]
      · split <;> simp [delivered_append, delivered, ReaderState.held]
    · simp [delivered_append, delivered, ReaderState.held]

theorem PermitInv_initial : PermitInv ReaderState.initial := by
  simp [PermitInv, ReaderState.initial, delivered, ReaderState.outstanding, ReaderState.held]

theorem PermitInv_of_sum (s : ReaderState) (hret : s.returned ≤ (delivered s.trace).length)
    (hsum : s.permits + s.outstanding + s.held + s.drained = s_maxBuffersOut) :
    PermitInv s :=
  ⟨hret, by omega, Or.inr hsum⟩

theorem PermitInv_step (env : ReaderEnv) (s : ReaderState) (a : Action) (h : PermitInv s) :
    PermitInv (step env s a) := by
  by_cases hcr : ∃ f, s.pc = .crashed f
  · obtain ⟨f, hf⟩ := hcr
    have : step env s a = s := by
      cases a <;> simp [step, threadStep, ReturnBuffer, Interrupt, drainWait, hf]
    rw [this]; exact h
  obtain ⟨hret, hle, hsum⟩ := h
  have hsum : s.permits + s.outstanding + s.held + s.drained = s_maxBuffersOut := by
    rcases hsum with hc | hsum
    · exact absurd hc hcr
    · exact hsum
  cases a with
  | thread =>
    simp only [step, threadStep]
    cases hpc : s.pc with
    | start =>
      have hf := stepStart_frame env s
      simp only [ReaderState.outstanding, ReaderState.held, hpc, Nat.add_zero] at hsum
      apply PermitInv_of_sum
      · simpa [hf] using hret
      · simp only [Option.getD_some, ReaderState.outstanding, hf]
        omega
    | opening =>
      have hf := stepOpening_frame env s
      simp only [ReaderState.outstanding, ReaderState.held, hpc, Nat.add_zero] at hsum
      apply PermitInv_of_sum
      · simpa [hf] using hret
      · simp only [Option.getD_some, ReaderState.outstanding, hf]
        omega
    | loop =>
      simp only [ReaderState.outstanding, ReaderState.held, hpc, Nat.add_zero] at hsum
      simp only [stepLoop]
      split
      · split
        · apply PermitInv_of_sum
          · simpa using hret
          · simpa [ReaderState.outstanding, ReaderState.held] using hsum
        · split
          · apply PermitInv_of_sum
            · simpa using hret
            · simp only [Option.getD_some, ReaderState.outstanding, ReaderState.held]
              omega
          · apply PermitInv_of_sum
            · simpa using hret
            · simpa [ReaderState.outstanding, ReaderState.held, hpc] using hsum
      · split
        · apply PermitInv_of_sum
          · simpa using hret
          · simpa [ReaderState.outstanding, ReaderState.held] using hsum
        · apply PermitInv_of_sum
          · simpa using hret
          · simpa [ReaderState.outstanding, ReaderState.held] using hsum
    | acquired =>
      simp only [ReaderState.outstanding, ReaderState.held, hpc] at hsum
      simp only [stepAcquired, Option.getD_some]
      split
      · split
        · apply PermitInv_of_sum
          · simpa using hret
          · simp only [ReaderState.outstanding, ReaderState.held]
            omega
        · exact ⟨by simpa using hret, by simpa [ReaderState.outstanding] using hle,
            Or.inl ⟨_, rfl⟩⟩
      · apply PermitInv_of_sum
        · simpa using hret
        · simpa [ReaderState.outstanding, ReaderState.held] using hsum
    | reading =>
      simp only [ReaderState.outstanding, ReaderState.held, hpc] at hsum
      have hf := stepReading_frame env s
      obtain ⟨h1, h2, h3, _, h5, h6, h7⟩ := hf
      simp only [Option.getD_some]
      rcases h7 with hc | ⟨hl, hh⟩
      · refine ⟨by omega, ?_, Or.inl hc⟩
        simp only [ReaderState.outstanding, h1, h2, h3]
        omega
      · apply PermitInv_of_sum
        · omega
        · simp only [ReaderState.outstanding, h1, h2, h3, hl, hh]
          omega
    | sending buffer =>
      simp only [ReaderState.outstanding, ReaderState.held, hpc, Nat.add_zero] at hsum
      simp only [stepSending]
      split
      · apply PermitInv_of_sum
        · simpa [delivered_append, delivered] using hret
        · simpa [ReaderState.outstanding, ReaderState.held, delivered_append, delivered]
            using hsum
      · split
        · apply PermitInv_of_sum
          · simpa using hret
          · simp only [Option.getD_some, ReaderState.outstanding, ReaderState.held]
            omega
        · apply PermitInv_of_sum
          · simpa using hret
          · simpa [ReaderState.outstanding, ReaderState.held, hpc] using hsum
    | delivering buffer =>
      simp only [ReaderState.outstanding, ReaderState.held, hpc] at hsum
      simp only [stepDelivering, Option.getD_some]
      apply PermitInv_of_sum
      · simp only [delivered_append, delivered, List.length_append, List.length_singleton]
        omega
      · simp only [ReaderState.outstanding, ReaderState.held, delivered_append, delivered,
          List.length_append, List.length_singleton]
        omega
    | exited => simpa using PermitInv_of_sum s hret hsum
    | crashed f => exact absurd ⟨f, hpc⟩ hcr
  | returnBuffer =>
    simp only [step, ReturnBuffer]
    split
    · simpa using PermitInv_of_sum s hret hsum
    · split
      · rename_i hlt
        split
        · apply PermitInv_of_sum
          · simp only [Option.getD_some]; omega
          · simp only [ReaderState.outstanding, ReaderState.held] at hsum ⊢
            simp only [Option.getD_some]
            omega
        · exact ⟨by simpa using hret, by simpa [ReaderState.outstanding] using hle,
            Or.inl ⟨_, rfl⟩⟩
      · simpa using PermitInv_of_sum s hret hsum
  | interrupt =>
    simp only [step, Interrupt]
    split
    · simpa using PermitInv_of_sum s hret hsum
    · apply PermitInv_of_sum
      · simpa using hret
      · simpa [ReaderState.outstanding, ReaderState.held] using hsum
  | drainWait =>
    simp only [step, drainWait]
    split
    · rename_i hc
      apply PermitInv_of_sum
      · simpa using hret
      · simp only [ReaderState.outstanding, ReaderState.held, hc.1] at hsum ⊢
        simp only [Option.getD_some]
        omega
    · simpa using PermitInv_of_sum s hret hsum

theorem run_append (env : ReaderEnv) (s : ReaderState) (xs ys : List Action) :
    run env s (xs ++ ys) = run env (run env s xs) ys := by
  simp [run, List.foldl_append]

theorem run_invariant (env : ReaderEnv) (P : ReaderState → Prop)
    (hstep : ∀ s a, P s → P (step env s a)) :
    ∀ (schedule : List Action) (s : ReaderState), P s → P (run env s schedule) := by
  intro schedule
  induction schedule with
  | nil => intro s h; exact h
  | cons a rest ih => intro s h; exact ih _ (hstep s a h)

theorem step_crashed (env : ReaderEnv) (s : ReaderState) (a : Action) (f : Fault)
    (h : s.pc = .crashed f) : step env s a = s := by
  cases a <;> simp [step, threadStep, ReturnBuffer, Interrupt, drainWait, h]

theorem step_stopped (env : ReaderEnv) (s : ReaderState) (a : Action) (h : Stopped s) :
    Stopped (step env s a) ∧ (step env s a).trace = s.trace := by
  rcases h with h | ⟨f, h⟩
  · cases a with
    | thread => simp [step, threadStep, h, Stopped]
    | returnBuffer =>
      simp only [step, ReturnBuffer, h]
      split
      · split
        · exact ⟨Or.inl rfl, rfl⟩
        · exact ⟨Or.inr ⟨_, rfl⟩, rfl⟩
      · exact ⟨Or.inl h, rfl⟩
    | interrupt => simp [step, Interrupt, h, Stopped]
    | drainWait =>
      simp only [step, drainWait]
      split
      · exact ⟨Or.inl h, rfl⟩
      · exact ⟨Or.inl h, rfl⟩
  · rw [step_crashed env s a f h]
    exact ⟨Or.inr ⟨f, h⟩, rfl⟩

theorem run_stopped (env : ReaderEnv) (schedule : List Action) :
    ∀ s, Stopped s → Stopped (run env s schedule) ∧ (run env s schedule).trace = s.trace := by
  induction schedule with
  | nil => intro s h; exact ⟨h, rfl⟩
  | cons a rest ih =>
    intro s h
    obtain ⟨h1, h2⟩ := step_stopped env s a h
    obtain ⟨h3, h4⟩ := ih _ h1
    exact ⟨h3, h4.trans h2⟩

theorem delivering_delivers (env : ReaderEnv) (b : RChannelBuffer) :
    ∀ (more : List Action) (s : ReaderState), s.pc = .delivering b →
      s.returned = (delivered s.trace).length → Action.thread ∈ more →
      delivered (run env s more).trace = delivered s.trace ++ [b] ∧
        Stopped (run env s more) := by
  intro more
  induction more with
  | nil => intro s _ _ h; simp at h
  | cons a rest ih =>
    intro s hpc hret hmem
    by_cases ha : a = .thread
    · subst ha
      have hst : step env s .thread = stepDelivering s b := by
        simp [step, threadStep, hpc]
      have h := run_stopped env rest (stepDelivering s b) (Or.inl rfl)
      simp only [run, List.foldl_cons] at h ⊢
      rw [hst]
      refine ⟨?_, h.1⟩
      rw [h.2]
      simp [stepDelivering, delivered_append, delivered]
    · have hst : step env s a = s ∨ step env s a = { s with abort := true } := by
        cases a with
        | thread => exact absurd rfl ha
        | returnBuffer => left; simp [step, ReturnBuffer, hpc, hret]
        | interrupt => right; simp [step, Interrupt, hpc]
        | drainWait => left; simp [step, drainWait, hpc]
      have hmem2 : Action.thread ∈ rest := by
        rcases List.mem_cons.mp hmem with h | h
        · exact absurd h.symm ha
        · exact h
      simp only [run, List.foldl_cons]
      rcases hst with hst | hst
      · rw [hst]; exact ih s hpc hret hmem2
      · rw [hst]; exact ih { s with abort := true } hpc hret hmem2

theorem PermitInv_run (env : ReaderEnv) (schedule : List Action) :
    PermitInv (run env ReaderState.initial schedule) :=
  run_invariant env PermitInv (PermitInv_step env) schedule _ PermitInv_initial

set_option maxRecDepth 4000 in
/-- C10, counterexample. After the session thread of a reader of the example
file has taken a permit for its first read (three thread steps), three permits
are free and no buffer has been delivered: free permits plus outstanding
buffers is 3, not 4. And after a complete session followed by `Drain`, no
permit is free and nothing is outstanding: the sum is 0. -/
theorem C10_counterexample :
    (run (fileEnv exampleFile 0 40 50) ReaderState.initial
        [.thread, .thread, .thread]).pc = .acquired ∧
    (run (fileEnv exampleFile 0 40 50) ReaderState.initial
        [.thread, .thread, .thread]).permits = 3 ∧
    (run (fileEnv exampleFile 0 40 50) ReaderState.initial
        [.thread, .thread, .thread]).outstanding = 0 ∧
    (run exampleEnv exampleFinal
        [.returnBuffer, .interrupt, .drainWait, .drainWait, .drainWait, .drainWait]).permits
      = 0 ∧
    (run exampleEnv exampleFinal
        [.returnBuffer, .interrupt, .drainWait, .drainWait, .drainWait, .drainWait]).outstanding
      = 0 := by
  refine ⟨by rfl, by rfl, by rfl, by rfl, by rfl⟩

/-- C10, amended. In every reachable state of a reader, for any handler
consumption pattern, the number of buffers delivered to the handler and not yet
returned through `ReturnBuffer` is at most 4 (`s_maxBuffersOut`); and while the
process has not stopped on a failed assertion, free permits plus outstanding
delivered buffers plus the permit held by the session thread plus the permits
taken by `Drain` equals 4. The thread holds a permit, one, exactly between a
wait that took it and what it was taken for: from the wait of line 653 to the
delivery of the block read (or the release of line 669), and from the wait of
`SendBuffer` (line 349) to the `ProcessBuffer` call that hands over the marker
(line 363). -/
theorem outstanding_le_maxBuffersOut (env : ReaderEnv) (schedule : List Action) :
    (run env ReaderState.initial schedule).outstanding ≤ s_maxBuffersOut ∧
    ((∃ f, (run env ReaderState.initial schedule).pc = .crashed f) ∨
      (run env ReaderState.initial schedule).permits +
        (run env ReaderState.initial schedule).outstanding +
        (run env ReaderState.initial schedule).held +
        (run env ReaderState.initial schedule).drained = s_maxBuffersOut) ∧
    (run env ReaderState.initial schedule).held ≤ 1 ∧
    ((run env ReaderState.initial schedule).held = 1 ↔
      ((run env ReaderState.initial schedule).pc = .acquired ∨
        (run env ReaderState.initial schedule).pc = .reading ∨
        ∃ b, (run env ReaderState.initial schedule).pc = .delivering b)) := by
  have h := PermitInv_run env schedule
  refine ⟨by have := h.2.1; omega, h.2.2, ?_, ?_⟩
  · cases hpc : (run env ReaderState.initial schedule).pc <;> simp [ReaderState.held, hpc]
  · cases hpc : (run env ReaderState.initial schedule).pc <;> simp [ReaderState.held, hpc]

/-! ## The reader: a range without record start -/

theorem NoRecordInv_step (env : ReaderEnv) (os len : Int) (hinit : env.initialized = true)
    (hparsed : env.parsed = some (os, len)) (hinst : env.openedInstance = true)
    (hrd : env.openedReader = true) (hpos : 0 < os)
    (hscan : ScanForSync env.bridge env.scanFuel os (os + len + 1) = .ok ⟨-1, none⟩)
    (s : ReaderState) (a : Action) (hperm : PermitInv s) (h : NoRecordInv os len s) :
    NoRecordInv os len (step env s a) := by
  rcases h with ⟨hpc, ht, hp⟩ | ⟨hpc, ht, hp, h1, h2⟩ | ⟨hpc, ht, hp⟩ | ⟨hpc, ht⟩ |
    ⟨hpc, ht, hp⟩
  · cases a with
    | thread =>
      right; left
      simp [step, threadStep, hpc, stepStart, hinit, hparsed, ht, hp]
    | returnBuffer =>
      left
      simp [step, ReturnBuffer, hpc, ht, hp, delivered]
    | interrupt => left; simp [step, Interrupt, hpc, ht, hp]
    | drainWait => left; simp [step, drainWait, hpc, ht, hp]
  · cases a with
    | thread =>
      right; right; left
      simp [step, threadStep, hpc, stepOpening, stepAlignStart, hinst, hrd, h1, h2, hpos,
        AdjustStartOffset, hscan, ht, hp]
    | returnBuffer =>
      right; left
      simp [step, ReturnBuffer, hpc, ht, hp, delivered, h1, h2]
    | interrupt => right; left; simp [step, Interrupt, hpc, ht, hp, h1, h2]
    | drainWait => right; left; simp [step, drainWait, hpc, ht, hp, h1, h2]
  · cases a with
    | thread =>
      simp only [step, threadStep, hpc, stepSending]
      by_cases hab : s.abort = true
      · right; right; right; left
        simp [hab, ht]
      · right; right; right; right
        simp [hab, hp, ht, s_maxBuffersOut]
    | returnBuffer =>
      right; right; left
      simp [step, ReturnBuffer, hpc, ht, hp, delivered]
    | interrupt => right; right; left; simp [step, Interrupt, hpc, ht, hp]
    | drainWait => right; right; left; simp [step, drainWait, hpc, ht, hp]
  · right; right; right; left
    cases a with
    | thread => simpa [step, threadStep, hpc] using ht
    | returnBuffer =>
      simp only [step, ReturnBuffer, hpc]
      split
      · split
        · simpa [hpc] using ht
        · exfalso
          rename_i hlt hfull
          have := hperm.2.1
          simp only [ReaderState.outstanding] at this
          omega
      · simpa [hpc] using ht
    | interrupt =>
      simp only [step, Interrupt, hpc]
      rcases ht with ht | ht
      · simp [ht]
      · simp [ht]
    | drainWait =>
      simp only [step, drainWait]
      split
      · simpa [hpc] using ht
      · simpa [hpc] using ht
  · cases a with
    | thread =>
      right; right; right; left
      simp [step, threadStep, hpc, stepDelivering, ht]
    | returnBuffer =>
      right; right; right; right
      simp [step, ReturnBuffer, hpc, ht, hp, delivered]
    | interrupt => right; right; right; right; simp [step, Interrupt, hpc, ht, hp]
    | drainWait => right; right; right; right; simp [step, drainWait, hpc, ht, hp]

theorem NoRecordInv_run (env : ReaderEnv) (os len : Int) (hinit : env.initialized = true)
    (hparsed : env.parsed = some (os, len)) (hinst : env.openedInstance = true)
    (hrd : env.openedReader = true) (hpos : 0 < os)
    (hscan : ScanForSync env.bridge env.scanFuel os (os + len + 1) = .ok ⟨-1, none⟩)
    (schedule : List Action) :
    PermitInv (run env ReaderState.initial schedule) ∧
      NoRecordInv os len (run env ReaderState.initial schedule) :=
  run_invariant env (fun s => PermitInv s ∧ NoRecordInv os len s)
    (fun s a h => ⟨PermitInv_step env s a h.1,
      NoRecordInv_step env os len hinit hparsed hinst hrd hpos hscan s a h.1 h.2⟩)
    schedule _ ⟨PermitInv_initial, Or.inl ⟨rfl, rfl, rfl⟩⟩

theorem NoRecordInv_thread (env : ReaderEnv) (os len : Int) (hinit : env.initialized = true)
    (hparsed : env.parsed = some (os, len)) (hinst : env.openedInstance = true)
    (hrd : env.openedReader = true) (hpos : 0 < os)
    (hscan : ScanForSync env.bridge env.scanFuel os (os + len + 1) = .ok ⟨-1, none⟩)
    (s : ReaderState) (h : NoRecordInv os len s) :
    (s.pc = .start → (step env s .thread).pc = .opening) ∧
    (s.pc = .opening → (step env s .thread).pc = .sending .endOfStream) ∧
    (s.pc = .sending .endOfStream →
      (s.abort = true → (step env s .thread).pc = .exited ∧
        (step env s .thread).trace = s.trace ++ [.discard .endOfStream]) ∧
      (s.abort = false → (step env s .thread).pc = .delivering .endOfStream ∧
        (step env s .thread).trace = s.trace ∧
        (step env s .thread).returned = s.returned)) ∧
    (s.pc = .delivering .endOfStream → (step env s .thread).pc = .exited) ∧
    (s.pc = .exited → (step env s .thread).pc = .exited) := by
  refine ⟨?_, ?_, ?_, ?_, ?_⟩
  · intro hpc
    simp [step, threadStep, hpc, stepStart, hinit, hparsed]
  · intro hpc
    rcases h with ⟨h, _⟩ | ⟨_, ht, hp, h1, h2⟩ | ⟨h, _⟩ | ⟨h, _⟩ | ⟨h, _⟩
    · rw [hpc] at h; simp at h
    · simp [step, threadStep, hpc, stepOpening, stepAlignStart, hinst, hrd, h1, h2, hpos,
        AdjustStartOffset, hscan]
    · rw [hpc] at h; simp at h
    · rw [hpc] at h; simp at h
    · rw [hpc] at h; simp at h
  · intro hpc
    rcases h with ⟨h, _⟩ | ⟨h, _⟩ | ⟨_, ht, hp⟩ | ⟨h, _⟩ | ⟨h, _⟩
    · rw [hpc] at h; simp at h
    · rw [hpc] at h; simp at h
    · refine ⟨fun hab => ?_, fun hab => ?_⟩
      · simp [step, threadStep, hpc, stepSending, hab]
      · simp [step, threadStep, hpc, stepSending, hab, hp, s_maxBuffersOut]
    · rw [hpc] at h; simp at h
    · rw [hpc] at h; simp at h
  · intro hpc
    simp [step, threadStep, hpc, stepDelivering]
  · intro hpc
    simp [step, threadStep, hpc]

theorem NoRecordInv_stops (env : ReaderEnv) (os len : Int) (hinit : env.initialized = true)
    (hparsed : env.parsed = some (os, len)) (hinst : env.openedInstance = true)
    (hrd : env.openedReader = true) (hpos : 0 < os)
    (hscan : ScanForSync env.bridge env.scanFuel os (os + len + 1) = .ok ⟨-1, none⟩) :
    ∀ (k : Nat) (t : ReaderState), PermitInv t → NoRecordInv os len t →
      (t.pc = .exited ∨ (1 ≤ k ∧ t.pc = .delivering .endOfStream) ∨
        (2 ≤ k ∧ t.pc = .sending .endOfStream) ∨ (3 ≤ k ∧ t.pc = .opening) ∨
        (4 ≤ k ∧ t.pc = .start)) →
      (run env t (List.replicate k .thread)).pc = .exited := by
  intro k
  induction k with
  | zero =>
    intro t _ _ h
    rcases h with h | ⟨h, _⟩ | ⟨h, _⟩ | ⟨h, _⟩ | ⟨h, _⟩
    · exact h
    all_goals omega
  | succ k ih =>
    intro t hperm hinv h
    have hth := NoRecordInv_thread env os len hinit hparsed hinst hrd hpos hscan t hinv
    have hperm2 := PermitInv_step env t .thread hperm
    have hinv2 := NoRecordInv_step env os len hinit hparsed hinst hrd hpos hscan t .thread
      hperm hinv
    simp only [List.replicate_succ, run, List.foldl_cons]
    refine ih _ hperm2 hinv2 ?_
    rcases h with h | ⟨hk, h⟩ | ⟨hk, h⟩ | ⟨hk, h⟩ | ⟨hk, h⟩
    · exact Or.inl (hth.2.2.2.2 h)
    · exact Or.inl (hth.2.2.2.1 h)
    · by_cases hab : t.abort = true
      · exact Or.inl ((hth.2.2.1 h).1 hab).1
      · have hab2 : t.abort = false := by simpa using hab
        exact Or.inr (Or.inl ⟨by omega, ((hth.2.2.1 h).2 hab2).1⟩)
    · exact Or.inr (Or.inr (Or.inl ⟨by omega, hth.2.1 h⟩))
    · exact Or.inr (Or.inr (Or.inr (Or.inl ⟨by omega, hth.1 h⟩)))

/-- C7, counterexample. The reader of `abcd` with range `[1,2)` finds no record
start; when the abort signal is set before its thread runs, the session exits
having delivered nothing, the `EndOfStream` marker being discarded. -/
theorem C7_counterexample :
    ScanForSync (fileEnv [97, 98, 99, 100] 1 1 5).bridge 5 1 (1 + 1 + 1) = .ok ⟨-1, none⟩ ∧
    (run (fileEnv [97, 98, 99, 100] 1 1 5) ReaderState.initial
        [.interrupt, .thread, .thread, .thread]).pc = .exited ∧
    delivered (run (fileEnv [97, 98, 99, 100] 1 1 5) ReaderState.initial
        [.interrupt, .thread, .thread, .thread]).trace = [] := by
  refine ⟨by rfl, by rfl, by rfl⟩

/-- C7, amended. For every reader with nominal start `> 0` whose start-alignment
scan returns `-1` (no record start in its range), whatever the other threads do:
the session hands the handler nothing but at most one `EndOfStream` marker, and
no data buffer; it performs no data read; four steps of the session thread
from any reachable state end the session; a session that has ended without the
abort signal being set has delivered exactly one `EndOfStream` marker. What is
delivered is decided at the wait of `SendBuffer` (line 349): with the abort
signal set when the thread makes that wait the marker is discarded and the
session ends having delivered nothing, whatever happens later; with the signal
not set at that wait the thread takes a permit and the session ends having
delivered exactly one `EndOfStream` marker, also when the signal is set before
the marker is handed over. -/
theorem no_record_start_session (env : ReaderEnv) (os len : Int)
    (hinit : env.initialized = true) (hparsed : env.parsed = some (os, len))
    (hinst : env.openedInstance = true) (hrd : env.openedReader = true) (hpos : 0 < os)
    (hscan : ScanForSync env.bridge env.scanFuel os (os + len + 1) = .ok ⟨-1, none⟩)
    (schedule : List Action) :
    (delivered (run env ReaderState.initial schedule).trace = [] ∨
      delivered (run env ReaderState.initial schedule).trace = [.endOfStream]) ∧
    (∀ o n, Event.readBlock o n ∉ (run env ReaderState.initial schedule).trace) ∧
    (run env ReaderState.initial
      (schedule ++ [.thread, .thread, .thread, .thread])).pc = .exited ∧
    ((run env ReaderState.initial schedule).pc = .exited →
      (run env ReaderState.initial schedule).abort = false →
      delivered (run env ReaderState.initial schedule).trace = [.endOfStream]) ∧
    ((run env ReaderState.initial schedule).pc = .sending .endOfStream →
      (run env ReaderState.initial schedule).abort = true →
      ∀ more : List Action,
        (run env ReaderState.initial (schedule ++ .thread :: more)).pc = .exited ∧
        delivered (run env ReaderState.initial (schedule ++ .thread :: more)).trace = [] ∧
        Event.discard .endOfStream ∈
          (run env ReaderState.initial (schedule ++ .thread :: more)).trace) ∧
    ((run env ReaderState.initial schedule).pc = .sending .endOfStream →
      (run env ReaderState.initial schedule).abort = false →
      (run env ReaderState.initial (schedule ++ [.thread])).pc = .delivering .endOfStream ∧
      ∀ more : List Action, Action.thread ∈ more →
        (run env ReaderState.initial (schedule ++ .thread :: more)).pc = .exited ∧
        delivered (run env ReaderState.initial (schedule ++ .thread :: more)).trace =
          [.endOfStream]) := by
  have hboth := NoRecordInv_run env os len hinit hparsed hinst hrd hpos hscan schedule
  have hinv := hboth.2
  have hnocrash : ∀ sch : List Action, Stopped (run env ReaderState.initial sch) →
      (run env ReaderState.initial sch).pc = .exited := by
    intro sch hst
    rcases hst with h | ⟨f, hf⟩
    · exact h
    · have := (NoRecordInv_run env os len hinit hparsed hinst hrd hpos hscan sch).2
      rcases this with ⟨h, _⟩ | ⟨h, _⟩ | ⟨h, _⟩ | ⟨h, _⟩ | ⟨h, _⟩ <;>
        (rw [hf] at h; cases h)
  refine ⟨?_, ?_, ?_, ?_, ?_, ?_⟩
  · rcases hinv with ⟨_, ht, _⟩ | ⟨_, ht, _⟩ | ⟨_, ht, _⟩ | ⟨_, ht | ⟨ht, _⟩⟩ | ⟨_, ht, _⟩ <;>
      simp [ht, delivered]
  · intro o n
    rcases hinv with ⟨_, ht, _⟩ | ⟨_, ht, _⟩ | ⟨_, ht, _⟩ | ⟨_, ht | ⟨ht, _⟩⟩ | ⟨_, ht, _⟩ <;>
      simp [ht]
  · rw [run_append]
    refine NoRecordInv_stops env os len hinit hparsed hinst hrd hpos hscan 4 _ hboth.1 hinv ?_
    rcases hinv with ⟨h, _⟩ | ⟨h, _⟩ | ⟨h, _⟩ | ⟨h, _⟩ | ⟨h, _⟩
    · exact Or.inr (Or.inr (Or.inr (Or.inr ⟨le_refl _, h⟩)))
    · exact Or.inr (Or.inr (Or.inr (Or.inl ⟨by omega, h⟩)))
    · exact Or.inr (Or.inr (Or.inl ⟨by omega, h⟩))
    · exact Or.inl h
    · exact Or.inr (Or.inl ⟨by omega, h⟩)
  · intro hpc hab
    rcases hinv with ⟨h, _⟩ | ⟨h, _⟩ | ⟨h, _⟩ | ⟨_, ht | ⟨_, ht⟩⟩ | ⟨h, _⟩
    · rw [hpc] at h; simp at h
    · rw [hpc] at h; simp at h
    · rw [hpc] at h; simp at h
    · simp [ht, delivered]
    · rw [hab] at ht; simp at ht
    · rw [hpc] at h; simp at h
  · intro hpc hab more
    have hth := (NoRecordInv_thread env os len hinit hparsed hinst hrd hpos hscan _
      hinv).2.2.1 hpc
    obtain ⟨h1, h2⟩ := hth.1 hab
    have htr : (run env ReaderState.initial schedule).trace = [.scan os (os + len + 1)] := by
      rcases hinv with ⟨h, _⟩ | ⟨h, _⟩ | ⟨_, ht, _⟩ | ⟨h, _⟩ | ⟨h, _⟩
      · rw [hpc] at h; simp at h
      · rw [hpc] at h; simp at h
      · exact ht
      · rw [hpc] at h; simp at h
      · rw [hpc] at h; simp at h
    have hrun : run env ReaderState.initial (schedule ++ .thread :: more) =
        run env (step env (run env ReaderState.initial schedule) .thread) more := by
      rw [run_append]; rfl
    have hst := run_stopped env more _ (Or.inl h1)
    have hex := hnocrash (schedule ++ .thread :: more) (by rw [hrun]; exact hst.1)
    refine ⟨hex, ?_, ?_⟩
    · rw [hrun, hst.2, h2, htr]; simp [delivered]
    · rw [hrun, hst.2, h2]; simp
  · intro hpc hab
    have hth := (NoRecordInv_thread env os len hinit hparsed hinst hrd hpos hscan _
      hinv).2.2.1 hpc
    obtain ⟨h1, h2, h3⟩ := hth.2 hab
    have htr : (run env ReaderState.initial schedule).trace = [.scan os (os + len + 1)] := by
      rcases hinv with ⟨h, _⟩ | ⟨h, _⟩ | ⟨_, ht, _⟩ | ⟨h, _⟩ | ⟨h, _⟩
      · rw [hpc] at h; simp at h
      · rw [hpc] at h; simp at h
      · exact ht
      · rw [hpc] at h; simp at h
      · rw [hpc] at h; simp at h
    have hone : run env ReaderState.initial (schedule ++ [.thread]) =
        step env (run env ReaderState.initial schedule) .thread := by
      rw [run_append]; rfl
    refine ⟨by rw [hone]; exact h1, ?_⟩
    intro more hmem
    have hrun : run env ReaderState.initial (schedule ++ .thread :: more) =
        run env (step env (run env ReaderState.initial schedule) .thread) more := by
      rw [run_append]; rfl
    have hret : (step env (run env ReaderState.initial schedule) .thread).returned =
        (delivered (step env (run env ReaderState.initial schedule) .thread).trace).length := by
      have := hboth.1.1
      rw [h2, h3, htr] at *
      simp only [delivered, List.length_nil] at this ⊢
      omega
    have hd := delivering_delivers env .endOfStream more _ h1 hret hmem
    refine ⟨hnocrash _ (by rw [hrun]; exact hd.2), ?_⟩
    rw [hrun, hd.1, h2, htr]
    simp [delivered]

/-- C7, witness: the reader of `abcd` with range `[1,2)`, left alone until its
thread stands at the wait of `SendBuffer`. -/
theorem no_record_start_session_witness :
    (delivered (run (fileEnv [97, 98, 99, 100] 1 1 5) ReaderState.initial
        [.thread, .thread]).trace = [] ∨
      delivered (run (fileEnv [97, 98, 99, 100] 1 1 5) ReaderState.initial
        [.thread, .thread]).trace = [.endOfStream]) ∧
    (∀ o n, Event.readBlock o n ∉ (run (fileEnv [97, 98, 99, 100] 1 1 5) ReaderState.initial
        [.thread, .thread]).trace) ∧
    (run (fileEnv [97, 98, 99, 100] 1 1 5) ReaderState.initial
        ([.thread, .thread] ++ [.thread, .thread, .thread, .thread])).pc = .exited ∧
    ((run (fileEnv [97, 98, 99, 100] 1 1 5) ReaderState.initial
        [.thread, .thread]).pc = .exited →
      (run (fileEnv [97, 98, 99, 100] 1 1 5) ReaderState.initial
        [.thread, .thread]).abort = false →
      delivered (run (fileEnv [97, 98, 99, 100] 1 1 5) ReaderState.initial
        [.thread, .thread]).trace = [.endOfStream]) ∧
    (run (fileEnv [97, 98, 99, 100] 1 1 5) ReaderState.initial
        ([.thread, .thread] ++ .thread :: [.interrupt, .thread])).pc = .exited ∧
    delivered (run (fileEnv [97, 98, 99, 100] 1 1 5) ReaderState.initial
        ([.thread, .thread] ++ .thread :: [.interrupt, .thread])).trace = [.endOfStream] :=
  ⟨(no_record_start_session (fileEnv [97, 98, 99, 100] 1 1 5) 1 1 rfl rfl rfl rfl (by decide)
      (by rfl) [.thread, .thread]).1,
    (no_record_start_session (fileEnv [97, 98, 99, 100] 1 1 5) 1 1 rfl rfl rfl rfl (by decide)
      (by rfl) [.thread, .thread]).2.1,
    (no_record_start_session (fileEnv [97, 98, 99, 100] 1 1 5) 1 1 rfl rfl rfl rfl (by decide)
      (by rfl) [.thread, .thread]).2.2.1,
    (no_record_start_session (fileEnv [97, 98, 99, 100] 1 1 5) 1 1 rfl rfl rfl rfl (by decide)
      (by rfl) [.thread, .thread]).2.2.2.1,
    (((no_record_start_session (fileEnv [97, 98, 99, 100] 1 1 5) 1 1 rfl rfl rfl rfl
      (by decide) (by rfl) [.thread, .thread]).2.2.2.2.2 (by rfl) (by rfl)).2
        [.interrupt, .thread] (by decide)).1,
    (((no_record_start_session (fileEnv [97, 98, 99, 100] 1 1 5) 1 1 rfl rfl rfl rfl
      (by decide) (by rfl) [.thread, .thread]).2.2.2.2.2 (by rfl) (by rfl)).2
        [.interrupt, .thread] (by decide)).2⟩

/-! ## The reader: session invariant -/

theorem scanLoop_errorBuffer (bridge : Bridge) (e : Int) :
    ∀ (fuel : Nat) (p : Int) (fr : Bool) (out : ScanOut) (b : RChannelBuffer),
      scanLoop bridge e fuel p fr = .ok out → out.errorBuffer = some b →
      out.foundOffset = -2 ∧ ∃ d, b = .abort .DryadError_ChannelReadError d := by
  intro fuel
  induction fuel with
  | zero => intro p fr out b h; simp [scanLoop] at h
  | succ fuel ih =>
    intro p fr out b h hb
    simp only [scanLoop] at h
    split at h
    · simp only [scanExit] at h
      split at h
      · simp at h
      · simp only [Except.ok.injEq] at h
        rw [← h] at hb ⊢
        simp only [Option.some.injEq] at hb
        exact ⟨rfl, _, hb.symm⟩
    · split at h
      · simp only [scanExit] at h
        split at h
        · simp at h
        · simp only [Except.ok.injEq] at h
          rw [← h] at hb ⊢
          simp only [Option.some.injEq] at hb
          exact ⟨rfl, _, hb.symm⟩
      · simp only [scanExit] at h
        split at h
        · simp at h
        · simp only [Except.ok.injEq] at h
          rw [← h] at hb; simp at hb
    · split at h
      · simp at h
      · split at h
        · simp at h
        · split at h
          · exact ih _ _ _ _ h hb
          · simp only [scanExit] at h
            split at h
            · simp at h
            · simp only [Except.ok.injEq] at h
              rw [← h] at hb; simp at hb

theorem ScanForSync_errorBuffer (bridge : Bridge) (fuel : Nat) (s e : Int) (out : ScanOut)
    (b : RChannelBuffer) (h : ScanForSync bridge fuel s e = .ok out)
    (hb : out.errorBuffer = some b) :
    out.foundOffset = -2 ∧ ∃ d, b = .abort .DryadError_ChannelReadError d := by
  simp only [ScanForSync] at h
  split at h
  · simp at h
  · exact scanLoop_errorBuffer bridge e fuel s false out b h hb

theorem AdjustStartOffset_some (bridge : Bridge) (fuel : Nat) (s e o : Int)
    (buf : RChannelBuffer) (h : AdjustStartOffset bridge fuel s e = .ok (o, some buf)) :
    (o = -1 ∧ buf = .endOfStream) ∨ ∃ c d, buf = .abort c d := by
  simp only [AdjustStartOffset] at h
  split at h
  · split at h
    · simp at h
    · rename_i out hs
      split at h
      · split at h
        · simp at h
        · rename_i b hb
          simp only [Except.ok.injEq, Prod.mk.injEq, Option.some.injEq] at h
          obtain ⟨_, d, hd⟩ := ScanForSync_errorBuffer _ _ _ _ _ _ hs hb
          exact Or.inr ⟨_, d, by rw [← h.2, hd]⟩
      · split at h
        · rename_i hm1
          split at h
          · simp at h
          · simp only [Except.ok.injEq, Prod.mk.injEq, Option.some.injEq] at h
            exact Or.inl ⟨by rw [← h.1, hm1], h.2.symm⟩
        · split at h
          · simp at h
          · split at h <;> simp at h
  · split at h <;> simp at h

theorem AdjustStartOffset_none (bridge : Bridge) (fuel : Nat) (s e o : Int)
    (h : AdjustStartOffset bridge fuel s e = .ok (o, none)) : 0 ≤ o := by
  simp only [AdjustStartOffset] at h
  split at h
  · split at h
    · simp at h
    · split at h
      · split at h <;> simp at h
      · split at h
        · split at h <;> simp at h
        · split at h
          · simp at h
          · split at h
            · simp at h
            · simp only [Except.ok.injEq, Prod.mk.injEq, and_true] at h
              omega
  · split at h
    · simp at h
    · simp only [Except.ok.injEq, Prod.mk.injEq, and_true] at h
      omega

theorem AdjustEndOffset_some (bridge : Bridge) (fuel : Nat) (e n : Int)
    (buf : RChannelBuffer) (h : AdjustEndOffset bridge fuel e = .ok (n, some buf)) :
    ∃ c d, buf = .abort c d := by
  simp only [AdjustEndOffset] at h
  split at h
  · simp at h
  · rename_i out hs
    split at h
    · split at h
      · simp at h
      · rename_i b hb
        simp only [Except.ok.injEq, Prod.mk.injEq, Option.some.injEq] at h
        obtain ⟨_, d, hd⟩ := ScanForSync_errorBuffer _ _ _ _ _ _ hs hb
        exact ⟨_, d, by rw [← h.2, hd]⟩
    · split at h <;> simp at h

theorem AdjustEndOffset_none (bridge : Bridge) (fuel : Nat) (e n : Int)
    (h : AdjustEndOffset bridge fuel e = .ok (n, none)) : e ≤ n := by
  simp only [AdjustEndOffset] at h
  split at h
  · simp at h
  · split at h
    · split at h <;> simp at h
    · split at h
      · simp at h
      · rename_i hle
        simp only [Except.ok.injEq, Prod.mk.injEq, and_true] at h
        rw [← h]; simpa using hle

theorem Chain_snoc (bridge : Bridge) (blocks : List RChannelBuffer) (a b : Int)
    (bytes : List Byte) (h : Chain bridge blocks a b) (h1 : 1 ≤ bytes.length)
    (h2 : (bytes.length : Int) ≤ s_readBufferSize)
    (h3 : bridge b bytes.length = .bytes bytes) :
    Chain bridge (blocks ++ [.data b bytes]) a (b + bytes.length) := by
  induction blocks generalizing a with
  | nil =>
    simp only [Chain] at h
    subst h
    simp [Chain, h1, h2, h3]
  | cons x rest ih =>
    cases x with
    | data o bs =>
      simp only [Chain, List.cons_append] at h ⊢
      exact ⟨h.1, h.2.1, h.2.2.1, h.2.2.2.1, ih _ h.2.2.2.2⟩
    | endOfStream => simp [Chain] at h
    | abort c d => simp [Chain] at h

theorem SessInv_stepStart (env : ReaderEnv) (s : ReaderState) (ht : s.trace = []) :
    SessInv env (stepStart env s) := by
  simp only [stepStart]
  split
  · right; right; right; right; right; right; left
    exact ⟨_, _, Or.inl rfl⟩
  · split
    · right; right; right; right; right; right; left
      exact ⟨_, _, Or.inl rfl⟩
    · rename_i os len hp
      right; left
      simp [ht, delivered, hp]

theorem SessInv_stepAlignEnd (env : ReaderEnv) (t : ReaderState) (o os len : Int)
    (hd : delivered t.trace = []) (hsf : t.scannedFinal = false)
    (hp : env.parsed = some (os, len)) (hoe : t.offsetEnd = os + len)
    (ha : AdjustStartOffset env.bridge env.scanFuel os (os + len) = .ok (o, none))
    (ho : 0 ≤ o) (hto : t.offset = o) :
    SessInv env (stepAlignEnd env t o) := by
  simp only [stepAlignEnd]
  split
  · rename_i heq
    split
    · right; right; right; right; right; right; right; right
      exact ⟨_, rfl⟩
    · rename_i newEnd b hb
      obtain ⟨c, d, hcd⟩ := AdjustEndOffset_some _ _ _ _ _ hb
      right; right; right; right; right; right; left
      exact ⟨c, d, Or.inl (by rw [hcd])⟩
    · rename_i newEnd hb
      have hle := AdjustEndOffset_none _ _ _ _ hb
      simp only at hb hle
      split
      · omega
      · split
        · right; right; right; right; right; right; right; right
          exact ⟨_, rfl⟩
        · rename_i hle2
          simp only [not_not] at hle2
          right; right; left
          refine ⟨Or.inl rfl, ⟨os, len, hp, ha, ho, ?_⟩, by simpa [hto] using ho,
            by simpa [hto] using hle2, ?_, ?_⟩
          · simp only [if_true]
            rw [← hoe]; exact hb
          · simp [delivered_append, delivered, hd, Chain, hto]
          · intro _; exact ⟨rfl, rfl⟩
  · rename_i hne
    split
    · right; right; right; right; right; right; right; right
      exact ⟨_, rfl⟩
    · rename_i hle2
      simp only [not_not] at hle2
      right; right; left
      refine ⟨Or.inl rfl, ⟨os, len, hp, ha, ho, ?_⟩, by simpa [hto] using ho,
        by simpa [hto] using hle2, ?_, ?_⟩
      · simp [hsf, hoe]
      · simp [hd, Chain, hto]
      · intro h
        simp only [hto] at h
        exact absurd h hne

theorem SessInv_stepOpening (env : ReaderEnv) (s : ReaderState)
    (hd : delivered s.trace = [])
    (hp : env.parsed = some (s.offsetStart, s.offsetEnd - s.offsetStart)) :
    SessInv env (stepOpening env s) := by
  simp only [stepOpening, stepAlignStart]
  split
  · right; right; right; right; right; right; left
    exact ⟨_, _, Or.inl rfl⟩
  · split
    · right; right; right; right; right; right; left
      exact ⟨_, _, Or.inl rfl⟩
    · have hoe : s.offsetEnd = s.offsetStart + (s.offsetEnd - s.offsetStart) := by omega
      have hf : ∀ (t : ReaderState), t = (if 0 < s.offsetStart then
          { s with trace := s.trace ++ [Event.scan s.offsetStart (s.offsetEnd + 1)] }
          else s) → delivered t.trace = [] ∧ t.offsetStart = s.offsetStart ∧
            t.offsetEnd = s.offsetEnd := by
        intro t ht; rw [ht]; split <;> simp [delivered_append, delivered, hd]
      generalize (if 0 < s.offsetStart then
          { s with trace := s.trace ++ [Event.scan s.offsetStart (s.offsetEnd + 1)] }
          else s) = t at hf
      obtain ⟨htd, hts, hte⟩ := hf t rfl
      rw [hts, hte]
      split
      · right; right; right; right; right; right; right; right
        exact ⟨_, rfl⟩
      · rename_i o b hb
        rcases AdjustStartOffset_some _ _ _ _ _ _ hb with ⟨ho, hbe⟩ | ⟨c, d, hcd⟩
        · right; right; right; right; right; left
          refine ⟨by simp [hbe], by simpa using htd, _, _, hp, ?_⟩
          rw [← hoe, hb, ho, hbe]
        · right; right; right; right; right; right; left
          exact ⟨c, d, by simp [hcd]⟩
      · rename_i o hb
        have ho := AdjustStartOffset_none _ _ _ _ _ hb
        split
        · omega
        · exact SessInv_stepAlignEnd env _ o _ _ (by simpa using htd) rfl hp
            (by simp only; omega) (by rw [← hoe]; exact hb) ho rfl

theorem Aligned_congr (env : ReaderEnv) (s t : ReaderState) (h : Aligned env s)
    (h1 : t.offsetStart = s.offsetStart) (h2 : t.offsetEnd = s.offsetEnd)
    (h3 : t.scannedFinal = s.scannedFinal) : Aligned env t := by
  obtain ⟨os, len, hp, ha, h0, he⟩ := h
  exact ⟨os, len, hp, by rw [h1]; exact ha, by rw [h1]; exact h0, by rw [h2, h3]; exact he⟩

theorem Ended_congr (env : ReaderEnv) (s t : ReaderState) (h : Ended env s)
    (h0 : t.trace = s.trace)
    (h1 : t.offsetStart = s.offsetStart) (h2 : t.offsetEnd = s.offsetEnd)
    (h3 : t.scannedFinal = s.scannedFinal) (h4 : s.abort = true → t.abort = true) :
    Ended env t := by
  rcases h with ⟨blocks, hb, hal, hsf, hch⟩ | ⟨hd, hn⟩ | ⟨c, d, hm⟩ | hab
  · left
    exact ⟨blocks, by rw [h0]; exact hb, Aligned_congr env s t hal h1 h2 h3,
      by rw [h3]; exact hsf, by rw [h1, h2]; exact hch⟩
  · right; left; exact ⟨by rw [h0]; exact hd, hn⟩
  · right; right; left; exact ⟨c, d, by rw [h0]; exact hm⟩
  · right; right; right; exact h4 hab

theorem SessInv_congr (env : ReaderEnv) (s t : ReaderState) (h : SessInv env s)
    (hpc : t.pc = s.pc) (h0 : t.trace = s.trace) (ho : t.offset = s.offset)
    (h1 : t.offsetStart = s.offsetStart) (h2 : t.offsetEnd = s.offsetEnd)
    (h3 : t.scannedFinal = s.scannedFinal) (h4 : s.abort = true → t.abort = true) :
    SessInv env t := by
  unfold SessInv at h ⊢
  rw [hpc, h0, ho, h1, h2, h3]
  rcases h with h | h | ⟨a, hal, b⟩ | h | ⟨a, hal, b⟩ | h | h | ⟨a, hen⟩ | h
  · exact Or.inl h
  · exact Or.inr (Or.inl h)
  · exact Or.inr (Or.inr (Or.inl ⟨a, Aligned_congr env s t hal h1 h2 h3, b⟩))
  · exact Or.inr (Or.inr (Or.inr (Or.inl h)))
  · exact Or.inr (Or.inr (Or.inr (Or.inr (Or.inl ⟨a, Aligned_congr env s t hal h1 h2 h3, b⟩))))
  · exact Or.inr (Or.inr (Or.inr (Or.inr (Or.inr (Or.inl h)))))
  · exact Or.inr (Or.inr (Or.inr (Or.inr (Or.inr (Or.inr (Or.inl h))))))
  · exact Or.inr (Or.inr (Or.inr (Or.inr (Or.inr (Or.inr (Or.inr (Or.inl
      ⟨a, Ended_congr env s t hen h0 h1 h2 h3 h4⟩)))))))
  · exact Or.inr (Or.inr (Or.inr (Or.inr (Or.inr (Or.inr (Or.inr (Or.inr h)))))))

theorem SessInv_crashed (env : ReaderEnv) (s : ReaderState) (f : Fault)
    (h : s.pc = .crashed f) : SessInv env s :=
  Or.inr (Or.inr (Or.inr (Or.inr (Or.inr (Or.inr (Or.inr (Or.inr ⟨f, h⟩)))))))

theorem SessInv_exited (env : ReaderEnv) (s : ReaderState) (h : s.pc = .exited)
    (he : Ended env s) : SessInv env s :=
  Or.inr (Or.inr (Or.inr (Or.inr (Or.inr (Or.inr (Or.inr (Or.inl ⟨h, he⟩)))))))

theorem SessInv_loop (env : ReaderEnv) (s : ReaderState)
    (h : SessInv env s) (hpc : s.pc = .loop) :
    (Aligned env s ∧ 0 ≤ s.offset ∧ s.offset ≤ s.offsetEnd ∧
      Chain env.bridge (delivered s.trace) s.offsetStart s.offset ∧
      (s.offset = s.offsetEnd → s.scannedFinal = true)) ∨
    (s.offset = -1 ∧ ∃ c d, RChannelBuffer.abort c d ∈ delivered s.trace) := by
  rcases h with ⟨h, _⟩ | ⟨h, _⟩ | ⟨_, a, b, c, d, e⟩ | ⟨_, a, b⟩ | ⟨h, _⟩ | ⟨h, _⟩ |
    ⟨_, _, h⟩ | ⟨h, _⟩ | ⟨_, h⟩
  all_goals first
    | (rw [hpc] at h; simp at h)
    | exact Or.inl ⟨a, b, c, d, fun hh => (e hh).2⟩
    | exact Or.inr ⟨a, b⟩

theorem SessInv_held (env : ReaderEnv) (s : ReaderState)
    (h : SessInv env s) (hpc : s.pc = .acquired ∨ s.pc = .reading) :
    Aligned env s ∧ 0 ≤ s.offset ∧ s.offset < s.offsetEnd ∧
      Chain env.bridge (delivered s.trace) s.offsetStart s.offset := by
  rcases h with ⟨h, _⟩ | ⟨h, _⟩ | ⟨_, a, b, c, d, e⟩ | ⟨h, _⟩ | ⟨h, _⟩ | ⟨h, _⟩ |
    ⟨_, _, h⟩ | ⟨h, _⟩ | ⟨_, h⟩
  all_goals first
    | (rcases hpc with hpc | hpc <;> rw [hpc] at h <;> simp at h)
    | skip
  refine ⟨a, b, ?_, d⟩
  by_contra hc
  have : s.offset = s.offsetEnd := by omega
  have := (e this).1
  rcases hpc with hpc | hpc <;> rw [hpc] at this <;> simp at this

theorem SessInv_stepLoop (env : ReaderEnv) (s : ReaderState)
    (h : SessInv env s) (hpc : s.pc = .loop) :
    SessInv env ((stepLoop s).getD s) := by
  rcases SessInv_loop env s h hpc with ⟨hal, h0, hle, hch, hsf⟩ | ⟨hm, hab⟩
  · simp only [stepLoop]
    split
    · rename_i hc
      split
      · rename_i habort
        exact SessInv_exited env _ rfl (Or.inr (Or.inr (Or.inr habort)))
      · split
        · right; right; left
          refine ⟨Or.inr (Or.inl rfl), Aligned_congr env s _ hal rfl rfl rfl, h0, hle, hch, ?_⟩
          intro hh; have hh2 : s.offset = s.offsetEnd := hh; omega
        · exact h
    · rename_i hc
      have heq : s.offset = s.offsetEnd := by
        by_contra hne; exact hc ⟨h0, by omega⟩
      simp only [h0, if_true, Option.getD_some]
      right; right; right; right; left
      refine ⟨Or.inl rfl, Aligned_congr env s _ hal rfl rfl rfl, hsf heq, ?_⟩
      simp only
      rw [← heq]; exact hch
  · simp only [stepLoop]
    have h1 : ¬ (0 ≤ s.offset ∧ s.offset < s.offsetEnd) := by omega
    have h2 : ¬ (0 ≤ s.offset) := by omega
    simp only [h1, h2, if_false, Option.getD_some]
    exact SessInv_exited env _ rfl (Or.inr (Or.inr (Or.inl hab)))

theorem SessInv_stepAcquired (env : ReaderEnv) (s : ReaderState)
    (h : SessInv env s) (hpc : s.pc = .acquired) :
    SessInv env (stepAcquired s) := by
  obtain ⟨hal, h0, hlt, hch⟩ := SessInv_held env s h (Or.inl hpc)
  simp only [stepAcquired]
  split
  · rename_i habort
    split
    · exact SessInv_exited env _ rfl (Or.inr (Or.inr (Or.inr habort)))
    · exact SessInv_crashed env _ _ rfl
  · right; right; left
    refine ⟨Or.inr (Or.inr rfl), Aligned_congr env s _ hal rfl rfl rfl, h0, le_of_lt hlt,
      hch, ?_⟩
    intro hh; have hh2 : s.offset = s.offsetEnd := hh; omega

theorem SessInv_stepSending (env : ReaderEnv) (s : ReaderState) (b : RChannelBuffer)
    (h : SessInv env s) (hpc : s.pc = .sending b) :
    SessInv env ((stepSending s b).getD s) := by
  simp only [stepSending]
  split
  · rename_i habort
    exact SessInv_exited env _ rfl (Or.inr (Or.inr (Or.inr habort)))
  · split
    · simp only [Option.getD_some]
      rcases h with ⟨h, _⟩ | ⟨h, _⟩ | ⟨h, _⟩ | ⟨h, _⟩ | ⟨hb, hal, hsf, hch⟩ | ⟨hb, hd, hn⟩ |
        ⟨c, d, hb⟩ | ⟨h, _⟩ | ⟨_, h⟩
      · rw [hpc] at h; simp at h
      · rw [hpc] at h; simp at h
      · rcases h with h | h | h <;> rw [hpc] at h <;> simp at h
      · rw [hpc] at h; simp at h
      · rw [hpc] at hb
        simp only [Pc.sending.injEq, reduceCtorEq, or_false] at hb
        right; right; right; right; left
        exact ⟨Or.inr (by rw [hb]), Aligned_congr env s _ hal rfl rfl rfl, hsf, hch⟩
      · rw [hpc] at hb
        simp only [Pc.sending.injEq, reduceCtorEq, or_false] at hb
        right; right; right; right; right; left
        exact ⟨Or.inr (by rw [hb]), hd, hn⟩
      · rw [hpc] at hb
        simp only [Pc.sending.injEq, reduceCtorEq, or_false] at hb
        right; right; right; right; right; right; left
        exact ⟨c, d, Or.inr (by rw [hb])⟩
      · rw [hpc] at h; simp at h
      · rw [hpc] at h; simp at h
    · exact h

theorem SessInv_stepDelivering (env : ReaderEnv) (s : ReaderState) (b : RChannelBuffer)
    (h : SessInv env s) (hpc : s.pc = .delivering b) :
    SessInv env (stepDelivering s b) := by
  simp only [stepDelivering]
  apply SessInv_exited env _ rfl
  rcases h with ⟨h, _⟩ | ⟨h, _⟩ | ⟨h, _⟩ | ⟨h, _⟩ | ⟨hb, hal, hsf, hch⟩ | ⟨hb, hd, hn⟩ |
    ⟨c, d, hb⟩ | ⟨h, _⟩ | ⟨_, h⟩
  · rw [hpc] at h; simp at h
  · rw [hpc] at h; simp at h
  · rcases h with h | h | h <;> rw [hpc] at h <;> simp at h
  · rw [hpc] at h; simp at h
  · rw [hpc] at hb
    simp only [Pc.delivering.injEq, reduceCtorEq, false_or] at hb
    left
    exact ⟨delivered s.trace, by simp [delivered_append, delivered, hb],
      Aligned_congr env s _ hal rfl rfl rfl, hsf, hch⟩
  · rw [hpc] at hb
    simp only [Pc.delivering.injEq, reduceCtorEq, false_or] at hb
    right; left
    exact ⟨by simp [delivered_append, delivered, hb, hd], hn⟩
  · rw [hpc] at hb
    simp only [Pc.delivering.injEq, reduceCtorEq, false_or] at hb
    right; right; left
    exact ⟨c, d, by simp [delivered_append, delivered, hb]⟩
  · rw [hpc] at h; simp at h
  · rw [hpc] at h; simp at h

theorem SessInv_stepReading (env : ReaderEnv) (s : ReaderState)
    (h : SessInv env s) (hpc : s.pc = .reading) :
    SessInv env (stepReading env s) := by
  obtain ⟨hal, h0, hlt, hch⟩ := SessInv_held env s h (Or.inr hpc)
  simp only [stepReading]
  split
  · exact SessInv_crashed env _ _ rfl
  · rename_i newOffset events hr
    obtain ⟨size, buffer, hev, hsize, hpos, hcase⟩ := ReadDataBuffer_ok _ _ _ _ _ hr
    subst hev
    rcases hcase with ⟨hno, ⟨d, hbuf⟩, _⟩ | ⟨bs, hbuf, hbr, hlen, hno⟩
    · -- the read failed
      subst hno
      have hne : ¬ ((-1 : Int) = s.offsetEnd ∧ ¬ s.scannedFinal = true) := by omega
      simp only [hne, if_false]
      right; right; right; left
      refine ⟨rfl, rfl, DrError.DryadError_ChannelReadError, d, ?_⟩
      simp [delivered_append, delivered, hbuf]
    · -- a full block was read
      have hsz1 : size ≤ s.offsetEnd - s.offset := by rw [hsize]; exact min_le_left _ _
      have hsz2 : size ≤ s_readBufferSize := by rw [hsize]; exact min_le_right _ _
      have hch2 : Chain env.bridge (delivered s.trace ++ [.data s.offset bs]) s.offsetStart
          (s.offset + bs.length) :=
        Chain_snoc _ _ _ _ _ hch (by omega) (by omega) (by rw [hlen]; exact hbr)
      have hdel : delivered (s.trace ++ [Event.readBlock s.offset size,
          Event.processBuffer buffer]) = delivered s.trace ++ [.data s.offset bs] := by
        simp [delivered_append, delivered, hbuf]
      have hno2 : newOffset = s.offset + bs.length := by rw [hno, hlen]
      split
      · rename_i hc
        have hsf : s.scannedFinal = false := by simpa using hc.2
        split
        · exact SessInv_crashed env _ _ rfl
        · rename_i newEnd b hb
          obtain ⟨c, d, hcd⟩ := AdjustEndOffset_some _ _ _ _ _ hb
          right; right; right; right; right; right; left
          exact ⟨c, d, Or.inl (by rw [hcd])⟩
        · rename_i newEnd hb
          have hle := AdjustEndOffset_none _ _ _ _ hb
          simp only at hb hle
          split
          · omega
          · right; right; left
            obtain ⟨os, len, hp, ha, hs0, he⟩ := hal
            simp only [hsf, Bool.false_eq_true, if_false] at he
            refine ⟨Or.inl rfl, ⟨os, len, hp, ha, hs0, ?_⟩, by simp only; omega,
              by simp only; omega, ?_, fun _ => ⟨rfl, rfl⟩⟩
            · simp only [if_true]
              rw [← he]; exact hb
            · simp only [delivered_append, delivered, List.append_nil]
              rw [hbuf, hno2]; exact hch2
      · rename_i hc
        right; right; left
        refine ⟨Or.inl rfl, Aligned_congr env s _ hal rfl rfl rfl, by simp only; omega,
          by simp only; omega, ?_, ?_⟩
        · simp only
          rw [hdel, hno2]; exact hch2
        · intro heq
          refine ⟨rfl, ?_⟩
          by_contra hsf
          exact hc ⟨heq, by simpa using hsf⟩

theorem SessInv_initial (env : ReaderEnv) : SessInv env ReaderState.initial :=
  Or.inl ⟨rfl, rfl⟩

theorem SessInv_step (env : ReaderEnv) (s : ReaderState) (a : Action)
    (h : SessInv env s) : SessInv env (step env s a) := by
  cases a with
  | thread =>
    simp only [step, threadStep]
    cases hpc : s.pc with
    | start =>
      rcases h with ⟨_, ht⟩ | ⟨h, _⟩ | ⟨h, _⟩ | ⟨h, _⟩ | ⟨h, _⟩ | ⟨h, _⟩ | ⟨_, _, h⟩ |
        ⟨h, _⟩ | ⟨_, h⟩
      · exact SessInv_stepStart env s ht
      all_goals (rw [hpc] at h; simp at h)
    | opening =>
      rcases h with ⟨h, _⟩ | ⟨_, hd, hp⟩ | ⟨h, _⟩ | ⟨h, _⟩ | ⟨h, _⟩ | ⟨h, _⟩ | ⟨_, _, h⟩ |
        ⟨h, _⟩ | ⟨_, h⟩
      · rw [hpc] at h; simp at h
      · exact SessInv_stepOpening env s hd hp
      all_goals (rw [hpc] at h; simp at h)
    | loop => exact SessInv_stepLoop env s h hpc
    | acquired => exact SessInv_stepAcquired env s h hpc
    | reading => exact SessInv_stepReading env s h hpc
    | sending b => exact SessInv_stepSending env s b h hpc
    | delivering b => exact SessInv_stepDelivering env s b h hpc
    | exited => exact h
    | crashed f => exact h
  | returnBuffer =>
    simp only [step, ReturnBuffer]
    split
    · exact h
    · split
      · split
        · exact SessInv_congr env s _ h rfl rfl rfl rfl rfl rfl (fun x => x)
        · exact SessInv_crashed env _ _ rfl
      · exact h
  | interrupt =>
    simp only [step, Interrupt]
    split
    · exact h
    · exact SessInv_congr env s _ h rfl rfl rfl rfl rfl rfl (fun _ => rfl)
  | drainWait =>
    simp only [step, drainWait]
    split
    · exact SessInv_congr env s _ h rfl rfl rfl rfl rfl rfl (fun x => x)
    · exact h

theorem SessInv_run (env : ReaderEnv) (schedule : List Action) :
    PermitInv (run env ReaderState.initial schedule) ∧
      SessInv env (run env ReaderState.initial schedule) :=
  run_invariant env (fun s => PermitInv s ∧ SessInv env s)
    (fun s a h => ⟨PermitInv_step env s a h.1, SessInv_step env s a h.2⟩)
    schedule _ ⟨PermitInv_initial, SessInv_initial env⟩

/-! ## The reader: a failed data read -/

theorem ReadDataBuffer_bad (bridge : Bridge) (offset endOffset : Int)
    (hpos : 0 < min (endOffset - offset) s_readBufferSize)
    (hbad : ∀ bs, bridge offset (min (endOffset - offset) s_readBufferSize) = .bytes bs →
      (bs.length : Int) ≠ min (endOffset - offset) s_readBufferSize) :
    ∃ d, ReadDataBuffer bridge offset endOffset =
      .ok (-1, [.readBlock offset (min (endOffset - offset) s_readBufferSize),
                .processBuffer (.abort .DryadError_ChannelReadError d)]) := by
  have hsz : (if endOffset - offset < s_readBufferSize then endOffset - offset
      else s_readBufferSize) = min (endOffset - offset) s_readBufferSize := by
    split
    · rw [min_eq_left]; omega
    · rw [min_eq_right]; omega
  simp only [ReadDataBuffer, hsz]
  generalize min (endOffset - offset) s_readBufferSize = size at *
  have hnp : ¬ ¬ 0 < size := by simpa using hpos
  simp only [hnp, if_false]
  cases hb : bridge offset size with
  | ioError => exact ⟨_, rfl⟩
  | eof => exact ⟨_, rfl⟩
  | bytes bs =>
    have := hbad bs hb
    simp only [ne_eq, this, not_false_eq_true, if_true]
    exact ⟨_, rfl⟩

theorem AfterFailedRead_step (env : ReaderEnv) (trace : List Event) (s : ReaderState)
    (a : Action) (hperm : PermitInv s) (h : AfterFailedRead trace s) :
    AfterFailedRead trace (step env s a) ∧
      ((a = .thread ∨ s.pc = .exited) → (step env s a).pc = .exited) := by
  obtain ⟨ht, hpc⟩ := h
  cases a with
  | thread =>
    rcases hpc with ⟨hpc, ho⟩ | hpc
    · have h1 : ¬ (0 ≤ s.offset ∧ s.offset < s.offsetEnd) := by omega
      have h2 : ¬ (0 ≤ s.offset) := by omega
      simp [step, threadStep, hpc, stepLoop, h1, h2, AfterFailedRead, ht]
    · simp [step, threadStep, hpc, AfterFailedRead, ht]
  | returnBuffer =>
    have hne : ¬ ∃ f, s.pc = .crashed f := by
      rintro ⟨f, hf⟩
      rcases hpc with ⟨hpc, _⟩ | hpc <;> rw [hpc] at hf <;> simp at hf
    simp only [step, ReturnBuffer]
    split
    · rename_i f hf; exact absurd ⟨f, hf⟩ hne
    · split
      · rename_i hlt
        have hp : s.permits < s_maxBuffersOut := by
          have := hperm.2.1
          simp only [ReaderState.outstanding] at this
          omega
        simp only [hp, if_true, Option.getD_some, AfterFailedRead, ht, true_and]
        exact ⟨hpc, fun h => h.elim (fun h1 => absurd h1 (by decide)) id⟩
      · simp only [Option.getD_none, AfterFailedRead, ht, true_and]
        exact ⟨hpc, fun h => h.elim (fun h1 => absurd h1 (by decide)) id⟩
  | interrupt =>
    simp only [step, Interrupt]
    split
    · rename_i f hf
      rcases hpc with ⟨hpc, _⟩ | hpc <;> rw [hpc] at hf <;> simp at hf
    · simp only [Option.getD_some, AfterFailedRead, ht, true_and]
      exact ⟨hpc, fun h => h.elim (fun h1 => absurd h1 (by decide)) id⟩
  | drainWait =>
    simp only [step, drainWait]
    split
    · simp only [Option.getD_some, AfterFailedRead, ht, true_and]
      exact ⟨hpc, fun h => h.elim (fun h1 => absurd h1 (by decide)) id⟩
    · simp only [Option.getD_none, AfterFailedRead, ht, true_and]
      exact ⟨hpc, fun h => h.elim (fun h1 => absurd h1 (by decide)) id⟩

theorem AfterFailedRead_run (env : ReaderEnv) (trace : List Event) :
    ∀ (more : List Action) (s : ReaderState), PermitInv s → AfterFailedRead trace s →
      AfterFailedRead trace (run env s more) ∧
        ((Action.thread ∈ more ∨ s.pc = .exited) → (run env s more).pc = .exited) := by
  intro more
  induction more with
  | nil =>
    intro s _ h
    exact ⟨h, fun hh => hh.elim (fun h1 => absurd h1 (by simp)) id⟩
  | cons a rest ih =>
    intro s hperm h
    have h1 := AfterFailedRead_step env trace s a hperm h
    have h2 := ih (step env s a) (PermitInv_step env s a hperm) h1.1
    refine ⟨h2.1, ?_⟩
    intro hh
    by_cases ha : a = .thread ∨ s.pc = .exited
    · exact h2.2 (Or.inr (h1.2 ha))
    · apply h2.2
      left
      rcases hh with hh | hh
      · simp only [List.mem_cons] at hh
        rcases hh with hh | hh
        · exact absurd (Or.inl hh.symm) ha
        · exact hh
      · exact absurd (Or.inr hh) ha

/-- C9. For every data read of the reader loop (every reachable state with the
thread in `ReadDataBuffer`) for which the bridge returns an I/O error, a clean
end of file, or a number of bytes other than the requested one: the thread
hands the handler exactly one abort marker with error code `ChannelReadError`
and a description, and no data buffer, for that read; whatever happens
afterwards, nothing more is delivered and no further read is made (so no
`EndOfStream` marker follows); and the next step of the thread leaves the loop
and ends the session. -/
theorem failed_read_aborts_session (env : ReaderEnv) (schedule more : List Action)
    (s : ReaderState) (hs : s = run env ReaderState.initial schedule)
    (hpc : s.pc = .reading)
    (hbad : ∀ bs, env.bridge s.offset (min (s.offsetEnd - s.offset) s_readBufferSize) =
        .bytes bs → (bs.length : Int) ≠ min (s.offsetEnd - s.offset) s_readBufferSize) :
    ∃ d, (step env s .thread).trace =
        s.trace ++ [.readBlock s.offset (min (s.offsetEnd - s.offset) s_readBufferSize),
                    .processBuffer (.abort .DryadError_ChannelReadError d)] ∧
      (run env (step env s .thread) more).trace = (step env s .thread).trace ∧
      ((run env (step env s .thread) more).pc = .loop ∨
        (run env (step env s .thread) more).pc = .exited) ∧
      (Action.thread ∈ more → (run env (step env s .thread) more).pc = .exited) := by
  have hinv := SessInv_run env schedule
  rw [← hs] at hinv
  obtain ⟨_, h0, hlt, _⟩ := SessInv_held env s hinv.2 (Or.inr hpc)
  have hpos : 0 < min (s.offsetEnd - s.offset) s_readBufferSize := by
    simp only [s_readBufferSize]; omega
  obtain ⟨d, hd⟩ := ReadDataBuffer_bad env.bridge s.offset s.offsetEnd hpos hbad
  have hne : (-1 : Int) ≠ s.offsetEnd := by omega
  have hstep : step env s .thread =
      { s with pc := .loop, offset := -1,
               trace := s.trace ++ [.readBlock s.offset
                  (min (s.offsetEnd - s.offset) s_readBufferSize),
                  .processBuffer (.abort .DryadError_ChannelReadError d)] } := by
    simp [step, threadStep, hpc, stepReading, hd, hne]
  have hafter : AfterFailedRead (step env s .thread).trace (step env s .thread) := by
    rw [hstep]; exact ⟨rfl, Or.inl ⟨rfl, rfl⟩⟩
  have hrun := AfterFailedRead_run env _ more _ (PermitInv_step env s .thread hinv.1) hafter
  refine ⟨d, by rw [hstep], hrun.1.1, hrun.1.2.imp (fun h => h.1) id, ?_⟩
  intro hm
  exact hrun.2 (Or.inl hm)

/-! ## The reader: termination of an uninterrupted session -/

theorem DrainInv_step (env : ReaderEnv) (s : ReaderState) (a : Action) (h : DrainInv s) :
    DrainInv (step env s a) := by
  by_cases hstop : s.pc = .exited ∨ ∃ f, s.pc = .crashed f
  · cases a with
    | thread =>
      have : step env s .thread = s := by
        rcases hstop with hpc | ⟨f, hpc⟩ <;> simp [step, threadStep, hpc]
      rw [this]; exact h
    | returnBuffer =>
      simp only [step, ReturnBuffer]
      split
      · exact h
      · split
        · split
          · rcases hstop with hpc | ⟨f, hpc⟩
            · exact Or.inr (Or.inl hpc)
            · exact Or.inr (Or.inr ⟨f, hpc⟩)
          · exact Or.inr (Or.inr ⟨_, rfl⟩)
        · exact h
    | interrupt =>
      simp only [step, Interrupt]
      split
      · exact h
      · rcases hstop with hpc | ⟨f, hpc⟩
        · exact Or.inr (Or.inl hpc)
        · exact Or.inr (Or.inr ⟨f, hpc⟩)
    | drainWait =>
      simp only [step, drainWait]
      split
      · rename_i hc; exact Or.inr (Or.inl hc.1)
      · exact h
  · have hd : s.drained = 0 := by
      rcases h with h | h | h
      · exact h
      · exact absurd (Or.inl h) hstop
      · exact absurd (Or.inr h) hstop
    cases a with
    | thread =>
      left
      simp only [step, threadStep]
      cases hpc : s.pc with
      | start => simpa [(stepStart_frame env s).2.2.1] using hd
      | opening => simpa [(stepOpening_frame env s).2.2.1] using hd
      | loop =>
        simp only [stepLoop]
        split
        · split
          · simpa using hd
          · split <;> simpa using hd
        · split <;> simpa using hd
      | acquired =>
        simp only [stepAcquired]
        split
        · split <;> simpa using hd
        · simpa using hd
      | reading => simpa [(stepReading_frame env s).2.2.1] using hd
      | sending b =>
        simp only [stepSending]
        split
        · simpa using hd
        · split <;> simpa using hd
      | delivering b => simpa [stepDelivering] using hd
      | exited => simpa using hd
      | crashed f => simpa using hd
    | returnBuffer =>
      simp only [step, ReturnBuffer]
      split
      · exact Or.inl hd
      · split
        · split
          · exact Or.inl hd
          · exact Or.inr (Or.inr ⟨_, rfl⟩)
        · exact Or.inl hd
    | interrupt =>
      simp only [step, Interrupt]
      split
      · exact Or.inl hd
      · exact Or.inl hd
    | drainWait =>
      simp only [step, drainWait]
      split
      · rename_i hc; exact absurd (Or.inl hc.1) hstop
      · exact Or.inl hd

theorem thread_abort (env : ReaderEnv) (s : ReaderState) :
    (step env s .thread).abort = s.abort := by
  simp only [step, threadStep]
  cases hpc : s.pc with
  | start => simpa using (stepStart_frame env s).2.2.2.1
  | opening => simpa using (stepOpening_frame env s).2.2.2.1
  | loop =>
    simp only [stepLoop]
    split
    · split
      · rfl
      · split <;> rfl
    · split <;> rfl
  | acquired =>
    simp only [stepAcquired]
    split
    · split <;> rfl
    · rfl
  | reading => simpa using (stepReading_frame env s).2.2.2.1
  | sending b =>
    simp only [stepSending]
    split
    · rfl
    · split <;> rfl
  | delivering b => rfl
  | exited => rfl
  | crashed f => rfl

/-- What `ReturnBuffer` does in a session that is still running: the thread's
own variables are left alone, and afterwards a permit is free unless the thread
holds one and nothing is outstanding. -/
theorem returnBuffer_running (env : ReaderEnv) (s : ReaderState) (h : Good env s)
    (hrun : ¬ Stopped s) :
    Good env (step env s .returnBuffer) ∧
    (step env s .returnBuffer).pc = s.pc ∧
    (step env s .returnBuffer).offset = s.offset ∧
    (step env s .returnBuffer).offsetEnd = s.offsetEnd ∧
    (step env s .returnBuffer).scannedFinal = s.scannedFinal ∧
    (s.held = 0 → 0 < (step env s .returnBuffer).permits) := by
  obtain ⟨hperm, hdrain, hsess, hab⟩ := h
  have hgood : Good env (step env s .returnBuffer) := by
    refine ⟨PermitInv_step env s _ hperm, DrainInv_step env s _ hdrain,
      SessInv_step env s _ hsess, ?_⟩
    simp only [step, ReturnBuffer]
    split
    · exact hab
    · split
      · split
        · exact hab
        · exact hab
      · exact hab
  have hd : s.drained = 0 := by
    rcases hdrain with h | h | h
    · exact h
    · exact absurd (Or.inl h) hrun
    · exact absurd (Or.inr h) hrun
  have hsum : s.permits + s.outstanding + s.held + s.drained = s_maxBuffersOut := by
    rcases hperm.2.2 with h | h
    · exact absurd (Or.inr h) hrun
    · exact h
  refine ⟨hgood, ?_⟩
  simp only [step, ReturnBuffer]
  split
  · rename_i f hf; exact absurd (Or.inr ⟨f, hf⟩) hrun
  · split
    · rename_i hlt
      have hp : s.permits < s_maxBuffersOut := by
        simp only [ReaderState.outstanding] at hsum
        omega
      rw [if_pos hp]
      exact ⟨rfl, rfl, rfl, rfl, fun _ => Nat.succ_pos _⟩
    · rename_i hlt
      refine ⟨rfl, rfl, rfl, rfl, fun hh => ?_⟩
      show 0 < s.permits
      simp only [ReaderState.outstanding, s_maxBuffersOut] at hsum
      omega

theorem Good_thread (env : ReaderEnv) (s : ReaderState) (h : Good env s) :
    Good env (step env s .thread) :=
  ⟨PermitInv_step env s _ h.1, DrainInv_step env s _ h.2.1, SessInv_step env s _ h.2.2.1,
    by rw [thread_abort]; exact h.2.2.2⟩

theorem run_drive_succ (env : ReaderEnv) (s : ReaderState) (n : Nat) :
    run env s (drive (n + 1)) =
      run env (step env (step env s .returnBuffer) .thread) (drive n) := rfl

theorem stops_of_pair (env : ReaderEnv) (s : ReaderState)
    (h : ∃ n, Stopped (run env (step env (step env s .returnBuffer) .thread) (drive n))) :
    ∃ n, Stopped (run env s (drive n)) := by
  obtain ⟨n, hn⟩ := h
  exact ⟨n + 1, by rw [run_drive_succ]; exact hn⟩

theorem stops_of_stopped (env : ReaderEnv) (s : ReaderState) (h : Stopped s) :
    ∃ n, Stopped (run env s (drive n)) := ⟨0, h⟩

theorem alignedEndOf_ge (env : ReaderEnv) (s : ReaderState) :
    s.offsetEnd ≤ alignedEndOf env s := by
  simp only [alignedEndOf]
  split
  · exact le_refl _
  · split
    · rename_i e hb; exact AdjustEndOffset_none _ _ _ _ hb
    · exact le_refl _

theorem stepStart_pc (env : ReaderEnv) (s : ReaderState) :
    (stepStart env s).pc = .opening ∨ ∃ b, (stepStart env s).pc = .sending b := by
  simp only [stepStart]
  split
  · exact Or.inr ⟨_, rfl⟩
  · split
    · exact Or.inr ⟨_, rfl⟩
    · exact Or.inl rfl

theorem stepAlignEnd_pc (env : ReaderEnv) (s : ReaderState) (o : Int) :
    (stepAlignEnd env s o).pc = .loop ∨ (∃ b, (stepAlignEnd env s o).pc = .sending b) ∨
      Stopped (stepAlignEnd env s o) := by
  simp only [stepAlignEnd]
  split
  · split
    · exact Or.inr (Or.inr (Or.inr ⟨_, rfl⟩))
    · exact Or.inr (Or.inl ⟨_, rfl⟩)
    · split
      · exact Or.inr (Or.inr (Or.inl rfl))
      · split
        · exact Or.inr (Or.inr (Or.inr ⟨_, rfl⟩))
        · exact Or.inl rfl
  · split
    · exact Or.inr (Or.inr (Or.inr ⟨_, rfl⟩))
    · exact Or.inl rfl

theorem stepOpening_pc (env : ReaderEnv) (s : ReaderState) :
    (stepOpening env s).pc = .loop ∨ (∃ b, (stepOpening env s).pc = .sending b) ∨
      Stopped (stepOpening env s) := by
  simp only [stepOpening, stepAlignStart]
  split
  · exact Or.inr (Or.inl ⟨_, rfl⟩)
  · split
    · exact Or.inr (Or.inl ⟨_, rfl⟩)
    · split
      · exact Or.inr (Or.inr (Or.inr ⟨_, rfl⟩))
      · exact Or.inr (Or.inl ⟨_, rfl⟩)
      · split
        · exact Or.inr (Or.inr (Or.inl rfl))
        · exact stepAlignEnd_pc env _ _

theorem stepReading_progress (env : ReaderEnv) (s : ReaderState) :
    (∃ b, (stepReading env s).pc = .sending b) ∨ Stopped (stepReading env s) ∨
    ((stepReading env s).pc = .loop ∧
      ((stepReading env s).offset = -1 ∨
        (s.offset < (stepReading env s).offset ∧
          alignedEndOf env (stepReading env s) = alignedEndOf env s))) := by
  simp only [stepReading]
  split
  · exact Or.inr (Or.inl (Or.inr ⟨_, rfl⟩))
  · rename_i newOffset events hr
    obtain ⟨size, buffer, hev, hsize, hpos, hcase⟩ := ReadDataBuffer_ok _ _ _ _ _ hr
    have hno : newOffset = -1 ∨ s.offset < newOffset := by
      rcases hcase with ⟨h, _⟩ | ⟨_, _, _, _, h⟩
      · exact Or.inl h
      · exact Or.inr (by omega)
    split
    · rename_i hc
      have hsf : s.scannedFinal = false := by simpa using hc.2
      split
      · exact Or.inr (Or.inl (Or.inr ⟨_, rfl⟩))
      · exact Or.inl ⟨_, rfl⟩
      · rename_i newEnd hb
        split
        · exact Or.inr (Or.inl (Or.inl rfl))
        · right; right
          refine ⟨rfl, ?_⟩
          rcases hno with h | h
          · exact Or.inl h
          · right
            refine ⟨h, ?_⟩
            simp [alignedEndOf, hsf, hb]
    · right; right
      refine ⟨rfl, ?_⟩
      rcases hno with h | h
      · exact Or.inl h
      · exact Or.inr ⟨h, by simp [alignedEndOf]⟩

theorem delivering_stops (env : ReaderEnv) (s : ReaderState) (b : RChannelBuffer)
    (h : Good env s) (hpc : s.pc = .delivering b) : ∃ n, Stopped (run env s (drive n)) := by
  have hrun : ¬ Stopped s := by
    rintro (h | ⟨f, h⟩) <;> rw [hpc] at h <;> simp at h
  obtain ⟨hg, hpc1, _, _, _, _⟩ := returnBuffer_running env s h hrun
  refine ⟨1, Or.inl ?_⟩
  rw [run_drive_succ]
  rw [hpc] at hpc1
  generalize step env s .returnBuffer = s1 at hpc1
  simp [drive, run, step, threadStep, hpc1, stepDelivering]

theorem sending_stops (env : ReaderEnv) (s : ReaderState) (b : RChannelBuffer)
    (h : Good env s) (hpc : s.pc = .sending b) : ∃ n, Stopped (run env s (drive n)) := by
  have hrun : ¬ Stopped s := by
    rintro (h | ⟨f, h⟩) <;> rw [hpc] at h <;> simp at h
  obtain ⟨hg, hpc1, _, _, _, hperm⟩ := returnBuffer_running env s h hrun
  have hp := hperm (by simp [ReaderState.held, hpc])
  have hab : (step env s .returnBuffer).abort = false := hg.2.2.2
  rw [hpc] at hpc1
  have hg2 := Good_thread env _ hg
  have hpc2 : (step env (step env s .returnBuffer) .thread).pc = .delivering b := by
    generalize step env s .returnBuffer = s1 at hpc1 hp hab
    simp [step, threadStep, hpc1, stepSending, hab, hp]
  obtain ⟨n, hn⟩ := delivering_stops env _ b hg2 hpc2
  exact ⟨n + 1, by rw [run_drive_succ]; exact hn⟩

theorem aborted_loop_stops (env : ReaderEnv) (s : ReaderState)
    (h : Good env s) (hpc : s.pc = .loop) (ho : s.offset = -1) :
    ∃ n, Stopped (run env s (drive n)) := by
  have hrun : ¬ Stopped s := by
    rintro (h | ⟨f, h⟩) <;> rw [hpc] at h <;> simp at h
  obtain ⟨hg, hpc1, ho1, _, _, _⟩ := returnBuffer_running env s h hrun
  refine ⟨1, Or.inl ?_⟩
  rw [run_drive_succ]
  rw [hpc] at hpc1
  rw [ho] at ho1
  generalize step env s .returnBuffer = s1 at hpc1 ho1
  have h1 : ¬ (0 ≤ s1.offset ∧ s1.offset < s1.offsetEnd) := by omega
  have h2 : ¬ (0 ≤ s1.offset) := by omega
  simp [drive, run, step, threadStep, hpc1, stepLoop, h1, h2]

theorem loop_stops (env : ReaderEnv) :
    ∀ (m : Nat) (s : ReaderState), stepsLeft env s ≤ m → Good env s →
      (s.pc = .loop ∨ s.pc = .acquired ∨ s.pc = .reading) →
      ∃ n, Stopped (run env s (drive n)) := by
  intro m
  induction m using Nat.strong_induction_on with
  | _ m ih =>
    intro s hm h hpc
    have hrun : ¬ Stopped s := by
      rintro (h | ⟨f, h⟩) <;> rcases hpc with hpc | hpc | hpc <;> rw [hpc] at h <;> simp at h
    obtain ⟨hg, hpc1, ho1, he1, hsf1, hperm⟩ := returnBuffer_running env s h hrun
    have hae : alignedEndOf env (step env s .returnBuffer) = alignedEndOf env s := by
      simp only [alignedEndOf, he1, hsf1]
    apply stops_of_pair
    have hg2 := Good_thread env _ hg
    have hab : (step env s .returnBuffer).abort = false := hg.2.2.2
    rcases hpc with hpc | hpc | hpc
    · -- at the loop test
      rcases SessInv_loop env s h.2.2.1 hpc with ⟨_, h0, hle, _, _⟩ | ⟨hm1, _⟩
      · have hp := hperm (by simp [ReaderState.held, hpc])
        rw [hpc] at hpc1
        by_cases hlt : s.offset < s.offsetEnd
        · have hc : 0 ≤ (step env s .returnBuffer).offset ∧
              (step env s .returnBuffer).offset < (step env s .returnBuffer).offsetEnd := by
            rw [ho1, he1]; exact ⟨h0, hlt⟩
          have hpc2 : (step env (step env s .returnBuffer) .thread).pc = .acquired := by
            generalize step env s .returnBuffer = s1 at hpc1 hp hab hc
            simp [step, threadStep, hpc1, stepLoop, hc, hab, hp]
          have hfield : (step env (step env s .returnBuffer) .thread).offset = s.offset ∧
              alignedEndOf env (step env (step env s .returnBuffer) .thread) =
                alignedEndOf env s := by
            rw [← hae, ← ho1]
            generalize step env s .returnBuffer = s1 at hpc1 hp hab hc
            simp [step, threadStep, hpc1, stepLoop, hc, hab, hp, alignedEndOf]
          refine ih (stepsLeft env (step env (step env s .returnBuffer) .thread)) ?_ _
            (le_refl _) hg2 (Or.inr (Or.inl hpc2))
          simp only [stepsLeft, hpc2, hfield, hpc] at hm ⊢
          omega
        · have hc : ¬ (0 ≤ (step env s .returnBuffer).offset ∧
              (step env s .returnBuffer).offset < (step env s .returnBuffer).offsetEnd) := by
            rw [ho1, he1]; omega
          have hc0 : 0 ≤ (step env s .returnBuffer).offset := by rw [ho1]; exact h0
          have hpc2 : (step env (step env s .returnBuffer) .thread).pc =
              .sending .endOfStream := by
            generalize step env s .returnBuffer = s1 at hpc1 hc hc0
            have hc2 : ¬ (s1.offset < s1.offsetEnd) := fun h => hc ⟨hc0, h⟩
            simp [step, threadStep, hpc1, stepLoop, hc2, hc0]
          exact sending_stops env _ _ hg2 hpc2
      · -- a read has failed
        have := aborted_loop_stops env s h hpc hm1
        obtain ⟨n, hn⟩ := this
        cases n with
        | zero => exact absurd hn hrun
        | succ n => exact ⟨n, by rw [run_drive_succ] at hn; exact hn⟩
    · -- a permit has been taken
      rw [hpc] at hpc1
      have hpc2 : (step env (step env s .returnBuffer) .thread).pc = .reading := by
        generalize step env s .returnBuffer = s1 at hpc1 hab
        simp [step, threadStep, hpc1, stepAcquired, hab]
      have hfield : (step env (step env s .returnBuffer) .thread).offset = s.offset ∧
          alignedEndOf env (step env (step env s .returnBuffer) .thread) =
            alignedEndOf env s := by
        rw [← hae, ← ho1]
        generalize step env s .returnBuffer = s1 at hpc1 hab
        simp [step, threadStep, hpc1, stepAcquired, hab, alignedEndOf]
      refine ih (stepsLeft env (step env (step env s .returnBuffer) .thread)) ?_ _
        (le_refl _) hg2 (Or.inr (Or.inr hpc2))
      simp only [stepsLeft, hpc2, hfield, hpc] at hm ⊢
      omega
    · -- the read is in flight
      obtain ⟨_, h0, hlt, _⟩ := SessInv_held env s h.2.2.1 (Or.inr hpc)
      rw [hpc] at hpc1
      have hstep : step env (step env s .returnBuffer) .thread =
          stepReading env (step env s .returnBuffer) := by
        generalize step env s .returnBuffer = s1 at hpc1
        simp [step, threadStep, hpc1]
      have hprog := stepReading_progress env (step env s .returnBuffer)
      rw [← hstep] at hprog
      rcases hprog with ⟨b, hb⟩ | hst | ⟨hl, hm1 | ⟨hadv, hsame⟩⟩
      · exact sending_stops env _ _ hg2 hb
      · exact stops_of_stopped env _ hst
      · exact aborted_loop_stops env _ hg2 hl hm1
      · refine ih (stepsLeft env (step env (step env s .returnBuffer) .thread)) ?_ _
          (le_refl _) hg2 (Or.inl hl)
        have hge := alignedEndOf_ge env s
        rw [ho1] at hadv
        rw [hae] at hsame
        simp only [stepsLeft, hl, hsame, hpc] at hm ⊢
        omega

/-- An uninterrupted session whose handler returns every buffer stops. -/
theorem session_stops (env : ReaderEnv) (s : ReaderState) (h : Good env s) :
    ∃ n, Stopped (run env s (drive n)) := by
  by_cases hrun : Stopped s
  · exact stops_of_stopped env s hrun
  have key : ∀ t : ReaderState, Good env t →
      (t.pc = .loop ∨ (∃ b, t.pc = .sending b) ∨ Stopped t) →
      ∃ n, Stopped (run env t (drive n)) := by
    intro t ht hcase
    rcases hcase with hl | ⟨b, hb⟩ | hst
    · exact loop_stops env _ t (le_refl _) ht (Or.inl hl)
    · exact sending_stops env t b ht hb
    · exact stops_of_stopped env t hst
  have opening : ∀ t : ReaderState, Good env t → t.pc = .opening →
      ∃ n, Stopped (run env t (drive n)) := by
    intro t ht hpc
    have hrun' : ¬ Stopped t := by
      rintro (h | ⟨f, h⟩) <;> rw [hpc] at h <;> simp at h
    obtain ⟨hg, hpc1, _⟩ := returnBuffer_running env t ht hrun'
    apply stops_of_pair
    have hg2 := Good_thread env _ hg
    rw [hpc] at hpc1
    have hstep : step env (step env t .returnBuffer) .thread =
        stepOpening env (step env t .returnBuffer) := by
      generalize step env t .returnBuffer = s1 at hpc1
      simp [step, threadStep, hpc1]
    have := stepOpening_pc env (step env t .returnBuffer)
    rw [← hstep] at this
    exact key _ hg2 this
  cases hpc : s.pc with
  | start =>
    obtain ⟨hg, hpc1, _⟩ := returnBuffer_running env s h hrun
    apply stops_of_pair
    have hg2 := Good_thread env _ hg
    rw [hpc] at hpc1
    have hstep : step env (step env s .returnBuffer) .thread =
        stepStart env (step env s .returnBuffer) := by
      generalize step env s .returnBuffer = s1 at hpc1
      simp [step, threadStep, hpc1]
    have := stepStart_pc env (step env s .returnBuffer)
    rw [← hstep] at this
    rcases this with ho | hs
    · exact opening _ hg2 ho
    · exact key _ hg2 (Or.inr (Or.inl hs))
  | opening => exact opening s h hpc
  | loop => exact loop_stops env _ s (le_refl _) h (Or.inl hpc)
  | acquired => exact loop_stops env _ s (le_refl _) h (Or.inr (Or.inl hpc))
  | reading => exact loop_stops env _ s (le_refl _) h (Or.inr (Or.inr hpc))
  | sending b => exact sending_stops env s b h hpc
  | delivering b => exact delivering_stops env s b h hpc
  | exited => exact absurd (Or.inl hpc) hrun
  | crashed f => exact absurd (Or.inr ⟨f, hpc⟩) hrun

theorem returnBuffer_abort (env : ReaderEnv) (s : ReaderState) :
    (step env s .returnBuffer).abort = s.abort := by
  simp only [step, ReturnBuffer]
  split
  · rfl
  · split
    · split <;> rfl
    · rfl

theorem drive_abort (env : ReaderEnv) (n : Nat) :
    ∀ s : ReaderState, (run env s (drive n)).abort = s.abort := by
  induction n with
  | zero => intro s; rfl
  | succ n ih =>
    intro s
    rw [run_drive_succ, ih, thread_abort, returnBuffer_abort]

theorem DrainInv_initial : DrainInv ReaderState.initial := Or.inl rfl

theorem Good_run (env : ReaderEnv) (schedule : List Action)
    (hab : (run env ReaderState.initial schedule).abort = false) :
    Good env (run env ReaderState.initial schedule) :=
  ⟨(SessInv_run env schedule).1,
    run_invariant env DrainInv (DrainInv_step env) schedule _ DrainInv_initial,
    (SessInv_run env schedule).2, hab⟩

/-! ## Claims about the reader session -/

/-- C9, witness: the reader of the 40-byte example file with range `[0,50)`
asks for 50 bytes and gets 40. -/
theorem failed_read_aborts_session_witness :
    ∃ d, (step shortFileEnv shortFileReading .thread).trace =
        shortFileReading.trace ++
          [.readBlock shortFileReading.offset
            (min (shortFileReading.offsetEnd - shortFileReading.offset) s_readBufferSize),
           .processBuffer (.abort .DryadError_ChannelReadError d)] ∧
      (run shortFileEnv (step shortFileEnv shortFileReading .thread) [.thread]).trace =
        (step shortFileEnv shortFileReading .thread).trace ∧
      ((run shortFileEnv (step shortFileEnv shortFileReading .thread) [.thread]).pc = .loop ∨
        (run shortFileEnv (step shortFileEnv shortFileReading .thread) [.thread]).pc =
          .exited) ∧
      (Action.thread ∈ [Action.thread] →
        (run shortFileEnv (step shortFileEnv shortFileReading .thread) [.thread]).pc =
          .exited) :=
  failed_read_aborts_session shortFileEnv [.thread, .thread, .thread, .thread] [.thread]
    shortFileReading rfl (by rfl) (by
      intro bs hbs
      have h2 : shortFileEnv.bridge shortFileReading.offset
          (min (shortFileReading.offsetEnd - shortFileReading.offset) s_readBufferSize) =
          .bytes exampleFile := by rfl
      rw [h2] at hbs
      simp only [ReadOutcome.bytes.injEq] at hbs
      rw [← hbs]
      have h3 : min (shortFileReading.offsetEnd - shortFileReading.offset) s_readBufferSize
          = 50 := by rfl
      rw [h3]
      decide)

/-- C8. For every reader session in which the abort signal is not set: if the
thread has exited and no abort marker was delivered (no read error), the
buffers delivered are data buffers followed by exactly one `EndOfStream`
marker, the last item; the data buffers have contiguous, strictly increasing
stream offsets, hold between 1 and `2*1024*1024` bytes each, and cover exactly
the aligned range from the offset returned by `AdjustStartOffset` to the offset
returned by `AdjustEndOffset` (there is none when the range holds no record
start). And with a handler that returns every buffer the session does stop. -/
theorem uninterrupted_session_delivers_aligned_range (env : ReaderEnv)
    (schedule : List Action) (s : ReaderState)
    (hs : s = run env ReaderState.initial schedule) (hab : s.abort = false) :
    (s.pc = .exited → (∀ c d, RChannelBuffer.abort c d ∉ delivered s.trace) →
      ∃ blocks, delivered s.trace = blocks ++ [.endOfStream] ∧
        ((Aligned env s ∧ s.scannedFinal = true ∧
            Chain env.bridge blocks s.offsetStart s.offsetEnd) ∨
          (blocks = [] ∧ NoRecordInRange env))) ∧
    (∃ n, Stopped (run env s (drive n)) ∧ (run env s (drive n)).abort = false) := by
  subst hs
  have hgood := Good_run env schedule hab
  constructor
  · intro hpc hno
    rcases hgood.2.2.1 with ⟨h, _⟩ | ⟨h, _⟩ | ⟨h, _⟩ | ⟨h, _⟩ | ⟨h, _⟩ | ⟨h, _⟩ | ⟨_, _, h⟩ |
      ⟨_, hen⟩ | ⟨_, h⟩
    · rw [hpc] at h; simp at h
    · rw [hpc] at h; simp at h
    · rw [hpc] at h; simp at h
    · rw [hpc] at h; simp at h
    · rw [hpc] at h; simp at h
    · rw [hpc] at h; simp at h
    · rw [hpc] at h; simp at h
    · rcases hen with ⟨blocks, hb, hal, hsf, hch⟩ | ⟨hd, hn⟩ | ⟨c, d, hm⟩ | habort
      · exact ⟨blocks, hb, Or.inl ⟨hal, hsf, hch⟩⟩
      · exact ⟨[], by simpa using hd, Or.inr ⟨rfl, hn⟩⟩
      · exact absurd hm (hno c d)
      · rw [hab] at habort; simp at habort
    · rw [hpc] at h; simp at h
  · obtain ⟨n, hn⟩ := session_stops env _ hgood
    exact ⟨n, hn, by rw [drive_abort]; exact hab⟩

/-- C8, witness: the reader of the example file with range `[5,30)`. -/
theorem uninterrupted_session_delivers_aligned_range_witness :
    (exampleFinal.pc = .exited →
      (∀ c d, RChannelBuffer.abort c d ∉ delivered exampleFinal.trace) →
      ∃ blocks, delivered exampleFinal.trace = blocks ++ [.endOfStream] ∧
        ((Aligned exampleEnv exampleFinal ∧ exampleFinal.scannedFinal = true ∧
            Chain exampleEnv.bridge blocks exampleFinal.offsetStart exampleFinal.offsetEnd) ∨
          (blocks = [] ∧ NoRecordInRange exampleEnv))) ∧
    (∃ n, Stopped (run exampleEnv exampleFinal (drive n)) ∧
      (run exampleEnv exampleFinal (drive n)).abort = false) :=
  uninterrupted_session_delivers_aligned_range exampleEnv (drive 12) exampleFinal rfl (by rfl)

/-! ## The reader on a file -/

theorem fileBridge_chunk (file : List Byte) :
    ∀ o : Nat, o < file.length → 1 ≤ (fun _ : Int => file.length) o := by
  intro o h; simp only; omega

theorem alignedEnd_le_length (file : List Byte) (x : Nat) : alignedEnd file x ≤ file.length := by
  simp only [alignedEnd]
  cases h : nextRecordStart file x with
  | none => simp
  | some o => simpa using nextRecordStart_le_length file x o h

theorem lt_alignedEnd (file : List Byte) (x : Nat) (hx : x < file.length) :
    x < alignedEnd file x := by
  simp only [alignedEnd]
  cases h : nextRecordStart file x with
  | none => simpa using hx
  | some o => simpa using (nextRecordStart_some file x o h).1

theorem AdjustEndOffset_file (file : List Byte) (fuel e : Nat) (hfuel : file.length < fuel)
    (he : e ≤ file.length) :
    AdjustEndOffset (fileBridge file) fuel e = .ok ((alignedEnd file e : Nat), none) := by
  have h := ScanForSync_chunked file (fun _ => file.length) (fileBridge_chunk file) fuel e (-1)
    (by omega) (by decide) (by intro h; simp at h)
  simp only [AdjustEndOffset, fileBridge, h, alignedEnd]
  cases hn : nextRecordStart file e with
  | none =>
    have hmax : max e file.length = file.length := Nat.max_eq_right he
    simp only [scanSpec, hmax, Option.getD_none]
    have h1 : ¬ ((file.length : Int) < -1) := by omega
    simp [h1, he]
  | some o =>
    have hspec := nextRecordStart_some file e o hn
    simp only [scanSpec, Option.getD_some]
    have h1 : ¬ ((o : Int) < -1) := by omega
    simp [h1, le_of_lt hspec.1]

theorem AdjustStartOffset_file_zero (file : List Byte) (fuel : Nat) (e : Int) :
    AdjustStartOffset (fileBridge file) fuel 0 e = .ok (0, none) := by
  simp [AdjustStartOffset]

theorem AdjustStartOffset_file (file : List Byte) (fuel os e : Nat)
    (hfuel : file.length < fuel) (hos : 0 < os) (hle : os ≤ e) (he : e ≤ file.length) :
    AdjustStartOffset (fileBridge file) fuel os e =
      match nextRecordStart file os with
      | some o => if o ≤ e then .ok ((o : Int), none) else .ok (-1, some .endOfStream)
      | none =>
        if e < file.length then .ok (-1, some .endOfStream)
        else .ok (-2, some (.abort .DryadError_ChannelReadError
                    (.eofEarly (file.length : Nat) ((e : Int) + 1)))) := by
  have h := ScanForSync_chunked file (fun _ => file.length) (fileBridge_chunk file) fuel os
    ((e : Int) + 1) (by omega) (by omega) (by intro _; omega)
  have hpos : (0 : Int) < (os : Int) := by omega
  simp only [AdjustStartOffset, fileBridge, h, hpos, if_true]
  cases hn : nextRecordStart file os with
  | none =>
    have hmax : max os file.length = file.length := Nat.max_eq_right (by omega)
    simp only [scanSpec, hmax]
    have h0 : (0 : Int) < (e : Int) + 1 := by omega
    by_cases hlt : e < file.length
    · have h1 : (e : Int) + 1 ≤ (file.length : Int) := by omega
      simp [h0, h1, hlt]
    · have h1 : ¬ ((e : Int) + 1 ≤ (file.length : Int)) := by omega
      simp [h0, h1, hlt]
  | some o =>
    have hspec := nextRecordStart_some file os o hn
    simp only [scanSpec]
    have h0 : (0 : Int) < (e : Int) + 1 := by omega
    by_cases hoe : o ≤ e
    · have h1 : ¬ ((e : Int) + 1 ≤ (o : Int)) := by omega
      have h2 : ¬ ((o : Int) < -1) := by omega
      have h3 : ¬ ((o : Int) = -1) := by omega
      have h4 : (o : Int) ≤ (e : Int) := by omega
      simp [h0, h1, h2, h3, h4, hoe]
    · have h1 : (e : Int) + 1 ≤ (o : Int) := by omega
      simp [h0, h1, hoe]

theorem slice_append (l : List Byte) (a m b : Nat) (h1 : a ≤ m) (h2 : m ≤ b) :
    (l.take m).drop a ++ (l.take b).drop m = (l.take b).drop a := by
  have h3 : l.take m = (l.take b).take m := by rw [List.take_take, Nat.min_eq_left h2]
  rw [h3]
  generalize l.take b = t
  have h4 : t.drop a = (t.take m ++ t.drop m).drop a := by rw [List.take_append_drop]
  rw [h4, List.drop_append_eq_append_drop]
  congr 1
  by_cases hm : m ≤ t.length
  · have : (t.take m).length = m := by simp [List.length_take, hm]
    rw [this, Nat.sub_eq_zero_of_le h1]; rfl
  · have hnil : t.drop m = [] := List.drop_eq_nil_of_le (by omega)
    rw [hnil]; simp

theorem slice_empty (l : List Byte) (a b : Nat) (h : b ≤ a) : (l.take b).drop a = [] :=
  List.drop_eq_nil_of_le (by simp only [List.length_take]; omega)

theorem fileBridge_bytes (file : List Byte) (a : Nat) (bytes : List Byte)
    (h : fileBridge file a bytes.length = .bytes bytes) :
    a + bytes.length ≤ file.length ∧ bytes = (file.take (a + bytes.length)).drop a := by
  by_cases hle : file.length ≤ a
  · rw [fileBridge, chunkedBridge_eof file _ a _ hle] at h; simp at h
  · have hlt : a < file.length := by omega
    rw [fileBridge, chunkedBridge_bytes file _ a _ hlt] at h
    simp only [ReadOutcome.bytes.injEq, Int.toNat_ofNat] at h
    have hlen := congrArg List.length h
    simp only [List.length_take, List.length_drop] at hlen
    have hk : a + bytes.length ≤ file.length := by omega
    refine ⟨hk, ?_⟩
    have hmin : min bytes.length file.length = bytes.length := by omega
    rw [hmin] at h
    rw [List.drop_take, Nat.add_sub_cancel_left]
    exact h.symm

theorem Chain_file (file : List Byte) :
    ∀ (blocks : List RChannelBuffer) (a : Nat) (b : Int), Chain (fileBridge file) blocks a b →
      ∃ b' : Nat, b = b' ∧ a ≤ b' ∧ dataBytes blocks = (file.take b').drop a ∧
        ∀ c d, RChannelBuffer.abort c d ∉ blocks := by
  intro blocks
  induction blocks with
  | nil =>
    intro a b h
    simp only [Chain] at h
    exact ⟨a, h.symm, le_refl _, by simp [dataBytes, slice_empty], by simp⟩
  | cons x rest ih =>
    intro a b h
    cases x with
    | data o bs =>
      simp only [Chain] at h
      obtain ⟨ho, h1, _, hbr, hrest⟩ := h
      subst ho
      obtain ⟨hk, hbs⟩ := fileBridge_bytes file a bs hbr
      have hrest' : Chain (fileBridge file) rest ((a + bs.length : Nat) : Int) b := by
        push_cast; exact hrest
      obtain ⟨b', hb, hle, hd, hno⟩ := ih _ _ hrest'
      refine ⟨b', hb, by omega, ?_, ?_⟩
      · simp only [dataBytes, hd]
        have key := slice_append file a (a + bs.length) b' (by omega) hle
        rw [← hbs] at key
        exact key
      · intro c d hm
        simp only [List.mem_cons] at hm
        rcases hm with hm | hm
        · simp at hm
        · exact hno c d hm
    | endOfStream => simp [Chain] at h
    | abort c d => simp [Chain] at h

theorem dataBytes_append (xs ys : List RChannelBuffer) :
    dataBytes (xs ++ ys) = dataBytes xs ++ dataBytes ys := by
  induction xs with
  | nil => rfl
  | cons x rest ih => cases x <;> simp [dataBytes, ih]

theorem le_alignedEnd (file : List Byte) (x : Nat) (hx : x ≤ file.length) :
    x ≤ alignedEnd file x := by
  rcases Nat.lt_or_ge x file.length with h | h
  · exact le_of_lt (lt_alignedEnd file x h)
  · simp only [alignedEnd]
    cases hn : nextRecordStart file x with
    | none => simpa using hx
    | some o => simpa using le_of_lt (nextRecordStart_some file x o hn).1

theorem fileEnv_initialized (file : List Byte) (os len : Int) (fuel : Nat) :
    (fileEnv file os len fuel).initialized = true := rfl

theorem fileEnv_parsed (file : List Byte) (os len : Int) (fuel : Nat) :
    (fileEnv file os len fuel).parsed = some (os, len) := rfl

theorem fileEnv_openedInstance (file : List Byte) (os len : Int) (fuel : Nat) :
    (fileEnv file os len fuel).openedInstance = true := rfl

theorem fileEnv_openedReader (file : List Byte) (os len : Int) (fuel : Nat) :
    (fileEnv file os len fuel).openedReader = true := rfl

theorem fileEnv_bridge (file : List Byte) (os len : Int) (fuel : Nat) :
    (fileEnv file os len fuel).bridge = fileBridge file := rfl

theorem fileEnv_scanFuel (file : List Byte) (os len : Int) (fuel : Nat) :
    (fileEnv file os len fuel).scanFuel = fuel := rfl

theorem stepAlignEnd_file (file : List Byte) (os len fuel : Nat) (hfuel : file.length < fuel)
    (hrange : os + len ≤ file.length) (t : ReaderState) (o : Nat)
    (hoe : t.offsetEnd = ((os + len : Nat) : Int)) (hle : o ≤ os + len) :
    (stepAlignEnd (fileEnv file os len fuel) t o).pc = .loop := by
  simp only [stepAlignEnd, fileEnv_bridge, fileEnv_scanFuel, hoe]
  rw [AdjustEndOffset_file file fuel (os + len) hfuel hrange]
  have h1 : ¬ (((alignedEnd file (os + len) : Nat) : Int) < 0) := by omega
  have h2 : (o : Int) ≤ ((alignedEnd file (os + len) : Nat) : Int) := by
    have := le_alignedEnd file (os + len) hrange
    omega
  have h3 : (o : Int) ≤ ((os + len : Nat) : Int) := by omega
  split
  · simp [h1, h2]
  · simp [h3]

theorem stepAlignStart_file (file : List Byte) (os len fuel : Nat)
    (hfuel : file.length < fuel) (hrange : os + len ≤ file.length) (t : ReaderState)
    (hos : t.offsetStart = (os : Int)) (hoe : t.offsetEnd = ((os + len : Nat) : Int)) :
    (stepAlignStart (fileEnv file os len fuel) t).pc = .loop ∨
    (stepAlignStart (fileEnv file os len fuel) t).pc = .sending .endOfStream ∨
    (∃ c d, (stepAlignStart (fileEnv file os len fuel) t).pc = .sending (.abort c d) ∧
      EmptyRange file os (os + len)) := by
  simp only [stepAlignStart, fileEnv_bridge, fileEnv_scanFuel, hos, hoe]
  by_cases h0 : os = 0
  · subst h0
    left
    rw [Nat.cast_zero, AdjustStartOffset_file_zero]
    simp only [lt_irrefl, if_false]
    exact stepAlignEnd_file file 0 len fuel hfuel hrange _ 0 rfl (by omega)
  · have hpos : 0 < os := Nat.pos_of_ne_zero h0
    rw [AdjustStartOffset_file file fuel os (os + len) hfuel hpos (by omega) hrange]
    cases hn : nextRecordStart file os with
    | some o =>
      by_cases hoe2 : o ≤ os + len
      · left
        have h1 : ¬ ((o : Int) < 0) := by omega
        simp only [hoe2, if_true, h1, if_false]
        exact stepAlignEnd_file file os len fuel hfuel hrange _ o rfl hoe2
      · right; left
        simp only [hoe2, if_false]
    | none =>
      by_cases hlt : os + len < file.length
      · right; left
        simp only [hlt, if_true]
      · right; right
        simp only [hlt, if_false]
        refine ⟨_, _, rfl, ?_⟩
        simp only [EmptyRange, alignedStart, h0, if_false]
        have h1 : alignedEnd file os = file.length := by simp [alignedEnd, hn]
        rw [h1]
        exact alignedEnd_le_length file _

theorem stepOpening_file (file : List Byte) (os len fuel : Nat) (hfuel : file.length < fuel)
    (hrange : os + len ≤ file.length) (s : ReaderState)
    (hos : s.offsetStart = (os : Int)) (hoe : s.offsetEnd = ((os + len : Nat) : Int)) :
    (stepOpening (fileEnv file os len fuel) s).pc = .loop ∨
    (stepOpening (fileEnv file os len fuel) s).pc = .sending .endOfStream ∨
    (∃ c d, (stepOpening (fileEnv file os len fuel) s).pc = .sending (.abort c d) ∧
      EmptyRange file os (os + len)) := by
  simp only [stepOpening, fileEnv_openedInstance, fileEnv_openedReader, not_true_eq_false,
    if_false]
  apply stepAlignStart_file file os len fuel hfuel hrange
  · split <;> exact hos
  · split <;> exact hoe

theorem ReadDataBuffer_file (file : List Byte) (p q : Nat) (hlt : p < q)
    (hq : q ≤ file.length) :
    ∃ bs : List Byte, 1 ≤ bs.length ∧ p + bs.length ≤ q ∧
      ReadDataBuffer (fileBridge file) p q =
        .ok ((p : Int) + bs.length,
             [.readBlock p bs.length, .processBuffer (.data p bs)]) := by
  have hsz : (if (q : Int) - p < s_readBufferSize then (q : Int) - p
      else s_readBufferSize) = ((min (q - p) (2 * 1024 * 1024) : Nat) : Int) := by
    simp only [s_readBufferSize]
    split <;> omega
  generalize hk : min (q - p) (2 * 1024 * 1024) = k at hsz
  have hk1 : 1 ≤ k := by omega
  have hk2 : p + k ≤ q := by omega
  have hbr : fileBridge file p k = .bytes ((file.drop p).take k) := by
    rw [fileBridge, chunkedBridge_bytes file _ p _ (by omega)]
    have : min ((k : Int).toNat) file.length = k := by
      simp only [Int.toNat_ofNat]; omega
    rw [this]
  have hlen : ((file.drop p).take k).length = k := by
    simp only [List.length_take, List.length_drop]; omega
  refine ⟨(file.drop p).take k, by omega, by omega, ?_⟩
  simp only [ReadDataBuffer, hsz, hbr, hlen]
  have h1 : ¬ ¬ (0 : Int) < (k : Int) := by omega
  have h2 : k ≠ 0 := by omega
  simp [h1, h2]

theorem stepReading_file (file : List Byte) (os len fuel : Nat) (hfuel : file.length < fuel)
    (hrange : os + len ≤ file.length) (s : ReaderState) (p q : Nat)
    (hp : s.offset = (p : Int)) (hq : s.offsetEnd = (q : Int)) (hlt : p < q)
    (hql : q ≤ file.length) (hns : s.scannedFinal = false → q = os + len) :
    (stepReading (fileEnv file os len fuel) s).pc = .loop ∧
      0 ≤ (stepReading (fileEnv file os len fuel) s).offset := by
  obtain ⟨bs, _, _, hr⟩ := ReadDataBuffer_file file p q hlt hql
  simp only [stepReading, fileEnv_bridge, fileEnv_scanFuel, hp, hq, hr]
  split
  · rename_i hc
    have hsf : s.scannedFinal = false := by simpa using hc.2
    have hqe := hns hsf
    subst hqe
    rw [AdjustEndOffset_file file fuel (os + len) hfuel hrange]
    have h1 : ¬ (((alignedEnd file (os + len) : Nat) : Int) < 0) := by omega
    simp only [h1, if_false]
    exact ⟨trivial, by omega⟩
  · exact ⟨rfl, by show (0 : Int) ≤ (p : Int) + bs.length; omega⟩

theorem Aligned_file (file : List Byte) (os len fuel : Nat) (hfuel : file.length < fuel)
    (hrange : os + len ≤ file.length) (s : ReaderState)
    (h : Aligned (fileEnv file os len fuel) s) :
    s.offsetStart = (alignedStart file os : Nat) ∧
    (s.scannedFinal = true → s.offsetEnd = (alignedEnd file (os + len) : Nat)) ∧
    (s.scannedFinal = false → s.offsetEnd = ((os + len : Nat) : Int)) := by
  obtain ⟨os', len', hp, ha, _, he⟩ := h
  simp only [fileEnv_parsed, Option.some.injEq, Prod.mk.injEq] at hp
  obtain ⟨h1, h2⟩ := hp
  subst h1 h2
  simp only [fileEnv_bridge, fileEnv_scanFuel] at ha he
  have hcast : (os : Int) + (len : Int) = ((os + len : Nat) : Int) := by push_cast; rfl
  rw [hcast] at ha he
  refine ⟨?_, ?_, ?_⟩
  · by_cases h0 : os = 0
    · subst h0
      rw [Nat.cast_zero, AdjustStartOffset_file_zero] at ha
      simp only [Except.ok.injEq, Prod.mk.injEq, and_true] at ha
      simp [alignedStart, ← ha]
    · have hpos : 0 < os := Nat.pos_of_ne_zero h0
      rw [AdjustStartOffset_file file fuel os (os + len) hfuel hpos (by omega) hrange] at ha
      cases hn : nextRecordStart file os with
      | some o =>
        rw [hn] at ha
        simp only at ha
        split at ha
        · simp only [Except.ok.injEq, Prod.mk.injEq, and_true] at ha
          simp [alignedStart, h0, alignedEnd, hn, ← ha]
        · simp at ha
      | none =>
        rw [hn] at ha
        simp only at ha
        split at ha <;> simp at ha
  · intro hsf
    rw [hsf] at he
    simp only [if_true] at he
    rw [AdjustEndOffset_file file fuel (os + len) hfuel hrange] at he
    simp only [Except.ok.injEq, Prod.mk.injEq, and_true] at he
    exact he.symm
  · intro hsf
    rw [hsf] at he
    simpa using he

theorem FileInv_congr (file : List Byte) (os len : Nat) (s t : ReaderState)
    (h : FileInv file os len s) (hpc : t.pc = s.pc) (ho : t.offset = s.offset)
    (ht : t.trace = s.trace) : FileInv file os len t := by
  unfold FileInv at h ⊢
  rw [hpc, ho, ht]
  exact h

theorem SessInv_sending (env : ReaderEnv) (s : ReaderState) (b : RChannelBuffer)
    (h : SessInv env s) (hpc : s.pc = .sending b ∨ s.pc = .delivering b) :
    (b = .endOfStream ∧ ∀ c d, RChannelBuffer.abort c d ∉ delivered s.trace → True) ∨
      ∃ c d, b = .abort c d := by
  have key : ∀ b2 : RChannelBuffer, (s.pc = .sending b2 ∨ s.pc = .delivering b2) → b2 = b := by
    intro b2 h2
    rcases hpc with hpc | hpc <;> rcases h2 with h2 | h2 <;> rw [hpc] at h2 <;>
      first
        | (simp only [Pc.sending.injEq] at h2; exact h2.symm)
        | (simp only [Pc.delivering.injEq] at h2; exact h2.symm)
        | cases h2
  have hne : ∀ p : Pc, s.pc = p → (p = .sending b ∨ p = .delivering b) := by
    intro p hp; rw [← hp]; exact hpc
  rcases h with ⟨h, _⟩ | ⟨h, _⟩ | ⟨h, _⟩ | ⟨h, _⟩ | ⟨hb, _⟩ | ⟨hb, _⟩ | ⟨c, d, hb⟩ |
    ⟨h, _⟩ | ⟨_, h⟩
  · rcases hne _ h with h | h <;> cases h
  · rcases hne _ h with h | h <;> cases h
  · rcases h with h | h | h <;> rcases hne _ h with h | h <;> cases h
  · rcases hne _ h with h | h <;> cases h
  · exact Or.inl ⟨(key _ hb).symm, fun _ _ _ => trivial⟩
  · exact Or.inl ⟨(key _ hb).symm, fun _ _ _ => trivial⟩
  · exact Or.inr ⟨c, d, (key _ hb).symm⟩
  · rcases hne _ h with h | h <;> cases h
  · rcases hne _ h with h | h <;> cases h

theorem FileInv_step (file : List Byte) (os len fuel : Nat) (hfuel : file.length < fuel)
    (hrange : os + len ≤ file.length) (s : ReaderState) (a : Action)
    (hperm : PermitInv s) (hsess : SessInv (fileEnv file os len fuel) s)
    (h : FileInv file os len s) :
    FileInv file os len (step (fileEnv file os len fuel) s a) := by
  have hsess' := SessInv_step (fileEnv file os len fuel) s a hsess
  obtain ⟨hnc, hloop, hsend, hab⟩ := h
  cases a with
  | thread =>
    simp only [step, threadStep] at hsess' ⊢
    cases hpc : s.pc with
    | start =>
      simp only [Option.getD_some, stepStart, fileEnv_initialized, fileEnv_parsed,
        not_true_eq_false, if_false]
      exact ⟨by simp, by simp, by simp, hab⟩
    | opening =>
      rw [hpc] at hsess'
      simp only [Option.getD_some] at hsess' ⊢
      have hoff : s.offsetStart = (os : Int) ∧ s.offsetEnd = ((os + len : Nat) : Int) ∧
          delivered s.trace = [] := by
        rcases hsess with ⟨h, _⟩ | ⟨_, hd, hp⟩ | ⟨h, _⟩ | ⟨h, _⟩ | ⟨h, _⟩ | ⟨h, _⟩ |
          ⟨_, _, h⟩ | ⟨h, _⟩ | ⟨_, h⟩
        · rw [hpc] at h; simp at h
        · simp only [fileEnv_parsed, Option.some.injEq, Prod.mk.injEq] at hp
          refine ⟨hp.1.symm, ?_, hd⟩
          push_cast; omega
        all_goals (rw [hpc] at h; simp at h)
      have hd' := (stepOpening_frame (fileEnv file os len fuel) s).2.2.2.2.1
      rw [hoff.2.2] at hd'
      have hcase := stepOpening_file file os len fuel hfuel hrange s hoff.1 hoff.2.1
      refine ⟨?_, ?_, ?_, ?_⟩
      · rintro ⟨f, hf⟩
        rcases hcase with h | h | ⟨_, _, h, _⟩ <;> rw [h] at hf <;> simp at hf
      · intro hl
        rcases SessInv_loop _ _ hsess' hl with ⟨_, h0, _⟩ | ⟨_, c, d, hm⟩
        · exact h0
        · rw [hd'] at hm; simp at hm
      · intro c d hs
        refine ⟨hd', ?_⟩
        rcases hcase with h | h | ⟨_, _, _, he⟩
        · rw [h] at hs; simp at hs
        · rw [h] at hs; simp at hs
        · exact he
      · rintro ⟨c, d, hm⟩
        rw [hd'] at hm; simp at hm
    | loop =>
      simp only [stepLoop]
      split
      · split
        · exact ⟨by simp, by simp, by simp, hab⟩
        · split
          · exact ⟨by simp, by simp, by simp, hab⟩
          · exact ⟨hnc, hloop, hsend, hab⟩
      · split
        · exact ⟨by simp, by simp, by simp, hab⟩
        · exact ⟨by simp, by simp, by simp, hab⟩
    | acquired =>
      simp only [Option.getD_some, stepAcquired]
      split
      · split
        · exact ⟨by simp, by simp, by simp, hab⟩
        · exfalso
          rename_i hfull
          rcases hperm.2.2 with ⟨f, hf⟩ | hsum
          · rw [hpc] at hf; simp at hf
          · simp only [ReaderState.held, hpc] at hsum
            omega
      · exact ⟨by simp, by simp, by simp, hab⟩
    | reading =>
      rw [hpc] at hsess'
      simp only [Option.getD_some] at hsess' ⊢
      obtain ⟨hal, h0, hlt, hch⟩ := SessInv_held _ s hsess (Or.inr hpc)
      obtain ⟨hs1, hs2, hs3⟩ := Aligned_file file os len fuel hfuel hrange s hal
      obtain ⟨p, hp⟩ : ∃ p : Nat, s.offset = p := ⟨s.offset.toNat, by omega⟩
      have hq : ∃ q : Nat, s.offsetEnd = q ∧ q ≤ file.length ∧
          (s.scannedFinal = false → q = os + len) := by
        cases hsf : s.scannedFinal with
        | true =>
          exact ⟨_, hs2 hsf, alignedEnd_le_length file _, fun h => by simp at h⟩
        | false => exact ⟨_, hs3 hsf, hrange, fun _ => rfl⟩
      obtain ⟨q, hq, hql, hns⟩ := hq
      have hr := stepReading_file file os len fuel hfuel hrange s p q hp hq (by omega) hql hns
      have hnoabort : ∀ c d, RChannelBuffer.abort c d ∉
          delivered (stepReading (fileEnv file os len fuel) s).trace := by
        rcases SessInv_loop _ _ hsess' hr.1 with ⟨hal', _, _, hch', _⟩ | ⟨hm1, _⟩
        · have hs1' := (Aligned_file file os len fuel hfuel hrange _ hal').1
          rw [hs1', fileEnv_bridge] at hch'
          obtain ⟨_, _, _, _, hno⟩ := Chain_file file _ _ _ hch'
          exact hno
        · have := hr.2; omega
      refine ⟨?_, fun _ => hr.2, ?_, ?_⟩
      · rintro ⟨f, hf⟩; rw [hr.1] at hf; simp at hf
      · intro c d hs; rw [hr.1] at hs; simp at hs
      · rintro ⟨c, d, hm⟩; exact absurd hm (hnoabort c d)
    | sending b =>
      simp only [stepSending]
      split
      · refine ⟨by simp, by simp, by simp, ?_⟩
        simpa [delivered_append, delivered] using hab
      · split
        · refine ⟨by simp, by simp, ?_, hab⟩
          intro c d hs
          simp only [Option.getD_some, reduceCtorEq, false_or, Pc.delivering.injEq] at hs
          exact hsend c d (Or.inl (by rw [hpc, hs]))
        · exact ⟨hnc, hloop, hsend, hab⟩
    | delivering b =>
      simp only [stepDelivering, Option.getD_some]
      refine ⟨by simp, by simp, by simp, ?_⟩
      simp only [delivered_append, delivered, List.mem_append,
        List.mem_singleton, dataBytes_append]
      rintro ⟨c, d, hm⟩
      rcases SessInv_sending _ s b hsess (Or.inr hpc) with ⟨hb, _⟩ | ⟨c', d', hb⟩
      · subst hb
        rcases hm with hm | hm
        · have := hab ⟨c, d, hm⟩
          exact ⟨by simp [this.1, dataBytes], this.2⟩
        · simp at hm
      · subst hb
        have := hsend c' d' (Or.inr hpc)
        exact ⟨by simp [this.1, dataBytes], this.2⟩
    | exited => exact ⟨hnc, hloop, hsend, hab⟩
    | crashed f => exact ⟨hnc, hloop, hsend, hab⟩
  | returnBuffer =>
    simp only [step, ReturnBuffer]
    split
    · exact ⟨hnc, hloop, hsend, hab⟩
    · split
      · split
        · exact FileInv_congr file os len s _ ⟨hnc, hloop, hsend, hab⟩ rfl rfl rfl
        · exfalso
          have := hperm.2.1
          simp only [ReaderState.outstanding] at this
          omega
      · exact ⟨hnc, hloop, hsend, hab⟩
  | interrupt =>
    simp only [step, Interrupt]
    split
    · exact ⟨hnc, hloop, hsend, hab⟩
    · exact FileInv_congr file os len s _ ⟨hnc, hloop, hsend, hab⟩ rfl rfl rfl
  | drainWait =>
    simp only [step, drainWait]
    split
    · exact FileInv_congr file os len s _ ⟨hnc, hloop, hsend, hab⟩ rfl rfl rfl
    · exact ⟨hnc, hloop, hsend, hab⟩

theorem FileInv_run (file : List Byte) (os len fuel : Nat) (hfuel : file.length < fuel)
    (hrange : os + len ≤ file.length) (schedule : List Action) :
    FileInv file os len (run (fileEnv file os len fuel) ReaderState.initial schedule) := by
  have h := run_invariant (fileEnv file os len fuel)
    (fun s => (PermitInv s ∧ SessInv (fileEnv file os len fuel) s) ∧ FileInv file os len s)
    (fun s a h => ⟨⟨PermitInv_step _ s a h.1.1, SessInv_step _ s a h.1.2⟩,
      FileInv_step file os len fuel hfuel hrange s a h.1.1 h.1.2 h.2⟩)
    schedule ReaderState.initial
    ⟨⟨PermitInv_initial, SessInv_initial _⟩,
      by simp [FileInv, ReaderState.initial, delivered]⟩
  exact h.2

theorem alignedEnd_le_of_recordStart (file : List Byte) (y o : Nat)
    (hR : isRecordStart file o) (hlt : y < o) : alignedEnd file y ≤ o := by
  simp only [alignedEnd]
  cases hn : nextRecordStart file y with
  | none => exact absurd hR (nextRecordStart_none file y hn o hlt)
  | some o' => simpa using (nextRecordStart_some file y o' hn).2.2 o hlt hR

theorem alignedEnd_mono (file : List Byte) (x y : Nat) (h : x ≤ y) :
    alignedEnd file x ≤ alignedEnd file y := by
  cases hn : nextRecordStart file y with
  | none =>
    have : alignedEnd file y = file.length := by simp [alignedEnd, hn]
    rw [this]; exact alignedEnd_le_length file x
  | some o =>
    have hs := nextRecordStart_some file y o hn
    have : alignedEnd file y = o := by simp [alignedEnd, hn]
    rw [this]
    exact alignedEnd_le_of_recordStart file x o hs.2.1 (by omega)

theorem alignedEnd_cases (file : List Byte) (x : Nat) :
    isRecordStart file (alignedEnd file x) ∨ alignedEnd file x = file.length := by
  cases hn : nextRecordStart file x with
  | none => right; simp [alignedEnd, hn]
  | some o =>
    left
    have := (nextRecordStart_some file x o hn).2.1
    simpa [alignedEnd, hn] using this

theorem NoRecordInRange_file (file : List Byte) (os len fuel : Nat)
    (hfuel : file.length < fuel) (hrange : os + len ≤ file.length)
    (h : NoRecordInRange (fileEnv file os len fuel)) : EmptyRange file os (os + len) := by
  obtain ⟨os', len', hp, ha⟩ := h
  simp only [fileEnv_parsed, Option.some.injEq, Prod.mk.injEq] at hp
  obtain ⟨h1, h2⟩ := hp
  subst h1 h2
  simp only [fileEnv_bridge, fileEnv_scanFuel] at ha
  have hcast : (os : Int) + (len : Int) = ((os + len : Nat) : Int) := by push_cast; rfl
  rw [hcast] at ha
  by_cases h0 : os = 0
  · subst h0
    rw [Nat.cast_zero, AdjustStartOffset_file_zero] at ha
    simp at ha
  · have hpos : 0 < os := Nat.pos_of_ne_zero h0
    rw [AdjustStartOffset_file file fuel os (os + len) hfuel hpos (by omega) hrange] at ha
    simp only [EmptyRange, alignedStart, h0, if_false]
    cases hn : nextRecordStart file os with
    | some o =>
      rw [hn] at ha
      simp only at ha
      split at ha
      · simp at ha
      · have hs := nextRecordStart_some file os o hn
        have : alignedEnd file os = o := by simp [alignedEnd, hn]
        rw [this]
        exact alignedEnd_le_of_recordStart file _ o hs.2.1 (by omega)
    | none =>
      have : alignedEnd file os = file.length := by simp [alignedEnd, hn]
      rw [this]
      exact alignedEnd_le_length file _

/-- What a complete, uninterrupted session on a file delivers: the bytes from
the aligned start to the aligned end of its range. -/
theorem file_session_data (file : List Byte) (os len fuel : Nat) (hfuel : file.length < fuel)
    (hrange : os + len ≤ file.length) (schedule : List Action)
    (hc : Complete file fuel os len schedule) :
    readerData file fuel os len schedule =
      (file.take (alignedEnd file (os + len))).drop (alignedStart file os) := by
  obtain ⟨hpc, hab⟩ := hc
  have hgood := Good_run (fileEnv file os len fuel) schedule hab
  have hfile := FileInv_run file os len fuel hfuel hrange schedule
  simp only [readerData]
  generalize run (fileEnv file os len fuel) ReaderState.initial schedule = s at *
  have hen : Ended (fileEnv file os len fuel) s := by
    rcases hgood.2.2.1 with ⟨h, _⟩ | ⟨h, _⟩ | ⟨h, _⟩ | ⟨h, _⟩ | ⟨h, _⟩ | ⟨h, _⟩ | ⟨_, _, h⟩ |
      ⟨_, hen⟩ | ⟨_, h⟩
    all_goals first
      | exact hen
      | (rw [hpc] at h; simp at h)
  rcases hen with ⟨blocks, hb, hal, hsf, hch⟩ | ⟨hd, hn⟩ | hm | habort
  · obtain ⟨hs1, hs2, _⟩ := Aligned_file file os len fuel hfuel hrange s hal
    rw [hs1, hs2 hsf, fileEnv_bridge] at hch
    obtain ⟨b', hb', _, hdata, _⟩ := Chain_file file _ _ _ hch
    have hbe : b' = alignedEnd file (os + len) := by omega
    rw [hb, dataBytes_append, hdata, hbe]
    simp [dataBytes]
  · have hem := NoRecordInRange_file file os len fuel hfuel hrange hn
    rw [hd, slice_empty file _ _ hem]
    rfl
  · obtain ⟨hd, hem⟩ := hfile.2.2.2 hm
    rw [hd, slice_empty file _ _ hem]
  · rw [hab] at habort; simp at habort

/-- On a file, an uninterrupted session whose handler returns every buffer
ends with the return of the thread. -/
theorem file_session_completes (file : List Byte) (os len fuel : Nat)
    (hfuel : file.length < fuel) (hrange : os + len ≤ file.length) (schedule : List Action)
    (hab : (run (fileEnv file os len fuel) ReaderState.initial schedule).abort = false) :
    ∃ n, Complete file fuel os len (schedule ++ drive n) := by
  have hgood := Good_run (fileEnv file os len fuel) schedule hab
  obtain ⟨n, hn⟩ := session_stops _ _ hgood
  refine ⟨n, ?_, ?_⟩
  · rw [run_append]
    rcases hn with h | ⟨f, hf⟩
    · exact h
    · have := (FileInv_run file os len fuel hfuel hrange (schedule ++ drive n)).1
      rw [run_append] at this
      exact absurd ⟨f, hf⟩ this
  · rw [run_append, drive_abort]; exact hab

/-- C2, counterexample. On the example file (records at `[0,10)`, `[10,25)`,
`[25,40)`) the complete session of the reader opened for `[5,30)` delivers
bytes `[10,40)`, records 2 and 3, not bytes `[10,25)`; and the complete session
of the reader opened for `[30,40)` delivers no data, not record 3. -/
theorem C2_counterexample :
    Complete exampleFile 50 5 25 (drive 12) ∧
    readerData exampleFile 50 5 25 (drive 12) = (exampleFile.take 40).drop 10 ∧
    readerData exampleFile 50 5 25 (drive 12) ≠ (exampleFile.take 25).drop 10 ∧
    Complete exampleFile 50 30 10 (drive 12) ∧
    readerData exampleFile 50 30 10 (drive 12) = [] ∧
    readerData exampleFile 50 30 10 (drive 12) ≠ (exampleFile.take 40).drop 25 := by
  have h1 : readerData exampleFile 50 5 25 (drive 12) = (exampleFile.take 40).drop 10 := by rfl
  have h2 : readerData exampleFile 50 30 10 (drive 12) = [] := by rfl
  refine ⟨⟨rfl, rfl⟩, h1, ?_, ⟨rfl, rfl⟩, h2, ?_⟩
  · rw [h1]; decide
  · rw [h2]; decide

/-- C2, amended. For every file and every reader range `[os, os + len)` inside
it, a complete uninterrupted session delivers exactly the bytes from the
aligned start to the aligned end of the range, both of which are record
boundaries (offset 0, the first byte after a line delimiter, or the end of the
file), so never a partial record; the records delivered are exactly those whose
first byte lies in `(os, os + len]`, together with the record at offset 0 when
`os = 0`. Such a session exists. -/
theorem reader_delivers_records_of_its_range (file : List Byte) (os len fuel : Nat)
    (hfuel : file.length < fuel) (hrange : os + len ≤ file.length) (schedule : List Action)
    (hc : Complete file fuel os len schedule) :
    readerData file fuel os len schedule =
      (file.take (alignedEnd file (os + len))).drop (alignedStart file os) ∧
    (alignedStart file os = 0 ∨ isRecordStart file (alignedStart file os) ∨
      alignedStart file os = file.length) ∧
    (isRecordStart file (alignedEnd file (os + len)) ∨
      alignedEnd file (os + len) = file.length) ∧
    (∀ p, p < file.length → (p = 0 ∨ isRecordStart file p) →
      ((alignedStart file os ≤ p ∧ p < alignedEnd file (os + len)) ↔
        ((os < p ∨ (os = 0 ∧ p = 0)) ∧ p ≤ os + len))) ∧
    (∃ n, Complete file fuel os len (drive n)) := by
  refine ⟨file_session_data file os len fuel hfuel hrange schedule hc, ?_,
    alignedEnd_cases file _, ?_, file_session_completes file os len fuel hfuel hrange [] rfl⟩
  · simp only [alignedStart]
    split
    · exact Or.inl rfl
    · exact Or.inr (alignedEnd_cases file os)
  · intro p hp hrec
    have hE : p < alignedEnd file (os + len) ↔ p ≤ os + len := by
      constructor
      · intro h
        by_contra hc2
        rcases hrec with h0 | hR
        · omega
        · have := alignedEnd_le_of_recordStart file (os + len) p hR (by omega)
          omega
      · intro h
        have := le_alignedEnd file (os + len) hrange
        rcases Nat.lt_or_ge (os + len) file.length with hl | hl
        · have := lt_alignedEnd file (os + len) hl
          omega
        · omega
    have hA : alignedStart file os ≤ p ↔ (os < p ∨ (os = 0 ∧ p = 0)) := by
      simp only [alignedStart]
      split
      · rename_i h0
        constructor
        · intro _; omega
        · intro _; omega
      · rename_i h0
        constructor
        · intro h
          left
          rcases Nat.lt_or_ge os file.length with hl | hl
          · have := lt_alignedEnd file os hl
            omega
          · have := le_alignedEnd file os (by omega)
            omega
        · intro h
          rcases h with h | h
          · rcases hrec with hz | hR
            · omega
            · exact alignedEnd_le_of_recordStart file os p hR h
          · exact absurd h.1 h0
    rw [hA, hE]

/-- C2, witness: the reader of the example file opened for `[5,30)`. -/
theorem reader_delivers_records_of_its_range_witness :
    readerData exampleFile 50 5 25 (drive 12) =
      (exampleFile.take (alignedEnd exampleFile (5 + 25))).drop (alignedStart exampleFile 5) ∧
    (alignedStart exampleFile 5 = 0 ∨ isRecordStart exampleFile (alignedStart exampleFile 5) ∨
      alignedStart exampleFile 5 = exampleFile.length) ∧
    (isRecordStart exampleFile (alignedEnd exampleFile (5 + 25)) ∨
      alignedEnd exampleFile (5 + 25) = exampleFile.length) ∧
    (∀ p, p < exampleFile.length → (p = 0 ∨ isRecordStart exampleFile p) →
      ((alignedStart exampleFile 5 ≤ p ∧ p < alignedEnd exampleFile (5 + 25)) ↔
        ((5 < p ∨ (5 = 0 ∧ p = 0)) ∧ p ≤ 5 + 25))) ∧
    (∃ n, Complete exampleFile 50 5 25 (drive n)) :=
  reader_delivers_records_of_its_range exampleFile 5 25 50 (by decide) (by decide) (drive 12)
    ⟨rfl, rfl⟩

/-! ## The writer: accounting -/

@[simp] theorem enqueued_append (a b : List WriterEvent) :
    enqueued (a ++ b) = enqueued a ++ enqueued b := by
  induction a with
  | nil => rfl
  | cons ev rest ih => cases ev <;> simp [enqueued, ih]

@[simp] theorem notified_append (a b : List WriterEvent) :
    notified (a ++ b) = notified a ++ notified b := by
  induction a with
  | nil => rfl
  | cons ev rest ih => cases ev <;> simp [notified, ih]

@[simp] theorem bridgeWrites_append (a b : List WriterEvent) :
    bridgeWrites (a ++ b) = bridgeWrites a ++ bridgeWrites b := by
  induction a with
  | nil => rfl
  | cons ev rest ih => cases ev <;> simp [bridgeWrites, ih]

@[simp] theorem bridgeCalls_append (a b : List WriterEvent) :
    bridgeCalls (a ++ b) = bridgeCalls a ++ bridgeCalls b := by
  induction a with
  | nil => rfl
  | cons ev rest ih => cases ev <;> simp [bridgeCalls, ih]

@[simp] theorem cachedItems_append (a b : List WriterEvent) :
    cachedItems (a ++ b) = cachedItems a ++ cachedItems b := by
  induction a with
  | nil => rfl
  | cons ev rest ih => cases ev <;> simp [cachedItems, ih]

@[simp] theorem dataOf_append (a b : List WriteEntry) :
    dataOf (a ++ b) = dataOf a ++ dataOf b := by
  simp [dataOf]

theorem WriterInv_of_accounting (s : WriterState) (h : WriterAccounting s) : WriterInv s := by
  obtain ⟨h1, h2, h3, h4, h5, h6⟩ := h
  refine ⟨?_, ?_, Or.inr ⟨h1, h2, h3, h4, h5, h6⟩⟩
  · rw [h2]
    refine h3.trans ?_
    simp only [dataOf_append, List.append_assoc]
    exact List.prefix_append _ _
  · rcases h5 with ⟨h, _⟩ | ⟨item, h, _⟩ <;> simp [h]

theorem WriterInv_crash (s : WriterState) (f : Fault) (h : WriterInv s) :
    WriterInv { s with pc := .crashed f } :=
  ⟨h.1, h.2.1, Or.inl ⟨f, rfl⟩⟩

theorem WriterInv_crashed (s s1 : WriterState) (f : Fault) (h : WriterInv s)
    (htrace : s1.trace = s.trace) (hpc : s1.pc = .crashed f) : WriterInv s1 := by
  refine ⟨?_, ?_, Or.inl ⟨f, hpc⟩⟩
  · rw [htrace]; exact h.1
  · rw [htrace]; exact h.2.1

theorem WriterInv_initial : WriterInv WriterState.initial := by
  apply WriterInv_of_accounting
  simp [WriterAccounting, WriterState.initial, toUInt32, enqueued, notified, bridgeWrites,
    cachedItems, dataOf, WriterState.inHand]

theorem AddToQueue_accounting (s s1 : WriterState) (entry : WriteEntry) (b : Bool)
    (h : WriterAccounting s) (hadd : Writer.AddToQueue s entry = .ok (b, s1)) :
    WriterAccounting s1 := by
  obtain ⟨h1, h2, h3, h4, h5, h6, h7, h8⟩ := h
  have hs : s1 = { s with m_queue := s.m_queue ++ [entry],
                          m_queueLength := toUInt32 (s.m_queueLength + 1),
                          trace := s.trace ++ [.enqueue entry], signalled := s1.signalled } := by
    simp only [Writer.AddToQueue] at hadd
    split at hadd
    · split at hadd
      · cases hadd
      · split at hadd
        · cases hadd
        · cases hadd; rfl
    · cases hadd; rfl
  rw [hs]
  refine ⟨?_, ?_, ?_, ?_, ?_, ?_, ?_, ?_⟩
  · simp only [h1, toUInt32, List.length_append, List.length_singleton]; omega
  · simp [enqueued, notified, WriterState.inHand] at h2 ⊢
    rw [h2]
    cases s.pc <;> simp
  · simpa [bridgeWrites, notified] using h3
  · simpa [bridgeWrites, notified] using h4
  · simpa [cachedItems] using h5
  · simpa [cachedItems] using h6
  · simpa using h7
  · simpa using h8

theorem Open_cases (env : WriterEnv) (s : WriterState) :
    Writer.Open env s = (true, s) ∨
      ∃ c d, Writer.Open env s = (false, s.cache (MakeErrorItem c d)) := by
  simp only [Writer.Open]
  split
  · exact Or.inr ⟨_, _, rfl⟩
  · split
    · exact Or.inr ⟨_, _, rfl⟩
    · split
      · exact Or.inr ⟨_, _, rfl⟩
      · split
        · exact Or.inr ⟨_, _, rfl⟩
        · split
          · exact Or.inr ⟨_, _, rfl⟩
          · exact Or.inl rfl

theorem stepStart_accounting (env : WriterEnv) (s : WriterState) (hpc : s.pc = .start)
    (h : WriterAccounting s) : WriterAccounting (Writer.stepStart env s) := by
  obtain ⟨h1, h2, h3, h4, h5, h6, h7, h8⟩ := h
  have hc := h6 hpc
  have hnone : s.m_completionItem = none := by
    rcases h5 with ⟨_, h, _⟩ | ⟨item, h, _⟩
    · exact h
    · rw [hc] at h; cases h
  simp only [WriterState.inHand, hpc] at h2
  have hw := h4 (Or.inl hpc)
  rcases Open_cases env s with hopen | ⟨c, d, hopen⟩
  · simp only [Writer.stepStart, hopen]
    refine ⟨h1, ?_, h3, fun _ => hw, Or.inl ⟨hc, hnone, by simp⟩, by simp, by simp, ?_⟩
    · simpa [WriterState.inHand] using h2
    · intro item hi; rw [hnone] at hi; cases hi
  · simp only [Writer.stepStart, hopen, WriterState.cache]
    refine ⟨h1, ?_, ?_, ?_, Or.inr ⟨MakeErrorItem c d, ?_, Or.inl rfl⟩, by simp, by simp, ?_⟩
    · simpa [WriterState.inHand, enqueued, notified] using h2
    · simpa [bridgeWrites, notified] using h3
    · simp
    · simp [cachedItems, hc]
    · intro item _ _
      rfl

theorem stepWait_inv (s s1 : WriterState) (hpc : s.pc = .waiting)
    (h : WriterAccounting s) (hstep : Writer.stepWait s = some s1) : WriterInv s1 := by
  have hinv := WriterInv_of_accounting s h
  obtain ⟨h1, h2, h3, h4, h5, h6, h7, h8⟩ := h
  simp only [Writer.stepWait] at hstep
  split at hstep
  · cases hstep; exact WriterInv_crash s _ hinv
  · split at hstep
    · cases hstep
    · split at hstep
      · cases hstep; exact WriterInv_crash s _ hinv
      · rename_i entry rest hq
        split at hstep
        · cases hstep; exact WriterInv_crash s _ hinv
        · cases hstep
          apply WriterInv_of_accounting
          simp only [WriterState.inHand, hpc] at h2
          refine ⟨?_, ?_, h3, ?_, ?_, by simp, by simp, ?_⟩
          · simp only [h1, hq, toUInt32, List.length_cons] at *; omega
          · simpa [WriterState.inHand, hq] using h2
          · simpa [hpc] using h4
          · simpa [hpc] using h5
          · simpa [hpc] using h8

theorem stepNext_inv (s : WriterState) (hpc : s.pc = .next)
    (h : WriterAccounting s) : WriterInv (Writer.stepNext s) := by
  have hinv := WriterInv_of_accounting s h
  obtain ⟨h1, h2, h3, h4, h5, h6, h7, h8⟩ := h
  simp only [WriterState.inHand, hpc] at h2
  simp only [Writer.stepNext]
  split
  · rename_i hq
    split
    · exact WriterInv_crash s _ hinv
    · split
      · exact WriterInv_crash s _ hinv
      · apply WriterInv_of_accounting
        refine ⟨h1, ?_, h3, ?_, ?_, by simp, by simp, ?_⟩
        · simpa [WriterState.inHand, hq] using h2
        · simpa [hpc] using h4
        · simpa [hpc] using h5
        · simpa [hpc] using h8
  · rename_i entry rest hq
    split
    · exact WriterInv_crash s _ hinv
    · apply WriterInv_of_accounting
      refine ⟨?_, ?_, h3, ?_, ?_, by simp, by simp, ?_⟩
      · simp only [h1, hq, toUInt32, List.length_cons] at *; omega
      · simpa [WriterState.inHand, hq] using h2
      · simpa [hpc] using h4
      · simpa [hpc] using h5
      · simpa [hpc] using h8

theorem dataOf_data (entry : WriteEntry) (data : List Byte)
    (hty : entry.m_type = .RChannelItem_Data) (hbuf : entry.m_buffer = some data) :
    dataOf [entry] = [(data, entry.m_flush)] := by
  simp [dataOf, hty, hbuf]

theorem dataOf_termination (entry : WriteEntry) (hty : entry.m_type ≠ .RChannelItem_Data) :
    dataOf [entry] = [] := by
  simp [dataOf, hty]

theorem stepEntry_inv (env : WriterEnv) (s : WriterState) (entry : WriteEntry)
    (hpc : s.pc = .entry entry) (h : WriterAccounting s) :
    WriterInv (Writer.stepEntry env s entry) := by
  have hinv := WriterInv_of_accounting s h
  obtain ⟨h1, h2, h3, h4, h5, h6, h7, h8⟩ := h
  simp only [WriterState.inHand, hpc] at h2
  have hne : s.pc ≠ .exited := by rw [hpc]; simp
  simp only [Writer.stepEntry]
  split
  · rename_i item heq
    have hc : cachedItems s.trace = [item] := by
      rcases h5 with ⟨_, h, _⟩ | ⟨item1, hc, h | ⟨h, _⟩⟩
      · rw [heq] at h; cases h
      · rw [heq] at h; cases h; exact hc
      · rw [heq] at h; cases h
    split
    · exact WriterInv_crash s _ hinv
    · simp only [Writer.notify, heq]
      split
      · exact WriterInv_crashed s _ _ hinv rfl rfl
      · apply WriterInv_of_accounting
        refine ⟨h1, ?_, ?_, ?_, Or.inr ⟨item, ?_, Or.inl rfl⟩, by simp, by simp, by simp⟩
        · simpa [WriterState.inHand, enqueued, notified] using h2
        · simp only [notified_append, bridgeWrites_append, dataOf_append, bridgeWrites,
            List.append_nil]
          exact h3.trans (List.prefix_append _ _)
        · intro hop
          have := h8 item heq hne
          simp [this] at hop
        · simp [cachedItems, hc]
  · rename_i heq
    have hc : cachedItems s.trace = [] := by
      rcases h5 with ⟨h, _⟩ | ⟨item1, hc, h | ⟨_, h, _⟩⟩
      · exact h
      · rw [heq] at h; cases h
      · exact absurd h hne
    split
    · rename_i hty
      split
      · exact WriterInv_crash s _ hinv
      · rename_i data hbuf
        split
        · exact WriterInv_crash s _ hinv
        · rename_i hop
          have hw : bridgeWrites s.trace = dataOf (notified s.trace) :=
            h4 (Or.inr (by simpa using hop))
          split
          · simp only [Writer.notify, heq]
            apply WriterInv_of_accounting
            have hd := dataOf_data entry data hty hbuf
            refine ⟨h1, ?_, ?_, ?_, Or.inl ⟨?_, rfl, by simp⟩, by simp, by simp, ?_⟩
            · simpa [WriterState.inHand, enqueued, notified] using h2
            · simp [notified, bridgeWrites, hd, hw]
            · intro _
              simp [notified, bridgeWrites, hd, hw]
            · simp [cachedItems, hc]
            · intro item hi; cases hi
          · simp only [Writer.notify, WriterState.cache, MakeErrorItem]
            apply WriterInv_of_accounting
            have hd := dataOf_data entry data hty hbuf
            refine ⟨h1, ?_, ?_, ?_, Or.inr ⟨_, ?_, Or.inl rfl⟩, by simp, by simp, by simp⟩
            · simpa [WriterState.inHand, enqueued, notified] using h2
            · simp [notified, bridgeWrites, hd, hw]
            · intro _
              simp [notified, bridgeWrites, hd, hw]
            · simp [cachedItems, hc]
    · rename_i hty
      have hd := dataOf_termination entry hty
      split
      · exact WriterInv_crash s _ hinv
      · split
        · exact WriterInv_crash s _ hinv
        · rename_i hop
          have hw : bridgeWrites s.trace = dataOf (notified s.trace) :=
            h4 (Or.inr (by simpa using hop))
          split
          · simp only [Writer.notify, WriterState.cache, MakeErrorItem]
            apply WriterInv_of_accounting
            refine ⟨h1, ?_, ?_, ?_, Or.inr ⟨_, ?_, Or.inl rfl⟩, by simp, by simp, by simp⟩
            · simpa [WriterState.inHand, enqueued, notified] using h2
            · simp [notified, bridgeWrites, hd, hw]
            · intro _
              simp [notified, bridgeWrites, hd, hw]
            · simp [cachedItems, hc]
          · simp only [Writer.notify, WriterState.cache, RChannelMarkerItem.Create, hty,
              if_false]
            apply WriterInv_of_accounting
            refine ⟨h1, ?_, ?_, ?_, Or.inr ⟨_, ?_, Or.inl rfl⟩, by simp, by simp, by simp⟩
            · simpa [WriterState.inHand, enqueued, notified] using h2
            · simp [notified, bridgeWrites, hd, hw]
            · intro _
              simp [notified, bridgeWrites, hd, hw]
            · simp [cachedItems, hc]

theorem Drain_ok (s s1 : WriterState) (item : RChannelItem)
    (h : Writer.Drain s = .ok (item, s1)) :
    s.handles = true ∧ s.m_queue = [] ∧ s.m_queueLength = 0 ∧ s.m_completionItem = some item ∧
      s1 = { s with m_completionItem := none, trace := s.trace ++ [.drained item] } := by
  by_cases h1 : s.handles = true
  · by_cases h2 : s.m_queue = []
    · by_cases h3 : s.m_queueLength = 0
      · cases h4 : s.m_completionItem with
        | none => simp [Writer.Drain, h1, h2, h3, h4] at h
        | some item1 =>
          rw [Writer.Drain, if_neg (not_not.mpr h1), if_neg (not_not.mpr h2),
            if_neg (not_not.mpr h3), h4] at h
          simp only [Except.ok.injEq, Prod.mk.injEq] at h
          obtain ⟨rfl, rfl⟩ := h
          exact ⟨h1, h2, h3, rfl, rfl⟩
      · simp [Writer.Drain, h1, h2, h3] at h
    · simp [Writer.Drain, h1, h2] at h
  · simp [Writer.Drain, h1] at h

theorem Drain_accounting (s s1 : WriterState) (item : RChannelItem)
    (hpc : s.pc = .exited) (h : WriterAccounting s) (hd : Writer.Drain s = .ok (item, s1)) :
    WriterAccounting s1 := by
  obtain ⟨h1, h2, h3, h4, h5, h6, h7, h8⟩ := h
  obtain ⟨_, _, _, hitem, hs⟩ := Drain_ok s s1 item hd
  subst hs
  have hc : cachedItems s.trace = [item] := by
    rcases h5 with ⟨_, h, _⟩ | ⟨item1, hc, h | ⟨h, _⟩⟩
    · rw [hitem] at h; cases h
    · rw [hitem] at h; cases h; exact hc
    · rw [hitem] at h; cases h
  refine ⟨h1, ?_, ?_, ?_, Or.inr ⟨item, ?_, Or.inr ⟨rfl, hpc, by simp⟩⟩, ?_, by simp, ?_⟩
  · simpa [WriterState.inHand, enqueued, notified] using h2
  · simpa [bridgeWrites, notified] using h3
  · simpa [bridgeWrites, notified, hpc] using h4
  · simp [cachedItems, hc]
  · intro h; rw [hpc] at h; cases h
  · intro item1 hi; cases hi

theorem Close_ok (s s1 : WriterState) (h : Writer.Close s = .ok s1) :
    s.handles = true ∧ s.m_completionItem = none ∧ s1 = { s with handles := false } := by
  by_cases h1 : s.handles = true
  · rw [Writer.Close, if_neg (not_not.mpr h1)] at h
    split at h
    · cases h
    · rename_i h2
      cases h
      exact ⟨h1, not_not.mp h2, rfl⟩
  · simp [Writer.Close, h1] at h

theorem settle_inv (s : WriterState) (r : Except Fault WriterState) (h : WriterInv s)
    (hok : ∀ s1, r = .ok s1 → WriterInv s1) : WriterInv (Writer.settle s r) := by
  cases r with
  | error f => exact WriterInv_crash s f h
  | ok s1 => exact hok s1 rfl

theorem threadStep_inv (env : WriterEnv) (s s1 : WriterState) (h : WriterAccounting s)
    (hstep : Writer.threadStep env s = some s1) : WriterInv s1 := by
  simp only [Writer.threadStep] at hstep
  split at hstep
  · rename_i hpc
    cases hstep
    exact WriterInv_of_accounting _ (stepStart_accounting env s hpc h)
  · rename_i hpc
    exact stepWait_inv s s1 hpc h hstep
  · rename_i entry hpc
    cases hstep
    exact stepEntry_inv env s entry hpc h
  · rename_i hpc
    cases hstep
    exact stepNext_inv s hpc h
  · cases hstep
  · cases hstep

theorem Writer_step_crashed (env : WriterEnv) (s : WriterState) (a : WriterAction) (f : Fault)
    (h : s.pc = .crashed f) : Writer.step env s a = s := by
  simp only [Writer.step, h]

theorem Writer_step_eq (env : WriterEnv) (s : WriterState) (a : WriterAction)
    (h : ¬ ∃ f, s.pc = .crashed f) :
    Writer.step env s a =
      match a with
      | .thread => (Writer.threadStep env s).getD s
      | .writeBuffer buffer flushAfter handler =>
        Writer.settle s ((Writer.WriteBuffer s buffer flushAfter handler).map Prod.snd)
      | .writeTermination reasonCode handler =>
        Writer.settle s (Writer.WriteTermination s reasonCode handler)
      | .drain =>
        if s.pc = .exited ∨ ¬ s.handles then Writer.settle s ((Writer.Drain s).map Prod.snd)
        else s
      | .close => Writer.settle s (Writer.Close s) := by
  simp only [Writer.step]
  split
  · rename_i f hf
    exact absurd ⟨f, hf⟩ h
  · rfl

theorem WriterInv_step (env : WriterEnv) (s : WriterState) (a : WriterAction)
    (h : WriterInv s) : WriterInv (Writer.step env s a) := by
  by_cases hcr : ∃ f, s.pc = .crashed f
  · obtain ⟨f, hf⟩ := hcr
    rw [Writer_step_crashed env s a f hf]
    exact h
  · have hacc : WriterAccounting s := h.2.2.resolve_left hcr
    rw [Writer_step_eq env s a hcr]
    cases a with
    | thread =>
      simp only []
      cases hstep : Writer.threadStep env s with
      | none => exact h
      | some s1 => exact threadStep_inv env s s1 hacc hstep
    | writeBuffer buffer flushAfter handler =>
      simp only []
      apply settle_inv s _ h
      intro s1 hs1
      cases hadd : Writer.WriteBuffer s buffer flushAfter handler with
      | error f => rw [hadd] at hs1; cases hs1
      | ok r =>
        rw [hadd] at hs1
        cases hs1
        exact WriterInv_of_accounting _ (AddToQueue_accounting s r.2 _ r.1 hacc hadd)
    | writeTermination reasonCode handler =>
      simp only []
      apply settle_inv s _ h
      intro s1 hs1
      simp only [Writer.WriteTermination] at hs1
      split at hs1
      · cases hs1
      · rename_i r hadd
        cases hs1
        exact WriterInv_of_accounting _ (AddToQueue_accounting s r.2 _ r.1 hacc hadd)
    | drain =>
      simp only []
      split
      · rename_i hen
        apply settle_inv s _ h
        intro s1 hs1
        cases hd : Writer.Drain s with
        | error f => rw [hd] at hs1; cases hs1
        | ok r =>
          rw [hd] at hs1
          cases hs1
          have hok := Drain_ok s r.2 r.1 hd
          have hpc : s.pc = .exited := by
            rcases hen with h | h
            · exact h
            · exact absurd hok.1 h
          exact WriterInv_of_accounting _ (Drain_accounting s r.2 r.1 hpc hacc hd)
      · exact h
    | close =>
      simp only []
      apply settle_inv s _ h
      intro s1 hs1
      obtain ⟨_, _, rfl⟩ := Close_ok s s1 hs1
      exact WriterInv_of_accounting _ hacc

theorem Writer_run_append (env : WriterEnv) (s : WriterState) (xs ys : List WriterAction) :
    Writer.run env s (xs ++ ys) = Writer.run env (Writer.run env s xs) ys := by
  simp [Writer.run, List.foldl_append]

theorem Writer_run_invariant (env : WriterEnv) (P : WriterState → Prop)
    (hstep : ∀ s a, P s → P (Writer.step env s a)) :
    ∀ (schedule : List WriterAction) (s : WriterState), P s → P (Writer.run env s schedule) := by
  intro schedule
  induction schedule with
  | nil => intro s h; exact h
  | cons a rest ih => intro s h; exact ih _ (hstep s a h)

theorem WriterInv_run (env : WriterEnv) (schedule : List WriterAction) :
    WriterInv (Writer.run env WriterState.initial schedule) :=
  Writer_run_invariant env WriterInv (fun s a => WriterInv_step env s a) schedule _
    WriterInv_initial

/-! ## The writer: life cycle -/

theorem WriterLifecycle_initial : WriterLifecycle WriterState.initial := by
  refine Or.inr ⟨?_, ?_, ?_, ?_⟩ <;> simp [WriterState.initial, WriterState.inHand]

theorem AddToQueue_ok (s s1 : WriterState) (entry : WriteEntry) (b : Bool)
    (hadd : Writer.AddToQueue s entry = .ok (b, s1)) :
    s1 = { s with m_queue := s.m_queue ++ [entry],
                  m_queueLength := toUInt32 (s.m_queueLength + 1),
                  trace := s.trace ++ [.enqueue entry],
                  signalled := s.signalled || s.m_queue.isEmpty } ∧
    b = decide (s_maxBuffersToBlockWriter < toUInt32 (s.m_queueLength + 1)) := by
  simp only [Writer.AddToQueue] at hadd
  split at hadd
  · rename_i hempty
    split at hadd
    · cases hadd
    · split at hadd
      · cases hadd
      · cases hadd
        simp [hempty]
  · rename_i hempty
    cases hadd
    simp [hempty]

theorem AddToQueue_lifecycle (s s1 : WriterState) (entry : WriteEntry) (b : Bool)
    (hentry : entry.m_type ≠ .RChannelItem_Data → entry.m_buffer = none)
    (hcr : ¬ ∃ f, s.pc = .crashed f)
    (h : WriterLifecycle s) (hadd : Writer.AddToQueue s entry = .ok (b, s1)) :
    WriterLifecycle s1 := by
  obtain ⟨h1, h2, h3, h4⟩ := h.resolve_left hcr
  obtain ⟨rfl, _⟩ := AddToQueue_ok s s1 entry b hadd
  refine Or.inr ⟨?_, h2, ?_, ?_⟩
  · intro e he
    simp only [WriterState.inHand, List.mem_append, List.mem_singleton] at he h1
    rcases he with he | he | he
    · exact h1 e (Or.inl he)
    · exact h1 e (Or.inr he)
    · subst he; exact hentry
  · simpa using h3
  · intro hpc
    have := h4 hpc
    cases hq : s.m_queue <;> simp_all

theorem WriterLifecycle_crashed (s : WriterState) (f : Fault) (h : s.pc = .crashed f) :
    WriterLifecycle s :=
  Or.inl ⟨f, h⟩

theorem stepStart_lifecycle (env : WriterEnv) (s : WriterState) (hpc : s.pc = .start)
    (h : WriterLifecycle s) : WriterLifecycle (Writer.stepStart env s) := by
  obtain ⟨h1, h2, h3, h4⟩ := h.resolve_left (by rw [hpc]; simp)
  have hnd : ∀ item, WriterEvent.drained item ∉ s.trace := by
    intro item hin
    have := (h3 ⟨item, hin⟩).1
    rw [hpc] at this; cases this
  simp only [WriterState.inHand, hpc] at h1
  rcases Open_cases env s with hopen | ⟨c, d, hopen⟩
  · simp only [Writer.stepStart, hopen]
    refine Or.inr ⟨by simpa [WriterState.inHand] using h1, by simp, ?_, ?_⟩
    · rintro ⟨item, hin⟩; exact absurd hin (hnd item)
    · intro _; exact h4 (Or.inl hpc)
  · simp only [Writer.stepStart, hopen, WriterState.cache]
    refine Or.inr ⟨by simpa [WriterState.inHand] using h1, by simp, ?_, ?_⟩
    · rintro ⟨item, hin⟩
      simp only [List.mem_append, List.mem_singleton, reduceCtorEq, or_false] at hin
      exact absurd hin (hnd item)
    · intro _; exact h4 (Or.inl hpc)

theorem stepWait_lifecycle (s s1 : WriterState) (hpc : s.pc = .waiting)
    (h : WriterLifecycle s) (hstep : Writer.stepWait s = some s1) : WriterLifecycle s1 := by
  obtain ⟨h1, h2, h3, h4⟩ := h.resolve_left (by rw [hpc]; simp)
  have hnd : ∀ item, WriterEvent.drained item ∉ s.trace := by
    intro item hin
    have := (h3 ⟨item, hin⟩).1
    rw [hpc] at this; cases this
  simp only [WriterState.inHand, hpc] at h1
  simp only [Writer.stepWait] at hstep
  split at hstep
  · cases hstep; exact WriterLifecycle_crashed _ _ rfl
  · split at hstep
    · cases hstep
    · split at hstep
      · cases hstep; exact WriterLifecycle_crashed _ _ rfl
      · rename_i entry rest hq
        split at hstep
        · cases hstep; exact WriterLifecycle_crashed _ _ rfl
        · cases hstep
          refine Or.inr ⟨?_, ?_, ?_, by simp⟩
          · simpa [WriterState.inHand, hq] using h1
          · intro _; exact h2 (Or.inl hpc)
          · rintro ⟨item, hin⟩; exact absurd hin (hnd item)

theorem stepNext_lifecycle (s : WriterState) (hpc : s.pc = .next)
    (h : WriterLifecycle s) : WriterLifecycle (Writer.stepNext s) := by
  obtain ⟨h1, h2, h3, h4⟩ := h.resolve_left (by rw [hpc]; simp)
  have hnd : ∀ item, WriterEvent.drained item ∉ s.trace := by
    intro item hin
    have := (h3 ⟨item, hin⟩).1
    rw [hpc] at this; cases this
  simp only [WriterState.inHand, hpc] at h1
  simp only [Writer.stepNext]
  split
  · rename_i hq
    split
    · exact WriterLifecycle_crashed _ _ rfl
    · split
      · exact WriterLifecycle_crashed _ _ rfl
      · refine Or.inr ⟨?_, ?_, ?_, by simp [hq]⟩
        · simp [WriterState.inHand, hq]
        · intro _; exact h2 (Or.inr (Or.inr hpc))
        · rintro ⟨item, hin⟩; exact absurd hin (hnd item)
  · rename_i entry rest hq
    split
    · exact WriterLifecycle_crashed _ _ rfl
    · refine Or.inr ⟨?_, ?_, ?_, by simp⟩
      · simpa [WriterState.inHand, hq] using h1
      · intro _; exact h2 (Or.inr (Or.inr hpc))
      · rintro ⟨item, hin⟩; exact absurd hin (hnd item)

theorem lifecycle_after_entry (s s1 : WriterState) (hq : s1.m_queue = s.m_queue)
    (hpc : s1.pc = .exited ∨ (s1.pc = .next ∧ s1.opened = true))
    (h1 : ∀ entry ∈ s.m_queue, entry.m_type ≠ .RChannelItem_Data → entry.m_buffer = none)
    (hnd : ∀ item, WriterEvent.drained item ∉ s1.trace) : WriterLifecycle s1 := by
  refine Or.inr ⟨?_, ?_, ?_, ?_⟩
  · rcases hpc with h | ⟨h, _⟩ <;> simpa [WriterState.inHand, h, hq] using h1
  · rcases hpc with h | ⟨_, h⟩
    · simp [h]
    · intro _ _; exact h
  · rintro ⟨item, hin⟩; exact absurd hin (hnd item)
  · rcases hpc with h | ⟨h, _⟩ <;> simp [h]

theorem stepEntry_lifecycle (env : WriterEnv) (s : WriterState) (entry : WriteEntry)
    (hpc : s.pc = .entry entry) (h : WriterLifecycle s) :
    WriterLifecycle (Writer.stepEntry env s entry) := by
  obtain ⟨h1, h2, h3, h4⟩ := h.resolve_left (by rw [hpc]; simp)
  have hnd : ∀ item, WriterEvent.drained item ∉ s.trace := by
    intro item hin
    have := (h3 ⟨item, hin⟩).1
    rw [hpc] at this; cases this
  have hq : ∀ e ∈ s.m_queue, e.m_type ≠ .RChannelItem_Data → e.m_buffer = none :=
    fun e he => h1 e (List.mem_append_right _ he)
  simp only [Writer.stepEntry]
  split
  · rename_i item heq
    split
    · exact WriterLifecycle_crashed _ _ rfl
    · simp only [Writer.notify, heq]
      split
      · exact WriterLifecycle_crashed _ _ rfl
      · exact lifecycle_after_entry s _ rfl (Or.inl rfl) hq (by simpa using hnd)
  · rename_i hnone
    split
    · split
      · exact WriterLifecycle_crashed _ _ rfl
      · split
        · exact WriterLifecycle_crashed _ _ rfl
        · rename_i hop
          split
          · simp only [Writer.notify, hnone]
            exact lifecycle_after_entry s _ rfl (Or.inr ⟨rfl, by simpa using hop⟩) hq
              (by simpa using hnd)
          · simp only [Writer.notify, WriterState.cache, MakeErrorItem]
            exact lifecycle_after_entry s _ rfl (Or.inl rfl) hq (by simpa using hnd)
    · rename_i hty
      split
      · exact WriterLifecycle_crashed _ _ rfl
      · split
        · exact WriterLifecycle_crashed _ _ rfl
        · split
          · simp only [Writer.notify, WriterState.cache, MakeErrorItem]
            exact lifecycle_after_entry s _ rfl (Or.inl rfl) hq (by simpa using hnd)
          · simp only [Writer.notify, WriterState.cache, RChannelMarkerItem.Create, hty,
              if_false]
            exact lifecycle_after_entry s _ rfl (Or.inl rfl) hq (by simpa using hnd)

theorem threadStep_lifecycle (env : WriterEnv) (s s1 : WriterState) (h : WriterLifecycle s)
    (hstep : Writer.threadStep env s = some s1) : WriterLifecycle s1 := by
  simp only [Writer.threadStep] at hstep
  split at hstep
  · rename_i hpc
    cases hstep
    exact stepStart_lifecycle env s hpc h
  · rename_i hpc
    exact stepWait_lifecycle s s1 hpc h hstep
  · rename_i entry hpc
    cases hstep
    exact stepEntry_lifecycle env s entry hpc h
  · rename_i hpc
    cases hstep
    exact stepNext_lifecycle s hpc h
  · cases hstep
  · cases hstep

theorem settle_lifecycle (s : WriterState) (r : Except Fault WriterState)
    (hok : ∀ s1, r = .ok s1 → WriterLifecycle s1) : WriterLifecycle (Writer.settle s r) := by
  cases r with
  | error f => exact WriterLifecycle_crashed _ f rfl
  | ok s1 => exact hok s1 rfl

theorem WriterLifecycle_step (env : WriterEnv) (s : WriterState) (a : WriterAction)
    (h : WriterLifecycle s) : WriterLifecycle (Writer.step env s a) := by
  by_cases hcr : ∃ f, s.pc = .crashed f
  · obtain ⟨f, hf⟩ := hcr
    rw [Writer_step_crashed env s a f hf]
    exact h
  · rw [Writer_step_eq env s a hcr]
    cases a with
    | thread =>
      simp only []
      cases hstep : Writer.threadStep env s with
      | none => exact h
      | some s1 => exact threadStep_lifecycle env s s1 h hstep
    | writeBuffer buffer flushAfter handler =>
      simp only []
      apply settle_lifecycle
      intro s1 hs1
      cases hadd : Writer.WriteBuffer s buffer flushAfter handler with
      | error f => rw [hadd] at hs1; cases hs1
      | ok r =>
        rw [hadd] at hs1
        cases hs1
        exact AddToQueue_lifecycle s r.2 _ r.1 (fun hne => absurd rfl hne) hcr h hadd
    | writeTermination reasonCode handler =>
      simp only []
      apply settle_lifecycle
      intro s1 hs1
      simp only [Writer.WriteTermination] at hs1
      split at hs1
      · cases hs1
      · rename_i r hadd
        cases hs1
        exact AddToQueue_lifecycle s r.2 _ r.1 (fun _ => rfl) hcr h hadd
    | drain =>
      simp only []
      split
      · rename_i hen
        apply settle_lifecycle
        intro s1 hs1
        cases hd : Writer.Drain s with
        | error f => rw [hd] at hs1; cases hs1
        | ok r =>
          rw [hd] at hs1
          cases hs1
          obtain ⟨hh, hq, _, _, hs⟩ := Drain_ok s r.2 r.1 hd
          have hpc : s.pc = .exited := by
            rcases hen with h | h
            · exact h
            · exact absurd hh h
          rw [hs]
          refine Or.inr ⟨?_, ?_, ?_, ?_⟩
          · simp [WriterState.inHand, hpc, hq]
          · simp [hpc]
          · intro _; exact ⟨hpc, rfl⟩
          · simp [hpc]
      · exact h
    | close =>
      simp only []
      apply settle_lifecycle
      intro s1 hs1
      obtain ⟨_, _, rfl⟩ := Close_ok s s1 hs1
      exact h

theorem WriterLifecycle_run (env : WriterEnv) (schedule : List WriterAction) :
    WriterLifecycle (Writer.run env WriterState.initial schedule) :=
  Writer_run_invariant env WriterLifecycle (fun s a => WriterLifecycle_step env s a) schedule _
    WriterLifecycle_initial

/-! ## The writer: no bridge call once the completion item is cached -/

theorem WriterDone_threadStep (env : WriterEnv) (s s1 : WriterState) (h : WriterDone s)
    (hstep : Writer.threadStep env s = some s1) :
    WriterDone s1 ∧ bridgeCalls s1.trace = bridgeCalls s.trace := by
  simp only [Writer.threadStep] at hstep
  split at hstep
  · rename_i hpc
    cases hstep
    have hc : s.m_completionItem ≠ none := by
      rcases h with h | h | ⟨f, h⟩
      · exact h
      · rw [hpc] at h; cases h
      · rw [hpc] at h; cases h
    rcases Open_cases env s with hopen | ⟨c, d, hopen⟩
    · rw [Writer.stepStart, hopen]
      exact ⟨Or.inl hc, rfl⟩
    · rw [Writer.stepStart, hopen]
      exact ⟨Or.inl (by simp [WriterState.cache]), by simp [WriterState.cache, bridgeCalls]⟩
  · rename_i hpc
    have hc : s.m_completionItem ≠ none := by
      rcases h with h | h | ⟨f, h⟩
      · exact h
      · rw [hpc] at h; cases h
      · rw [hpc] at h; cases h
    simp only [Writer.stepWait] at hstep
    split at hstep
    · cases hstep; exact ⟨Or.inl hc, rfl⟩
    · split at hstep
      · cases hstep
      · split at hstep
        · cases hstep; exact ⟨Or.inl hc, rfl⟩
        · split at hstep
          · cases hstep; exact ⟨Or.inl hc, rfl⟩
          · cases hstep; exact ⟨Or.inl hc, rfl⟩
  · rename_i entry hpc
    cases hstep
    have hc : s.m_completionItem ≠ none := by
      rcases h with h | h | ⟨f, h⟩
      · exact h
      · rw [hpc] at h; cases h
      · rw [hpc] at h; cases h
    simp only [Writer.stepEntry]
    split
    · rename_i item heq
      split
      · exact ⟨Or.inl hc, rfl⟩
      · simp only [Writer.notify, heq]
        split
        · exact ⟨Or.inr (Or.inr ⟨_, rfl⟩), rfl⟩
        · exact ⟨Or.inr (Or.inl rfl), by simp [bridgeCalls]⟩
    · rename_i heq
      exact absurd heq hc
  · rename_i hpc
    cases hstep
    have hc : s.m_completionItem ≠ none := by
      rcases h with h | h | ⟨f, h⟩
      · exact h
      · rw [hpc] at h; cases h
      · rw [hpc] at h; cases h
    simp only [Writer.stepNext]
    split
    · split
      · exact ⟨Or.inl hc, rfl⟩
      · split
        · exact ⟨Or.inl hc, rfl⟩
        · exact ⟨Or.inl hc, rfl⟩
    · split
      · exact ⟨Or.inl hc, rfl⟩
      · exact ⟨Or.inl hc, rfl⟩
  · cases hstep
  · cases hstep

theorem WriterDone_settle (s : WriterState) (r : Except Fault WriterState)
    (hok : ∀ s1, r = .ok s1 → WriterDone s1 ∧ bridgeCalls s1.trace = bridgeCalls s.trace) :
    WriterDone (Writer.settle s r) ∧
      bridgeCalls (Writer.settle s r).trace = bridgeCalls s.trace := by
  cases r with
  | error f => exact ⟨Or.inr (Or.inr ⟨f, rfl⟩), rfl⟩
  | ok s1 => exact hok s1 rfl

theorem WriterDone_AddToQueue (s s1 : WriterState) (entry : WriteEntry) (b : Bool)
    (h : WriterDone s) (hadd : Writer.AddToQueue s entry = .ok (b, s1)) :
    WriterDone s1 ∧ bridgeCalls s1.trace = bridgeCalls s.trace := by
  obtain ⟨rfl, _⟩ := AddToQueue_ok s s1 entry b hadd
  exact ⟨h, by simp [bridgeCalls]⟩

theorem WriterDone_step (env : WriterEnv) (s : WriterState) (a : WriterAction)
    (h : WriterDone s) :
    WriterDone (Writer.step env s a) ∧
      bridgeCalls (Writer.step env s a).trace = bridgeCalls s.trace := by
  by_cases hcr : ∃ f, s.pc = .crashed f
  · obtain ⟨f, hf⟩ := hcr
    rw [Writer_step_crashed env s a f hf]
    exact ⟨h, rfl⟩
  · rw [Writer_step_eq env s a hcr]
    cases a with
    | thread =>
      simp only []
      cases hstep : Writer.threadStep env s with
      | none => exact ⟨h, rfl⟩
      | some s1 => exact WriterDone_threadStep env s s1 h hstep
    | writeBuffer buffer flushAfter handler =>
      simp only []
      apply WriterDone_settle
      intro s1 hs1
      cases hadd : Writer.WriteBuffer s buffer flushAfter handler with
      | error f => rw [hadd] at hs1; cases hs1
      | ok r =>
        rw [hadd] at hs1
        cases hs1
        exact WriterDone_AddToQueue s r.2 _ r.1 h hadd
    | writeTermination reasonCode handler =>
      simp only []
      apply WriterDone_settle
      intro s1 hs1
      simp only [Writer.WriteTermination] at hs1
      split at hs1
      · cases hs1
      · rename_i r hadd
        cases hs1
        exact WriterDone_AddToQueue s r.2 _ r.1 h hadd
    | drain =>
      simp only []
      split
      · rename_i hen
        apply WriterDone_settle
        intro s1 hs1
        cases hd : Writer.Drain s with
        | error f => rw [hd] at hs1; cases hs1
        | ok r =>
          rw [hd] at hs1
          cases hs1
          obtain ⟨hh, _, _, _, hs⟩ := Drain_ok s r.2 r.1 hd
          have hpc : s.pc = .exited := by
            rcases hen with h | h
            · exact h
            · exact absurd hh h
          rw [hs]
          exact ⟨Or.inr (Or.inl hpc), by simp [bridgeCalls]⟩
      · exact ⟨h, rfl⟩
    | close =>
      simp only []
      apply WriterDone_settle
      intro s1 hs1
      obtain ⟨_, _, rfl⟩ := Close_ok s s1 hs1
      exact ⟨h, rfl⟩

theorem WriterDone_run (env : WriterEnv) (schedule : List WriterAction) :
    ∀ s, WriterDone s →
      WriterDone (Writer.run env s schedule) ∧
        bridgeCalls (Writer.run env s schedule).trace = bridgeCalls s.trace := by
  induction schedule with
  | nil => intro s h; exact ⟨h, rfl⟩
  | cons a rest ih =>
    intro s h
    obtain ⟨h1, h2⟩ := WriterDone_step env s a h
    obtain ⟨h3, h4⟩ := ih _ h1
    exact ⟨h3, h4.trans h2⟩

theorem WriterDone_of_cached (s : WriterState) (h : WriterInv s)
    (hc : cachedItems s.trace ≠ []) : WriterDone s := by
  rcases h.2.2 with hcr | hacc
  · exact Or.inr (Or.inr hcr)
  · obtain ⟨_, _, _, _, h5, _⟩ := hacc
    rcases h5 with ⟨h, _⟩ | ⟨item, _, h | ⟨_, h, _⟩⟩
    · exact absurd h hc
    · exact Or.inl (by rw [h]; simp)
    · exact Or.inr (Or.inl h)

/-! ## The writer: nothing is notified once the thread has returned -/

@[simp] theorem completions_append (a b : List WriterEvent) :
    completions (a ++ b) = completions a ++ completions b := by
  induction a with
  | nil => rfl
  | cons ev rest ih => cases ev <;> simp [completions, ih]

theorem WriterStopped_settle (s : WriterState) (r : Except Fault WriterState)
    (hok : ∀ s1, r = .ok s1 →
      WriterStopped s1 ∧ completions s1.trace = completions s.trace ∧ s1.m_queue.length ≥
        s.m_queue.length) :
    WriterStopped (Writer.settle s r) ∧
      completions (Writer.settle s r).trace = completions s.trace ∧
      (Writer.settle s r).m_queue.length ≥ s.m_queue.length := by
  cases r with
  | error f => exact ⟨Or.inr ⟨f, rfl⟩, rfl, le_refl _⟩
  | ok s1 => exact hok s1 rfl

theorem WriterStopped_AddToQueue (s s1 : WriterState) (entry : WriteEntry) (b : Bool)
    (h : WriterStopped s) (hadd : Writer.AddToQueue s entry = .ok (b, s1)) :
    WriterStopped s1 ∧ completions s1.trace = completions s.trace ∧
      s1.m_queue.length ≥ s.m_queue.length := by
  obtain ⟨rfl, _⟩ := AddToQueue_ok s s1 entry b hadd
  exact ⟨h, by simp [completions], by simp⟩

theorem WriterStopped_step (env : WriterEnv) (s : WriterState) (a : WriterAction)
    (h : WriterStopped s) :
    WriterStopped (Writer.step env s a) ∧
      completions (Writer.step env s a).trace = completions s.trace ∧
      (Writer.step env s a).m_queue.length ≥ s.m_queue.length := by
  by_cases hcr : ∃ f, s.pc = .crashed f
  · obtain ⟨f, hf⟩ := hcr
    rw [Writer_step_crashed env s a f hf]
    exact ⟨h, rfl, le_refl _⟩
  · have hpc : s.pc = .exited := h.resolve_right hcr
    rw [Writer_step_eq env s a hcr]
    cases a with
    | thread =>
      have hnone : Writer.threadStep env s = none := by simp [Writer.threadStep, hpc]
      simp only []
      rw [hnone]
      exact ⟨h, rfl, le_refl _⟩
    | writeBuffer buffer flushAfter handler =>
      simp only []
      apply WriterStopped_settle
      intro s1 hs1
      cases hadd : Writer.WriteBuffer s buffer flushAfter handler with
      | error f => rw [hadd] at hs1; cases hs1
      | ok r =>
        rw [hadd] at hs1
        cases hs1
        exact WriterStopped_AddToQueue s r.2 _ r.1 h hadd
    | writeTermination reasonCode handler =>
      simp only []
      apply WriterStopped_settle
      intro s1 hs1
      simp only [Writer.WriteTermination] at hs1
      split at hs1
      · cases hs1
      · rename_i r hadd
        cases hs1
        exact WriterStopped_AddToQueue s r.2 _ r.1 h hadd
    | drain =>
      simp only []
      split
      · apply WriterStopped_settle
        intro s1 hs1
        cases hd : Writer.Drain s with
        | error f => rw [hd] at hs1; cases hs1
        | ok r =>
          rw [hd] at hs1
          cases hs1
          obtain ⟨_, _, _, _, hs⟩ := Drain_ok s r.2 r.1 hd
          rw [hs]
          exact ⟨Or.inl hpc, by simp [completions], le_refl _⟩
      · exact ⟨h, rfl, le_refl _⟩
    | close =>
      simp only []
      apply WriterStopped_settle
      intro s1 hs1
      obtain ⟨_, _, rfl⟩ := Close_ok s s1 hs1
      exact ⟨h, rfl, le_refl _⟩

theorem WriterStopped_run (env : WriterEnv) (schedule : List WriterAction) :
    ∀ s, WriterStopped s →
      WriterStopped (Writer.run env s schedule) ∧
        completions (Writer.run env s schedule).trace = completions s.trace ∧
        (Writer.run env s schedule).m_queue.length ≥ s.m_queue.length := by
  induction schedule with
  | nil => intro s h; exact ⟨h, rfl, le_refl _⟩
  | cons a rest ih =>
    intro s h
    obtain ⟨h1, h2, h3⟩ := WriterStopped_step env s a h
    obtain ⟨h4, h5, h6⟩ := ih _ h1
    exact ⟨h4, h5.trans h2, le_trans h3 h6⟩

/-! ## The writer: the queue is worked off when every write succeeds -/

theorem WriterLive_not_crashed (s : WriterState) (h : WriterLive s) :
    ¬ ∃ f, s.pc = .crashed f := by
  rintro ⟨f, hf⟩
  rcases h.2.2.2.2.1 with h | h | ⟨e, h⟩ | h <;> rw [hf] at h <;> cases h

theorem Open_opens (env : WriterEnv) (s : WriterState) (h : env.opens) :
    Writer.Open env s = (true, s) := by
  obtain ⟨h1, h2, h3, h4, h5⟩ := h
  obtain ⟨r, hr⟩ := Option.isSome_iff_exists.mp h2
  simp [Writer.Open, h1, hr, h3, h4, h5]

theorem WriterLive_thread (env : WriterEnv) (s : WriterState) (hopen : env.opens)
    (hw : ∀ trace data flush, env.writeBlock trace data flush = true)
    (h : WriterLive s) (hlen : s.m_queue.length < 2 ^ 32) :
    (writerStepsLeft s = 0 → Writer.step env s .thread = s) ∧
    (0 < writerStepsLeft s →
      WriterLive (Writer.step env s .thread) ∧
      writerStepsLeft (Writer.step env s .thread) + 1 = writerStepsLeft s ∧
      (Writer.step env s .thread).m_queue.length ≤ s.m_queue.length ∧
      enqueued (Writer.step env s .thread).trace = enqueued s.trace) := by
  have hcr := WriterLive_not_crashed s h
  obtain ⟨hinv, hlife, hh, hnone, hpc, hent⟩ := h
  have hinv1 := WriterInv_step env s .thread hinv
  have hlife1 := WriterLifecycle_step env s .thread hlife
  obtain ⟨hq, _⟩ := hinv.2.2.resolve_left hcr
  obtain ⟨_, l2, _, l4⟩ := hlife.resolve_left hcr
  rw [Writer_step_eq env s _ hcr] at hinv1 hlife1 ⊢
  simp only [] at hinv1 hlife1 ⊢
  rcases hpc with hpc | hpc | ⟨entry, hpc⟩ | hpc
  · -- start
    have hstep : Writer.threadStep env s = some { s with pc := .waiting, opened := true } := by
      simp [Writer.threadStep, hpc, Writer.stepStart, Open_opens env s hopen]
    rw [hstep] at hinv1 hlife1 ⊢
    rw [Option.getD_some] at hinv1 hlife1 ⊢
    refine ⟨?_, fun _ => ⟨⟨hinv1, hlife1, hh, hnone, Or.inr (Or.inl rfl), ?_⟩, ?_, le_refl _, rfl⟩⟩
    · simp [writerStepsLeft, hpc]
    · simpa [WriterState.inHand, hpc] using hent
    · simp [writerStepsLeft, hpc]; omega
  · -- waiting
    cases hqs : s.m_queue with
    | nil =>
      have hsig : s.signalled = false := by
        have := l4 (Or.inr hpc)
        simp [hqs] at this
        exact this
      have hstep : Writer.threadStep env s = none := by
        simp [Writer.threadStep, hpc, Writer.stepWait, hh, hsig]
      rw [hstep]
      refine ⟨fun _ => rfl, fun hpos => ?_⟩
      simp [writerStepsLeft, hpc, hqs] at hpos
    | cons e rest =>
      have hsig : s.signalled = true := (l4 (Or.inr hpc)).mpr (by simp [hqs])
      have hql : 0 < s.m_queueLength := by
        rw [hq, toUInt32, hqs]
        rw [hqs] at hlen
        simp only [List.length_cons] at hlen ⊢
        omega
      have hstep : Writer.threadStep env s =
          some { s with pc := .entry e, m_queue := rest,
                        m_queueLength := s.m_queueLength - 1 } := by
        simp [Writer.threadStep, hpc, Writer.stepWait, hh, hsig, hqs, hql]
      rw [hstep] at hinv1 hlife1 ⊢
      rw [Option.getD_some] at hinv1 hlife1 ⊢
      refine ⟨?_, fun _ => ⟨⟨hinv1, hlife1, hh, hnone, Or.inr (Or.inr (Or.inl ⟨e, rfl⟩)), ?_⟩,
        ?_, by simp, rfl⟩⟩
      · simp [writerStepsLeft, hpc, hqs]
      · simpa [WriterState.inHand, hpc, hqs] using hent
      · simp [writerStepsLeft, hpc, hqs]; omega
  · -- entry
    have hin : entry ∈ s.inHand ++ s.m_queue := by simp [WriterState.inHand, hpc]
    obtain ⟨hty, hbuf⟩ := hent entry hin
    obtain ⟨data, hdata⟩ := Option.ne_none_iff_exists'.mp hbuf
    have hop : s.opened = true := l2 (Or.inr (Or.inl ⟨entry, hpc⟩)) hnone
    have hstep : Writer.threadStep env s =
        some { s with pc := .next,
                      m_processedLength := toUInt64 (s.m_processedLength + data.length),
                      trace := s.trace ++ [WriterEvent.writeBlock data entry.m_flush true] ++
                        [.processWriteCompleted entry .RChannelItem_Data] } := by
      simp [Writer.threadStep, hpc, Writer.stepEntry, hnone, hty, hdata, hop, hw,
        Writer.notify]
    rw [hstep] at hinv1 hlife1 ⊢
    rw [Option.getD_some] at hinv1 hlife1 ⊢
    refine ⟨?_, fun _ => ⟨⟨hinv1, hlife1, hh, hnone, Or.inr (Or.inr (Or.inr rfl)), ?_⟩,
      ?_, le_refl _, ?_⟩⟩
    · simp [writerStepsLeft, hpc]
    · intro e he
      exact hent e (by
        simp only [WriterState.inHand, List.nil_append] at he
        exact List.mem_append_right _ he)
    · simp [writerStepsLeft, hpc]
    · simp [enqueued]
  · -- next
    cases hqs : s.m_queue with
    | nil =>
      have hql : s.m_queueLength = 0 := by rw [hq, toUInt32, hqs]; rfl
      have hstep : Writer.threadStep env s =
          some { s with pc := .waiting, signalled := false } := by
        simp [Writer.threadStep, hpc, Writer.stepNext, hqs, hql, hh]
      rw [hstep] at hinv1 hlife1 ⊢
      rw [Option.getD_some] at hinv1 hlife1 ⊢
      refine ⟨?_, fun _ => ⟨⟨hinv1, hlife1, hh, hnone, Or.inr (Or.inl rfl), ?_⟩,
        ?_, by simp [hqs], rfl⟩⟩
      · simp [writerStepsLeft, hpc, hqs]
      · simp [WriterState.inHand, hqs]
      · simp [writerStepsLeft, hpc, hqs]
    | cons e rest =>
      have hql : 0 < s.m_queueLength := by
        rw [hq, toUInt32, hqs]
        rw [hqs] at hlen
        simp only [List.length_cons] at hlen ⊢
        omega
      have hstep : Writer.threadStep env s =
          some { s with pc := .entry e, m_queue := rest,
                        m_queueLength := s.m_queueLength - 1 } := by
        simp [Writer.threadStep, hpc, Writer.stepNext, hqs, hql]
      rw [hstep] at hinv1 hlife1 ⊢
      rw [Option.getD_some] at hinv1 hlife1 ⊢
      refine ⟨?_, fun _ => ⟨⟨hinv1, hlife1, hh, hnone, Or.inr (Or.inr (Or.inl ⟨e, rfl⟩)), ?_⟩,
        ?_, by simp, rfl⟩⟩
      · simp [writerStepsLeft, hpc, hqs]
      · simpa [WriterState.inHand, hpc, hqs] using hent
      · simp [writerStepsLeft, hpc, hqs]; omega

theorem AddToQueue_succeeds (s : WriterState) (entry : WriteEntry)
    (hq : s.m_queueLength = toUInt32 s.m_queue.length) (hh : s.handles = true)
    (hlen : s.m_queue.length + 1 < 2 ^ 32) :
    ∃ b s1, Writer.AddToQueue s entry = .ok (b, s1) := by
  have hq0 : s.m_queueLength = s.m_queue.length := by rw [hq, toUInt32]; omega
  have hq1 : toUInt32 (s.m_queue.length + 1) = s.m_queue.length + 1 := by
    rw [toUInt32]; omega
  cases h : Writer.AddToQueue s entry with
  | ok r => exact ⟨r.1, r.2, rfl⟩
  | error f =>
    exfalso
    cases hqs : s.m_queue <;> simp [Writer.AddToQueue, hq0, hh, hqs, toUInt32] at h

theorem WriterLive_writeBuffer (env : WriterEnv) (s : WriterState) (buffer : List Byte)
    (flushAfter : Bool) (handler : Nat) (h : WriterLive s)
    (hlen : s.m_queue.length + 1 < 2 ^ 32) :
    WriterLive (Writer.step env s (.writeBuffer buffer flushAfter handler)) ∧
    writerStepsLeft (Writer.step env s (.writeBuffer buffer flushAfter handler)) ≤
      writerStepsLeft s + 3 ∧
    (Writer.step env s (.writeBuffer buffer flushAfter handler)).m_queue.length =
      s.m_queue.length + 1 ∧
    enqueued (Writer.step env s (.writeBuffer buffer flushAfter handler)).trace =
      enqueued s.trace ++
        [{ m_buffer := some buffer, m_flush := flushAfter, m_type := .RChannelItem_Data,
           m_handler := handler }] := by
  have hcr := WriterLive_not_crashed s h
  obtain ⟨hinv, hlife, hh, hnone, hpc, hent⟩ := h
  have hinv1 := WriterInv_step env s (.writeBuffer buffer flushAfter handler) hinv
  have hlife1 := WriterLifecycle_step env s (.writeBuffer buffer flushAfter handler) hlife
  obtain ⟨hq, _⟩ := hinv.2.2.resolve_left hcr
  obtain ⟨b, s1, hadd⟩ := AddToQueue_succeeds s
    { m_buffer := some buffer, m_flush := flushAfter, m_type := .RChannelItem_Data,
      m_handler := handler } hq hh hlen
  have hstep : Writer.step env s (.writeBuffer buffer flushAfter handler) = s1 := by
    rw [Writer_step_eq env s _ hcr]
    simp only [Writer.WriteBuffer, hadd, Except.map, Writer.settle]
  rw [hstep] at hinv1 hlife1 ⊢
  obtain ⟨rfl, _⟩ := AddToQueue_ok s s1 _ b hadd
  refine ⟨⟨hinv1, hlife1, hh, hnone, hpc, ?_⟩, ?_, by simp, by simp [enqueued]⟩
  · intro e he
    simp only [WriterState.inHand, List.mem_append, List.mem_singleton] at he hent
    rcases he with he | he | he
    · exact hent e (Or.inl he)
    · exact hent e (Or.inr he)
    · subst he; simp
  · rcases hpc with hpc | hpc | ⟨entry, hpc⟩ | hpc <;>
      simp only [writerStepsLeft, hpc, List.length_append, List.length_singleton,
        List.append_eq_nil, List.cons_ne_self, and_false, if_false, reduceCtorEq] <;>
      first
        | omega
        | (split <;> rename_i hq1 <;> first | omega | (simp [hq1]))

theorem WriterLive_producers (env : WriterEnv) (hopen : env.opens)
    (hw : ∀ trace data flush, env.writeBlock trace data flush = true) :
    ∀ (schedule : List WriterAction) (s : WriterState), ProducersOnly schedule →
      WriterLive s → s.m_queue.length + schedule.length < 2 ^ 32 →
      WriterLive (Writer.run env s schedule) ∧
      writerStepsLeft (Writer.run env s schedule) ≤ writerStepsLeft s + 3 * schedule.length ∧
      (Writer.run env s schedule).m_queue.length ≤ s.m_queue.length + schedule.length ∧
      dataOf (enqueued (Writer.run env s schedule).trace) =
        dataOf (enqueued s.trace) ++ buffersOf schedule := by
  intro schedule
  induction schedule with
  | nil =>
    intro s _ h _
    exact ⟨h, by simp [Writer.run], by simp [Writer.run], by simp [Writer.run, buffersOf]⟩
  | cons a rest ih =>
    intro s hp h hlen
    have hprest : ProducersOnly rest := fun x hx => hp x (List.mem_cons_of_mem _ hx)
    simp only [List.length_cons] at hlen
    rcases hp a (List.mem_cons_self _ _) with rfl | ⟨buffer, flushAfter, handler, rfl⟩
    · have hth := WriterLive_thread env s hopen hw h (by omega)
      by_cases h0 : writerStepsLeft s = 0
      · have hs := hth.1 h0
        have := ih s hprest h (by omega)
        simp only [Writer.run, List.foldl_cons, hs, buffersOf, List.length_cons] at this ⊢
        exact ⟨this.1, by omega, by omega, this.2.2.2⟩
      · obtain ⟨h1, h2, h3, h4⟩ := hth.2 (by omega)
        have := ih _ hprest h1 (by omega)
        simp only [Writer.run, List.foldl_cons, buffersOf, List.length_cons] at this ⊢
        refine ⟨this.1, by omega, by omega, ?_⟩
        rw [this.2.2.2, h4]
    · obtain ⟨h1, h2, h3, h4⟩ := WriterLive_writeBuffer env s buffer flushAfter handler h
        (by omega)
      have := ih _ hprest h1 (by omega)
      simp only [Writer.run, List.foldl_cons, buffersOf, List.length_cons] at this ⊢
      refine ⟨this.1, by omega, by omega, ?_⟩
      rw [this.2.2.2, h4]
      simp [dataOf]

theorem WriterLive_settles (env : WriterEnv) (hopen : env.opens)
    (hw : ∀ trace data flush, env.writeBlock trace data flush = true) :
    ∀ (k : Nat) (s : WriterState), WriterLive s → s.m_queue.length < 2 ^ 32 →
      writerStepsLeft s ≤ k →
      WriterLive (Writer.run env s (List.replicate k .thread)) ∧
      writerStepsLeft (Writer.run env s (List.replicate k .thread)) = 0 ∧
      enqueued (Writer.run env s (List.replicate k .thread)).trace = enqueued s.trace := by
  intro k
  induction k with
  | zero =>
    intro s h _ hk
    exact ⟨h, by simpa [Writer.run] using hk, rfl⟩
  | succ k ih =>
    intro s h hlen hk
    have hth := WriterLive_thread env s hopen hw h hlen
    simp only [List.replicate_succ, Writer.run, List.foldl_cons]
    by_cases h0 : writerStepsLeft s = 0
    · rw [hth.1 h0]
      exact ih s h hlen (by omega)
    · obtain ⟨h1, h2, h3, h4⟩ := hth.2 (by omega)
      obtain ⟨h5, h6, h7⟩ := ih _ h1 (by omega) (by omega)
      exact ⟨h5, h6, h7.trans h4⟩

theorem WriterLive_initial : WriterLive WriterState.initial :=
  ⟨WriterInv_initial, WriterLifecycle_initial, rfl, rfl, Or.inl rfl, by
    simp [WriterState.initial, WriterState.inHand]⟩

theorem WriterLive_idle (s : WriterState) (h : WriterLive s) (h0 : writerStepsLeft s = 0) :
    s.pc = .waiting ∧ s.m_queue = [] ∧ bridgeWrites s.trace = dataOf (enqueued s.trace) := by
  have hcr := WriterLive_not_crashed s h
  obtain ⟨hinv, hlife, hh, hnone, hpc, hent⟩ := h
  have hw : s.pc = .waiting ∧ s.m_queue = [] := by
    rcases hpc with hpc | hpc | ⟨entry, hpc⟩ | hpc
    · simp [writerStepsLeft, hpc] at h0
    · refine ⟨hpc, ?_⟩
      by_contra hq
      simp [writerStepsLeft, hpc, hq] at h0
    · simp [writerStepsLeft, hpc] at h0
    · simp [writerStepsLeft, hpc] at h0
  obtain ⟨_, h2, _, h4, _⟩ := hinv.2.2.resolve_left hcr
  obtain ⟨_, l2, _, _⟩ := hlife.resolve_left hcr
  have hop := l2 (Or.inl hw.1) hnone
  refine ⟨hw.1, hw.2, ?_⟩
  rw [h4 (Or.inr hop), h2]
  simp [WriterState.inHand, hw.1, hw.2]

/-! ## Claims about the writer -/

/-- C11. In every run of a writer the `WriteBlock` calls the bridge receives,
each with its flush flag, are a prefix of the data buffers in the order they
were enqueued; when the bridge writer is open, they are exactly the data
buffers that have left the queue; and when the bridge opens and every write
succeeds, the buffers that producers hand to `WriteBuffer`, in any
interleaving with the session thread, are all written, in that order, once the
thread has been given the steps to work the queue off. -/
theorem bridge_writes_follow_enqueue_order (env : WriterEnv) (schedule : List WriterAction) :
    bridgeWrites (Writer.run env WriterState.initial schedule).trace <+:
      dataOf (enqueued (Writer.run env WriterState.initial schedule).trace) ∧
    ((¬ ∃ f, (Writer.run env WriterState.initial schedule).pc = .crashed f) →
      (Writer.run env WriterState.initial schedule).opened = true →
      dataOf (enqueued (Writer.run env WriterState.initial schedule).trace) =
        bridgeWrites (Writer.run env WriterState.initial schedule).trace ++
          dataOf ((Writer.run env WriterState.initial schedule).inHand ++
            (Writer.run env WriterState.initial schedule).m_queue)) ∧
    (env.opens → (∀ trace data flush, env.writeBlock trace data flush = true) →
      ProducersOnly schedule → schedule.length < 2 ^ 32 →
      ∀ k, 3 * schedule.length + 1 ≤ k →
        bridgeWrites
          (Writer.run env WriterState.initial (schedule ++ List.replicate k .thread)).trace =
          buffersOf schedule) := by
  refine ⟨(WriterInv_run env schedule).1, ?_, ?_⟩
  · intro hcr hop
    obtain ⟨_, h2, _, h4, _⟩ := (WriterInv_run env schedule).2.2.resolve_left hcr
    rw [h2, h4 (Or.inr hop)]
    simp
  · intro hopen hw hp hlen k hk
    obtain ⟨h1, h2, h3, h4⟩ := WriterLive_producers env hopen hw schedule WriterState.initial hp
      WriterLive_initial (by simpa [WriterState.initial] using hlen)
    have hsteps : writerStepsLeft (Writer.run env WriterState.initial schedule) ≤ k := by
      have : writerStepsLeft WriterState.initial = 1 := rfl
      omega
    have hq : (Writer.run env WriterState.initial schedule).m_queue.length < 2 ^ 32 := by
      have : WriterState.initial.m_queue.length = 0 := rfl
      omega
    obtain ⟨h5, h6, h7⟩ := WriterLive_settles env hopen hw k _ h1 hq hsteps
    rw [Writer_run_append]
    rw [(WriterLive_idle _ h5 h6).2.2, h7, h4]
    simp [WriterState.initial, enqueued, dataOf]

/-- Witness of C11: two buffers handed to `WriteBuffer` with the session thread
running in between reach the bridge in that order, each with its flush flag. -/
theorem bridge_writes_follow_enqueue_order_witness :
    bridgeWrites
      (Writer.run (openEnv (fun _ _ _ => true) (fun _ => true)) WriterState.initial
        ([.writeBuffer [1] true 7, .thread, .writeBuffer [2] false 8] ++
          List.replicate 10 .thread)).trace = [([1], true), ([2], false)] :=
  (bridge_writes_follow_enqueue_order (openEnv (fun _ _ _ => true) (fun _ => true))
    [.writeBuffer [1] true 7, .thread, .writeBuffer [2] false 8]).2.2
    ⟨rfl, rfl, rfl, rfl, rfl⟩ (fun _ _ _ => rfl)
    (by
      intro a ha
      simp only [List.mem_cons, List.mem_singleton, List.not_mem_nil, or_false] at ha
      rcases ha with rfl | rfl | rfl
      · exact Or.inr ⟨_, _, _, rfl⟩
      · exact Or.inl rfl
      · exact Or.inr ⟨_, _, _, rfl⟩)
    (by decide) 10 (by decide)

/-- C13. In every writer session at most one item is ever assigned to
`m_completionItem` (a later failure never overwrites the first cached one), an
item that is stored while the process runs is that one item, and from the
moment the session thread has returned until `Drain` hands the item back
exactly one item is stored. -/
theorem completion_item_assigned_once (env : WriterEnv) (schedule : List WriterAction) :
    (cachedItems (Writer.run env WriterState.initial schedule).trace).length ≤ 1 ∧
    (∀ item, (¬ ∃ f, (Writer.run env WriterState.initial schedule).pc = .crashed f) →
      (Writer.run env WriterState.initial schedule).m_completionItem = some item →
      cachedItems (Writer.run env WriterState.initial schedule).trace = [item]) ∧
    ((Writer.run env WriterState.initial schedule).pc = .exited →
      (∀ item, WriterEvent.drained item ∉ (Writer.run env WriterState.initial schedule).trace) →
      ∃ item, (Writer.run env WriterState.initial schedule).m_completionItem = some item ∧
        cachedItems (Writer.run env WriterState.initial schedule).trace = [item]) := by
  have hinv := WriterInv_run env schedule
  generalize Writer.run env WriterState.initial schedule = s at hinv
  refine ⟨hinv.2.1, ?_, ?_⟩
  · intro item hcr hitem
    obtain ⟨_, _, _, _, h5, _⟩ := hinv.2.2.resolve_left hcr
    rcases h5 with ⟨_, h, _⟩ | ⟨item1, hc, h | ⟨h, _⟩⟩
    · rw [hitem] at h; cases h
    · rw [hitem] at h; cases h; exact hc
    · rw [hitem] at h; cases h
  · intro hpc hnd
    have hacc := hinv.2.2.resolve_left (by rw [hpc]; simp)
    obtain ⟨_, _, _, _, h5, _⟩ := hacc
    rcases h5 with ⟨_, _, h⟩ | ⟨item1, hc, h | ⟨_, _, h⟩⟩
    · exact absurd hpc h
    · exact ⟨item1, h, hc⟩
    · exact absurd h (hnd item1)

/-- Witness of C13 on the session of `failedWrite`: the thread has returned
with the error item of the failed write stored, the one item ever cached. -/
theorem completion_item_assigned_once_witness :
    failedWrite.pc = .exited ∧
    (∀ item, WriterEvent.drained item ∉ failedWrite.trace) ∧
    ∃ item, failedWrite.m_completionItem = some item ∧ cachedItems failedWrite.trace = [item] :=
  have hd : ∀ item, WriterEvent.drained item ∉ failedWrite.trace := by
    intro item h
    simp [failedWrite, Writer.run, Writer.step, Writer.threadStep, Writer.stepStart,
      Writer.Open, Writer.stepWait, Writer.stepEntry, Writer.stepNext, Writer.notify,
      Writer.WriteBuffer, Writer.WriteTermination, Writer.AddToQueue, Writer.settle,
      WriterState.cache, WriterState.initial, openEnv, ExtractHdfsWriteUri, strchr,
      s_hdfsFilePrefix, toUInt32, s_maxBuffersToBlockWriter, MakeErrorItem, Except.map] at h
  ⟨rfl, hd,
    (completion_item_assigned_once (openEnv (fun _ _ _ => false) (fun _ => true))
      [.writeBuffer [1] true 7, .writeBuffer [2] false 8,
       .writeTermination .RChannelItem_EndOfStream 9,
       .thread, .thread, .thread, .thread, .thread, .thread]).2.2 rfl hd⟩

/-- C15, as stated, fails: a termination entry enqueued with reason code
`RChannelItem_Abort` and processed with no failure cached, the bridge's `Close`
succeeding, leaves a marker of type `RChannelItem_Abort` without error as
completion item, not an end-of-stream marker. -/
theorem C15_counterexample :
    abortTermination.pc = .exited ∧
    bridgeCalls abortTermination.trace = [.close true] ∧
    abortTermination.m_completionItem = some ⟨.RChannelItem_Abort, none⟩ ∧
    abortTermination.m_completionItem ≠
      some (RChannelMarkerItem.Create .RChannelItem_EndOfStream) :=
  ⟨rfl, rfl, rfl, by decide⟩

/-- C15 (amended). When the session thread processes a termination entry with
no completion item cached: if the bridge's `Close` succeeds, the completion
item it caches is a marker without error of the type the entry was enqueued
with as reason code (an end-of-stream marker for `RChannelItem_EndOfStream`);
if `Close` fails, it is an abort item carrying `DryadError_ChannelWriteError`.
It is the one item cached in the session. -/
theorem termination_entry_completion_item (env : WriterEnv) (schedule : List WriterAction)
    (entry : WriteEntry)
    (hpc : (Writer.run env WriterState.initial schedule).pc = .entry entry)
    (hty : entry.m_type ≠ .RChannelItem_Data)
    (hnone : (Writer.run env WriterState.initial schedule).m_completionItem = none) :
    (env.close (Writer.run env WriterState.initial schedule).trace = true →
      (Writer.step env (Writer.run env WriterState.initial schedule) .thread).m_completionItem =
        some { type := entry.m_type, error := none }) ∧
    (env.close (Writer.run env WriterState.initial schedule).trace = false →
      (Writer.step env (Writer.run env WriterState.initial schedule) .thread).m_completionItem =
        some { type := .RChannelItem_Abort,
               error := some (.DryadError_ChannelWriteError, .errorOnClose) }) ∧
    (∀ item,
      (Writer.step env (Writer.run env WriterState.initial schedule) .thread).m_completionItem =
        some item →
      cachedItems (Writer.step env (Writer.run env WriterState.initial schedule) .thread).trace =
        [item]) := by
  have hinv := WriterInv_run env schedule
  have hlife := WriterLifecycle_run env schedule
  generalize Writer.run env WriterState.initial schedule = s at hinv hlife hpc hnone
  have hcr : ¬ ∃ f, s.pc = .crashed f := by rw [hpc]; simp
  obtain ⟨h1, h2, _, _⟩ := hlife.resolve_left hcr
  have hbuf : entry.m_buffer = none := h1 entry (by simp [WriterState.inHand, hpc]) hty
  have hop : s.opened = true := h2 (Or.inr (Or.inl ⟨entry, hpc⟩)) hnone
  have hc : cachedItems s.trace = [] := by
    obtain ⟨_, _, _, _, h5, _⟩ := hinv.2.2.resolve_left hcr
    rcases h5 with ⟨h, _⟩ | ⟨item1, _, h | ⟨_, h, _⟩⟩
    · exact h
    · rw [hnone] at h; cases h
    · rw [hpc] at h; cases h
  have hstep : Writer.step env s .thread =
      Writer.notify
        ({ s with trace := s.trace ++ [WriterEvent.close (env.close s.trace)] }.cache
          (if env.close s.trace = true then RChannelMarkerItem.Create entry.m_type
           else MakeErrorItem .DryadError_ChannelWriteError .errorOnClose)) entry := by
    rw [Writer_step_eq env s _ hcr]
    simp only [Writer.threadStep, hpc, Option.getD_some, Writer.stepEntry, hnone, hty, hbuf, hop]
    cases env.close s.trace <;> simp
  rw [hstep]
  cases hcl : env.close s.trace <;>
    simp [Writer.notify, WriterState.cache, MakeErrorItem, RChannelMarkerItem.Create, hty, hc,
      cachedItems]

/-- Witness of the amended C15 on a session whose termination entry has
reason code `RChannelItem_Abort`. -/
theorem termination_entry_completion_item_witness :
    (Writer.step (openEnv (fun _ _ _ => true) (fun _ => true))
        (Writer.run (openEnv (fun _ _ _ => true) (fun _ => true)) WriterState.initial
          [.writeTermination .RChannelItem_Abort 9, .thread, .thread]) .thread).m_completionItem =
      some { type := .RChannelItem_Abort, error := none } :=
  (termination_entry_completion_item (openEnv (fun _ _ _ => true) (fun _ => true))
    [.writeTermination .RChannelItem_Abort 9, .thread, .thread]
    ⟨none, false, .RChannelItem_Abort, 9⟩ rfl (by decide) rfl).1 rfl

/-- C16. In every state of a running writer that is not closed and whose
queue holds fewer than `2^32 - 1` entries, `WriteBuffer` puts the entry at the
tail of the queue and returns `true` exactly when the queue depth after the
insertion exceeds `s_maxBuffersToBlockWriter`, which is 4; no assertion fails
and nothing is removed from the queue. -/
theorem WriteBuffer_appends_and_reports_depth (env : WriterEnv) (schedule : List WriterAction)
    (buffer : List Byte) (flushAfter : Bool) (handler : Nat)
    (hcr : ¬ ∃ f, (Writer.run env WriterState.initial schedule).pc = .crashed f)
    (hh : (Writer.run env WriterState.initial schedule).handles = true)
    (hlen : (Writer.run env WriterState.initial schedule).m_queue.length + 1 < 2 ^ 32) :
    ∃ s1, Writer.WriteBuffer (Writer.run env WriterState.initial schedule) buffer flushAfter
        handler =
        .ok (decide (4 < (Writer.run env WriterState.initial schedule).m_queue.length + 1), s1) ∧
      s1.m_queue = (Writer.run env WriterState.initial schedule).m_queue ++
        [{ m_buffer := some buffer, m_flush := flushAfter, m_type := .RChannelItem_Data,
           m_handler := handler }] ∧
      s1.m_queueLength = s1.m_queue.length ∧
      s1.pc = (Writer.run env WriterState.initial schedule).pc := by
  have hinv := WriterInv_run env schedule
  generalize Writer.run env WriterState.initial schedule = s at hinv hcr hh hlen
  obtain ⟨h1, _⟩ := hinv.2.2.resolve_left hcr
  have hq : s.m_queueLength = s.m_queue.length := by
    rw [h1, toUInt32]; omega
  have hq1 : toUInt32 (s.m_queue.length + 1) = s.m_queue.length + 1 := by
    rw [toUInt32]; omega
  simp only [Writer.WriteBuffer, Writer.AddToQueue, hq, hq1, hh, s_maxBuffersToBlockWriter]
  cases hqs : s.m_queue with
  | nil => simp
  | cons e rest => simp

/-- Witness of C16: the fifth buffer put on the queue of a writer whose
thread has not run makes `WriteBuffer` return `true`. -/
theorem WriteBuffer_appends_and_reports_depth_witness :
    ∃ s1, Writer.WriteBuffer
        (Writer.run (openEnv (fun _ _ _ => true) (fun _ => true)) WriterState.initial
          [.writeBuffer [1] false 1, .writeBuffer [2] false 2, .writeBuffer [3] false 3,
           .writeBuffer [4] false 4]) [5] true 5 = .ok (true, s1) ∧
      s1.m_queue.length = 5 :=
  have h := WriteBuffer_appends_and_reports_depth
    (openEnv (fun _ _ _ => true) (fun _ => true))
    [.writeBuffer [1] false 1, .writeBuffer [2] false 2, .writeBuffer [3] false 3,
     .writeBuffer [4] false 4] [5] true 5
    (fun h => h.elim fun f hf => WriterPc.noConfusion (hf : WriterPc.start = .crashed f))
    rfl (by decide)
  h.elim fun s1 hs1 => ⟨s1, hs1.1, by rw [hs1.2.1]; rfl⟩

/-- C12 at a failing input: two data buffers for handlers 7 and 8, then a
termination entry for handler 9, on a writer whose bridge fails the first
`WriteBlock`. Handler 7 is notified with `RChannelItem_Abort` and the session
thread returns; the entries of handlers 8 and 9 stay in the queue, whatever
happens later their handlers are never notified, and `Drain` fails the
assertion of line 1316 that the queue is empty. -/
theorem C12_failing_input :
    failedWrite.pc = .exited ∧
    completions failedWrite.trace = [(7, .RChannelItem_Abort)] ∧
    failedWrite.m_queue.map WriteEntry.m_handler = [8, 9] ∧
    Writer.Drain failedWrite = .error (.assertion 1316) ∧
    ∀ env schedule,
      completions (Writer.run env failedWrite schedule).trace = [(7, .RChannelItem_Abort)] ∧
      2 ≤ (Writer.run env failedWrite schedule).m_queue.length :=
  ⟨rfl, rfl, rfl, rfl, fun env schedule =>
    ⟨(WriterStopped_run env schedule failedWrite (Or.inl rfl)).2.1,
     (WriterStopped_run env schedule failedWrite (Or.inl rfl)).2.2⟩⟩

/-- C17. For a writer session whose thread has returned: `Drain` hands an
item back exactly when the handles are valid, the queue is empty, its length
counter is zero and a completion item is stored; it hands back that item and
leaves none stored; a second `Drain` right after it fails the assertion of
line 1320 on the missing item, and any `Drain` after the item has been handed
back fails an assertion; and `Close` succeeds only when the item has been
handed back by `Drain`. -/
theorem writer_drain_hands_item_back_once (env : WriterEnv) (schedule : List WriterAction)
    (hpc : (Writer.run env WriterState.initial schedule).pc = .exited) :
    (∀ item s1, Writer.Drain (Writer.run env WriterState.initial schedule) = .ok (item, s1) ↔
      ((Writer.run env WriterState.initial schedule).handles = true ∧
       (Writer.run env WriterState.initial schedule).m_queue = [] ∧
       (Writer.run env WriterState.initial schedule).m_queueLength = 0 ∧
       (Writer.run env WriterState.initial schedule).m_completionItem = some item ∧
       s1 = { Writer.run env WriterState.initial schedule with
                m_completionItem := none,
                trace := (Writer.run env WriterState.initial schedule).trace ++
                  [.drained item] })) ∧
    (∀ item s1, Writer.Drain (Writer.run env WriterState.initial schedule) = .ok (item, s1) →
      Writer.Drain s1 = .error (.assertion 1320)) ∧
    ((∃ item, WriterEvent.drained item ∈ (Writer.run env WriterState.initial schedule).trace) →
      ∃ line, Writer.Drain (Writer.run env WriterState.initial schedule) =
        .error (.assertion line)) ∧
    (∀ s1, Writer.Close (Writer.run env WriterState.initial schedule) = .ok s1 →
      ∃ item, WriterEvent.drained item ∈
        (Writer.run env WriterState.initial schedule).trace) := by
  have hinv := WriterInv_run env schedule
  have hlife := WriterLifecycle_run env schedule
  generalize Writer.run env WriterState.initial schedule = s at hinv hlife hpc
  have hcr : ¬ ∃ f, s.pc = .crashed f := by rw [hpc]; simp
  refine ⟨?_, ?_, ?_, ?_⟩
  · intro item s1
    constructor
    · exact Drain_ok s s1 item
    · rintro ⟨h1, h2, h3, h4, rfl⟩
      simp [Writer.Drain, h1, h2, h3, h4]
  · intro item s1 hd
    obtain ⟨h1, h2, h3, _, rfl⟩ := Drain_ok s s1 item hd
    simp [Writer.Drain, h1, h2, h3]
  · intro hdr
    obtain ⟨_, _, h3, _⟩ := hlife.resolve_left hcr
    have hnone := (h3 hdr).2
    simp only [Writer.Drain, hnone]
    split
    · exact ⟨_, rfl⟩
    · split
      · exact ⟨_, rfl⟩
      · split
        · exact ⟨_, rfl⟩
        · exact ⟨_, rfl⟩
  · intro s1 hcl
    obtain ⟨_, hnone, _⟩ := Close_ok s s1 hcl
    obtain ⟨_, _, _, _, h5, _⟩ := hinv.2.2.resolve_left hcr
    rcases h5 with ⟨_, _, h⟩ | ⟨item1, _, h | ⟨_, _, h⟩⟩
    · exact absurd hpc h
    · rw [hnone] at h; cases h
    · exact ⟨item1, h⟩

/-- Witness of C17 on the session of `abortTermination`: the first `Drain`
hands the completion item back, the second fails the assertion of line 1320,
and `Close` fails as long as the item is stored. -/
theorem writer_drain_hands_item_back_once_witness :
    abortTermination.pc = .exited ∧
    (∃ s1, Writer.Drain abortTermination = .ok (⟨.RChannelItem_Abort, none⟩, s1) ∧
      Writer.Drain s1 = .error (.assertion 1320) ∧ (Writer.Close s1).isOk = true) ∧
    Writer.Close abortTermination = .error (.assertion 1338) :=
  ⟨rfl,
   ⟨_, rfl,
    (writer_drain_hands_item_back_once (openEnv (fun _ _ _ => true) (fun _ => true))
      [.writeTermination .RChannelItem_Abort 9, .thread, .thread, .thread] rfl).2.1 _ _ rfl,
    rfl⟩,
   rfl⟩

/-! ## URI parsing: the C string functions -/

theorem strchr_none (s : List Char) (c : Char) (h : c ∉ s) : strchr s c = none := by
  induction s with
  | nil => rfl
  | cons x rest ih =>
    simp only [List.mem_cons, not_or] at h
    simp [strchr, Ne.symm h.1, ih h.2]

theorem strchr_append (a b : List Char) (c : Char) (h : c ∉ a) :
    strchr (a ++ c :: b) c = some a.length := by
  induction a with
  | nil => simp [strchr]
  | cons x rest ih =>
    simp only [List.mem_cons, not_or] at h
    simp [strchr, Ne.symm h.1, ih h.2]

theorem strstr_none (s pat : List Char) (h : ¬ pat <:+: s) : strstr s pat = none := by
  induction s with
  | nil =>
    have : pat ≠ [] := by
      rintro rfl
      exact h List.nil_infix
    simp [strstr, this]
  | cons x rest ih =>
    have h1 : ¬ pat <+: x :: rest := fun hp => h hp.isInfix
    have h2 : ¬ pat <:+: rest := fun hp => h (hp.trans (List.suffix_cons x rest).isInfix)
    have h3 : pat.isPrefixOf (x :: rest) = false := by
      rw [Bool.eq_false_iff]
      intro hp
      exact h1 (List.isPrefixOf_iff_prefix.mp hp)
    simp [strstr, h3, ih h2]

theorem no_overlap (c : Char) (t a b : List Char) (hc : c ∉ t) (ha : a ≠ [])
    (hp : (c :: t) <+: a ++ (c :: t) ++ b) : (c :: t) <:+: a := by
  rw [List.append_assoc] at hp
  by_cases hlen : (c :: t).length ≤ a.length
  · exact (List.prefix_of_prefix_length_le hp (List.prefix_append a _) hlen).isInfix
  · exfalso
    have hap : a <+: c :: t :=
      List.prefix_of_prefix_length_le (List.prefix_append a _) hp (by omega)
    obtain ⟨r, hr⟩ := hap
    have hp2 : a ++ r <+: a ++ ((c :: t) ++ b) := by rw [hr]; exact hp
    have hr2 : r <+: (c :: t) ++ b := (List.prefix_append_right_inj a).mp hp2
    cases a with
    | nil => exact ha rfl
    | cons x a1 =>
      simp only [List.cons_append, List.cons.injEq] at hr
      obtain ⟨_, ht⟩ := hr
      cases r with
      | nil =>
        simp only [List.append_nil] at ht
        simp [← ht] at hlen
      | cons y r1 =>
        have hy : y = c := by
          obtain ⟨u, hu⟩ := hr2
          simp only [List.cons_append, List.cons.injEq] at hu
          exact hu.1
        apply hc
        rw [← ht, hy]
        simp

theorem strstr_append (c : Char) (t a b : List Char) (hc : c ∉ t)
    (ha : ¬ (c :: t) <:+: a) : strstr (a ++ (c :: t) ++ b) (c :: t) = some a.length := by
  induction a with
  | nil =>
    have : (c :: t).isPrefixOf (c :: (t ++ b)) = true :=
      List.isPrefixOf_iff_prefix.mpr ⟨b, rfl⟩
    show strstr (c :: (t ++ b)) (c :: t) = some 0
    rw [strstr, if_pos this]
  | cons x rest ih =>
    have h1 : ¬ (c :: t) <:+: rest :=
      fun hp => ha (hp.trans (List.suffix_cons x rest).isInfix)
    have h2 : (c :: t).isPrefixOf (x :: (rest ++ (c :: t) ++ b)) = false := by
      rw [Bool.eq_false_iff]
      intro hp
      have := List.isPrefixOf_iff_prefix.mp hp
      exact ha (no_overlap c t (x :: rest) b hc (by simp) (by simpa using this))
    show strstr (x :: (rest ++ (c :: t) ++ b)) (c :: t) = some (rest.length + 1)
    rw [strstr, if_neg (by rw [h2]; simp), ih h1]
    rfl

theorem strstr_offsetString (path rest : List Char) (h : ¬ offsetString <:+: path) :
    strstr (path ++ (offsetString ++ rest)) offsetString = some path.length := by
  have := strstr_append '?' ['o', 'f', 'f', 's', 'e', 't', '='] path rest (by decide) h
  rw [List.append_assoc] at this
  exact this

theorem strstr_lengthString (text rest : List Char) (h : ¬ lengthString <:+: text) :
    strstr (text ++ (lengthString ++ rest)) lengthString = some text.length := by
  have := strstr_append '&' ['l', 'e', 'n', 'g', 't', 'h', '='] text rest (by decide) h
  rw [List.append_assoc] at this
  exact this

theorem drop_past (a m b : List Char) : (a ++ (m ++ b)).drop (a.length + m.length) = b := by
  rw [← List.append_assoc, ← List.length_append]
  exact List.drop_left _ _

theorem extractAfterScheme_ok (toInt64 toInt32 : List Char → Option Int)
    (cScheme authority path offsetText lengthText : List Char) (o n : Int)
    (hauth : '/' ∉ authority) (hpath : ¬ offsetString <:+: path)
    (hoff : ¬ lengthString <:+: offsetText)
    (ho : toInt64 offsetText = some o) (hn : toInt32 lengthText = some n) :
    extractAfterScheme toInt64 toInt32 cScheme
      (authority ++ '/' :: (path ++ (offsetString ++ (offsetText ++ (lengthString ++ lengthText))))) =
      some ⟨cScheme ++ authority, cScheme ++ authority ++ ['/'] ++ path, o, n⟩ := by
  have d1 : ∀ rest : List Char, (authority ++ '/' :: rest).drop (authority.length + 1) = rest := by
    intro rest
    simp
  simp only [extractAfterScheme, strchr_append _ _ _ hauth, d1, strstr_offsetString _ _ hpath,
    drop_past, strstr_lengthString _ _ hoff, List.take_left, ho, hn]

theorem ExtractHdfsReadUri_hdfs (toInt64 toInt32 : List Char → Option Int) (rest : List Char) :
    ExtractHdfsReadUri toInt64 toInt32 (s_hdfsPartitionPrefix ++ rest) =
      extractAfterScheme toInt64 toInt32 s_hdfsFilePrefix rest := by
  have h : s_hdfsPartitionPrefix.isPrefixOf (s_hdfsPartitionPrefix ++ rest) = true :=
    List.isPrefixOf_iff_prefix.mpr (List.prefix_append _ _)
  rw [ExtractHdfsReadUri, if_pos h, List.drop_left]

theorem ExtractHdfsReadUri_wasb (toInt64 toInt32 : List Char → Option Int) (rest : List Char) :
    ExtractHdfsReadUri toInt64 toInt32 (s_wasbPartitionPrefix ++ rest) =
      extractAfterScheme toInt64 toInt32 s_wasbFilePrefix rest := by
  have h : s_wasbPartitionPrefix.isPrefixOf (s_wasbPartitionPrefix ++ rest) = true :=
    List.isPrefixOf_iff_prefix.mpr (List.prefix_append _ _)
  have h0 : s_hdfsPartitionPrefix.isPrefixOf (s_wasbPartitionPrefix ++ rest) = false := by
    simp [s_hdfsPartitionPrefix, s_wasbPartitionPrefix, List.isPrefixOf]
  rw [ExtractHdfsReadUri, if_neg (by rw [h0]; simp), if_pos h, List.drop_left]

theorem extractAfterScheme_no_slash (toInt64 toInt32 : List Char → Option Int)
    (cScheme rest : List Char) (h : '/' ∉ rest) :
    extractAfterScheme toInt64 toInt32 cScheme rest = none := by
  simp [extractAfterScheme, strchr_none rest '/' h]

theorem extractAfterScheme_no_offset (toInt64 toInt32 : List Char → Option Int)
    (cScheme authority rest : List Char) (hauth : '/' ∉ authority)
    (h : ¬ offsetString <:+: rest) :
    extractAfterScheme toInt64 toInt32 cScheme (authority ++ '/' :: rest) = none := by
  have d1 : (authority ++ '/' :: rest).drop (authority.length + 1) = rest := by simp
  simp only [extractAfterScheme, strchr_append _ _ _ hauth, d1, strstr_none _ _ h]

theorem extractAfterScheme_no_length (toInt64 toInt32 : List Char → Option Int)
    (cScheme authority path rest : List Char) (hauth : '/' ∉ authority)
    (hpath : ¬ offsetString <:+: path) (h : ¬ lengthString <:+: rest) :
    extractAfterScheme toInt64 toInt32 cScheme
      (authority ++ '/' :: (path ++ (offsetString ++ rest))) = none := by
  have d1 : ∀ r : List Char, (authority ++ '/' :: r).drop (authority.length + 1) = r := by
    intro r
    simp
  simp only [extractAfterScheme, strchr_append _ _ _ hauth, d1, strstr_offsetString _ _ hpath,
    drop_past, strstr_none _ _ h]

theorem extractAfterScheme_bad_integer (toInt64 toInt32 : List Char → Option Int)
    (cScheme authority path offsetText lengthText : List Char)
    (hauth : '/' ∉ authority) (hpath : ¬ offsetString <:+: path)
    (hoff : ¬ lengthString <:+: offsetText)
    (h : toInt64 offsetText = none ∨ toInt32 lengthText = none) :
    extractAfterScheme toInt64 toInt32 cScheme
      (authority ++ '/' :: (path ++ (offsetString ++ (offsetText ++ (lengthString ++ lengthText))))) =
      none := by
  have d1 : ∀ r : List Char, (authority ++ '/' :: r).drop (authority.length + 1) = r := by
    intro r
    simp
  simp only [extractAfterScheme, strchr_append _ _ _ hauth, d1, strstr_offsetString _ _ hpath,
    drop_past, strstr_lengthString _ _ hoff, List.take_left]
  rcases h with h | h
  · rw [h]
  · rw [h]
    cases toInt64 offsetText <;> rfl

/-! ## Claims about `ExtractHdfsReadUri` -/

/-- C18, as stated, fails: for "hdfspt://host/path?offset=100&length=50" the
function stores "hdfs://host" and "hdfs://host/path" through its output
parameters, not "host" and "path". -/
theorem C18_counterexample :
    ExtractHdfsReadUri (decimalInt 64) (decimalInt 32)
        "hdfspt://host/path?offset=100&length=50".toList =
      some ⟨"hdfs://host".toList, "hdfs://host/path".toList, 100, 50⟩ ∧
    "hdfs://host".toList ≠ "host".toList ∧ "hdfs://host/path".toList ≠ "path".toList := by
  refine ⟨by rfl, by decide, by decide⟩

/-- C18 (amended). For every read-partition URI
`<scheme>pt://<authority>/<path>?offset=<o>&length=<n>` with scheme hdfs or
wasb, an authority without '/', a path that does not contain "?offset=", and
offset and length texts that `DrStringToInt64` and `DrStringToInt32` convert to
`o` and `n` (the offset text not containing "&length="), `ExtractHdfsReadUri`
succeeds and yields `<scheme>://<authority>` as scheme and authority,
`<scheme>://<authority>/<path>` as file path, offset `o` and length `n`. -/
theorem ExtractHdfsReadUri_partition_uri (toInt64 toInt32 : List Char → Option Int)
    (authority path offsetText lengthText : List Char) (o n : Int)
    (hauth : '/' ∉ authority) (hpath : ¬ offsetString <:+: path)
    (hoff : ¬ lengthString <:+: offsetText)
    (ho : toInt64 offsetText = some o) (hn : toInt32 lengthText = some n) :
    ExtractHdfsReadUri toInt64 toInt32
        (s_hdfsPartitionPrefix ++ authority ++ ['/'] ++ path ++ offsetString ++ offsetText ++
          lengthString ++ lengthText) =
      some ⟨s_hdfsFilePrefix ++ authority, s_hdfsFilePrefix ++ authority ++ ['/'] ++ path, o, n⟩ ∧
    ExtractHdfsReadUri toInt64 toInt32
        (s_wasbPartitionPrefix ++ authority ++ ['/'] ++ path ++ offsetString ++ offsetText ++
          lengthString ++ lengthText) =
      some ⟨s_wasbFilePrefix ++ authority, s_wasbFilePrefix ++ authority ++ ['/'] ++ path, o, n⟩ := by
  have h := fun cScheme => extractAfterScheme_ok toInt64 toInt32 cScheme authority path
    offsetText lengthText o n hauth hpath hoff ho hn
  constructor
  · rw [← h s_hdfsFilePrefix, ← ExtractHdfsReadUri_hdfs]
    simp only [List.append_assoc, List.singleton_append, List.cons_append, List.nil_append]
  · rw [← h s_wasbFilePrefix, ← ExtractHdfsReadUri_wasb]
    simp only [List.append_assoc, List.singleton_append, List.cons_append, List.nil_append]

/-- Witness of the amended C18 at the URI of the spec's example, with decimal
integer conversion. -/
theorem ExtractHdfsReadUri_partition_uri_witness :
    ExtractHdfsReadUri (decimalInt 64) (decimalInt 32)
        (s_hdfsPartitionPrefix ++ "host".toList ++ ['/'] ++ "path".toList ++ offsetString ++
          "100".toList ++ lengthString ++ "50".toList) =
      some ⟨s_hdfsFilePrefix ++ "host".toList,
            s_hdfsFilePrefix ++ "host".toList ++ ['/'] ++ "path".toList, 100, 50⟩ :=
  (ExtractHdfsReadUri_partition_uri (decimalInt 64) (decimalInt 32) "host".toList "path".toList
    "100".toList "50".toList 100 50 (by decide) (by decide) (by decide) (by rfl) (by rfl)).1

/-- C19. The function `ExtractHdfsReadUri` fails for every URI that starts with neither
"hdfspt://" nor "wasbpt://"; that has no '/' after the partition prefix; that
has no "?offset=" after the '/' that ends the authority; that has no
"&length=" after the first "?offset="; or whose offset text or length text
`DrStringToInt64` or `DrStringToInt32` does not convert. -/
theorem ExtractHdfsReadUri_rejects (toInt64 toInt32 : List Char → Option Int) :
    (∀ uri, ¬ s_hdfsPartitionPrefix <+: uri → ¬ s_wasbPartitionPrefix <+: uri →
      ExtractHdfsReadUri toInt64 toInt32 uri = none) ∧
    (∀ scheme rest, scheme = s_hdfsPartitionPrefix ∨ scheme = s_wasbPartitionPrefix →
      '/' ∉ rest → ExtractHdfsReadUri toInt64 toInt32 (scheme ++ rest) = none) ∧
    (∀ scheme authority rest, scheme = s_hdfsPartitionPrefix ∨ scheme = s_wasbPartitionPrefix →
      '/' ∉ authority → ¬ offsetString <:+: rest →
      ExtractHdfsReadUri toInt64 toInt32 (scheme ++ authority ++ ['/'] ++ rest) = none) ∧
    (∀ scheme authority path rest,
      scheme = s_hdfsPartitionPrefix ∨ scheme = s_wasbPartitionPrefix →
      '/' ∉ authority → ¬ offsetString <:+: path → ¬ lengthString <:+: rest →
      ExtractHdfsReadUri toInt64 toInt32
        (scheme ++ authority ++ ['/'] ++ path ++ offsetString ++ rest) = none) ∧
    (∀ scheme authority path offsetText lengthText,
      scheme = s_hdfsPartitionPrefix ∨ scheme = s_wasbPartitionPrefix →
      '/' ∉ authority → ¬ offsetString <:+: path → ¬ lengthString <:+: offsetText →
      toInt64 offsetText = none ∨ toInt32 lengthText = none →
      ExtractHdfsReadUri toInt64 toInt32
        (scheme ++ authority ++ ['/'] ++ path ++ offsetString ++ offsetText ++ lengthString ++
          lengthText) = none) := by
  refine ⟨?_, ?_, ?_, ?_, ?_⟩
  · intro uri h1 h2
    have e1 : s_hdfsPartitionPrefix.isPrefixOf uri = false := by
      rw [Bool.eq_false_iff]
      exact fun h => h1 (List.isPrefixOf_iff_prefix.mp h)
    have e2 : s_wasbPartitionPrefix.isPrefixOf uri = false := by
      rw [Bool.eq_false_iff]
      exact fun h => h2 (List.isPrefixOf_iff_prefix.mp h)
    simp [ExtractHdfsReadUri, e1, e2]
  · rintro scheme rest (rfl | rfl) h
    · rw [ExtractHdfsReadUri_hdfs]
      exact extractAfterScheme_no_slash _ _ _ _ h
    · rw [ExtractHdfsReadUri_wasb]
      exact extractAfterScheme_no_slash _ _ _ _ h
  · rintro scheme authority rest (rfl | rfl) hauth h
    · have := extractAfterScheme_no_offset toInt64 toInt32 s_hdfsFilePrefix authority rest hauth h
      rw [← this, ← ExtractHdfsReadUri_hdfs]
      simp only [List.append_assoc, List.singleton_append, List.cons_append, List.nil_append]
    · have := extractAfterScheme_no_offset toInt64 toInt32 s_wasbFilePrefix authority rest hauth h
      rw [← this, ← ExtractHdfsReadUri_wasb]
      simp only [List.append_assoc, List.singleton_append, List.cons_append, List.nil_append]
  · rintro scheme authority path rest (rfl | rfl) hauth hpath h
    · have := extractAfterScheme_no_length toInt64 toInt32 s_hdfsFilePrefix authority path rest
        hauth hpath h
      rw [← this, ← ExtractHdfsReadUri_hdfs]
      simp only [List.append_assoc, List.singleton_append, List.cons_append, List.nil_append]
    · have := extractAfterScheme_no_length toInt64 toInt32 s_wasbFilePrefix authority path rest
        hauth hpath h
      rw [← this, ← ExtractHdfsReadUri_wasb]
      simp only [List.append_assoc, List.singleton_append, List.cons_append, List.nil_append]
  · rintro scheme authority path offsetText lengthText (rfl | rfl) hauth hpath hoff h
    · have := extractAfterScheme_bad_integer toInt64 toInt32 s_hdfsFilePrefix authority path
        offsetText lengthText hauth hpath hoff h
      rw [← this, ← ExtractHdfsReadUri_hdfs]
      simp only [List.append_assoc, List.singleton_append, List.cons_append, List.nil_append]
    · have := extractAfterScheme_bad_integer toInt64 toInt32 s_wasbFilePrefix authority path
        offsetText lengthText hauth hpath hoff h
      rw [← this, ← ExtractHdfsReadUri_wasb]
      simp only [List.append_assoc, List.singleton_append, List.cons_append, List.nil_append]

/-- Witness of C19: "hdfspt://host/path?offset=abc&length=50", whose offset
text is not a number, and "hdfspt://host/path?offset=100", which has no length
marker, are rejected with decimal integer conversion. -/
theorem ExtractHdfsReadUri_rejects_witness :
    ExtractHdfsReadUri (decimalInt 64) (decimalInt 32)
        (s_hdfsPartitionPrefix ++ "host".toList ++ ['/'] ++ "path".toList ++ offsetString ++
          "abc".toList ++ lengthString ++ "50".toList) = none ∧
    ExtractHdfsReadUri (decimalInt 64) (decimalInt 32)
        (s_hdfsPartitionPrefix ++ "host".toList ++ ['/'] ++ "path".toList ++ offsetString ++
          "100".toList) = none :=
  ⟨(ExtractHdfsReadUri_rejects (decimalInt 64) (decimalInt 32)).2.2.2.2 s_hdfsPartitionPrefix
      "host".toList "path".toList "abc".toList "50".toList (Or.inl rfl) (by decide) (by decide)
      (by decide) (Or.inl (by rfl)),
   (ExtractHdfsReadUri_rejects (decimalInt 64) (decimalInt 32)).2.2.2.1 s_hdfsPartitionPrefix
      "host".toList "path".toList "100".toList (Or.inl rfl) (by decide) (by decide)
      (by decide)⟩

/-! ## The reader: nothing after a marker, nothing after the abort signal -/

theorem stepReading_delivered (env : ReaderEnv) (s : ReaderState) :
    (∃ f, (stepReading env s).pc = .crashed f ∧ (stepReading env s).trace = s.trace) ∨
    (∃ buffer, delivered (stepReading env s).trace = delivered s.trace ++ [buffer] ∧
      buffer ≠ .endOfStream ∧ (stepReading env s).pc ≠ .reading ∧
      (buffer.isMarker = true → s.offsetEnd = -1 ∨
        ((stepReading env s).pc = .loop ∧ (stepReading env s).offset = -1))) := by
  simp only [stepReading]
  split
  · exact Or.inl ⟨_, rfl, rfl⟩
  · rename_i newOffset events hr
    obtain ⟨size, buffer, hev, _, _, hcase⟩ := ReadDataBuffer_ok _ _ _ _ _ hr
    subst hev
    right
    refine ⟨buffer, ?_⟩
    have hb : buffer ≠ .endOfStream := by
      rcases hcase with ⟨_, ⟨d, hd⟩, _⟩ | ⟨bs, hd, _⟩ <;> rw [hd] <;> simp
    have hm : buffer.isMarker = true → newOffset = -1 := by
      intro hmark
      rcases hcase with ⟨h, _⟩ | ⟨bs, hd, _⟩
      · exact h
      · rw [hd] at hmark; simp [RChannelBuffer.isMarker] at hmark
    split
    · rename_i hcond
      split
      · exact ⟨by simp [delivered_append, delivered], hb, by simp,
          fun h => Or.inl (by rw [← hcond.1]; exact hm h)⟩
      · exact ⟨by simp [delivered_append, delivered], hb, by simp,
          fun h => Or.inl (by rw [← hcond.1]; exact hm h)⟩
      · split
        · exact ⟨by simp [delivered_append, delivered], hb, by simp,
            fun h => Or.inl (by rw [← hcond.1]; exact hm h)⟩
        · exact ⟨by simp [delivered_append, delivered], hb, by simp,
            fun h => Or.inl (by rw [← hcond.1]; exact hm h)⟩
    · exact ⟨by simp [delivered_append, delivered], hb, by simp, fun h => Or.inr ⟨rfl, hm h⟩⟩

theorem other_trace (env : ReaderEnv) (s : ReaderState) (a : Action) (ha : a ≠ .thread) :
    (step env s a).trace = s.trace ∧ (s.abort = true → (step env s a).abort = true) ∧
      ((step env s a).pc = s.pc ∨ ∃ f, (step env s a).pc = .crashed f) := by
  cases a with
  | thread => exact absurd rfl ha
  | returnBuffer =>
    simp only [step, ReturnBuffer]
    split
    · simp
    · split
      · split
        · simp
        · exact ⟨rfl, fun h => h, Or.inr ⟨_, rfl⟩⟩
      · simp
  | interrupt =>
    simp only [step, Interrupt]
    split <;> simp
  | drainWait =>
    simp only [step, drainWait]
    split <;> simp

theorem MarkerInv_step (env : ReaderEnv) (s : ReaderState) (a : Action)
    (hperm : PermitInv s) (hsess : SessInv env s) (h : MarkerInv s) :
    MarkerInv (step env s a) := by
  rcases h with hd | ht | ht | ⟨f, hf⟩
  · by_cases ha : a = .thread
    · subst ha
      simp only [step, threadStep]
      cases hpc : s.pc with
      | start =>
        left
        rw [Option.getD_some, (stepStart_frame env s).2.2.2.2.1]
        exact hd
      | opening =>
        left
        rw [Option.getD_some, (stepOpening_frame env s).2.2.2.2.1]
        exact hd
      | loop =>
        simp only [stepLoop]
        split
        · split
          · exact Or.inr (Or.inr (Or.inl rfl))
          · split
            · exact Or.inl hd
            · exact Or.inl hd
        · split
          · exact Or.inl hd
          · exact Or.inr (Or.inr (Or.inl rfl))
      | acquired =>
        simp only [stepAcquired, Option.getD_some]
        split
        · split
          · exact Or.inr (Or.inr (Or.inl rfl))
          · exact Or.inr (Or.inr (Or.inr ⟨_, rfl⟩))
        · exact Or.inl hd
      | reading =>
        rw [Option.getD_some]
        rcases stepReading_delivered env s with ⟨f, hf, _⟩ | ⟨buffer, hdel, _, _, hmark⟩
        · exact Or.inr (Or.inr (Or.inr ⟨f, hf⟩))
        · cases hm : buffer.isMarker with
          | false =>
            left
            rw [hdel]
            intro b hb
            rcases List.mem_append.mp hb with hb | hb
            · exact hd b hb
            · rw [List.mem_singleton.mp hb]; exact hm
          | true =>
            obtain ⟨_, h0, hlt, _⟩ := SessInv_held env s hsess (Or.inr hpc)
            rcases hmark hm with h | h
            · omega
            · exact Or.inr (Or.inl h)
      | sending b =>
        simp only [stepSending]
        split
        · exact Or.inr (Or.inr (Or.inl rfl))
        · split
          · exact Or.inl hd
          · exact Or.inl hd
      | delivering b => exact Or.inr (Or.inr (Or.inl rfl))
      | exited => exact Or.inr (Or.inr (Or.inl hpc))
      | crashed f => exact Or.inr (Or.inr (Or.inr ⟨f, hpc⟩))
    · left
      rw [(other_trace env s a ha).1]
      exact hd
  · have := (AfterFailedRead_step env s.trace s a hperm ⟨rfl, Or.inl ht⟩).1.2
    rcases this with h | h
    · exact Or.inr (Or.inl h)
    · exact Or.inr (Or.inr (Or.inl h))
  · have := (AfterFailedRead_step env s.trace s a hperm ⟨rfl, Or.inr ht⟩).1.2
    rcases this with h | h
    · exact Or.inr (Or.inl h)
    · exact Or.inr (Or.inr (Or.inl h))
  · rw [step_crashed env s a f hf]
    exact Or.inr (Or.inr (Or.inr ⟨f, hf⟩))

theorem MarkerInv_run (env : ReaderEnv) (schedule : List Action) :
    MarkerInv (run env ReaderState.initial schedule) :=
  (run_invariant env (fun s => (PermitInv s ∧ SessInv env s) ∧ MarkerInv s)
    (fun s a h => ⟨⟨PermitInv_step env s a h.1.1, SessInv_step env s a h.1.2⟩,
      MarkerInv_step env s a h.1.1 h.1.2 h.2⟩)
    schedule _ ⟨⟨PermitInv_initial, SessInv_initial env⟩, Or.inl (by simp [ReaderState.initial, delivered])⟩).2

theorem marker_freezes (env : ReaderEnv) (schedule more : List Action)
    (b : RChannelBuffer) (hb : b ∈ delivered (run env ReaderState.initial schedule).trace)
    (hm : b.isMarker = true) :
    (run env ReaderState.initial (schedule ++ more)).trace =
      (run env ReaderState.initial schedule).trace := by
  rw [run_append]
  have hinv := SessInv_run env schedule
  rcases MarkerInv_run env schedule with hd | ht | ht | ht
  · rw [hd b hb] at hm; cases hm
  · exact (AfterFailedRead_run env _ more _ hinv.1 ⟨rfl, Or.inl ht⟩).1.1
  · exact (run_stopped env more _ (Or.inl ht)).2
  · exact (run_stopped env more _ (Or.inr ht)).2

theorem AbortInv_step (env : ReaderEnv) (s0 s : ReaderState) (a : Action)
    (h : AbortInv s0 s) : AbortInv s0 (step env s a) := by
  obtain ⟨hab, hcase⟩ := h
  by_cases ha : a = .thread
  · subst ha
    have keep : ∀ t : ReaderState, t.abort = true → t.pc ≠ .reading →
        (∀ b, t.pc ≠ .delivering b) →
        delivered t.trace = delivered s.trace → s.pc ≠ .reading →
        (∀ b, s.pc ≠ .delivering b) → AbortInv s0 t := by
      intro t h1 h2 h2d h3 h4 h4d
      refine ⟨h1, Or.inr ⟨⟨h2, h2d⟩, ?_⟩⟩
      rcases hcase with ⟨h, h5, _⟩ | ⟨_, extra, h5, h6⟩
      · rcases h5 with h5 | ⟨b, h5⟩
        · exact absurd (h.trans h5) h4
        · exact absurd (h.trans h5) (h4d b)
      · exact ⟨extra, by rw [h3, h5], h6⟩
    simp only [step, threadStep]
    cases hpc : s.pc with
    | start =>
      rw [Option.getD_some]
      have hf := stepStart_frame env s
      refine keep _ (by rw [hf.2.2.2.1]; exact hab) ?_ ?_ (by rw [hf.2.2.2.2.1])
        (by rw [hpc]; simp) (by rw [hpc]; simp)
      · rcases stepStart_pc env s with h | ⟨b, h⟩ <;> rw [h] <;> simp
      · rcases stepStart_pc env s with h | ⟨b, h⟩ <;> rw [h] <;> simp
    | opening =>
      rw [Option.getD_some]
      have hf := stepOpening_frame env s
      refine keep _ (by rw [hf.2.2.2.1]; exact hab) ?_ ?_ hf.2.2.2.2.1 (by rw [hpc]; simp)
        (by rw [hpc]; simp)
      · rcases stepOpening_pc env s with h | ⟨b, h⟩ | h | ⟨f, h⟩ <;> rw [h] <;> simp
      · rcases stepOpening_pc env s with h | ⟨b, h⟩ | h | ⟨f, h⟩ <;> rw [h] <;> simp
    | loop =>
      simp only [stepLoop, hab, if_true]
      split
      · exact keep _ rfl (by simp) (by simp) rfl (by rw [hpc]; simp) (by rw [hpc]; simp)
      · split
        · exact keep _ rfl (by simp) (by simp) rfl (by rw [hpc]; simp) (by rw [hpc]; simp)
        · exact keep _ rfl (by simp) (by simp) rfl (by rw [hpc]; simp) (by rw [hpc]; simp)
    | acquired =>
      simp only [stepAcquired, hab, if_true, Option.getD_some]
      split
      · exact keep _ rfl (by simp) (by simp) rfl (by rw [hpc]; simp) (by rw [hpc]; simp)
      · exact keep _ rfl (by simp) (by simp) rfl (by rw [hpc]; simp) (by rw [hpc]; simp)
    | reading =>
      rw [Option.getD_some]
      have hf := stepReading_frame env s
      have hab1 : (stepReading env s).abort = true := by rw [hf.2.2.2.1]; exact hab
      have h0 : s0.pc = .reading ∧ delivered s.trace = delivered s0.trace := by
        rcases hcase with ⟨h1, _, h2⟩ | ⟨h, _⟩
        · exact ⟨by rw [← h1]; exact hpc, h2⟩
        · exact absurd hpc h.1
      have hnd : ∀ b, (stepReading env s).pc ≠ .delivering b := by
        intro b hb
        rcases stepReading_progress env s with ⟨b2, h⟩ | h | ⟨h, _⟩
        · rw [h] at hb; cases hb
        · rcases h with h | ⟨f, h⟩ <;> rw [h] at hb <;> cases hb
        · rw [h] at hb; cases hb
      rcases stepReading_delivered env s with ⟨f, hf1, hf2⟩ | ⟨buffer, hdel, hne, hpc1, _⟩
      · exact ⟨hab1, Or.inr ⟨⟨by rw [hf1]; simp, hnd⟩, [], by rw [hf2, h0.2]; simp, by simp,
          by simp⟩⟩
      · refine ⟨hab1, Or.inr ⟨⟨hpc1, hnd⟩, [buffer], by rw [hdel, h0.2], by simp, ?_⟩⟩
        intro x hx
        rw [List.mem_singleton.mp hx]
        exact Or.inl ⟨h0.1, hne⟩
    | sending b =>
      simp only [stepSending, hab, if_true, Option.getD_some]
      exact keep _ rfl (by simp) (by simp) (by simp [delivered_append, delivered])
        (by rw [hpc]; simp) (by rw [hpc]; simp)
    | delivering b =>
      rw [Option.getD_some]
      have h0 : s0.pc = .delivering b ∧ delivered s.trace = delivered s0.trace := by
        rcases hcase with ⟨h1, _, h2⟩ | ⟨h, _⟩
        · exact ⟨by rw [← h1]; exact hpc, h2⟩
        · exact absurd hpc (h.2 b)
      refine ⟨hab, Or.inr ⟨⟨by simp [stepDelivering], by simp [stepDelivering]⟩, [b],
        by simp [stepDelivering, delivered_append, delivered, h0.2], by simp, ?_⟩⟩
      intro x hx
      rw [List.mem_singleton.mp hx]
      exact Or.inr h0.1
    | exited =>
      rw [Option.getD_none]
      exact ⟨hab, hcase⟩
    | crashed f =>
      rw [Option.getD_none]
      exact ⟨hab, hcase⟩
  · obtain ⟨h1, h2, h3⟩ := other_trace env s a ha
    refine ⟨h2 hab, ?_⟩
    rcases hcase with ⟨h4, h5, h6⟩ | ⟨h4, extra, h5, h6⟩
    · rcases h3 with h | ⟨f, h⟩
      · exact Or.inl ⟨by rw [h]; exact h4, h5, by rw [h1]; exact h6⟩
      · exact Or.inr ⟨⟨by rw [h]; simp, by rw [h]; simp⟩, [], by rw [h1, h6]; simp, by simp,
          by simp⟩
    · rcases h3 with h | ⟨f, h⟩
      · exact Or.inr ⟨by rw [h]; exact h4, extra, by rw [h1]; exact h5, h6⟩
      · exact Or.inr ⟨⟨by rw [h]; simp, by rw [h]; simp⟩, extra, by rw [h1]; exact h5, h6⟩

theorem AbortInv_run (env : ReaderEnv) (s0 : ReaderState) (h0 : s0.abort = true)
    (schedule : List Action) : AbortInv s0 (run env s0 schedule) := by
  apply run_invariant env (AbortInv s0) (fun s a h => AbortInv_step env s0 s a h)
  refine ⟨h0, ?_⟩
  by_cases hpc : s0.pc = .reading ∨ ∃ b, s0.pc = .delivering b
  · exact Or.inl ⟨rfl, hpc, rfl⟩
  · refine Or.inr ⟨⟨fun h => hpc (Or.inl h), fun b h => hpc (Or.inr ⟨b, h⟩)⟩, [], by simp,
      by simp, by simp⟩

theorem abortRank_step (env : ReaderEnv) (s : ReaderState) (a : Action)
    (hab : s.abort = true) :
    (step env s a).abort = true ∧ abortRank (step env s a) ≤ abortRank s ∧
      (a = .thread → abortRank (step env s a) < abortRank s ∨ abortRank s = 0) := by
  by_cases ha : a = .thread
  · subst ha
    simp only [step, threadStep]
    cases hpc : s.pc with
    | start =>
      rw [Option.getD_some]
      have hf := stepStart_frame env s
      refine ⟨by rw [hf.2.2.2.1]; exact hab, ?_⟩
      rcases stepStart_pc env s with h | ⟨b, h⟩ <;> simp [abortRank, h, hpc]
    | opening =>
      rw [Option.getD_some]
      have hf := stepOpening_frame env s
      refine ⟨by rw [hf.2.2.2.1]; exact hab, ?_⟩
      rcases stepOpening_pc env s with h | ⟨b, h⟩ | h | ⟨f, h⟩ <;> simp [abortRank, h, hpc]
    | loop =>
      simp only [stepLoop, hab, if_true]
      split
      · simp [abortRank, hpc, hab]
      · split <;> simp [abortRank, hpc, hab]
    | acquired =>
      simp only [stepAcquired, hab, if_true, Option.getD_some]
      split <;> simp [abortRank, hpc, hab]
    | reading =>
      rw [Option.getD_some]
      have hf := stepReading_frame env s
      refine ⟨by rw [hf.2.2.2.1]; exact hab, ?_⟩
      rcases stepReading_progress env s with ⟨b, h⟩ | h | ⟨h, _⟩
      · simp [abortRank, h, hpc]
      · rcases h with h | ⟨f, h⟩ <;> simp [abortRank, h, hpc]
      · simp [abortRank, h, hpc]
    | sending b =>
      simp only [stepSending, hab, if_true, Option.getD_some]
      simp [abortRank, hpc, hab]
    | delivering b => simp [abortRank, hpc, hab, stepDelivering]
    | exited => simp [abortRank, hpc, hab]
    | crashed f => simp [abortRank, hpc, hab]
  · obtain ⟨_, h2, h3⟩ := other_trace env s a ha
    refine ⟨h2 hab, ?_, fun h => absurd h ha⟩
    rcases h3 with h | ⟨f, h⟩
    · simp [abortRank, h]
    · simp [abortRank, h]

theorem abortRank_run (env : ReaderEnv) :
    ∀ (schedule : List Action) (s : ReaderState), s.abort = true →
      abortRank (run env s schedule) + schedule.count .thread ≤ abortRank s ∨
        abortRank (run env s schedule) = 0 := by
  intro schedule
  induction schedule with
  | nil => intro s _; left; simp [run]
  | cons a rest ih =>
    intro s hab
    obtain ⟨h1, h2, h3⟩ := abortRank_step env s a hab
    have hrun : run env s (a :: rest) = run env (step env s a) rest := rfl
    rw [hrun]
    rcases ih (step env s a) h1 with h | h
    · by_cases ha : a = .thread
      · subst ha
        rcases h3 rfl with h4 | h4
        · left
          simp only [List.count_cons_self]
          omega
        · right
          omega
      · left
        rw [List.count_cons_of_ne (Ne.symm ha)]
        omega
    · exact Or.inr h

theorem abortRank_zero (s : ReaderState) (h : abortRank s = 0) : Stopped s := by
  cases hpc : s.pc <;> simp [abortRank, hpc] at h
  · exact Or.inl hpc
  · exact Or.inr ⟨_, hpc⟩

/-! ## Claims about terminal items and the abort signal -/

/-- C14. Once a session has produced its terminal item it makes no further
bridge call. Writer: from the moment a completion item has been cached (after
a failed open, write or close, or after a termination) the `WriteBlock` and
`Close` calls made on the bridge stay what they were, whatever happens next.
Reader: from the moment an abort or end-of-stream marker has been handed to
the handler the trace of the session stays what it was, so no `ReadBlock` is
issued, neither by a data read nor by a scan. -/
theorem no_bridge_io_after_terminal_item :
    (∀ (env : WriterEnv) (schedule more : List WriterAction),
      cachedItems (Writer.run env WriterState.initial schedule).trace ≠ [] →
      bridgeCalls (Writer.run env WriterState.initial (schedule ++ more)).trace =
        bridgeCalls (Writer.run env WriterState.initial schedule).trace) ∧
    (∀ (env : ReaderEnv) (schedule more : List Action) (b : RChannelBuffer),
      b ∈ delivered (run env ReaderState.initial schedule).trace →
      (b = .endOfStream ∨ ∃ c d, b = .abort c d) →
      (run env ReaderState.initial (schedule ++ more)).trace =
        (run env ReaderState.initial schedule).trace) := by
  constructor
  · intro env schedule more hc
    rw [Writer_run_append]
    exact (WriterDone_run env more _
      (WriterDone_of_cached _ (WriterInv_run env schedule) hc)).2
  · intro env schedule more b hb hm
    refine marker_freezes env schedule more b hb ?_
    rcases hm with rfl | ⟨c, d, rfl⟩ <;> rfl

/-- Witness of C14: the writer of `failedWrite`, whose first write failed, and
the reader of the example file after its end-of-stream marker. -/
theorem no_bridge_io_after_terminal_item_witness :
    bridgeCalls
      (Writer.run (openEnv (fun _ _ _ => false) (fun _ => true)) WriterState.initial
        ([.writeBuffer [1] true 7, .writeBuffer [2] false 8, .thread, .thread, .thread] ++
          [.thread, .writeBuffer [3] true 9, .thread])).trace =
      [.writeBlock [1] true false] ∧
    (run exampleEnv ReaderState.initial (drive 12 ++ [.thread, .returnBuffer, .thread])).trace =
      exampleFinal.trace :=
  ⟨(no_bridge_io_after_terminal_item.1 (openEnv (fun _ _ _ => false) (fun _ => true))
      [.writeBuffer [1] true 7, .writeBuffer [2] false 8, .thread, .thread, .thread]
      [.thread, .writeBuffer [3] true 9, .thread] (by decide)).trans rfl,
   no_bridge_io_after_terminal_item.2 exampleEnv (drive 12) [.thread, .returnBuffer, .thread]
      .endOfStream (by decide) (Or.inl rfl)⟩

/-- C20, counterexample. The reader of `abcd` with range `[1,2)` finds no
record start. Its thread takes the permit for the `EndOfStream` marker at the
wait of `SendBuffer` (three thread steps); then the abort signal is set; the
next step of the thread hands the marker to the handler: an `EndOfStream`
marker is delivered after the abort signal was set, and it is not the result
of a read. -/
theorem C20_counterexample :
    (run (fileEnv [97, 98, 99, 100] 1 1 5) ReaderState.initial
        [.thread, .thread, .thread, .interrupt]).abort = true ∧
    (run (fileEnv [97, 98, 99, 100] 1 1 5) ReaderState.initial
        [.thread, .thread, .thread, .interrupt]).pc = .delivering .endOfStream ∧
    delivered (run (fileEnv [97, 98, 99, 100] 1 1 5) ReaderState.initial
        [.thread, .thread, .thread, .interrupt]).trace = [] ∧
    (∀ o n, Event.readBlock o n ∉ (run (fileEnv [97, 98, 99, 100] 1 1 5) ReaderState.initial
        ([.thread, .thread, .thread, .interrupt] ++ [.thread])).trace) ∧
    delivered (run (fileEnv [97, 98, 99, 100] 1 1 5) ReaderState.initial
        ([.thread, .thread, .thread, .interrupt] ++ [.thread])).trace = [.endOfStream] := by
  refine ⟨by rfl, by rfl, by rfl, ?_, by rfl⟩
  intro o n
  have h : (run (fileEnv [97, 98, 99, 100] 1 1 5) ReaderState.initial
      ([.thread, .thread, .thread, .interrupt] ++ [.thread])).trace =
      [.scan 1 3, .processBuffer .endOfStream] := by rfl
  rw [h]
  simp

/-- C20, amended. Once the abort event of a reader is set: the handler is
handed at most one further buffer, which is the buffer of the data read that
was in flight at that moment (never an end-of-stream marker) or the marker for
which `SendBuffer` had already taken a permit at that moment (the wait of line
349 done, `ProcessBuffer` of line 363 not yet called); a marker for which the
thread has not yet taken a permit is discarded at the wait; a thread that has
just taken a permit for a read gives it back and returns; after four steps at
most the thread has stopped (it has returned, unless the process stopped on a
failed assertion; on an ideal file-backed bridge it has returned); and once it
has returned nothing more happens in the session, so no `ProcessBuffer` call
occurs. -/
theorem abort_signal_stops_delivery (env : ReaderEnv) (schedule more : List Action)
    (habort : (run env ReaderState.initial schedule).abort = true) :
    (∃ extra, delivered (run env ReaderState.initial (schedule ++ more)).trace =
        delivered (run env ReaderState.initial schedule).trace ++ extra ∧
      extra.length ≤ 1 ∧
      ∀ x ∈ extra,
        ((run env ReaderState.initial schedule).pc = .reading ∧ x ≠ .endOfStream) ∨
        (run env ReaderState.initial schedule).pc = .delivering x) ∧
    (∀ b, (run env ReaderState.initial schedule).pc = .sending b →
      (step env (run env ReaderState.initial schedule) .thread).pc = .exited ∧
      (step env (run env ReaderState.initial schedule) .thread).trace =
        (run env ReaderState.initial schedule).trace ++ [.discard b]) ∧
    ((run env ReaderState.initial schedule).pc = .acquired →
      (step env (run env ReaderState.initial schedule) .thread).pc = .exited ∧
      (step env (run env ReaderState.initial schedule) .thread).permits =
        (run env ReaderState.initial schedule).permits + 1) ∧
    (4 ≤ more.count .thread → Stopped (run env ReaderState.initial (schedule ++ more))) ∧
    (∀ (file : List Byte) (os len fuel : Nat), env = fileEnv file os len fuel →
      file.length < fuel →
      os + len ≤ file.length → 4 ≤ more.count .thread →
      (run env ReaderState.initial (schedule ++ more)).pc = .exited) ∧
    ((run env ReaderState.initial (schedule ++ more)).pc = .exited →
      ∀ later, (run env ReaderState.initial (schedule ++ more ++ later)).trace =
        (run env ReaderState.initial (schedule ++ more)).trace) := by
  have hstop : 4 ≤ more.count .thread →
      Stopped (run env ReaderState.initial (schedule ++ more)) := by
    intro hcount
    rw [run_append]
    apply abortRank_zero
    rcases abortRank_run env more _ habort with h | h
    · have : abortRank (run env ReaderState.initial schedule) ≤ 4 := by
        cases hpc : (run env ReaderState.initial schedule).pc <;> simp [abortRank, hpc]
      omega
    · exact h
  refine ⟨?_, ?_, ?_, hstop, ?_, ?_⟩
  · have h := AbortInv_run env _ habort more
    rw [← run_append] at h
    rcases h.2 with ⟨_, _, h2⟩ | ⟨_, h⟩
    · exact ⟨[], by rw [h2]; simp, by simp, by simp⟩
    · exact h
  · intro b hpc
    simp [step, threadStep, hpc, stepSending, habort]
  · intro hpc
    have hperm := (SessInv_run env schedule).1
    have hp : (run env ReaderState.initial schedule).permits < s_maxBuffersOut := by
      rcases hperm.2.2 with ⟨f, hf⟩ | h
      · rw [hpc] at hf; cases hf
      · simp only [ReaderState.held, hpc] at h
        omega
    simp [step, threadStep, hpc, stepAcquired, habort, hp]
  · rintro file os len fuel rfl hfuel hrange hcount
    rcases hstop hcount with h | hcr
    · exact h
    · exact absurd hcr (FileInv_run file os len fuel hfuel hrange (schedule ++ more)).1
  · intro hpc later
    rw [run_append]
    exact (run_stopped env later _ (Or.inl hpc)).2

/-- Witness of C20: the reader of the example file, range `[5,30)`,
interrupted while its first data read is in flight, hands that one buffer to
the handler and returns. -/
theorem abort_signal_stops_delivery_witness :
    interruptedReading.abort = true ∧
    (run exampleEnv ReaderState.initial
      ([.thread, .thread, .thread, .thread, .interrupt] ++
        [.thread, .thread, .thread, .thread])).pc = .exited ∧
    (delivered (run exampleEnv ReaderState.initial
      ([.thread, .thread, .thread, .thread, .interrupt] ++
        [.thread, .thread, .thread, .thread])).trace).length = 1 :=
  ⟨rfl,
   (abort_signal_stops_delivery exampleEnv [.thread, .thread, .thread, .thread, .interrupt]
      [.thread, .thread, .thread, .thread] rfl).2.2.2.2.1 exampleFile 5 25 50 rfl (by decide)
      (by decide) (by decide),
   rfl⟩

/-! ## The scanner and the chunks it reads -/

theorem singlePassScan_eq (file : List Byte) (startOffset : Nat) (endOffset : Int) :
    singlePassScan file startOffset endOffset =
      scanSpec file.length endOffset startOffset (nextRecordStart file startOffset) := by
  rfl

theorem scanBytes_plain (pre ys : List Byte) (p : Nat)
    (hpre : ∀ b ∈ pre, b ≠ LF ∧ b ≠ CR) :
    scanBytes (pre ++ ys) p false = scanBytes ys (p + pre.length) false := by
  induction pre generalizing p with
  | nil => simp
  | cons b rest ih =>
    have hb := hpre b (List.mem_cons_self _ _)
    have hrest : ∀ c ∈ rest, c ≠ LF ∧ c ≠ CR := fun c hc => hpre c (List.mem_cons_of_mem _ hc)
    simp only [List.cons_append, scanBytes, hb.1, hb.2, if_false, decide_False,
      Bool.false_eq_true, List.length_cons]
    have h := ih (p + 1) hrest
    have hp : p + 1 + rest.length = p + (rest.length + 1) := by omega
    rw [hp] at h
    exact h

theorem nextRecordStart_crlf (head pre rest : List Byte)
    (hpre : ∀ b ∈ pre, b ≠ LF ∧ b ≠ CR) :
    nextRecordStart (head ++ pre ++ CR :: LF :: rest) head.length =
      some (head.length + pre.length + 2) := by
  simp only [nextRecordStart, List.append_assoc, List.drop_left]
  rw [scanBytes_plain pre _ _ hpre]
  simp [scanBytes, CR, LF]

theorem nextRecordStart_cr (head pre rest : List Byte) (b : Byte) (hb : b ≠ LF)
    (hpre : ∀ b ∈ pre, b ≠ LF ∧ b ≠ CR) :
    nextRecordStart (head ++ pre ++ CR :: b :: rest) head.length =
      some (head.length + pre.length + 1) := by
  simp only [nextRecordStart, List.append_assoc, List.drop_left]
  rw [scanBytes_plain pre _ _ hpre]
  have hb2 : ¬ b = 10 := hb
  simp [scanBytes, CR, LF, hb2]

theorem scanLoop_first (bridge other : Bridge) (e : Int) (fuel : Nat) (p : Int) (fr : Bool)
    (len : Int)
    (hlen : len = if 0 < e ∧ e - p < s_lineRecordScanSize then e - p else s_lineRecordScanSize)
    (hsame : bridge p len = other p len)
    (hstop : ∀ bs, bridge p len = .bytes bs → bs = []) :
    scanLoop bridge e (fuel + 1) p fr = scanLoop other e (fuel + 1) p fr := by
  simp only [scanLoop, ← hlen, ← hsame]
  cases hb : bridge p len with
  | ioError => rfl
  | eof => rfl
  | bytes bs =>
    have := hstop bs hb
    subst this
    simp

theorem ScanForSync_chunks (file : List Byte) (chunk other : Int → Nat)
    (hchunk : ∀ o : Nat, o < file.length → 1 ≤ chunk o)
    (hother : ∀ o : Nat, o < file.length → 1 ≤ other o)
    (fuel : Nat) (startOffset endOffset : Int)
    (hfuel : file.length - startOffset.toNat < fuel) :
    ScanForSync (chunkedBridge file chunk) fuel startOffset endOffset =
      ScanForSync (chunkedBridge file other) fuel startOffset endOffset := by
  by_cases he0 : endOffset = 0
  · simp [ScanForSync, he0]
  obtain ⟨fuel, rfl⟩ : ∃ k, fuel = k + 1 := ⟨fuel - 1, by omega⟩
  by_cases hs : startOffset < 0
  · simp only [ScanForSync, he0, if_false]
    refine scanLoop_first _ _ _ _ _ _ _ rfl ?_ ?_
    · simp [chunkedBridge, hs]
    · intro bs hb; simp [chunkedBridge, hs] at hb
  obtain ⟨p, rfl⟩ : ∃ p : Nat, startOffset = p := ⟨startOffset.toNat, by omega⟩
  by_cases hdeg : 0 < endOffset ∧ endOffset ≤ (p : Int)
  · simp only [ScanForSync, he0, if_false]
    have hlen : (if 0 < endOffset ∧ endOffset - (p : Int) < s_lineRecordScanSize
        then endOffset - (p : Int) else s_lineRecordScanSize) = endOffset - p := by
      rw [if_pos]; refine ⟨hdeg.1, ?_⟩; simp only [s_lineRecordScanSize]; omega
    have hz : (endOffset - (p : Int)).toNat = 0 := by omega
    refine scanLoop_first _ _ _ _ _ _ (endOffset - p) hlen.symm ?_ ?_
    · by_cases hp : file.length ≤ p
      · rw [chunkedBridge_eof file chunk p _ hp, chunkedBridge_eof file other p _ hp]
      · rw [chunkedBridge_bytes file chunk p _ (by omega),
          chunkedBridge_bytes file other p _ (by omega), hz]
        simp
    · intro bs hb
      by_cases hp : file.length ≤ p
      · rw [chunkedBridge_eof file chunk p _ hp] at hb; simp at hb
      · rw [chunkedBridge_bytes file chunk p _ (by omega), hz] at hb
        simp at hb
        exact hb
  · have hbound : 0 < endOffset → (p : Int) < endOffset := fun h => by
      by_contra hc; exact hdeg ⟨h, by omega⟩
    have hf : file.length - p < fuel + 1 := by simpa using hfuel
    rw [ScanForSync_chunked file chunk hchunk _ p endOffset hf he0 hbound,
      ScanForSync_chunked file other hother _ p endOffset hf he0 hbound]

/-! ## Claims about chunked reads -/

/-- C23. The result of `ScanForSync` does not depend on how the bytes arrive in
chunks. For every file read through a bridge that returns any positive number
of bytes per `ReadBlock` call (at most the number requested): the result is
that of the single pass `singlePassScan` over the same bytes, for every start
offset and every bound other than 0 that lies past the start offset; two such
bridges give the same result for every start offset and bound whatsoever; a
`"\r\n"` pair is one delimiter wherever the chunks are cut, the scan stopping
after the line feed; and a carriage return followed by a byte other than a
line feed makes the scan stop at the offset of that byte. -/
theorem ScanForSync_independent_of_chunking (file : List Byte) (chunk : Int → Nat)
    (hchunk : ∀ o : Nat, o < file.length → 1 ≤ chunk o) (fuel : Nat) :
    (∀ (startOffset : Nat) (endOffset : Int), file.length - startOffset < fuel →
      endOffset ≠ 0 → (0 < endOffset → (startOffset : Int) < endOffset) →
      ScanForSync (chunkedBridge file chunk) fuel startOffset endOffset =
        .ok (singlePassScan file startOffset endOffset)) ∧
    (∀ other : Int → Nat, (∀ o : Nat, o < file.length → 1 ≤ other o) →
      ∀ startOffset endOffset : Int, file.length - startOffset.toNat < fuel →
      ScanForSync (chunkedBridge file chunk) fuel startOffset endOffset =
        ScanForSync (chunkedBridge file other) fuel startOffset endOffset) ∧
    (∀ (head pre rest : List Byte) (endOffset : Int),
      file = head ++ pre ++ CR :: LF :: rest → (∀ b ∈ pre, b ≠ LF ∧ b ≠ CR) →
      file.length - head.length < fuel →
      (endOffset < 0 ∨ ((head.length + pre.length + 2 : Nat) : Int) < endOffset) →
      ScanForSync (chunkedBridge file chunk) fuel head.length endOffset =
        .ok ⟨(head.length + pre.length + 2 : Nat), none⟩) ∧
    (∀ (head pre rest : List Byte) (b : Byte) (endOffset : Int),
      file = head ++ pre ++ CR :: b :: rest → b ≠ LF → (∀ b ∈ pre, b ≠ LF ∧ b ≠ CR) →
      file.length - head.length < fuel →
      (endOffset < 0 ∨ ((head.length + pre.length + 1 : Nat) : Int) < endOffset) →
      ScanForSync (chunkedBridge file chunk) fuel head.length endOffset =
        .ok ⟨(head.length + pre.length + 1 : Nat), none⟩) := by
  refine ⟨?_, ?_, ?_, ?_⟩
  · intro startOffset endOffset hfuel hne hbound
    rw [singlePassScan_eq]
    exact ScanForSync_chunked file chunk hchunk fuel startOffset endOffset hfuel hne hbound
  · intro other hother startOffset endOffset hfuel
    exact ScanForSync_chunks file chunk other hchunk hother fuel startOffset endOffset hfuel
  · intro head pre rest endOffset hfile hpre hfuel hend
    rw [ScanForSync_chunked file chunk hchunk fuel head.length endOffset hfuel (by omega)
      (fun h => by omega), hfile, nextRecordStart_crlf head pre rest hpre]
    have hc : ¬ (0 < endOffset ∧ endOffset ≤ ((head.length + pre.length + 2 : Nat) : Int)) :=
      fun h => by omega
    simp only [scanSpec, hc, if_false]
  · intro head pre rest b endOffset hfile hb hpre hfuel hend
    rw [ScanForSync_chunked file chunk hchunk fuel head.length endOffset hfuel (by omega)
      (fun h => by omega), hfile, nextRecordStart_cr head pre rest b hb hpre]
    have hc : ¬ (0 < endOffset ∧ endOffset ≤ ((head.length + pre.length + 1 : Nat) : Int)) :=
      fun h => by omega
    simp only [scanSpec, hc, if_false]

/-- Witness for C23: the file `crlfFile` read three bytes at a time, so that
the carriage return at offset 2 ends the first chunk and the line feed at
offset 3 begins the second, and the carriage return at offset 5 ends the
second chunk. -/
theorem ScanForSync_independent_of_chunking_witness :
    chunkedBridge crlfFile (fun _ => 3) 0 4096 = .bytes [97, 98, CR] ∧
    chunkedBridge crlfFile (fun _ => 3) 3 4096 = .bytes [LF, 99, CR] ∧
    ScanForSync (chunkedBridge crlfFile (fun _ => 3)) 10 (0 : Nat) (-1) = .ok ⟨(4 : Nat), none⟩ ∧
    ScanForSync (chunkedBridge crlfFile (fun _ => 3)) 10 (4 : Nat) (-1) = .ok ⟨(6 : Nat), none⟩ :=
  ⟨rfl, rfl,
    (ScanForSync_independent_of_chunking crlfFile (fun _ => 3)
      (fun _ _ => by simp) 10).2.2.1 [] [97, 98] [99, CR, 100] (-1) rfl
      (by decide) (by decide) (Or.inl (by decide)),
    (ScanForSync_independent_of_chunking crlfFile (fun _ => 3)
      (fun _ _ => by simp) 10).2.2.2 [97, 98, CR, LF] [99] [] 100 (-1) rfl (by decide)
      (by decide) (by decide) (Or.inl (by decide))⟩

/-! ## The seam between adjacent splits -/

theorem AdjustEndOffset_chunked (file : List Byte) (chunk : Int → Nat)
    (hchunk : ∀ o : Nat, o < file.length → 1 ≤ chunk o) (fuel e : Nat)
    (hfuel : file.length < fuel) :
    AdjustEndOffset (chunkedBridge file chunk) fuel e =
      .ok ((max e (alignedEnd file e) : Nat), none) := by
  have h := ScanForSync_chunked file chunk hchunk fuel e (-1)
    (by omega) (by decide) (by intro h; simp at h)
  simp only [AdjustEndOffset, h, alignedEnd]
  cases hn : nextRecordStart file e with
  | none =>
    obtain ⟨m, hm, hem⟩ : ∃ m, max e file.length = m ∧ e ≤ m :=
      ⟨_, rfl, Nat.le_max_left _ _⟩
    simp only [scanSpec, Option.getD_none, hm]
    have h1 : ¬ ((m : Int) < -1) := by omega
    simp [h1, hem]
  | some o =>
    have hspec := nextRecordStart_some file e o hn
    have hmax : max e o = o := Nat.max_eq_right (le_of_lt hspec.1)
    simp only [scanSpec, Option.getD_some, hmax]
    have h1 : ¬ ((o : Int) < -1) := by omega
    simp [h1, le_of_lt hspec.1]

theorem AdjustStartOffset_chunked (file : List Byte) (chunk : Int → Nat)
    (hchunk : ∀ o : Nat, o < file.length → 1 ≤ chunk o) (fuel os e : Nat)
    (hfuel : file.length < fuel) (hos : 0 < os) (hle : os ≤ e) :
    AdjustStartOffset (chunkedBridge file chunk) fuel os e =
      match nextRecordStart file os with
      | some o => if o ≤ e then .ok ((o : Int), none) else .ok (-1, some .endOfStream)
      | none =>
        if e < file.length then .ok (-1, some .endOfStream)
        else .ok (-2, some (.abort .DryadError_ChannelReadError
                    (.eofEarly (max os file.length : Nat) ((e : Int) + 1)))) := by
  have h := ScanForSync_chunked file chunk hchunk fuel os
    ((e : Int) + 1) (by omega) (by omega) (by intro _; omega)
  have hpos : (0 : Int) < (os : Int) := by omega
  simp only [AdjustStartOffset, h, hpos, if_true]
  cases hn : nextRecordStart file os with
  | none =>
    simp only [scanSpec]
    have h0 : (0 : Int) < (e : Int) + 1 := by omega
    by_cases hlt : e < file.length
    · have h1 : (e : Int) + 1 ≤ (file.length : Int) := by omega
      simp [h0, h1, hlt]
    · have h1 : ¬ ((e : Int) + 1 ≤ (file.length : Int)) := by omega
      simp [h0, h1, hlt]
  | some o =>
    have hspec := nextRecordStart_some file os o hn
    simp only [scanSpec]
    have h0 : (0 : Int) < (e : Int) + 1 := by omega
    by_cases hoe : o ≤ e
    · have h1 : ¬ ((e : Int) + 1 ≤ (o : Int)) := by omega
      have h2 : ¬ ((o : Int) < -1) := by omega
      have h3 : ¬ ((o : Int) = -1) := by omega
      have h4 : (o : Int) ≤ (e : Int) := by omega
      simp [h0, h1, h2, h3, h4, hoe]
    · have h1 : (e : Int) + 1 ≤ (o : Int) := by omega
      simp [h0, h1, hoe]

theorem alignedEnd_stable (file : List Byte) (x y : Nat) (hxy : x ≤ y)
    (hy : y < alignedEnd file x) : alignedEnd file y = alignedEnd file x := by
  have h1 := alignedEnd_mono file x y hxy
  have h2 : alignedEnd file y ≤ alignedEnd file x := by
    rcases alignedEnd_cases file x with hR | hL
    · exact alignedEnd_le_of_recordStart file y _ hR hy
    · rw [hL]; exact alignedEnd_le_length file y
  omega

/-! ## Claims about the seam between adjacent splits -/

/-- C22. Two independent readers agree on the seam between adjacent splits.
For every file, read through bridges that may cut their reads differently, and
every offset `e > 0`: when `AdjustStartOffset` of the reader with nominal range
`[e, e2)` finds a record start `o`, `AdjustEndOffset` of the reader with
nominal end `e` returns the same `o`; and when `AdjustStartOffset` finds none
in the range (it returns `-1` with an end-of-stream marker), `AdjustEndOffset`
for the nominal end `e` returns an offset greater than `e2`, the very offset
`AdjustEndOffset` returns for the nominal end `e2`. -/
theorem readers_agree_on_seam (file : List Byte) (first second : Int → Nat)
    (hfirst : ∀ o : Nat, o < file.length → 1 ≤ first o)
    (hsecond : ∀ o : Nat, o < file.length → 1 ≤ second o)
    (fuel e e2 : Nat) (hfuel : file.length < fuel) (he : 0 < e) (hle : e ≤ e2) :
    (∀ o : Int, AdjustStartOffset (chunkedBridge file second) fuel e e2 = .ok (o, none) →
      AdjustEndOffset (chunkedBridge file first) fuel e = .ok (o, none)) ∧
    (AdjustStartOffset (chunkedBridge file second) fuel e e2 = .ok (-1, some .endOfStream) →
      ∃ n : Int, AdjustEndOffset (chunkedBridge file first) fuel e = .ok (n, none) ∧
        (e2 : Int) < n ∧
        ∀ third : Int → Nat, (∀ o : Nat, o < file.length → 1 ≤ third o) →
          AdjustEndOffset (chunkedBridge file third) fuel e2 = .ok (n, none)) := by
  rw [AdjustStartOffset_chunked file second hsecond fuel e e2 hfuel he hle,
    AdjustEndOffset_chunked file first hfirst fuel e hfuel]
  cases hn : nextRecordStart file e with
  | none =>
    have hae : alignedEnd file e = file.length := by simp [alignedEnd, hn]
    refine ⟨?_, ?_⟩
    · intro o h
      simp only at h
      split at h <;> simp at h
    · intro h
      simp only at h
      split at h
      · rename_i hlt
        have hmax : max e (alignedEnd file e) = file.length := by rw [hae]; omega
        refine ⟨(file.length : Nat), by rw [hmax], by omega, ?_⟩
        intro third hthird
        rw [AdjustEndOffset_chunked file third hthird fuel e2 hfuel]
        have h2 : alignedEnd file e2 = file.length := by
          rw [alignedEnd_stable file e e2 hle (by omega), hae]
        rw [h2]
        have : max e2 file.length = file.length := by omega
        rw [this]
      · simp at h
  | some o =>
    have hspec := nextRecordStart_some file e o hn
    have hae : alignedEnd file e = o := by simp [alignedEnd, hn]
    have hmax : max e (alignedEnd file e) = o := by rw [hae]; omega
    refine ⟨?_, ?_⟩
    · intro o2 h
      simp only at h
      split at h
      · simp only [Except.ok.injEq, Prod.mk.injEq, and_true] at h
        rw [hmax, h]
      · simp at h
    · intro h
      simp only at h
      split at h
      · simp only [Except.ok.injEq, Prod.mk.injEq] at h
        omega
      · rename_i hoe
        refine ⟨(o : Nat), by rw [hmax], by omega, ?_⟩
        intro third hthird
        rw [AdjustEndOffset_chunked file third hthird fuel e2 hfuel]
        have h2 : alignedEnd file e2 = o := by
          rw [alignedEnd_stable file e e2 hle (by omega), hae]
        rw [h2]
        have : max e2 o = o := by omega
        rw [this]

/-- Witness for C22: the example file with records at `[0,10)`, `[10,25)` and
`[25,40)`. The reader of `[5,30)` starts at 10, where the reader with nominal
end 5 ends; the reader of `[12,20)` finds no record start, and the readers
with nominal ends 12 and 20 both end at 25. -/
theorem readers_agree_on_seam_witness :
    AdjustEndOffset (chunkedBridge exampleFile (fun _ => 7)) 50 (5 : Nat) = .ok (10, none) ∧
    ∃ n : Int, AdjustEndOffset (chunkedBridge exampleFile (fun _ => 7)) 50 (12 : Nat) =
        .ok (n, none) ∧
      ((20 : Nat) : Int) < n ∧
      ∀ third : Int → Nat, (∀ o : Nat, o < exampleFile.length → 1 ≤ third o) →
        AdjustEndOffset (chunkedBridge exampleFile third) 50 (20 : Nat) = .ok (n, none) :=
  ⟨(readers_agree_on_seam exampleFile (fun _ => 7) (fun _ => 3) (fun _ _ => by simp)
      (fun _ _ => by simp) 50 5 30 (by decide) (by decide) (by decide)).1 10 rfl,
   (readers_agree_on_seam exampleFile (fun _ => 7) (fun _ => 3) (fun _ _ => by simp)
      (fun _ _ => by simp) 50 12 20 (by decide) (by decide) (by decide)).2 rfl⟩

/-! ## The counters reported by `FillInStatus` -/

theorem toUInt64_nonneg (x : Int) : 0 ≤ toUInt64 x :=
  Int.emod_nonneg _ (by norm_num)

theorem toUInt64_eq (x : Int) (h0 : 0 ≤ x) (h1 : x < 2 ^ 64) : toUInt64 x = x :=
  Int.emod_eq_of_lt h0 h1

theorem stepStart_counters (env : ReaderEnv) (s : ReaderState) :
    (stepStart env s).m_processedLength = s.m_processedLength ∧
    (s.m_totalLength = 0 → s.m_totalLength ≤ (stepStart env s).m_totalLength) := by
  simp only [stepStart]
  split
  · simp
  · split
    · simp
    · refine ⟨rfl, fun h => ?_⟩
      rw [h]; exact toUInt64_nonneg _

theorem stepAlignEnd_counters (env : ReaderEnv) (s : ReaderState) (offset : Int)
    (ho : 0 ≤ offset) (hs : s.offset = offset) :
    (stepAlignEnd env s offset).m_processedLength = s.m_processedLength ∧
    ((stepAlignEnd env s offset).pc = .loop →
      0 ≤ (stepAlignEnd env s offset).offsetStart ∧
      (stepAlignEnd env s offset).offsetStart = (stepAlignEnd env s offset).offset) := by
  simp only [stepAlignEnd]
  split
  · split
    · simp
    · simp
    · split
      · simp
      · split
        · simp
        · simp [ho, hs]
  · split
    · simp
    · simp [ho, hs]

theorem stepOpening_counters (env : ReaderEnv) (s : ReaderState) :
    (stepOpening env s).m_processedLength = s.m_processedLength ∧
    ((stepOpening env s).pc = .loop →
      0 ≤ (stepOpening env s).offsetStart ∧
      (stepOpening env s).offsetStart = (stepOpening env s).offset) := by
  simp only [stepOpening, stepAlignStart]
  split
  · simp
  · split
    · simp
    · have hf : (if 0 < s.offsetStart then
          { s with trace := s.trace ++ [Event.scan s.offsetStart (s.offsetEnd + 1)] }
          else s).m_processedLength = s.m_processedLength := by
        split <;> rfl
      generalize (if 0 < s.offsetStart then
          { s with trace := s.trace ++ [Event.scan s.offsetStart (s.offsetEnd + 1)] }
          else s) = t at hf
      split
      · simp [hf]
      · simp [hf]
      · rename_i off _
        split
        · simp [hf]
        · rename_i hoff
          have h2 := stepAlignEnd_counters env { t with offset := off, scannedFinal := false }
            off (by omega) rfl
          exact ⟨h2.1.trans hf, h2.2⟩

theorem stepReading_counters (env : ReaderEnv) (s : ReaderState) :
    (stepReading env s).m_totalLength = s.m_totalLength ∧
    (stepReading env s).offsetStart = s.offsetStart ∧
    (((stepReading env s).m_processedLength = s.m_processedLength ∧
        ((stepReading env s).pc = .loop → (stepReading env s).offset < 0)) ∨
     (s.offset < (stepReading env s).offset ∧
        (stepReading env s).m_processedLength =
          toUInt64 ((stepReading env s).offset - s.offsetStart))) := by
  simp only [stepReading]
  split
  · simp
  · rename_i newOffset events hr
    obtain ⟨size, buffer, hev, hsize, hpos, hcase⟩ := ReadDataBuffer_ok _ _ _ _ _ hr
    have hno : (newOffset = -1 ∧ ¬ (0 ≤ newOffset)) ∨ (s.offset < newOffset ∧ 0 ≤ newOffset ∨
        s.offset < newOffset ∧ ¬ (0 ≤ newOffset)) := by
      rcases hcase with ⟨h, _⟩ | ⟨_, _, _, _, h⟩
      · exact Or.inl ⟨h, by omega⟩
      · by_cases h0 : 0 ≤ newOffset
        · exact Or.inr (Or.inl ⟨by omega, h0⟩)
        · exact Or.inr (Or.inr ⟨by omega, h0⟩)
    rcases hno with ⟨h1, h0⟩ | ⟨h1, h0⟩ | ⟨h1, h0⟩
    · simp only [h0, if_false]
      split
      · split
        · simp
        · simp
        · split
          · simp
          · simp [h1]
      · simp [h1]
    · simp only [h0, if_true]
      split
      · split
        · simp [h1]
        · simp [h1]
        · split
          · simp [h1]
          · simp [h1]
      · simp [h1]
    · simp only [h0, if_false]
      split
      · split
        · simp
        · simp
        · split
          · simp
          · simp; omega
      · simp; omega

theorem CounterInv_initial : CounterInv ReaderState.initial := by
  simp [CounterInv, ReaderState.initial]

theorem other_counters (env : ReaderEnv) (s : ReaderState) (a : Action)
    (h : a ≠ .thread ∨ (s.pc ≠ .start ∧ s.pc ≠ .opening ∧ s.pc ≠ .reading)) :
    (step env s a).m_totalLength = s.m_totalLength ∧
    (step env s a).m_processedLength = s.m_processedLength ∧
    (step env s a).offsetStart = s.offsetStart ∧
    ((step env s a).pc = s.pc ∧ (step env s a).offset = s.offset ∨
      (s.pc = .loop ∧ (step env s a).pc = .acquired ∧ (step env s a).offset = s.offset ∧
        0 ≤ s.offset) ∨
      (s.pc = .acquired ∧ (step env s a).pc = .reading ∧ (step env s a).offset = s.offset) ∨
      (∃ b, (step env s a).pc = .sending b ∨ (step env s a).pc = .delivering b) ∨
      Stopped (step env s a)) := by
  cases a with
  | thread =>
    rcases h with h | ⟨h1, h2, h3⟩
    · exact absurd rfl h
    · simp only [step, threadStep]
      cases hpc : s.pc with
      | start => exact absurd hpc h1
      | opening => exact absurd hpc h2
      | reading => exact absurd hpc h3
      | loop =>
        simp only [stepLoop]
        split
        · rename_i hc
          split
          · simp [Stopped]
          · split
            · simp [hc.1]
            · simp [hpc]
        · split <;> simp [Stopped]
      | acquired =>
        simp only [stepAcquired, Option.getD_some]
        split
        · split <;> simp [Stopped]
        · simp
      | sending b =>
        simp only [stepSending]
        split
        · simp [Stopped]
        · split
          · simp
          · simp [hpc]
      | delivering b => simp [stepDelivering, Stopped]
      | exited => simp [hpc]
      | crashed f => simp [hpc]
  | returnBuffer =>
    simp only [step, ReturnBuffer]
    split
    · simp
    · split
      · split
        · simp
        · simp [Stopped]
      · simp
  | interrupt =>
    simp only [step, Interrupt]
    split <;> simp
  | drainWait =>
    simp only [step, drainWait]
    split <;> simp

theorem CounterInv_step (env : ReaderEnv) (s : ReaderState) (a : Action) (h : CounterInv s) :
    CounterInv (step env s a) := by
  by_cases hc : a ≠ .thread ∨ (s.pc ≠ .start ∧ s.pc ≠ .opening ∧ s.pc ≠ .reading)
  · obtain ⟨h1, h2, h3, h4⟩ := other_counters env s a hc
    rcases h4 with ⟨hp, ho⟩ | ⟨hp, hq, ho, h0⟩ | ⟨hp, hq, ho⟩ | ⟨b, hq⟩ | hq
    · simp only [CounterInv, h1, h2, h3, hp, ho]; exact h
    · refine ⟨by simp [hq], by simp [hq], fun _ _ => ?_⟩
      rw [h2, h3, ho]
      exact h.2.2 (Or.inl hp) (fun _ => h0)
    · refine ⟨by simp [hq], by simp [hq], fun _ _ => ?_⟩
      rw [h2, h3, ho]
      exact h.2.2 (Or.inr (Or.inl hp)) (fun hl => by rw [hp] at hl; cases hl)
    · rcases hq with hq | hq <;> exact ⟨by simp [hq], by simp [hq], by simp [hq]⟩
    · rcases hq with hq | ⟨f, hq⟩
      · exact ⟨by simp [hq], by simp [hq], by simp [hq]⟩
      · exact ⟨by simp [hq], by simp [hq], by simp [hq]⟩
  · have ha : a = .thread := by
      by_contra hne; exact hc (Or.inl hne)
    subst ha
    have hpc : s.pc = .start ∨ s.pc = .opening ∨ s.pc = .reading := by
      by_contra hn
      exact hc (Or.inr ⟨fun h1 => hn (Or.inl h1), fun h1 => hn (Or.inr (Or.inl h1)),
        fun h1 => hn (Or.inr (Or.inr h1))⟩)
    rcases hpc with hpc | hpc | hpc
    · have hst : step env s .thread = stepStart env s := by simp [step, threadStep, hpc]
      rw [hst]
      have hp := (stepStart_counters env s).1
      have hpcs := stepStart_pc env s
      refine ⟨?_, fun _ => hp.trans (h.2.1 (Or.inl hpc)), ?_⟩
      · intro h1; rcases hpcs with h2 | ⟨b, h2⟩ <;> rw [h2] at h1 <;> cases h1
      · intro h1
        rcases h1 with h1 | h1 | h1 <;> rcases hpcs with h2 | ⟨b, h2⟩ <;> rw [h2] at h1 <;>
          cases h1
    · have hst : step env s .thread = stepOpening env s := by simp [step, threadStep, hpc]
      rw [hst]
      have hp := stepOpening_counters env s
      have hpcs := stepOpening_pc env s
      refine ⟨?_, ?_, ?_⟩
      · intro h1
        rcases hpcs with h2 | ⟨b, h2⟩ | h2 | ⟨f, h2⟩ <;> rw [h2] at h1 <;> cases h1
      · intro h1
        rcases h1 with h1 | h1 <;>
          rcases hpcs with h2 | ⟨b, h2⟩ | h2 | ⟨f, h2⟩ <;> rw [h2] at h1 <;> cases h1
      · intro h1 _
        have hl : (stepOpening env s).pc = .loop := by
          rcases h1 with h1 | h1 | h1
          · exact h1
          · rcases hpcs with h2 | ⟨b, h2⟩ | h2 | ⟨f, h2⟩ <;> rw [h2] at h1 <;> cases h1
          · rcases hpcs with h2 | ⟨b, h2⟩ | h2 | ⟨f, h2⟩ <;> rw [h2] at h1 <;> cases h1
        obtain ⟨h0, heq⟩ := hp.2 hl
        refine ⟨h0, le_of_eq heq, ?_⟩
        rw [hp.1, h.2.1 (Or.inr hpc), heq, sub_self]
        rfl
    · have hst : step env s .thread = stepReading env s := by simp [step, threadStep, hpc]
      rw [hst]
      obtain ⟨-, hos, hcase⟩ := stepReading_counters env s
      have hpcs := stepReading_progress env s
      have hs := h.2.2 (Or.inr (Or.inr hpc)) (fun hl => by rw [hpc] at hl; cases hl)
      have hne : ∀ p : Pc, p = .start ∨ p = .opening ∨ p = .acquired ∨ p = .reading →
          (stepReading env s).pc ≠ p := by
        intro p hp h1
        rcases hpcs with ⟨b, h2⟩ | h2 | ⟨h2, -⟩
        · rw [h2] at h1; rcases hp with hp | hp | hp | hp <;> rw [hp] at h1 <;> cases h1
        · rcases h2 with h2 | ⟨f, h2⟩ <;> rw [h2] at h1 <;>
            rcases hp with hp | hp | hp | hp <;> rw [hp] at h1 <;> cases h1
        · rw [h2] at h1; rcases hp with hp | hp | hp | hp <;> rw [hp] at h1 <;> cases h1
      refine ⟨fun h1 => absurd h1 (hne _ (Or.inl rfl)), ?_, ?_⟩
      · intro h1
        rcases h1 with h1 | h1
        · exact absurd h1 (hne _ (Or.inl rfl))
        · exact absurd h1 (hne _ (Or.inr (Or.inl rfl)))
      · intro h1 h0
        have hl : (stepReading env s).pc = .loop := by
          rcases h1 with h1 | h1 | h1
          · exact h1
          · exact absurd h1 (hne _ (Or.inr (Or.inr (Or.inl rfl))))
          · exact absurd h1 (hne _ (Or.inr (Or.inr (Or.inr rfl))))
        rcases hcase with ⟨-, hneg⟩ | ⟨hlt, hp⟩
        · have := hneg hl
          have := h0 hl
          omega
        · rw [hos]
          exact ⟨hs.1, by omega, hp⟩

theorem CounterInv_run (env : ReaderEnv) (schedule : List Action) :
    CounterInv (run env ReaderState.initial schedule) :=
  run_invariant env CounterInv (CounterInv_step env) schedule _ CounterInv_initial

theorem reader_processed_mono (env : ReaderEnv) (s : ReaderState) (a : Action)
    (h : CounterInv s)
    (hfit : (step env s a).offset - (step env s a).offsetStart < 2 ^ 64) :
    s.m_processedLength ≤ (step env s a).m_processedLength := by
  by_cases hc : a ≠ .thread ∨ (s.pc ≠ .start ∧ s.pc ≠ .opening ∧ s.pc ≠ .reading)
  · exact le_of_eq (other_counters env s a hc).2.1.symm
  · have ha : a = .thread := by
      by_contra hne; exact hc (Or.inl hne)
    subst ha
    have hpc : s.pc = .start ∨ s.pc = .opening ∨ s.pc = .reading := by
      by_contra hn
      exact hc (Or.inr ⟨fun h1 => hn (Or.inl h1), fun h1 => hn (Or.inr (Or.inl h1)),
        fun h1 => hn (Or.inr (Or.inr h1))⟩)
    rcases hpc with hpc | hpc | hpc
    · have hst : step env s .thread = stepStart env s := by simp [step, threadStep, hpc]
      rw [hst]; exact le_of_eq (stepStart_counters env s).1.symm
    · have hst : step env s .thread = stepOpening env s := by simp [step, threadStep, hpc]
      rw [hst]; exact le_of_eq (stepOpening_counters env s).1.symm
    · have hst : step env s .thread = stepReading env s := by simp [step, threadStep, hpc]
      rw [hst] at hfit ⊢
      obtain ⟨-, hos, hcase⟩ := stepReading_counters env s
      have hs := h.2.2 (Or.inr (Or.inr hpc)) (fun hl => by rw [hpc] at hl; cases hl)
      rcases hcase with ⟨heq, -⟩ | ⟨hlt, hp⟩
      · exact le_of_eq heq.symm
      · rw [hos] at hfit
        rw [hp, hs.2.2, toUInt64_eq _ (by omega) hfit, toUInt64_eq _ (by omega) (by omega)]
        omega

theorem reader_total_mono (env : ReaderEnv) (s : ReaderState) (a : Action)
    (h : CounterInv s) (hpc : s.pc ≠ .opening) :
    s.m_totalLength ≤ (step env s a).m_totalLength := by
  by_cases hc : a ≠ .thread ∨ (s.pc ≠ .start ∧ s.pc ≠ .opening ∧ s.pc ≠ .reading)
  · exact le_of_eq (other_counters env s a hc).1.symm
  · have ha : a = .thread := by
      by_contra hne; exact hc (Or.inl hne)
    subst ha
    have hpc2 : s.pc = .start ∨ s.pc = .reading := by
      by_contra hn
      exact hc (Or.inr ⟨fun h1 => hn (Or.inl h1), hpc, fun h1 => hn (Or.inr h1)⟩)
    rcases hpc2 with hpc2 | hpc2
    · have hst : step env s .thread = stepStart env s := by simp [step, threadStep, hpc2]
      rw [hst]; exact (stepStart_counters env s).2 (h.1 hpc2)
    · have hst : step env s .thread = stepReading env s := by simp [step, threadStep, hpc2]
      rw [hst]; exact le_of_eq (stepReading_counters env s).1.symm

theorem notify_processed (s : WriterState) (entry : WriteEntry) :
    (Writer.notify s entry).m_processedLength = s.m_processedLength := by
  simp only [Writer.notify]
  split
  · rfl
  · split <;> rfl

theorem stepEntry_processed (env : WriterEnv) (s : WriterState) (entry : WriteEntry) :
    (Writer.stepEntry env s entry).m_processedLength = s.m_processedLength ∨
    ∃ data, entry.m_buffer = some data ∧
      (Writer.stepEntry env s entry).m_processedLength =
        toUInt64 (s.m_processedLength + data.length) := by
  simp only [Writer.stepEntry]
  split
  · split
    · exact Or.inl rfl
    · exact Or.inl (notify_processed _ _)
  · split
    · split
      · exact Or.inl rfl
      · rename_i data hd
        split
        · exact Or.inl rfl
        · split
          · exact Or.inr ⟨data, hd, by rw [notify_processed]⟩
          · left; rw [notify_processed]; rfl
    · split
      · exact Or.inl rfl
      · split
        · exact Or.inl rfl
        · split
          · left; rw [notify_processed]; rfl
          · left; rw [notify_processed]; rfl

theorem threadStep_processed (env : WriterEnv) (s : WriterState) :
    ((Writer.threadStep env s).getD s).m_processedLength = s.m_processedLength ∨
    ∃ entry data, s.pc = .entry entry ∧ entry.m_buffer = some data ∧
      ((Writer.threadStep env s).getD s).m_processedLength =
        toUInt64 (s.m_processedLength + data.length) := by
  simp only [Writer.threadStep]
  cases hpc : s.pc with
  | start =>
    left
    simp only [Option.getD_some, Writer.stepStart, Writer.Open]
    split
    · rfl
    · split
      · rfl
      · split
        · rfl
        · split
          · rfl
          · split <;> rfl
  | waiting =>
    left
    simp only [Writer.stepWait]
    split
    · rfl
    · split
      · rfl
      · split
        · rfl
        · split <;> rfl
  | entry entry =>
    simp only [Option.getD_some]
    rcases stepEntry_processed env s entry with h | ⟨data, hd, h⟩
    · exact Or.inl h
    · exact Or.inr ⟨entry, data, rfl, hd, h⟩
  | next =>
    left
    simp only [Option.getD_some, Writer.stepNext]
    split
    · split
      · rfl
      · split <;> rfl
    · split <;> rfl
  | exited => exact Or.inl rfl
  | crashed f => exact Or.inl rfl

theorem AddToQueue_processed (s s1 : WriterState) (entry : WriteEntry) (b : Bool)
    (h : Writer.AddToQueue s entry = .ok (b, s1)) :
    s1.m_processedLength = s.m_processedLength := by
  simp only [Writer.AddToQueue] at h
  split at h
  · split at h
    · simp at h
    · split at h
      · simp at h
      · simp only [Except.ok.injEq, Prod.mk.injEq] at h
        rw [← h.2]
  · simp only [Except.ok.injEq, Prod.mk.injEq] at h
    rw [← h.2]

theorem settle_processed (s : WriterState) (r : Except Fault WriterState)
    (h : ∀ s1, r = .ok s1 → s1.m_processedLength = s.m_processedLength) :
    (Writer.settle s r).m_processedLength = s.m_processedLength := by
  cases r with
  | error f => rfl
  | ok s1 => exact h s1 rfl

theorem Writer_step_processed (env : WriterEnv) (s : WriterState) (a : WriterAction) :
    (Writer.step env s a).m_processedLength = s.m_processedLength ∨
    ∃ entry data, s.pc = .entry entry ∧ entry.m_buffer = some data ∧
      (Writer.step env s a).m_processedLength =
        toUInt64 (s.m_processedLength + data.length) := by
  by_cases hcr : ∃ f, s.pc = .crashed f
  · obtain ⟨f, hf⟩ := hcr
    left
    simp [Writer.step, hf]
  · have hst : Writer.step env s a =
        match a with
        | .thread => (Writer.threadStep env s).getD s
        | .writeBuffer buffer flushAfter handler =>
          Writer.settle s ((Writer.WriteBuffer s buffer flushAfter handler).map Prod.snd)
        | .writeTermination reasonCode handler =>
          Writer.settle s (Writer.WriteTermination s reasonCode handler)
        | .drain =>
          if s.pc = .exited ∨ ¬ s.handles then Writer.settle s ((Writer.Drain s).map Prod.snd)
          else s
        | .close => Writer.settle s (Writer.Close s) := by
      simp only [Writer.step]
      split
      · rename_i f hf; exact absurd ⟨f, hf⟩ hcr
      · rfl
    rw [hst]
    cases a with
    | thread => exact threadStep_processed env s
    | writeBuffer buffer flushAfter handler =>
      left
      refine settle_processed _ _ ?_
      intro s1 h1
      simp only [Writer.WriteBuffer] at h1
      cases hq : Writer.AddToQueue s
        { m_buffer := some buffer, m_flush := flushAfter, m_type := .RChannelItem_Data,
          m_handler := handler } with
      | error f => rw [hq] at h1; simp [Except.map] at h1
      | ok r =>
        rw [hq] at h1
        simp only [Except.map, Except.ok.injEq] at h1
        rw [← h1]
        exact AddToQueue_processed s r.2 _ r.1 hq
    | writeTermination reasonCode handler =>
      left
      refine settle_processed _ _ ?_
      intro s1 h1
      simp only [Writer.WriteTermination] at h1
      cases hq : Writer.AddToQueue s
        { m_buffer := none, m_flush := false, m_type := reasonCode, m_handler := handler } with
      | error f => rw [hq] at h1; simp at h1
      | ok r =>
        rw [hq] at h1
        simp only [Except.ok.injEq] at h1
        rw [← h1]
        exact AddToQueue_processed s r.2 _ r.1 hq
    | drain =>
      left
      simp only
      split
      · refine settle_processed _ _ ?_
        intro s1 h1
        cases hd : Writer.Drain s with
        | error f => rw [hd] at h1; simp [Except.map] at h1
        | ok r =>
          rw [hd] at h1
          simp only [Except.map, Except.ok.injEq] at h1
          rw [← h1]
          simp only [Writer.Drain] at hd
          split at hd
          · simp at hd
          · split at hd
            · simp at hd
            · split at hd
              · simp at hd
              · split at hd
                · simp at hd
                · simp only [Except.ok.injEq] at hd
                  rw [← hd]
      · rfl
    | close =>
      left
      refine settle_processed _ _ ?_
      intro s1 h1
      simp only [Writer.Close] at h1
      split at h1
      · simp at h1
      · split at h1
        · simp at h1
        · simp only [Except.ok.injEq] at h1
          rw [← h1]

theorem Writer_processed_nonneg (env : WriterEnv) (schedule : List WriterAction) :
    0 ≤ (Writer.run env WriterState.initial schedule).m_processedLength := by
  refine Writer_run_invariant env (fun s => 0 ≤ s.m_processedLength) ?_ schedule _ (le_refl _)
  intro s a h
  rcases Writer_step_processed env s a with h1 | ⟨entry, data, -, -, h1⟩
  · rw [h1]; exact h
  · rw [h1]; exact toUInt64_nonneg _

/-! ## Claims about the counters reported by `FillInStatus` -/

/-- C21, counterexample. The reader of the example file with range `[5,30)`
reports the total length 25, the nominal length, after the first step of its
thread, and the total length 20, the nominal end less the aligned start 10,
after the second: the total-length counter has decreased. -/
theorem C21_counterexample :
    (FillInStatus (run exampleEnv ReaderState.initial [.thread])).1 = 25 ∧
    (FillInStatus (step exampleEnv (run exampleEnv ReaderState.initial [.thread])
      .thread)).1 = 20 ∧
    ¬ ((FillInStatus (run exampleEnv ReaderState.initial [.thread])).1 ≤
      (FillInStatus (step exampleEnv (run exampleEnv ReaderState.initial [.thread])
        .thread)).1) := by
  decide

/-- C21 (amended). From `Start` onwards, at every step of every session: the
processed length a reader reports does not decrease, the offsets being such
that the distance of `offset` from the aligned start fits the counter; the
total length a reader reports does not decrease at any step other than the one
that aligns the range (lines 572 to 645), which replaces the nominal length by
the distance between the aligned start and the end offset; and neither counter
a writer reports decreases, the processed length staying below `2 ^ 64` (the
total length a writer reports is always 0). -/
theorem status_counters_monotone :
    (∀ (env : ReaderEnv) (schedule : List Action) (a : Action),
      (step env (run env ReaderState.initial schedule) a).offset -
        (step env (run env ReaderState.initial schedule) a).offsetStart < 2 ^ 64 →
      (FillInStatus (run env ReaderState.initial schedule)).2 ≤
        (FillInStatus (step env (run env ReaderState.initial schedule) a)).2) ∧
    (∀ (env : ReaderEnv) (schedule : List Action) (a : Action),
      (run env ReaderState.initial schedule).pc ≠ .opening →
      (FillInStatus (run env ReaderState.initial schedule)).1 ≤
        (FillInStatus (step env (run env ReaderState.initial schedule) a)).1) ∧
    (∀ (env : WriterEnv) (schedule : List WriterAction) (a : WriterAction),
      (∀ entry data, (Writer.run env WriterState.initial schedule).pc = .entry entry →
        entry.m_buffer = some data →
        (Writer.run env WriterState.initial schedule).m_processedLength + data.length
          < 2 ^ 64) →
      (Writer.FillInStatus (Writer.run env WriterState.initial schedule)).1 ≤
        (Writer.FillInStatus
          (Writer.step env (Writer.run env WriterState.initial schedule) a)).1 ∧
      (Writer.FillInStatus (Writer.run env WriterState.initial schedule)).2 ≤
        (Writer.FillInStatus
          (Writer.step env (Writer.run env WriterState.initial schedule) a)).2) := by
  refine ⟨?_, ?_, ?_⟩
  · intro env schedule a hfit
    exact reader_processed_mono env _ a (CounterInv_run env schedule) hfit
  · intro env schedule a hpc
    exact reader_total_mono env _ a (CounterInv_run env schedule) hpc
  · intro env schedule a hfit
    refine ⟨le_refl _, ?_⟩
    simp only [Writer.FillInStatus]
    have h0 := Writer_processed_nonneg env schedule
    rcases Writer_step_processed env (Writer.run env WriterState.initial schedule) a with
      h1 | ⟨entry, data, hpc, hd, h1⟩
    · exact le_of_eq h1.symm
    · rw [h1, toUInt64_eq _ (by omega) (hfit entry data hpc hd)]
      omega

/-- Witness for C21: the reader of the example file with range `[5,30)` at its
first data read, which takes the processed length from 0 to 20, and a writer
writing a buffer of three bytes, which takes the processed length from 0 to
3. -/
theorem status_counters_monotone_witness :
    (FillInStatus (run exampleEnv ReaderState.initial
      [.thread, .thread, .thread, .thread])).2 ≤
      (FillInStatus (step exampleEnv (run exampleEnv ReaderState.initial
        [.thread, .thread, .thread, .thread]) .thread)).2 ∧
    (FillInStatus (step exampleEnv (run exampleEnv ReaderState.initial
        [.thread, .thread, .thread, .thread]) .thread)) = (20, 20) ∧
    (Writer.FillInStatus (Writer.run (openEnv (fun _ _ _ => true) (fun _ => true))
      WriterState.initial [.thread, .writeBuffer [1, 2, 3] false 7, .thread])).2 ≤
      (Writer.FillInStatus (Writer.step (openEnv (fun _ _ _ => true) (fun _ => true))
        (Writer.run (openEnv (fun _ _ _ => true) (fun _ => true))
          WriterState.initial [.thread, .writeBuffer [1, 2, 3] false 7, .thread])
        .thread)).2 ∧
    Writer.FillInStatus (Writer.step (openEnv (fun _ _ _ => true) (fun _ => true))
        (Writer.run (openEnv (fun _ _ _ => true) (fun _ => true))
          WriterState.initial [.thread, .writeBuffer [1, 2, 3] false 7, .thread])
        .thread) = (0, 3) :=
  ⟨status_counters_monotone.1 exampleEnv [.thread, .thread, .thread, .thread] .thread
      (by decide),
    by decide,
    (status_counters_monotone.2.2 (openEnv (fun _ _ _ => true) (fun _ => true))
      [.thread, .writeBuffer [1, 2, 3] false 7, .thread] .thread
      (by
        intro entry data hpc hd
        have hpc2 : WriterPc.entry ⟨some [1, 2, 3], false, .RChannelItem_Data, 7⟩ =
            .entry entry := hpc
        simp only [WriterPc.entry.injEq] at hpc2
        rw [← hpc2] at hd
        simp only [Option.some.injEq] at hd
        rw [← hd]
        decide)).2,
    by decide⟩

/-- C25, the failing input. The reader of the example file with range `[5,30)`,
left alone, ends its session with `EndOfStream` after delivering the 30 data
bytes of the aligned range `[10,40)`; `FillInStatus` then reports the total
length 20 and the processed length 30. The total length was computed before
the loop from the nominal end 30, and the alignment of the end offset inside
the loop did not update it. -/
theorem C25_failing_input :
    exampleFinal.pc = .exited ∧
    (delivered exampleFinal.trace).getLast? = some .endOfStream ∧
    (dataBytes (delivered exampleFinal.trace)).length = 30 ∧
    FillInStatus exampleFinal = (20, 30) ∧
    ¬ ((FillInStatus exampleFinal).2 ≤ (FillInStatus exampleFinal).1) := by
  decide

/-! ## No assertion fails on a bridge that keeps the `ReadBlock` contract -/

theorem chunkedBridge_contract (file : List Byte) (chunk : Int → Nat)
    (hchunk : ∀ o : Nat, o < file.length → 1 ≤ chunk o) :
    ReadBlockContract (chunkedBridge file chunk) := by
  intro offset len bs hlen h
  simp only [chunkedBridge] at h
  split at h
  · simp at h
  · split at h
    · simp at h
    · rename_i h0 h1
      simp only [ReadOutcome.bytes.injEq] at h
      rw [← h]
      simp only [List.length_take, List.length_drop]
      have hc := hchunk offset.toNat (by omega)
      have ho : ((offset.toNat : Nat) : Int) = offset := Int.toNat_of_nonneg (by omega)
      rw [ho] at hc
      omega

theorem scanChunk_no_error (s e n : Int) (bs : List Byte) (i : Int) (fr : Bool)
    (hn : i + bs.length = n) (he : 0 < e → s + n ≤ e) (f : Fault) :
    scanChunk s e n bs i fr ≠ .error f := by
  induction bs generalizing i fr with
  | nil => simp [scanChunk]
  | cons b rest ih =>
    simp only [List.length_cons, Nat.cast_add, Nat.cast_one] at hn
    simp only [scanChunk]
    split
    · split
      · rename_i hc
        have := he hc.1
        split
        · rename_i hne; exact absurd (by omega) hne
        · split
          · rename_i hne; exact absurd (by omega) hne
          · simp
      · simp
    · split
      · simp
      · split
        · exact ih (i + 1) true (by omega)
        · exact ih (i + 1) fr (by omega)

theorem scanLoop_no_assert (bridge : Bridge) (hb : ReadBlockContract bridge) (e : Int) :
    ∀ (fuel : Nat) (p : Int) (fr : Bool) (f : Fault), (0 < e → p < e) →
      scanLoop bridge e fuel p fr = .error f → f = .outOfFuel := by
  intro fuel
  induction fuel with
  | zero => intro p fr f _ h; simp [scanLoop] at h; exact h.symm
  | succ fuel ih =>
    intro p fr f hp h
    simp only [scanLoop] at h
    split at h
    · simp only [scanExit] at h
      split at h
      · rename_i hc; have := hp hc.1; omega
      · simp at h
    · split at h
      · rename_i he
        simp only [scanExit] at h
        split at h
        · rename_i hc; have := hp hc.1; omega
        · simp at h
      · simp only [scanExit] at h
        split at h
        · rename_i hc; have := hp hc.1; omega
        · simp at h
    · rename_i bs hbs
      have hlen := hb _ _ _ (by
        split
        · rename_i hc; have := hp hc.1; omega
        · simp [s_lineRecordScanSize]) hbs
      have hreq : 0 < e → p + (bs.length : Int) ≤ e := by
        intro he
        have h2 := hlen.2
        split at h2
        · omega
        · rename_i hc
          have : ¬ (e - p < s_lineRecordScanSize) := fun h' => hc ⟨he, h'⟩
          simp only [s_lineRecordScanSize] at *
          omega
      split at h
      · rename_i hpos; exact absurd (by omega) hpos
      · split at h
        · rename_i f2 hs
          exact absurd hs (scanChunk_no_error _ _ _ _ _ _ (by omega) hreq f2)
        · rename_i fo fr2 hs
          split at h
          · rename_i hgo
            refine ih _ _ _ (fun he => ?_) h
            rcases hgo.2 with h1 | h1
            · omega
            · exact h1
          · simp only [scanExit] at h
            split at h
            · rename_i hc; have := hreq hc.1; omega
            · simp at h

theorem scanLoop_out_cases (bridge : Bridge) (e : Int) :
    ∀ (fuel : Nat) (p : Int) (fr : Bool) (out : ScanOut), 0 ≤ p →
      scanLoop bridge e fuel p fr = .ok out →
      (out.foundOffset = -2 ∧ out.errorBuffer ≠ none) ∨
        (-1 ≤ out.foundOffset ∧ out.errorBuffer = none) := by
  intro fuel
  induction fuel with
  | zero => intro p fr out _ h; simp [scanLoop] at h
  | succ fuel ih =>
    intro p fr out hp h
    simp only [scanLoop] at h
    split at h
    · simp only [scanExit] at h
      split at h
      · simp at h
      · simp only [Except.ok.injEq] at h; rw [← h]; simp
    · split at h
      · simp only [scanExit] at h
        split at h
        · simp at h
        · simp only [Except.ok.injEq] at h; rw [← h]; simp
      · simp only [scanExit] at h
        split at h
        · simp at h
        · simp only [Except.ok.injEq] at h; rw [← h]; right; simp; omega
    · rename_i bs hbs
      split at h
      · simp at h
      · split at h
        · simp at h
        · rename_i fo fr2 hs
          split at h
          · exact ih _ _ _ (by omega) h
          · simp only [scanExit] at h
            split at h
            · simp at h
            · simp only [Except.ok.injEq] at h
              rw [← h]
              right
              refine ⟨?_, rfl⟩
              simp only
              by_cases hfo : fo = -1
              · omega
              · have := (scanChunk_found _ _ _ _ _ _ _ _ hs hfo).1
                omega

theorem scanLoop_found_lt (bridge : Bridge) (hwf : ReadBlockContract bridge) (e : Int) :
    ∀ (fuel : Nat) (p : Int) (fr : Bool) (out : ScanOut),
      scanLoop bridge e fuel p fr = .ok out → 0 < e → p < e → -1 < out.foundOffset →
      out.foundOffset < e := by
  intro fuel
  induction fuel with
  | zero => intro p fr out h; simp [scanLoop] at h
  | succ fuel ih =>
    intro p fr out h he hp hfound
    simp only [scanLoop] at h
    split at h
    · simp only [scanExit] at h
      split at h
      · simp at h
      · simp only [Except.ok.injEq] at h; rw [← h] at hfound; simp at hfound
    · simp only [he, if_true, scanExit] at h
      split at h
      · simp at h
      · simp only [Except.ok.injEq] at h; rw [← h] at hfound; simp at hfound
    · rename_i bs hb
      have hlen := (hwf _ _ _ (by
        split
        · omega
        · simp [s_lineRecordScanSize]) hb).2
      split at h
      · simp at h
      · rename_i hpos
        simp only [not_not] at hpos
        split at h
        · simp at h
        · rename_i fo fr2 hs
          have hreq : (bs.length : Int) ≤ e - p := by
            split at hlen
            · omega
            · rename_i hc
              have : ¬ (e - p < s_lineRecordScanSize) := fun h' => hc ⟨he, h'⟩
              simp only [s_lineRecordScanSize] at *
              omega
          split at h
          · rename_i hgo
            refine ih _ _ _ h he ?_ hfound
            rcases hgo.2 with h1 | h1
            · omega
            · exact h1
          · simp only [scanExit] at h
            split at h
            · simp at h
            · simp only [Except.ok.injEq] at h
              rw [← h] at hfound ⊢
              simp only at hfound ⊢
              have hne : fo ≠ -1 := by omega
              have := (scanChunk_found _ _ _ _ _ _ _ _ hs hne).2.2.2 he
              simp only [add_zero] at this
              omega

theorem scanLoop_unbounded_ge (bridge : Bridge) (e : Int) (he : e < 0) (s0 : Int) :
    ∀ (fuel : Nat) (p : Int) (fr : Bool) (out : ScanOut), s0 ≤ p →
      scanLoop bridge e fuel p fr = .ok out →
      out.foundOffset = -2 ∨ s0 ≤ out.foundOffset := by
  intro fuel
  induction fuel with
  | zero => intro p fr out _ h; simp [scanLoop] at h
  | succ fuel ih =>
    intro p fr out hp h
    simp only [scanLoop] at h
    split at h
    · simp only [scanExit] at h
      split at h
      · simp at h
      · simp only [Except.ok.injEq] at h; rw [← h]; exact Or.inl rfl
    · split at h
      · omega
      · simp only [scanExit] at h
        split at h
        · simp at h
        · simp only [Except.ok.injEq] at h; rw [← h]; exact Or.inr hp
    · rename_i bs hbs
      split at h
      · simp at h
      · split at h
        · simp at h
        · rename_i fo fr2 hs
          split at h
          · exact ih _ _ _ (by omega) h
          · rename_i hgo
            simp only [scanExit] at h
            split at h
            · simp at h
            · simp only [Except.ok.injEq] at h
              rw [← h]
              right
              simp only
              have hfo : fo ≠ -1 := fun hc => hgo ⟨hc, Or.inl he⟩
              have := (scanChunk_found _ _ _ _ _ _ _ _ hs hfo).1
              omega

theorem ScanForSync_no_assert (bridge : Bridge) (hb : ReadBlockContract bridge) (fuel : Nat)
    (s e : Int) (he0 : e ≠ 0) (hp : 0 < e → s < e) (f : Fault)
    (h : ScanForSync bridge fuel s e = .error f) : f = .outOfFuel := by
  simp only [ScanForSync, he0, if_false] at h
  exact scanLoop_no_assert bridge hb e fuel s false f hp h

theorem ScanForSync_out (bridge : Bridge) (hb : ReadBlockContract bridge) (fuel : Nat)
    (s e : Int) (hs : 0 ≤ s) (hp : 0 < e → s < e) (out : ScanOut)
    (h : ScanForSync bridge fuel s e = .ok out) :
    ((out.foundOffset = -2 ∧ out.errorBuffer ≠ none) ∨
      (-1 ≤ out.foundOffset ∧ out.errorBuffer = none)) ∧
    (0 < e → -1 < out.foundOffset → out.foundOffset < e) ∧
    (e < 0 → out.foundOffset = -2 ∨ s ≤ out.foundOffset) := by
  simp only [ScanForSync] at h
  split at h
  · simp at h
  · exact ⟨scanLoop_out_cases bridge e fuel s false out hs h,
      fun he hf => scanLoop_found_lt bridge hb e fuel s false out h he (hp he) hf,
      fun he => scanLoop_unbounded_ge bridge e he s fuel s false out (le_refl _) h⟩

theorem AdjustStartOffset_no_assert (bridge : Bridge) (hb : ReadBlockContract bridge)
    (fuel : Nat) (os e : Int) (hos : 0 ≤ os) (hle : os ≤ e) (f : Fault)
    (h : AdjustStartOffset bridge fuel os e = .error f) : f = .outOfFuel := by
  simp only [AdjustStartOffset] at h
  split at h
  · rename_i hpos
    split at h
    · rename_i f2 hs
      simp only [Except.error.injEq] at h
      rw [← h]
      exact ScanForSync_no_assert bridge hb fuel os (e + 1) (by omega) (fun _ => by omega) f2 hs
    · rename_i out hs
      obtain ⟨hc, hlt, -⟩ := ScanForSync_out bridge hb fuel os (e + 1) hos (fun _ => by omega)
        out hs
      split at h
      · rename_i h1
        split at h
        · rename_i hn
          rcases hc with ⟨-, h2⟩ | ⟨h2, -⟩
          · exact absurd hn h2
          · omega
        · simp at h
      · rename_i h1
        have hnone : out.errorBuffer = none := by
          rcases hc with ⟨h2, -⟩ | ⟨-, h2⟩
          · omega
          · exact h2
        split at h
        · split at h
          · rename_i hn; exact absurd hnone hn
          · simp at h
        · split at h
          · rename_i hn; exact absurd hnone hn
          · split at h
            · rename_i hn
              have := hlt (by omega) (by omega)
              omega
            · simp at h
  · split at h
    · rename_i h1 h2; omega
    · simp at h

theorem AdjustEndOffset_no_assert (bridge : Bridge) (hb : ReadBlockContract bridge)
    (fuel : Nat) (e : Int) (he : 0 ≤ e) (f : Fault)
    (h : AdjustEndOffset bridge fuel e = .error f) : f = .outOfFuel := by
  simp only [AdjustEndOffset] at h
  split at h
  · rename_i f2 hs
    simp only [Except.error.injEq] at h
    rw [← h]
    exact ScanForSync_no_assert bridge hb fuel e (-1) (by omega) (fun h0 => by omega) f2 hs
  · rename_i out hs
    obtain ⟨hc, -, hge⟩ := ScanForSync_out bridge hb fuel e (-1) he (fun h0 => by omega) out hs
    split at h
    · split at h
      · rename_i h1 hn
        rcases hc with ⟨-, h2⟩ | ⟨h2, -⟩
        · exact absurd hn h2
        · omega
      · simp at h
    · split at h
      · rename_i h1 h2
        rcases hge (by omega) with h3 | h3
        · omega
        · exact absurd h3 h2
      · simp at h

theorem AdjustStartOffset_le (bridge : Bridge) (fuel : Nat) (os e o : Int) (hle : os ≤ e)
    (h : AdjustStartOffset bridge fuel os e = .ok (o, none)) : o ≤ e := by
  simp only [AdjustStartOffset] at h
  split at h
  · split at h
    · simp at h
    · split at h
      · split at h <;> simp at h
      · split at h
        · split at h <;> simp at h
        · split at h
          · simp at h
          · split at h
            · simp at h
            · rename_i hfe
              simp only [Except.ok.injEq, Prod.mk.injEq, and_true] at h
              rw [← h]; simpa using hfe
  · split at h
    · simp at h
    · simp only [Except.ok.injEq, Prod.mk.injEq, and_true] at h
      omega

theorem ReadDataBuffer_no_assert (bridge : Bridge) (offset endOffset : Int)
    (hlt : offset < endOffset) (f : Fault) :
    ReadDataBuffer bridge offset endOffset ≠ .error f := by
  simp only [ReadDataBuffer]
  generalize hsz : (if endOffset - offset < s_readBufferSize then endOffset - offset
    else s_readBufferSize) = size
  have hpos : 0 < size := by
    rw [← hsz]
    split
    · omega
    · simp [s_readBufferSize]
  rw [if_neg (not_not.mpr hpos)]
  split
  · simp
  · simp
  · split <;> simp

theorem stepAlignEnd_no_assert (env : ReaderEnv) (hb : ReadBlockContract env.bridge)
    (s : ReaderState) (offset : Int) (h0 : 0 ≤ offset) (hle : offset ≤ s.offsetEnd) (f : Fault)
    (h : (stepAlignEnd env s offset).pc = .crashed f) : f = .outOfFuel := by
  simp only [stepAlignEnd] at h
  split at h
  · rename_i heq
    split at h
    · rename_i f2 ha
      simp only [Pc.crashed.injEq] at h
      rw [← h]
      exact AdjustEndOffset_no_assert env.bridge hb env.scanFuel s.offsetEnd (by omega) f2 ha
    · simp at h
    · rename_i newEnd ha
      have hge := AdjustEndOffset_none _ _ _ _ ha
      split at h
      · simp at h
      · split at h
        · rename_i hn
          omega
        · simp at h
  · simp at h

theorem stepOpening_no_assert (env : ReaderEnv) (hb : ReadBlockContract env.bridge)
    (s : ReaderState) (h0 : 0 ≤ s.offsetStart) (hle : s.offsetStart ≤ s.offsetEnd) (f : Fault)
    (h : (stepOpening env s).pc = .crashed f) : f = .outOfFuel := by
  simp only [stepOpening, stepAlignStart] at h
  split at h
  · simp at h
  · split at h
    · simp at h
    · have hf : ∀ (t : ReaderState), t = (if 0 < s.offsetStart then
          { s with trace := s.trace ++ [Event.scan s.offsetStart (s.offsetEnd + 1)] }
          else s) → t.offsetStart = s.offsetStart ∧ t.offsetEnd = s.offsetEnd := by
        intro t ht; rw [ht]; split <;> simp
      generalize (if 0 < s.offsetStart then
          { s with trace := s.trace ++ [Event.scan s.offsetStart (s.offsetEnd + 1)] }
          else s) = t at h hf
      obtain ⟨hos, hoe⟩ := hf t rfl
      have h0t : 0 ≤ t.offsetStart := by rw [hos]; exact h0
      have hlet : t.offsetStart ≤ t.offsetEnd := by rw [hos, hoe]; exact hle
      split at h
      · rename_i f2 ha
        simp only [Pc.crashed.injEq] at h
        rw [← h]
        exact AdjustStartOffset_no_assert env.bridge hb env.scanFuel _ _ h0t hlet f2 ha
      · simp at h
      · rename_i off ha
        split at h
        · simp at h
        · rename_i hoff
          have hoffle := AdjustStartOffset_le _ _ _ _ _ hlet ha
          exact stepAlignEnd_no_assert env hb { t with offset := off, scannedFinal := false }
            off (by omega) hoffle f h

theorem stepReading_no_assert (env : ReaderEnv) (hb : ReadBlockContract env.bridge)
    (s : ReaderState) (h0 : 0 ≤ s.offset) (hlt : s.offset < s.offsetEnd) (f : Fault)
    (h : (stepReading env s).pc = .crashed f) : f = .outOfFuel := by
  simp only [stepReading] at h
  split at h
  · rename_i f2 hr
    exact absurd hr (ReadDataBuffer_no_assert _ _ _ hlt f2)
  · split at h
    · split at h
      · rename_i f2 ha
        simp only [Pc.crashed.injEq] at h
        rw [← h]
        exact AdjustEndOffset_no_assert env.bridge hb env.scanFuel s.offsetEnd (by omega) f2 ha
      · simp at h
      · split at h <;> simp at h
    · simp at h

theorem step_no_assert (env : ReaderEnv) (os len : Int) (hparsed : env.parsed = some (os, len))
    (hos : 0 ≤ os) (hlen : 0 ≤ len) (hb : ReadBlockContract env.bridge)
    (s : ReaderState) (a : Action) (hperm : PermitInv s) (hsess : SessInv env s)
    (hprev : ∀ f, s.pc = .crashed f → f = .outOfFuel) :
    ∀ f, (step env s a).pc = .crashed f → f = .outOfFuel := by
  intro f h
  cases a with
  | thread =>
    simp only [step, threadStep] at h
    cases hpc : s.pc with
    | start =>
      rw [hpc] at h
      simp only [Option.getD_some] at h
      rcases stepStart_pc env s with h2 | ⟨b, h2⟩ <;> rw [h2] at h <;> cases h
    | opening =>
      rw [hpc] at h
      simp only [Option.getD_some] at h
      have hp : env.parsed = some (s.offsetStart, s.offsetEnd - s.offsetStart) := by
        rcases hsess with ⟨h1, _⟩ | ⟨_, _, h1⟩ | ⟨h1, _⟩ | ⟨h1, _⟩ | ⟨h1, _⟩ | ⟨h1, _⟩ |
          ⟨_, _, h1⟩ | ⟨h1, _⟩ | ⟨_, h1⟩
        all_goals first
          | exact h1
          | (rw [hpc] at h1; simp at h1)
      rw [hparsed] at hp
      simp only [Option.some.injEq, Prod.mk.injEq] at hp
      exact stepOpening_no_assert env hb s (by omega) (by omega) f h
    | loop =>
      rw [hpc] at h
      simp only [stepLoop] at h
      split at h
      · split at h
        · simp at h
        · split at h
          · simp at h
          · simp [hpc] at h
      · split at h <;> simp at h
    | acquired =>
      rw [hpc] at h
      simp only [Option.getD_some, stepAcquired] at h
      split at h
      · split at h
        · simp at h
        · rename_i hn
          obtain ⟨-, -, h3⟩ := hperm
          rcases h3 with ⟨g, hg⟩ | h3
          · rw [hpc] at hg; cases hg
          · simp only [ReaderState.held, hpc, s_maxBuffersOut] at h3 hn
            omega
      · simp at h
    | reading =>
      rw [hpc] at h
      simp only [Option.getD_some] at h
      obtain ⟨-, h0, hlt, -⟩ := SessInv_held env s hsess (Or.inr hpc)
      exact stepReading_no_assert env hb s h0 hlt f h
    | sending b =>
      rw [hpc] at h
      simp only [stepSending] at h
      split at h
      · simp at h
      · split at h
        · simp at h
        · simp [hpc] at h
    | delivering b => rw [hpc] at h; simp [stepDelivering] at h
    | exited => rw [hpc] at h; simp [hpc] at h
    | crashed g =>
      rw [hpc] at h
      simp only [Option.getD_none] at h
      exact hprev f h
  | returnBuffer =>
    simp only [step, ReturnBuffer] at h
    split at h
    · simp only [Option.getD_none] at h
      exact hprev f h
    · split at h
      · rename_i hret
        split at h
        · simp only [Option.getD_some] at h
          exact hprev f h
        · rename_i hn
          obtain ⟨-, h2, -⟩ := hperm
          simp only [ReaderState.outstanding, s_maxBuffersOut] at h2 hn
          omega
      · simp only [Option.getD_none] at h
        exact hprev f h
  | interrupt =>
    simp only [step, Interrupt] at h
    split at h
    · simp only [Option.getD_none] at h
      exact hprev f h
    · simp only [Option.getD_some] at h
      exact hprev f h
  | drainWait =>
    simp only [step, drainWait] at h
    split at h
    · simp only [Option.getD_some] at h
      exact hprev f h
    · simp only [Option.getD_none] at h
      exact hprev f h

theorem no_assert_run (env : ReaderEnv) (os len : Int) (hparsed : env.parsed = some (os, len))
    (hos : 0 ≤ os) (hlen : 0 ≤ len) (hb : ReadBlockContract env.bridge)
    (schedule : List Action) :
    ∀ f, (run env ReaderState.initial schedule).pc = .crashed f → f = .outOfFuel := by
  have h := run_invariant env
    (fun s => PermitInv s ∧ SessInv env s ∧ ∀ f, s.pc = .crashed f → f = .outOfFuel)
    (fun s a h => ⟨PermitInv_step env s a h.1, SessInv_step env s a h.2.1,
      step_no_assert env os len hparsed hos hlen hb s a h.1 h.2.1 h.2.2⟩)
    schedule ReaderState.initial
    ⟨PermitInv_initial, SessInv_initial env, fun f hf => by
      simp [ReaderState.initial] at hf⟩
  exact h.2.2

/-! ## Claims about the assertions of the reader -/

/-- C24, counterexample. For the range with offset `2^63 - 1` and length 1
the `Int64` sum of line 609 wraps to `-2^63`. `AdjustStartOffset`, called with
this end offset on the 40-byte example file through a bridge that keeps the
`ReadBlock` contract, scans without bound (the bound `-2^63 + 1` is negative),
is told of the end of the file, takes the start offset for the offset found,
and fails `LogAssert(offset <= endOffset)` at line 401. -/
theorem C24_counterexample :
    ReadBlockContract (fileBridge exampleFile) ∧
    toInt64 ((2 ^ 63 - 1) + 1) = -2 ^ 63 ∧
    ScanForSync (fileBridge exampleFile) 50 (2 ^ 63 - 1) (toInt64 ((2 ^ 63 - 1) + 1) + 1) =
      .ok ⟨2 ^ 63 - 1, none⟩ ∧
    AdjustStartOffset (fileBridge exampleFile) 50 (2 ^ 63 - 1) (toInt64 ((2 ^ 63 - 1) + 1)) =
      .error (.assertion 401) :=
  ⟨chunkedBridge_contract exampleFile _ (fileBridge_chunk exampleFile),
    by decide, by rfl, by rfl⟩

/-- C24, amended. For every reader range with offset and length at least 0
whose end fits `Int64` with one to spare (`offset + length + 1 < 2^63`, so that
neither the sum of line 609 nor the scan bound `endOffset + 1` wraps) and every
bridge that keeps the `ReadBlock` contract (a sentinel, or between 1 and the
requested number of bytes), no reachable state of the session is one in which
a `LogAssert` has failed. The same holds of the functions taken alone:
`ScanForSync` with a bound other than 0 that lies past the start (the
assertions of lines 810, 824, 825 and 850), `AdjustStartOffset` for a start
from 0 to the nominal end (lines 386, 392, 400, 401 and 410),
`AdjustEndOffset` for a nominal end from 0 (lines 429 and 434) and
`ReadDataBuffer` for an offset below the end (line 456). On a file whose
length is below the scan fuel, with such a range inside the file, the session
reaches no stopped state of the model at all. -/
theorem no_data_dependent_assertion_fails :
    (∀ (env : ReaderEnv) (os len : Int), env.parsed = some (os, len) → 0 ≤ os → 0 ≤ len →
      os + len + 1 < 2 ^ 63 → ReadBlockContract env.bridge → ∀ schedule : List Action,
        ¬ ∃ line, (run env ReaderState.initial schedule).pc = .crashed (.assertion line)) ∧
    (∀ bridge : Bridge, ReadBlockContract bridge → ∀ (fuel : Nat) (s e : Int) (line : Nat),
      (e ≠ 0 → (0 < e → s < e) → ScanForSync bridge fuel s e ≠ .error (.assertion line)) ∧
      (0 ≤ s → s ≤ e → e + 1 < 2 ^ 63 →
        AdjustStartOffset bridge fuel s e ≠ .error (.assertion line)) ∧
      (0 ≤ e → AdjustEndOffset bridge fuel e ≠ .error (.assertion line)) ∧
      (s < e → ReadDataBuffer bridge s e ≠ .error (.assertion line))) ∧
    (∀ (file : List Byte) (os len fuel : Nat) (schedule : List Action),
      file.length < fuel → os + len ≤ file.length → os + len + 1 < 2 ^ 63 →
      ¬ ∃ f, (run (fileEnv file os len fuel) ReaderState.initial schedule).pc = .crashed f) := by
  refine ⟨?_, ?_, ?_⟩
  · intro env os len hparsed hos hlen _ hb schedule
    rintro ⟨line, h⟩
    have := no_assert_run env os len hparsed hos hlen hb schedule _ h
    cases this
  · intro bridge hb fuel s e line
    refine ⟨?_, ?_, ?_, ?_⟩
    · intro he0 hp h
      have := ScanForSync_no_assert bridge hb fuel s e he0 hp _ h
      cases this
    · intro hs hle _ h
      have := AdjustStartOffset_no_assert bridge hb fuel s e hs hle _ h
      cases this
    · intro he h
      have := AdjustEndOffset_no_assert bridge hb fuel e he _ h
      cases this
    · intro hlt
      exact ReadDataBuffer_no_assert bridge s e hlt _
  · intro file os len fuel schedule hfuel hrange _
    exact (FileInv_run file os len fuel hfuel hrange schedule).1

/-- Witness for C24: the reader of the example file with range `[5,30)`, the
file read one byte at a time by the scans, so that every data read comes back
short; the session ends without a failed assertion. -/
theorem no_data_dependent_assertion_fails_witness :
    (¬ ∃ line, (run { exampleEnv with bridge := chunkedBridge exampleFile (fun _ => 1) }
        ReaderState.initial (drive 12)).pc = .crashed (.assertion line)) ∧
    (run { exampleEnv with bridge := chunkedBridge exampleFile (fun _ => 1) }
        ReaderState.initial (drive 12)).pc = .exited :=
  ⟨no_data_dependent_assertion_fails.1
      { exampleEnv with bridge := chunkedBridge exampleFile (fun _ => 1) } 5 25 rfl
      (by decide) (by decide) (by decide)
      (chunkedBridge_contract exampleFile (fun _ => 1) (fun _ _ => le_refl _)) (drive 12),
    by decide⟩

end Dryad
